import Mathlib

/-!
# erso engine core: handle pool, mega-buffer allocator, render queue

A shallow embedding of `core/Memory/HandlePool.hpp`, `resources/MeshBuffer.cpp`,
`core/Geometry.hpp` and `renderer/frontend/RenderQueue.cpp`, followed by the
properties established about them.

Conventions of the embedding:
* `std::uint32_t` values are natural numbers; every place where the C++ code
  narrows or increments such a value carries an explicit `% 4294967296`.
* `ENGINE_ASSERT` expands to `LOG_FATAL`, which ends in `std::abort()`; a call
  that dies this way returns `Except.error Fault.assertFailed`.
* An indexing `v[i]` outside the vector is undefined behaviour in C++; the
  embedding returns `Except.error Fault.outOfRange` there.
-/

namespace engine

/-! ## Definitions -/

/-- Ways in which a call fails to return: a fatal `ENGINE_ASSERT`, or an access
outside a `std::vector`. -/
inductive Fault where
  | assertFailed
  | outOfRange
  deriving DecidableEq

/-! ### core/Memory/HandlePool.hpp -/

/-- The struct `Handle<Tag>`: a slot index and the generation it was issued at. -/
structure Handle where
  index : Nat := 4294967295
  generation : Nat := 0
  deriving DecidableEq

/-- The constant `Handle::kInvalid`, the largest `std::uint32_t`. -/
def Handle.kInvalid : Nat := 4294967295

/-- The struct `HandlePool::Slot`. -/
structure Slot (T : Type) where
  value : T
  generation : Nat := 0
  occupied : Bool := false
  deriving DecidableEq

/-- The class `HandlePool<T, Tag>`: the slot vector and the free list. -/
structure HandlePool (T : Type) where
  slots_ : List (Slot T) := []
  freeList_ : List Nat := []
  deriving DecidableEq

namespace HandlePool

variable {T : Type}

/-- A default-constructed pool. -/
def empty : HandlePool T := { slots_ := [], freeList_ := [] }

/-- The method `HandlePool::IsValid`: the index is inside the slot vector, the
slot is occupied, and the generations agree. -/
def IsValid (p : HandlePool T) (handle : Handle) : Bool :=
  match p.slots_[handle.index]? with
  | none => false
  | some s => if !s.occupied then false else s.generation == handle.generation

/-- The method `HandlePool::Insert`: reuse the slot at the back of the free
list, or push a new slot whose index is the old size narrowed to 32 bits. -/
def Insert (p : HandlePool T) (value : T) : Except Fault (Handle × HandlePool T) :=
  match p.freeList_.getLast? with
  | some idx =>
    match p.slots_[idx]? with
    | none => .error .outOfRange
    | some s =>
      let slots := p.slots_.set idx { s with value := value, occupied := true }
      match slots[idx]? with
      | none => .error .outOfRange
      | some s' =>
        .ok ({ index := idx, generation := s'.generation },
             { slots_ := slots, freeList_ := p.freeList_.dropLast })
  | none =>
    let idx := p.slots_.length % 4294967296
    let slots := p.slots_ ++ [{ value := value, generation := 0, occupied := true }]
    match slots[idx]? with
    | none => .error .outOfRange
    | some s' =>
      .ok ({ index := idx, generation := s'.generation },
           { slots_ := slots, freeList_ := p.freeList_ })

/-- The method `HandlePool::Get`: the value of the slot, behind the assertion
that the handle is valid. -/
def Get (p : HandlePool T) (handle : Handle) : Except Fault T :=
  if p.IsValid handle then
    match p.slots_[handle.index]? with
    | none => .error .outOfRange
    | some s => .ok s.value
  else .error .assertFailed

/-- The method `HandlePool::Remove`: behind the same assertion, mark the slot
free, increment its 32-bit generation and push the index on the free list. -/
def Remove (p : HandlePool T) (handle : Handle) : Except Fault (HandlePool T) :=
  if p.IsValid handle then
    match p.slots_[handle.index]? with
    | none => .error .outOfRange
    | some s =>
      .ok { slots_ := p.slots_.set handle.index
              { s with occupied := false, generation := (s.generation + 1) % 4294967296 },
            freeList_ := p.freeList_ ++ [handle.index] }
  else .error .assertFailed

/-- The method `HandlePool::Size`, computed in `std::size_t`. -/
def Size (p : HandlePool T) : Nat :=
  (p.slots_.length + 18446744073709551616 - p.freeList_.length % 18446744073709551616)
    % 18446744073709551616

end HandlePool

/-- One call made by a client of a pool. -/
inductive PoolOp (T : Type) where
  | insert (value : T)
  | remove (handle : Handle)
  deriving DecidableEq

namespace HandlePool

variable {T : Type}

/-- Perform one client call, keeping the pool only. -/
def step (p : HandlePool T) : PoolOp T → Except Fault (HandlePool T)
  | .insert v =>
    match p.Insert v with
    | .ok r => .ok r.2
    | .error e => .error e
  | .remove h => p.Remove h

/-- Perform a sequence of client calls; the run stops at the first call that
does not return. -/
def run (p : HandlePool T) : List (PoolOp T) → Except Fault (HandlePool T)
  | [] => .ok p
  | op :: ops =>
    match p.step op with
    | .ok p' => p'.run ops
    | .error e => .error e

/-- A pool state that some sequence of `Insert` and `Remove` calls produces
from the default-constructed pool. -/
def Reachable (p : HandlePool T) : Prop :=
  ∃ ops : List (PoolOp T), (empty : HandlePool T).run ops = .ok p

/-- Whether the call removes a handle of the slot `i`. -/
def removesSlot (i : Nat) : PoolOp T → Bool
  | .insert _ => false
  | .remove h => h.index == i

/-- The well-formedness kept by every reachable pool: the free list names
distinct, existing, unoccupied slots. -/
def WF (p : HandlePool T) : Prop :=
  p.freeList_.Nodup ∧
  ∀ i ∈ p.freeList_, ∃ s, p.slots_[i]? = some s ∧ s.occupied = false

end HandlePool

/-- The slot every `Insert(0)` pushes on a pool that has never seen a `Remove`. -/
def freshSlot : Slot Nat := { value := 0, generation := 0, occupied := true }

/-- The pool after `n` calls `Insert(0)` on a default-constructed pool. -/
def filledPool (n : Nat) : HandlePool Nat :=
  { slots_ := List.replicate n freshSlot, freeList_ := [] }

/-- The pool after a single `Insert(0)`: its handle is `{0, 0}`. -/
def onePool : HandlePool Nat := filledPool 1

/-- The calls of `n` rounds of "`Insert(0)`, then `Remove` of the handle just
returned" on a pool whose only slot is free and has generation `g`. -/
def churn (g : Nat) : Nat → List (PoolOp Nat)
  | 0 => []
  | n + 1 =>
    PoolOp.insert 0 :: PoolOp.remove { index := 0, generation := g } ::
      churn ((g + 1) % 4294967296) n

/-! ### core/Geometry.hpp and the glm types it uses

Scalars of type `float` are embedded as rational numbers: every finite `float`
is a rational, and the comparisons, minima and maxima taken by the code embedded
here are exact on them. -/

/-- The type `glm::vec2`. -/
structure Vec2 where
  x : ℚ
  y : ℚ
  deriving DecidableEq

/-- The type `glm::vec3`. -/
structure Vec3 where
  x : ℚ
  y : ℚ
  z : ℚ
  deriving DecidableEq

/-- The type `glm::vec4`. -/
structure Vec4 where
  x : ℚ
  y : ℚ
  z : ℚ
  w : ℚ
  deriving DecidableEq

/-- The type `glm::mat4`, stored by columns as glm does: `m[i]` is column `i`. -/
structure Mat4 where
  c0 : Vec4
  c1 : Vec4
  c2 : Vec4
  c3 : Vec4
  deriving DecidableEq

/-- The constructor `glm::vec3(s)` that repeats a scalar. -/
def Vec3.splat (s : ℚ) : Vec3 := { x := s, y := s, z := s }

/-- The conversion `glm::vec3(v)` of a `vec4`: its first three components. -/
def Vec4.xyz (v : Vec4) : Vec3 := { x := v.x, y := v.y, z := v.z }

/-- The constructor `glm::mat4(s)`: `s` on the diagonal, zero elsewhere. -/
def Mat4.diag (s : ℚ) : Mat4 :=
  { c0 := { x := s, y := 0, z := 0, w := 0 }
    c1 := { x := 0, y := s, z := 0, w := 0 }
    c2 := { x := 0, y := 0, z := s, w := 0 }
    c3 := { x := 0, y := 0, z := 0, w := s } }

/-- The scalar `glm::min(x, y)`, which is `(y < x) ? y : x`. -/
def glmMin (x y : ℚ) : ℚ := if y < x then y else x

/-- The scalar `glm::max(x, y)`, which is `(x < y) ? y : x`. -/
def glmMax (x y : ℚ) : ℚ := if x < y then y else x

/-- The component-wise `glm::min` of two `vec3`. -/
def Vec3.min (a b : Vec3) : Vec3 :=
  { x := glmMin a.x b.x, y := glmMin a.y b.y, z := glmMin a.z b.z }

/-- The component-wise `glm::max` of two `vec3`. -/
def Vec3.max (a b : Vec3) : Vec3 :=
  { x := glmMax a.x b.x, y := glmMax a.y b.y, z := glmMax a.z b.z }

/-- The value `std::numeric_limits<float>::max()`, which is (2 - 2^-23) * 2^127. -/
def floatMax : ℚ := 340282346638528859811704183484516925440

/-- The struct `AABB`; its default member initialisers make the empty box. -/
structure AABB where
  min : Vec3 := Vec3.splat floatMax
  max : Vec3 := Vec3.splat (-floatMax)
  deriving DecidableEq

/-- The method `AABB::IsValid`. -/
def AABB.IsValid (b : AABB) : Bool := decide (b.min.x ≤ b.max.x)

/-- The method `AABB::Expand(const glm::vec3&)`. -/
def AABB.Expand (b : AABB) (point : Vec3) : AABB :=
  { min := Vec3.min b.min point, max := Vec3.max b.max point }

/-- The method `AABB::Expand(const AABB&)`. -/
def AABB.ExpandBox (b other : AABB) : AABB :=
  (b.Expand other.min).Expand other.max

/-! ### resources/GPUMesh.hpp, renderer/backend/Buffer.cpp, resources/MeshBuffer.cpp -/

/-- The struct `MeshVertex`. -/
structure MeshVertex where
  position : Vec3
  normal : Vec3
  uv : Vec2
  tangent : Vec3
  deriving DecidableEq

/-- The value `sizeof(MeshVertex)`: eleven 4-byte floats, the "44 B" of the
capacity comment in `MeshBuffer.hpp`. -/
def sizeofMeshVertex : Nat := 44

/-- The value `sizeof(std::uint32_t)`. -/
def sizeofIndex : Nat := 4

/-- The class `Buffer`, reduced to the byte size fixed at construction; the
bytes themselves live on the GPU. -/
structure Buffer where
  byteSize_ : Nat
  deriving DecidableEq

/-- The method `Buffer::Upload`: the range check in front of `glBufferSubData`.
Offsets and sizes are byte counts inside one address space; their `std::size_t`
sum does not wrap. -/
def Buffer.Upload (b : Buffer) (offset size : Nat) : Except Fault Buffer :=
  if offset + size ≤ b.byteSize_ then .ok b else .error .assertFailed

/-- The struct `MeshBuffer::Allocation`. -/
structure Allocation where
  baseVertex : Nat
  baseIndex : Nat
  deriving DecidableEq

/-- The class `MeshBuffer`: the two GPU buffers and the two bump cursors. -/
structure MeshBuffer where
  vbo_ : Buffer
  ibo_ : Buffer
  nextVertex_ : Nat := 0
  nextIndex_ : Nat := 0
  deriving DecidableEq

namespace MeshBuffer

/-- The constant `MeshBuffer::kMaxVertices`. -/
def kMaxVertices : Nat := 524288

/-- The constant `MeshBuffer::kMaxIndices`. -/
def kMaxIndices : Nat := 1572864

/-- The constructor `MeshBuffer::MeshBuffer()`: storage for the full capacity,
both cursors at zero. -/
def new : MeshBuffer :=
  { vbo_ := { byteSize_ := kMaxVertices * sizeofMeshVertex }
    ibo_ := { byteSize_ := kMaxIndices * sizeofIndex }
    nextVertex_ := 0
    nextIndex_ := 0 }

/-- The accessor `MeshBuffer::VertexCount`. -/
def VertexCount (mb : MeshBuffer) : Nat := mb.nextVertex_

/-- The accessor `MeshBuffer::IndexCount`. -/
def IndexCount (mb : MeshBuffer) : Nat := mb.nextIndex_

/-- The method `MeshBuffer::Upload`. The two capacity sums are taken in
`std::size_t`; a span of `n` elements occupies `n * 44` (or `n * 4`) bytes of
address space, so these sums do not wrap and are plain sums here. The cursor
updates narrow the sizes to 32 bits. -/
def Upload (mb : MeshBuffer) (vertices : List MeshVertex) (indices : List Nat) :
    Except Fault (Allocation × MeshBuffer) :=
  if ¬ (mb.nextVertex_ + vertices.length ≤ kMaxVertices) then .error .assertFailed
  else if ¬ (mb.nextIndex_ + indices.length ≤ kMaxIndices) then .error .assertFailed
  else
    let vertOffset := mb.nextVertex_ * sizeofMeshVertex
    let idxOffset := mb.nextIndex_ * sizeofIndex
    match mb.vbo_.Upload vertOffset (vertices.length * sizeofMeshVertex) with
    | .error e => .error e
    | .ok vbo =>
      match mb.ibo_.Upload idxOffset (indices.length * sizeofIndex) with
      | .error e => .error e
      | .ok ibo =>
        let alloc : Allocation := { baseVertex := mb.nextVertex_, baseIndex := mb.nextIndex_ }
        .ok (alloc,
          { vbo_ := vbo
            ibo_ := ibo
            nextVertex_ := (mb.nextVertex_ + vertices.length % 4294967296) % 4294967296
            nextIndex_ := (mb.nextIndex_ + indices.length % 4294967296) % 4294967296 })

/-- A sequence of `Upload` calls, collecting the allocations returned; it stops
at the first call that does not return. -/
def uploadAll (mb : MeshBuffer) :
    List (List MeshVertex × List Nat) → Except Fault (List Allocation × MeshBuffer)
  | [] => .ok ([], mb)
  | r :: rs =>
    match mb.Upload r.1 r.2 with
    | .error e => .error e
    | .ok (a, mb') =>
      match mb'.uploadAll rs with
      | .error e => .error e
      | .ok (as, mb'') => .ok (a :: as, mb'')

/-- A buffer state that some sequence of `Upload` calls produces from a freshly
constructed `MeshBuffer`. -/
def Reachable (mb : MeshBuffer) : Prop :=
  ∃ reqs allocs, MeshBuffer.new.uploadAll reqs = .ok (allocs, mb)

/-- The total number of vertices of a sequence of uploads. -/
def vertexTotal (reqs : List (List MeshVertex × List Nat)) : Nat :=
  (reqs.map fun r => r.1.length).sum

/-- The total number of indices of a sequence of uploads. -/
def indexTotal (reqs : List (List MeshVertex × List Nat)) : Nat :=
  (reqs.map fun r => r.2.length).sum

/-- What the constructor fixes and every upload keeps: the two byte sizes, and
cursors within capacity. -/
def Inv (mb : MeshBuffer) : Prop :=
  mb.vbo_.byteSize_ = kMaxVertices * sizeofMeshVertex ∧
  mb.ibo_.byteSize_ = kMaxIndices * sizeofIndex ∧
  mb.nextVertex_ ≤ kMaxVertices ∧ mb.nextIndex_ ≤ kMaxIndices

end MeshBuffer

/-- A vertex used in examples. -/
def sampleVertex : MeshVertex :=
  { position := Vec3.splat 0, normal := Vec3.splat 0, uv := { x := 0, y := 0 },
    tangent := Vec3.splat 0 }

/-- Two uploads used in examples: one vertex and three indices, then two
vertices and three indices. -/
def sampleUploads : List (List MeshVertex × List Nat) :=
  [([sampleVertex], [0, 1, 2]), ([sampleVertex, sampleVertex], [0, 1, 2])]

/-! ### renderer/frontend/RenderCommand.hpp, RenderQueue.cpp, Renderer.cpp -/

/-- The struct `RenderCommand`, with its default member initialisers. -/
structure RenderCommand where
  vaoID : Nat := 0
  indexCount : Nat := 0
  baseVertex : Nat := 0
  baseIndex : Nat := 0
  modelMatrix : Mat4 := Mat4.diag 1
  normalMatrix : Mat4 := Mat4.diag 1
  albedoTexID : Nat := 0
  normalTexID : Nat := 0
  metallicRoughTexID : Nat := 0
  albedoFactor : Vec3 := Vec3.splat 1
  metallicFactor : ℚ := 0
  roughnessFactor : ℚ := 1 / 2
  castsShadow : Bool := true
  transparent : Bool := false
  distanceToCamera : ℚ := 0
  deriving DecidableEq

/-- One step of the sort: put `x` in front of the first element that `comp`
places after it. -/
def stdSortInsert {α : Type} (comp : α → α → Bool) (x : α) : List α → List α
  | [] => [x]
  | y :: ys => if comp x y then x :: y :: ys else y :: stdSortInsert comp x ys

/-- The library call `std::sort(first, last, comp)`. The C++ standard fixes the
result up to the order of elements that `comp` does not separate; the embedding
runs an insertion sort with the comparator of the call. -/
def stdSort {α : Type} (comp : α → α → Bool) : List α → List α
  | [] => []
  | x :: xs => stdSortInsert comp x (stdSort comp xs)

/-- The class `RenderQueue`; a default-constructed queue is empty and has the
empty box as bounds. -/
structure RenderQueue where
  opaques_ : List RenderCommand := []
  transparents_ : List RenderCommand := []
  sceneBounds_ : AABB := {}
  deriving DecidableEq

namespace RenderQueue

/-- The method `RenderQueue::Submit`: push on one of the two vectors, then
expand the bounds by `vec3(cmd.modelMatrix[3])`, the translation column. -/
def Submit (q : RenderQueue) (cmd : RenderCommand) : RenderQueue :=
  let q1 : RenderQueue :=
    if cmd.transparent then { q with transparents_ := q.transparents_ ++ [cmd] }
    else { q with opaques_ := q.opaques_ ++ [cmd] }
  let origin : Vec3 := cmd.modelMatrix.c3.xyz
  { q1 with sceneBounds_ := q1.sceneBounds_.Expand origin }

/-- The method `RenderQueue::Sort` (the name `Sort` is reserved in Lean): the
two `std::sort` calls with their lambdas. -/
def SortQueue (q : RenderQueue) : RenderQueue :=
  { q with
    opaques_ :=
      stdSort (fun a b => decide (a.distanceToCamera < b.distanceToCamera)) q.opaques_
    transparents_ :=
      stdSort (fun a b => decide (a.distanceToCamera > b.distanceToCamera)) q.transparents_ }

/-- The method `RenderQueue::Clear`. -/
def Clear (_q : RenderQueue) : RenderQueue :=
  { opaques_ := [], transparents_ := [], sceneBounds_ := {} }

/-- The method `RenderQueue::ShadowCasters`: the loop that pushes every opaque
command with `castsShadow` on `result`. The method is `const`; the queue is
returned next to the result, as it was. -/
def ShadowCasters (q : RenderQueue) : List RenderCommand × RenderQueue :=
  (q.opaques_.foldl (fun result cmd => if cmd.castsShadow then result ++ [cmd] else result) [],
   q)

/-- The accessor `RenderQueue::OpaqueCommands`. -/
def OpaqueCommands (q : RenderQueue) : List RenderCommand := q.opaques_

/-- The accessor `RenderQueue::TransparentCommands`. -/
def TransparentCommands (q : RenderQueue) : List RenderCommand := q.transparents_

/-- The accessor `RenderQueue::SceneBounds`. -/
def SceneBounds (q : RenderQueue) : AABB := q.sceneBounds_

/-- The accessor `RenderQueue::TotalCount`. -/
def TotalCount (q : RenderQueue) : Nat := q.opaques_.length + q.transparents_.length

end RenderQueue

/-- One call made on a queue by its clients. -/
inductive QueueOp where
  | submit (cmd : RenderCommand)
  | sort
  | clear

namespace RenderQueue

/-- Perform one client call. -/
def step (q : RenderQueue) : QueueOp → RenderQueue
  | .submit cmd => q.Submit cmd
  | .sort => q.SortQueue
  | .clear => q.Clear

/-- Perform a sequence of client calls. -/
def run (q : RenderQueue) (ops : List QueueOp) : RenderQueue :=
  ops.foldl step q

end RenderQueue

/-- What the two queue-reading passes of one frame draw. -/
structure FrameDraws where
  shadow : List RenderCommand
  geometry : List RenderCommand

/-- The class `Renderer`, reduced to the queue it owns. -/
structure Renderer where
  queue_ : RenderQueue := {}

namespace Renderer

/-- The method `Renderer::Submit`. -/
def Submit (r : Renderer) (cmd : RenderCommand) : Renderer :=
  { r with queue_ := r.queue_.Submit cmd }

/-- The method `Renderer::RenderFrame`, as far as the queue goes: `Sort`, the
shadow pass reading `ShadowCasters()`, the geometry pass reading
`OpaqueCommands()` (both take the queue by `const` reference; the lighting and
post-process passes do not see it), then `Clear`. -/
def RenderFrame (r : Renderer) : FrameDraws × Renderer :=
  let q1 := r.queue_.SortQueue
  let shadow := q1.ShadowCasters.1
  let geometry := q1.OpaqueCommands
  let q2 := q1.Clear
  ({ shadow := shadow, geometry := geometry }, { r with queue_ := q2 })

end Renderer

/-! ### core/Frustum.cpp in exact arithmetic

The definitions of this section read the sums, products and quotients of
`Frustum.cpp` as exact operations on rationals, with the square root as a
parameter. They serve the results on camera and culling that do not depend on
rounding. The same functions in `float` arithmetic, with rounding, overflow
and NaN, are the definitions of the namespace `binary32` further down. -/

/-- The product `m * v` of glm: the columns of `m` weighted by the components
of `v`. -/
def Mat4.mulVec (m : Mat4) (v : Vec4) : Vec4 :=
  { x := m.c0.x * v.x + m.c1.x * v.y + m.c2.x * v.z + m.c3.x * v.w
    y := m.c0.y * v.x + m.c1.y * v.y + m.c2.y * v.z + m.c3.y * v.w
    z := m.c0.z * v.x + m.c1.z * v.y + m.c2.z * v.z + m.c3.z * v.w
    w := m.c0.w * v.x + m.c1.w * v.y + m.c2.w * v.z + m.c3.w * v.w }

/-- The struct `Frustum`: the array `planes` of six `vec4`, in the order left,
right, bottom, top, near, far. -/
structure Frustum where
  plane0 : Vec4
  plane1 : Vec4
  plane2 : Vec4
  plane3 : Vec4
  plane4 : Vec4
  plane5 : Vec4
  deriving DecidableEq

/-- The member `Frustum::planes`, as the sequence a range-for visits. -/
def Frustum.planes (f : Frustum) : List Vec4 :=
  [f.plane0, f.plane1, f.plane2, f.plane3, f.plane4, f.plane5]

/-- The expression `p.x * c.x + p.y * c.y + p.z * c.z + p.w` of the plane tests. -/
def planeDistance (p : Vec4) (c : Vec3) : ℚ :=
  p.x * c.x + p.y * c.y + p.z * c.z + p.w

/-- The corner loop of `ContainsAABB`: the value of `allOutside` after it. -/
def allOutside (p : Vec4) : List Vec3 → Bool
  | [] => true
  | c :: cs => if planeDistance p c ≥ 0 then false else allOutside p cs

/-- The plane loop of `ContainsAABB`: `false` at the first plane that has all
corners outside, `true` when no plane has. -/
def planeLoop (corners : List Vec3) : List Vec4 → Bool
  | [] => true
  | p :: ps => if allOutside p corners then false else planeLoop corners ps

/-- Corner `i` of the corner loop: bit 0 of `i` picks `max.x` over `min.x`, bit
1 does so for `y`, bit 2 for `z`; the corner is taken to world space. -/
def boxCorner (aabb : AABB) (model : Mat4) (i : Nat) : Vec3 :=
  (model.mulVec
    { x := if i &&& 1 ≠ 0 then aabb.max.x else aabb.min.x
      y := if i &&& 2 ≠ 0 then aabb.max.y else aabb.min.y
      z := if i &&& 4 ≠ 0 then aabb.max.z else aabb.min.z
      w := 1 }).xyz

/-- The method `Frustum::ContainsAABB`. -/
def Frustum.ContainsAABB (f : Frustum) (aabb : AABB) (model : Mat4) : Bool :=
  let corners := (List.range 8).map (boxCorner aabb model)
  planeLoop corners f.planes

/-- The method `Frustum::ContainsSphere`. -/
def Frustum.ContainsSphere (f : Frustum) (center : Vec3) (radius : ℚ) : Bool :=
  f.planes.all fun p => !decide (planeDistance p center < -radius)

/-- The world-space image of a local point: the `xyz` part of `model * (p, 1)`. -/
def worldPoint (model : Mat4) (p : Vec3) : Vec3 :=
  (model.mulVec { x := p.x, y := p.y, z := p.z, w := 1 }).xyz

/-- The library functions that have no exact counterpart on rationals: the
`std::sqrt` and `std::tan` of `<cmath>`, and `glm::inverse` (whose result on a
singular matrix is not a finite number). The embedding takes them as
parameters. -/
structure CMath where
  sqrt : ℚ → ℚ
  tan : ℚ → ℚ
  inverse : Mat4 → Mat4

/-- The product `glm::dot` of two `vec3`. -/
def Vec3.dot (a b : Vec3) : ℚ := a.x * b.x + a.y * b.y + a.z * b.z

/-- The function `glm::length` of a `vec3`: `sqrt(dot(v, v))`. -/
def Vec3.length (L : CMath) (v : Vec3) : ℚ := L.sqrt (Vec3.dot v v)

/-- The difference of two `vec3`. -/
def Vec3.sub (a b : Vec3) : Vec3 := { x := a.x - b.x, y := a.y - b.y, z := a.z - b.z }

/-- The sum of two `vec4`. -/
def Vec4.add (a b : Vec4) : Vec4 :=
  { x := a.x + b.x, y := a.y + b.y, z := a.z + b.z, w := a.w + b.w }

/-- The difference of two `vec4`. -/
def Vec4.sub (a b : Vec4) : Vec4 :=
  { x := a.x - b.x, y := a.y - b.y, z := a.z - b.z, w := a.w - b.w }

/-- The quotient of a `vec4` by a scalar, component by component. -/
def Vec4.divScalar (a : Vec4) (s : ℚ) : Vec4 :=
  { x := a.x / s, y := a.y / s, z := a.z / s, w := a.w / s }

/-- The component `v[r]` of a `vec4`. -/
def Vec4.get (v : Vec4) : Nat → ℚ
  | 0 => v.x
  | 1 => v.y
  | 2 => v.z
  | _ => v.w

/-- The lambda `row` of `FromViewProjection`:
`vec4(vp[0][r], vp[1][r], vp[2][r], vp[3][r])`. -/
def Mat4.row (vp : Mat4) (r : Nat) : Vec4 :=
  { x := vp.c0.get r, y := vp.c1.get r, z := vp.c2.get r, w := vp.c3.get r }

/-- The `float` literal `1e-6f`: the nearest `float` to 10^-6. -/
def lengthEpsilon : ℚ := 8796093 / 8796093022208

/-- The body of the normalising loop of `FromViewProjection`:
`len = length(vec3(p)); if (len > 1e-6f) p /= len`. -/
def normalizePlane (L : CMath) (p : Vec4) : Vec4 :=
  let len := Vec3.length L p.xyz
  if len > lengthEpsilon then p.divScalar len else p

/-- The function `Frustum::FromViewProjection`. -/
def Frustum.FromViewProjection (L : CMath) (vp : Mat4) : Frustum :=
  let r0 := vp.row 0
  let r1 := vp.row 1
  let r2 := vp.row 2
  let r3 := vp.row 3
  { plane0 := normalizePlane L (r3.add r0)
    plane1 := normalizePlane L (r3.sub r0)
    plane2 := normalizePlane L (r3.add r1)
    plane3 := normalizePlane L (r3.sub r1)
    plane4 := normalizePlane L (r3.add r2)
    plane5 := normalizePlane L (r3.sub r2) }

/-- The six planes of the Gribb/Hartmann method before normalisation, written
by components: row 3 of `vp` plus or minus row 0, row 1 and row 2, in the order
left, right, bottom, top, near, far. -/
def gribbHartmannPlanes (vp : Mat4) : List Vec4 :=
  [⟨vp.c0.w + vp.c0.x, vp.c1.w + vp.c1.x, vp.c2.w + vp.c2.x, vp.c3.w + vp.c3.x⟩,
   ⟨vp.c0.w - vp.c0.x, vp.c1.w - vp.c1.x, vp.c2.w - vp.c2.x, vp.c3.w - vp.c3.x⟩,
   ⟨vp.c0.w + vp.c0.y, vp.c1.w + vp.c1.y, vp.c2.w + vp.c2.y, vp.c3.w + vp.c3.y⟩,
   ⟨vp.c0.w - vp.c0.y, vp.c1.w - vp.c1.y, vp.c2.w - vp.c2.y, vp.c3.w - vp.c3.y⟩,
   ⟨vp.c0.w + vp.c0.z, vp.c1.w + vp.c1.z, vp.c2.w + vp.c2.z, vp.c3.w + vp.c3.z⟩,
   ⟨vp.c0.w - vp.c0.z, vp.c1.w - vp.c1.z, vp.c2.w - vp.c2.z, vp.c3.w - vp.c3.z⟩]

/-- A square root used in examples: exact on the squares of rationals. -/
def ratSqrt (q : ℚ) : ℚ := (Nat.sqrt q.num.toNat : ℚ) / (Nat.sqrt q.den : ℚ)

/-- An instance of the library functions used in examples: `ratSqrt`, the first
two terms of the series of the tangent, and an inverse that is right on the
identity matrix, the only matrix the examples invert. -/
def exampleMath : CMath :=
  { sqrt := ratSqrt, tan := fun x => x + x * x * x / 3, inverse := fun m => m }

/-! ### glm functions used by the camera and the render system -/

/-- The function `glm::transpose` of a `mat4`. -/
def Mat4.transpose (m : Mat4) : Mat4 :=
  { c0 := ⟨m.c0.x, m.c1.x, m.c2.x, m.c3.x⟩
    c1 := ⟨m.c0.y, m.c1.y, m.c2.y, m.c3.y⟩
    c2 := ⟨m.c0.z, m.c1.z, m.c2.z, m.c3.z⟩
    c3 := ⟨m.c0.w, m.c1.w, m.c2.w, m.c3.w⟩ }

/-- The product `a * b` of two `mat4`: column `j` is `a` times column `j` of `b`. -/
def Mat4.mul (a b : Mat4) : Mat4 :=
  { c0 := a.mulVec b.c0, c1 := a.mulVec b.c1, c2 := a.mulVec b.c2, c3 := a.mulVec b.c3 }

/-- The function `glm::cross`. -/
def Vec3.cross (a b : Vec3) : Vec3 :=
  { x := a.y * b.z - b.y * a.z, y := a.z * b.x - b.z * a.x, z := a.x * b.y - b.x * a.y }

/-- The function `glm::normalize` of a `vec3`: `v * inversesqrt(dot(v, v))`,
with `inversesqrt(s) = 1 / sqrt(s)`. -/
def Vec3.normalize (L : CMath) (v : Vec3) : Vec3 :=
  let k := 1 / L.sqrt (Vec3.dot v v)
  { x := v.x * k, y := v.y * k, z := v.z * k }

/-- The function `glm::radians`: degrees times the `float` nearest to pi / 180. -/
def glmRadians (degrees : ℚ) : ℚ := degrees * (9370165 / 536870912)

/-- The function `glm::perspective` (right-handed, depth range -1 to 1, the
defaults of glm). -/
def glmPerspective (L : CMath) (fovy aspect zNear zFar : ℚ) : Mat4 :=
  let tanHalfFovy := L.tan (fovy / 2)
  { c0 := ⟨1 / (aspect * tanHalfFovy), 0, 0, 0⟩
    c1 := ⟨0, 1 / tanHalfFovy, 0, 0⟩
    c2 := ⟨0, 0, -(zFar + zNear) / (zFar - zNear), -1⟩
    c3 := ⟨0, 0, -(2 * zFar * zNear) / (zFar - zNear), 0⟩ }

/-- The function `glm::lookAt` (right-handed, the default of glm). -/
def glmLookAt (L : CMath) (eye center up : Vec3) : Mat4 :=
  let f := Vec3.normalize L (center.sub eye)
  let s := Vec3.normalize L (f.cross up)
  let u := s.cross f
  { c0 := ⟨s.x, u.x, -f.x, 0⟩
    c1 := ⟨s.y, u.y, -f.y, 0⟩
    c2 := ⟨s.z, u.z, -f.z, 0⟩
    c3 := ⟨-(Vec3.dot s eye), -(Vec3.dot u eye), Vec3.dot f eye, 1⟩ }

/-! ### scene/ecs/Components.hpp, scene/ecs/Registry.hpp -/

/-- The struct `TransformComponent`. -/
structure TransformComponent where
  position : Vec3 := Vec3.splat 0
  eulerAngles : Vec3 := Vec3.splat 0
  scale : Vec3 := Vec3.splat 1
  worldMatrix : Mat4 := Mat4.diag 1
  dirty : Bool := true
  deriving DecidableEq

/-- The struct `MeshComponent`; the two handles are bare pool indices. -/
structure MeshComponent where
  meshHandle : Nat := 0
  materialHandle : Nat := 0
  castsShadow : Bool := true
  visible : Bool := true
  localBounds : AABB := {}
  deriving DecidableEq

/-- The struct `CameraComponent`; `nearPlane` defaults to the `float` nearest
to 0.1. -/
structure CameraComponent where
  fovY : ℚ := 60
  nearPlane : ℚ := 13421773 / 134217728
  farPlane : ℚ := 1000
  isPrimary : Bool := false
  deriving DecidableEq

/-- The type `Registry::ComponentMap`, a map from component type to value: one
optional entry per component type the render and camera systems ask for. -/
structure ComponentMap where
  transform : Option TransformComponent := none
  mesh : Option MeshComponent := none
  camera : Option CameraComponent := none
  deriving DecidableEq

/-- The class `Registry`: the entities in the order the iteration of
`entities_` visits them, and the next identifier. -/
structure Registry where
  entities_ : List (Nat × ComponentMap) := []
  nextID_ : Nat := 1
  deriving DecidableEq

/-- The entities `Each<TransformComponent, MeshComponent>` calls its function
on, in order, with the two components it passes. -/
def Registry.eachTransformMesh (registry : Registry) :
    List (TransformComponent × MeshComponent) :=
  registry.entities_.filterMap fun e =>
    match e.2.transform, e.2.mesh with
    | some tc, some mc => some (tc, mc)
    | _, _ => none

/-! ### resources/Material.hpp, resources/ResourceManager.cpp -/

/-- The method `Handle::IsValid` of the handle itself: the index is not the
sentinel. -/
def Handle.IsValid (h : Handle) : Bool := h.index != Handle.kInvalid

/-- The constant `kInvalidTexIndex`. -/
def kInvalidTexIndex : Nat := 4294967295

/-- The struct `Material`. -/
structure Material where
  albedoTexIndex : Nat := kInvalidTexIndex
  normalTexIndex : Nat := kInvalidTexIndex
  metallicRoughIndex : Nat := kInvalidTexIndex
  albedoFactor : Vec3 := Vec3.splat 1
  metallicFactor : ℚ := 0
  roughnessFactor : ℚ := 1 / 2
  deriving DecidableEq

/-- The struct `GPUMesh`. -/
structure GPUMesh where
  sharedVAOID : Nat := 0
  baseVertex : Nat := 0
  baseIndex : Nat := 0
  indexCount : Nat := 0
  localBounds : AABB := {}
  deriving DecidableEq

/-- The class `Texture`, reduced to its GL identifier. -/
structure Texture where
  id_ : Nat := 0
  deriving DecidableEq

/-- The accessor `Texture::GetID`. -/
def Texture.GetID (t : Texture) : Nat := t.id_

/-- The class `ResourceManager`, without the shader records. -/
structure ResourceManager where
  meshBuffer_ : MeshBuffer := MeshBuffer.new
  meshPool_ : HandlePool GPUMesh := {}
  texturePool_ : HandlePool Texture := {}
  materialPool_ : HandlePool Material := {}
  meshCache_ : List (String × Handle) := []
  textureCache_ : List (String × Handle) := []
  defaultAlbedo_ : Texture := {}
  defaultNormal_ : Texture := {}
  defaultMetalRough_ : Texture := {}

namespace ResourceManager

/-- The method `ResourceManager::GetMesh`. -/
def GetMesh (rm : ResourceManager) (handle : Handle) : Except Fault GPUMesh :=
  rm.meshPool_.Get handle

/-- The method `ResourceManager::GetTexture`. -/
def GetTexture (rm : ResourceManager) (handle : Handle) : Except Fault Texture :=
  rm.texturePool_.Get handle

/-- The method `ResourceManager::GetMaterial`. -/
def GetMaterial (rm : ResourceManager) (handle : Handle) : Except Fault Material :=
  rm.materialPool_.Get handle

/-- The accessor `ResourceManager::DefaultAlbedo`. -/
def DefaultAlbedo (rm : ResourceManager) : Texture := rm.defaultAlbedo_

/-- The accessor `ResourceManager::DefaultNormal`. -/
def DefaultNormal (rm : ResourceManager) : Texture := rm.defaultNormal_

/-- The accessor `ResourceManager::DefaultMetalRough`. -/
def DefaultMetalRough (rm : ResourceManager) : Texture := rm.defaultMetalRough_

end ResourceManager

/-! ### scene/systems/RenderSystem.cpp -/

/-- The struct `RenderSystem::CullStats`. -/
structure CullStats where
  total : Nat := 0
  culled : Nat := 0
  visible : Nat := 0
  deriving DecidableEq

namespace RenderSystem

/-- The lambda `resolveTexID` of `GatherCommands`. -/
def resolveTexID (rm : ResourceManager) (idx : Nat) (fallback : Texture) : Except Fault Nat :=
  if idx = kInvalidTexIndex then .ok fallback.GetID
  else
    match rm.GetTexture { index := idx, generation := 0 } with
    | .error e => .error e
    | .ok t => .ok t.GetID

/-- The part of the lambda of `GatherCommands` that fills the command of an
entity that passed the frustum test. -/
def assembleCommand (L : CMath) (rm : ResourceManager) (cameraPos : Vec3)
    (tc : TransformComponent) (mc : MeshComponent) (mesh : GPUMesh) :
    Except Fault RenderCommand :=
  let cmd : RenderCommand :=
    { vaoID := mesh.sharedVAOID
      indexCount := mesh.indexCount
      baseVertex := mesh.baseVertex
      baseIndex := mesh.baseIndex
      modelMatrix := tc.worldMatrix
      normalMatrix := (L.inverse tc.worldMatrix).transpose
      castsShadow := mc.castsShadow }
  let matHandle : Handle := { index := mc.materialHandle, generation := 0 }
  let origin : Vec3 := tc.worldMatrix.c3.xyz
  let distance : ℚ := Vec3.length L (origin.sub cameraPos)
  if matHandle.IsValid then
    match rm.GetMaterial matHandle with
    | .error e => .error e
    | .ok mat =>
      match resolveTexID rm mat.albedoTexIndex rm.DefaultAlbedo with
      | .error e => .error e
      | .ok albedo =>
        match resolveTexID rm mat.normalTexIndex rm.DefaultNormal with
        | .error e => .error e
        | .ok normal =>
          match resolveTexID rm mat.metallicRoughIndex rm.DefaultMetalRough with
          | .error e => .error e
          | .ok metallicRough =>
            .ok { cmd with
                  albedoFactor := mat.albedoFactor
                  metallicFactor := mat.metallicFactor
                  roughnessFactor := mat.roughnessFactor
                  albedoTexID := albedo
                  normalTexID := normal
                  metallicRoughTexID := metallicRough
                  distanceToCamera := distance }
  else
    .ok { cmd with
          albedoTexID := rm.DefaultAlbedo.GetID
          normalTexID := rm.DefaultNormal.GetID
          metallicRoughTexID := rm.DefaultMetalRough.GetID
          distanceToCamera := distance }

/-- The lambda that `GatherCommands` passes to `Each`, on the counters and the
queue it captures by reference. The counters are `std::uint32_t`. -/
def visit (L : CMath) (rm : ResourceManager) (cameraPos : Vec3) (frustum : Frustum)
    (tc : TransformComponent) (mc : MeshComponent) (st : CullStats × RenderQueue) :
    Except Fault (CullStats × RenderQueue) :=
  if !mc.visible then .ok st
  else
    match rm.GetMesh { index := mc.meshHandle, generation := 0 } with
    | .error e => .error e
    | .ok mesh =>
      let stats1 : CullStats := { st.1 with total := (st.1.total + 1) % 4294967296 }
      if !frustum.ContainsAABB mesh.localBounds tc.worldMatrix then
        .ok ({ stats1 with culled := (stats1.culled + 1) % 4294967296 }, st.2)
      else
        let stats2 : CullStats := { stats1 with visible := (stats1.visible + 1) % 4294967296 }
        match assembleCommand L rm cameraPos tc mc mesh with
        | .error e => .error e
        | .ok cmd => .ok (stats2, st.2.Submit cmd)

/-- The iteration of `Each` over the entities, stopping at the first call that
does not return. -/
def gatherLoop (L : CMath) (rm : ResourceManager) (cameraPos : Vec3) (frustum : Frustum) :
    List (TransformComponent × MeshComponent) → CullStats × RenderQueue →
      Except Fault (CullStats × RenderQueue)
  | [], st => .ok st
  | e :: es, st =>
    match visit L rm cameraPos frustum e.1 e.2 st with
    | .error err => .error err
    | .ok st' => gatherLoop L rm cameraPos frustum es st'

/-- The function `RenderSystem::GatherCommands`; the queue it fills is returned
next to the counters. -/
def GatherCommands (L : CMath) (registry : Registry) (rm : ResourceManager)
    (queue : RenderQueue) (cameraPos : Vec3) (frustum : Frustum) :
    Except Fault (CullStats × RenderQueue) :=
  gatherLoop L rm cameraPos frustum registry.eachTransformMesh ({}, queue)

/-- Whether the call counts the entity as culled: it is flagged visible and the
box of its mesh fails `ContainsAABB`. -/
def isCulled (rm : ResourceManager) (frustum : Frustum)
    (e : TransformComponent × MeshComponent) : Bool :=
  e.2.visible &&
    match rm.GetMesh { index := e.2.meshHandle, generation := 0 } with
    | .ok mesh => !frustum.ContainsAABB mesh.localBounds e.1.worldMatrix
    | .error _ => false

/-- Whether the call emits a command for the entity: it is flagged visible and
the box of its mesh passes `ContainsAABB`. -/
def isDrawn (rm : ResourceManager) (frustum : Frustum)
    (e : TransformComponent × MeshComponent) : Bool :=
  e.2.visible &&
    match rm.GetMesh { index := e.2.meshHandle, generation := 0 } with
    | .ok mesh => frustum.ContainsAABB mesh.localBounds e.1.worldMatrix
    | .error _ => false

/-- The command the call emits for a drawn entity: the one assembled from the
entity and its mesh. -/
def emitted (L : CMath) (rm : ResourceManager) (cameraPos : Vec3)
    (e : TransformComponent × MeshComponent) (cmd : RenderCommand) : Prop :=
  ∃ mesh, rm.GetMesh { index := e.2.meshHandle, generation := 0 } = .ok mesh ∧
    assembleCommand L rm cameraPos e.1 e.2 mesh = .ok cmd

/-- A texture index of a material that is the unset sentinel or names a live
texture of generation 0. -/
def texIndexLive (rm : ResourceManager) (idx : Nat) : Prop :=
  idx = kInvalidTexIndex ∨ rm.texturePool_.IsValid { index := idx, generation := 0 } = true

/-- The resources of a mesh component are live: its mesh is, and its material
index is the sentinel or names a live material whose texture indices are live. -/
def resourcesLive (rm : ResourceManager) (mc : MeshComponent) : Prop :=
  rm.meshPool_.IsValid { index := mc.meshHandle, generation := 0 } = true ∧
  (mc.materialHandle = Handle.kInvalid ∨
    ∃ mat, rm.GetMaterial { index := mc.materialHandle, generation := 0 } = .ok mat ∧
      texIndexLive rm mat.albedoTexIndex ∧ texIndexLive rm mat.normalTexIndex ∧
      texIndexLive rm mat.metallicRoughIndex)

end RenderSystem

/-- A frustum used in examples: every plane is `(0, 0, 0, 1)`, so every point
has distance 1 to every plane. -/
def openFrustum : Frustum :=
  { plane0 := ⟨0, 0, 0, 1⟩, plane1 := ⟨0, 0, 0, 1⟩, plane2 := ⟨0, 0, 0, 1⟩,
    plane3 := ⟨0, 0, 0, 1⟩, plane4 := ⟨0, 0, 0, 1⟩, plane5 := ⟨0, 0, 0, 1⟩ }

/-- A box used in examples: the cube from (0, 0, 0) to (1, 1, 1). -/
def unitBox : AABB := { min := Vec3.splat 0, max := Vec3.splat 1 }

/-- A registry used in examples: one entity, with a default transform (the
identity world matrix) and a default mesh component (mesh 0, material 0,
flagged visible). -/
def oneEntityRegistry : Registry :=
  { entities_ := [(1, { transform := some {}, mesh := some {} })], nextID_ := 2 }

/-- A resource manager used in examples: mesh 0 has the box `unitBox`, and
material 0 is live but names texture 0 as albedo while the texture pool is
empty. -/
def danglingManager : ResourceManager :=
  { meshPool_ := { slots_ := [{ value := { localBounds := unitBox }, generation := 0,
                                occupied := true }] }
    materialPool_ := { slots_ := [{ value := { albedoTexIndex := 0 }, generation := 0,
                                    occupied := true }] } }

/-- A resource manager used in examples: mesh 0 has the box `unitBox`, material
0 has no texture set, and the three fallback textures have the identifiers 1,
2 and 3. -/
def liveManager : ResourceManager :=
  { meshPool_ := { slots_ := [{ value := { localBounds := unitBox }, generation := 0,
                                occupied := true }] }
    materialPool_ := { slots_ := [{ value := {}, generation := 0, occupied := true }] }
    defaultAlbedo_ := { id_ := 1 }
    defaultNormal_ := { id_ := 2 }
    defaultMetalRough_ := { id_ := 3 } }

/-- The box of the end-to-end scenario: from (-1/2, -1/2, -1/2) to
(1/2, 1/2, 1/2). -/
def centeredBox : AABB := { min := Vec3.splat (-1 / 2), max := Vec3.splat (1 / 2) }

/-- The view-projection matrix of the end-to-end scenario:
`perspective(radians(60), aspect, zNear, 100) * lookAt((0,0,3), (0,0,0), (0,1,0))`. -/
def scenarioViewProjection (L : CMath) (aspect zNear : ℚ) : Mat4 :=
  (glmPerspective L (glmRadians 60) aspect zNear 100).mul
    (glmLookAt L ⟨0, 0, 3⟩ ⟨0, 0, 0⟩ ⟨0, 1, 0⟩)

/-- The resource manager of the end-to-end scenario: mesh 0 has the box
`centeredBox`, material 0 has no texture set. -/
def scenarioManager : ResourceManager :=
  { meshPool_ := { slots_ := [{ value := { localBounds := centeredBox }, generation := 0,
                                occupied := true }] }
    materialPool_ := { slots_ := [{ value := {}, generation := 0, occupied := true }] }
    defaultAlbedo_ := { id_ := 1 }
    defaultNormal_ := { id_ := 2 }
    defaultMetalRough_ := { id_ := 3 } }

/-! ### resources/ShaderPreprocessor.cpp

A `std::string` is a list of characters. Canonical paths are the values of a
linearly ordered type `P`, whose order stands for the order of
`std::filesystem::path` in `std::set` and `std::map`. The `int` counters
(`lineNumber`, `srcId`, `next`) are natural numbers: their overflow, which is
undefined behaviour, needs 2^31 lines or files. -/

/-- The type `std::string`. -/
abbrev Text := List Char

/-- The file system as the preprocessor sees it: the existing files by
canonical path, each with its content when `fs::ReadFile` can read it; the
canonical form of `dir / rel` for `dir` the directory of a file; and the string
form `path.string()` of a path. -/
structure ShaderFiles (P : Type) where
  files : List (P × Option Text)
  resolve : P → Text → P
  name : P → Text

/-- What `Process` throws: the three `std::runtime_error`s of `ProcessImpl`, and
the `std::filesystem::filesystem_error` of `std::filesystem::canonical` on a
path that does not exist. `fuelExhausted` belongs to the embedding: the
recursion of `ProcessImpl` is bounded by a counter. -/
inductive ShaderError (P : Type) where
  | includeCycle (path : P)
  | cannotRead (path : P)
  | malformedInclude (lineNumber : Nat) (path : P)
  | notFound (path : P)
  | fuelExhausted
  deriving DecidableEq

/-- The struct `ShaderProcessResult`. -/
structure ShaderProcessResult (P : Type) where
  source : Text
  dependencies : List P
  deriving DecidableEq

/-- The struct `ShaderPreprocessor::SourceRegistry`: the map `ids`, in key
order, and the counter `next`. -/
structure SourceRegistry (P : Type) where
  ids : List (P × Nat) := []
  next : Nat := 0
  deriving DecidableEq

namespace ShaderPreprocessor

variable {P : Type} [LinearOrder P]

/-- The function `std::filesystem::canonical` on a path in canonical form: the
path itself when the file exists, an exception when it does not. -/
def canonical (fs : ShaderFiles P) (path : P) : Except (ShaderError P) P :=
  if path ∈ fs.files.map Prod.fst then .ok path else .error (.notFound path)

/-- The function `fs::ReadFile`. -/
def ReadFile (fs : ShaderFiles P) (path : P) : Option Text :=
  match fs.files.lookup path with
  | some (some text) => some text
  | _ => none

/-- The insertion `visited.insert(canonical)` into a `std::set`. -/
def setInsert (c : P) (visited : List P) : List P :=
  if c ∈ visited then visited else visited.orderedInsert (· ≤ ·) c

/-- The method `SourceRegistry::GetOrCreate`: `try_emplace(canonical, next)`,
then `next` is incremented when the key was new. -/
def GetOrCreate (registry : SourceRegistry P) (canonical : P) : Nat × SourceRegistry P :=
  match registry.ids.lookup canonical with
  | some id => (id, registry)
  | none =>
    (registry.next,
      { ids := registry.ids.orderedInsert (fun a b => a.1 ≤ b.1) (canonical, registry.next)
        next := registry.next + 1 })

/-- The lines `std::getline` reads from a text: the pieces between newlines; a
last piece without a newline counts when it is not empty. -/
def splitLinesAux : Text → Text → List Text
  | [], cur => if cur = [] then [] else [cur]
  | c :: cs, cur => if c = '\n' then cur :: splitLinesAux cs [] else splitLinesAux cs (cur ++ [c])

/-- The lines of a text, as the `getline` loop of `ProcessImpl` sees them. -/
def splitLines (text : Text) : List Text := splitLinesAux text []

/-- The loop that skips leading blanks and tabs. -/
def trimLeft : Text → Text
  | [] => []
  | c :: cs => if c = ' ' ∨ c = '\t' then trimLeft cs else c :: cs

/-- The call `line.find(ch)`: the first position of `ch`, or `npos`. -/
def findChar (ch : Char) : Text → Option Nat
  | [] => none
  | c :: cs => if c = ch then some 0 else (findChar ch cs).map (· + 1)

/-- The call `line.rfind(ch)`: the last position of `ch`, or `npos`. -/
def rfindChar (ch : Char) : Text → Option Nat
  | [] => none
  | c :: cs =>
    match rfindChar ch cs with
    | some i => some (i + 1)
    | none => if c = ch then some 0 else none

/-- The test `trimmed.starts_with("#include")`. -/
def isIncludeLine (line : Text) : Bool :=
  "#include".toList.isPrefixOf (trimLeft line)

/-- The parse of an include line: the text between the first and the last
double quote, or `none` when the directive is malformed (`open == npos` or
`open == close`). -/
def quotedPath (line : Text) : Option Text :=
  match findChar '"' line, rfindChar '"' line with
  | some open_, some close =>
    if open_ = close then none else some ((line.drop (open_ + 1)).take (close - open_ - 1))
  | _, _ => none

/-- The decimal form of a number, as `operator<<` writes an `int`. -/
def decimal (n : Nat) : Text := Nat.toDigits 10 n

/-- The directive `#line <n> <id>` with its newline. -/
def lineDirective (n id : Nat) : Text :=
  "#line ".toList ++ decimal n ++ " ".toList ++ decimal id ++ "\n".toList

/-- What a call of `ProcessImpl` hands back: the text of `out`, and the two
objects it updates by reference. -/
abbrev ImplResult (P : Type) := Text × List P × SourceRegistry P

/-- The `while (std::getline(in, line))` loop of `ProcessImpl`, from the line
numbered `lineNumber` on; `recur` is the recursive call of `ProcessImpl` with
`emitLineDirective = true`. -/
def processLines (fs : ShaderFiles P)
    (recur : P → List P → SourceRegistry P → Except (ShaderError P) (ImplResult P))
    (canonical : P) (srcId : Nat) :
    List Text → Nat → List P → SourceRegistry P → Text → Except (ShaderError P) (ImplResult P)
  | [], _, visited, registry, out => .ok (out, visited, registry)
  | line :: rest, lineNumber, visited, registry, out =>
    if isIncludeLine line then
      match quotedPath line with
      | none => .error (.malformedInclude lineNumber canonical)
      | some rel =>
        match ShaderPreprocessor.canonical fs (fs.resolve canonical rel) with
        | .error e => .error e
        | .ok full =>
          match recur full visited registry with
          | .error e => .error e
          | .ok (sub, visited', registry') =>
            processLines fs recur canonical srcId rest (lineNumber + 1) visited' registry'
              (out ++ sub ++ lineDirective (lineNumber + 1) srcId)
    else
      processLines fs recur canonical srcId rest (lineNumber + 1) visited registry
        (out ++ line ++ "\n".toList)

/-- The function `ShaderPreprocessor::ProcessImpl`; the first argument bounds the
depth of the recursion. -/
def ProcessImpl (fs : ShaderFiles P) :
    Nat → P → List P → SourceRegistry P → Bool → Except (ShaderError P) (ImplResult P)
  | 0, _, _, _, _ => .error .fuelExhausted
  | fuel + 1, filePath, visited, registry, emitLineDirective =>
    match ShaderPreprocessor.canonical fs filePath with
    | .error e => .error e
    | .ok canonical =>
      if canonical ∈ visited then .error (.includeCycle canonical)
      else
        let visited1 := setInsert canonical visited
        match ReadFile fs canonical with
        | none => .error (.cannotRead canonical)
        | some source =>
          let (srcId, registry1) := GetOrCreate registry canonical
          let out : Text := if emitLineDirective then lineDirective 1 srcId else []
          processLines fs (fun p v r => ProcessImpl fs fuel p v r true) canonical srcId
            (splitLines source) 1 visited1 registry1 out

/-- The header comment block of `Process`: one line per entry of the registry,
in key order, between the two frame lines. -/
def header (fs : ShaderFiles P) (ids : List (P × Nat)) : Text :=
  "// === ShaderPreprocessor source map ===\n".toList ++
  (ids.map fun e => "// source ".toList ++ decimal e.2 ++ ": ".toList ++ fs.name e.1 ++
    "\n".toList).flatten ++
  "// ======================================\n".toList

/-- The recursion bound `Process` is run with: one more than the number of
existing files. -/
def fuelFor (fs : ShaderFiles P) : Nat := fs.files.length + 1

/-- The part of `Process` before the result is put together: the call of
`ProcessImpl` on the canonical root with an empty `visited` and a fresh
registry. -/
def ProcessCore (fs : ShaderFiles P) (filePath : P) : Except (ShaderError P) (ImplResult P) :=
  match ShaderPreprocessor.canonical fs filePath with
  | .error e => .error e
  | .ok root => ProcessImpl fs (fuelFor fs) root [] {} false

/-- The function `ShaderPreprocessor::Process`. -/
def Process (fs : ShaderFiles P) (filePath : P) :
    Except (ShaderError P) (ShaderProcessResult P) :=
  match ProcessCore fs filePath with
  | .error e => .error e
  | .ok (body, visited, registry) =>
    .ok { source := header fs registry.ids ++ body, dependencies := visited }

/-- The files a file includes: the targets of its include lines that parse. -/
def lineTargets (fs : ShaderFiles P) (c : P) (lines : List Text) : List P :=
  lines.filterMap fun line =>
    if isIncludeLine line then (quotedPath line).map (fs.resolve c) else none

/-- The files a file includes by quoted `#include` directives. -/
def includeTargets (fs : ShaderFiles P) (c : P) : List P :=
  match ReadFile fs c with
  | some source => lineTargets fs c (splitLines source)
  | none => []

/-- The relation "file `a` has a quoted `#include` directive naming file `b`". -/
def Includes (fs : ShaderFiles P) (a b : P) : Prop := b ∈ includeTargets fs a

end ShaderPreprocessor

/-- The path arithmetic of the example file systems: all files lie in one
directory and are numbered; a name that is not in the table gets the number 99,
which no example file has. -/
def exampleResolve (table : List (Text × Nat)) : Nat → Text → Nat :=
  fun _ rel => (table.lookup rel).getD 99

/-- The string form of the numbered example paths. -/
def exampleName (table : List (Text × Nat)) : Nat → Text :=
  fun n => ((table.find? fun e => e.2 == n).map Prod.fst).getD "?".toList

/-- The names of the example files. -/
def exampleTable : List (Text × Nat) :=
  [("root.glsl".toList, 0), ("b.glsl".toList, 1), ("c.glsl".toList, 2), ("d.glsl".toList, 3)]

/-- An example file system: `root.glsl` includes `b.glsl` and `c.glsl`, and each
of these includes `d.glsl`. The include graph has no cycle. -/
def diamondFiles : ShaderFiles Nat :=
  { files :=
      [(0, some "#include \"b.glsl\"\n#include \"c.glsl\"\nvoid main() \x7b\x7d\n".toList),
       (1, some "#include \"d.glsl\"\nfloat b;\n".toList),
       (2, some "#include \"d.glsl\"\nfloat c;\n".toList),
       (3, some "float d;\n".toList)]
    resolve := exampleResolve exampleTable
    name := exampleName exampleTable }

/-- An example file system: `root.glsl` includes `b.glsl`, which includes
`d.glsl`. -/
def chainFiles : ShaderFiles Nat :=
  { files :=
      [(0, some "#version 410\n#include \"b.glsl\"\nvoid main() \x7b\x7d\n".toList),
       (1, some "#include \"d.glsl\"\nfloat b;\n".toList),
       (3, some "float d;\n".toList)]
    resolve := exampleResolve exampleTable
    name := exampleName exampleTable }

/-- What `Process` returns for `root.glsl` of `chainFiles`. -/
def chainResult : ShaderProcessResult Nat :=
  { source :=
      ("// === ShaderPreprocessor source map ===\n" ++
       "// source 0: root.glsl\n// source 1: b.glsl\n// source 2: d.glsl\n" ++
       "// ======================================\n" ++
       "#version 410\n#line 1 1\n#line 1 2\nfloat d;\n#line 2 1\nfloat b;\n#line 3 0\n" ++
       "void main() \x7b\x7d\n").toList
    dependencies := [0, 1, 3] }

/-- An example file system: the only file has an angle-bracket include on its
second line, with no double quote on it. -/
def angleFiles : ShaderFiles Nat :=
  { files := [(0, some "#version 410\n#include <common.glsl>\nvoid main() \x7b\x7d\n".toList)]
    resolve := exampleResolve exampleTable
    name := exampleName exampleTable }

/-- An example file system: `root.glsl` includes a file that does not exist and
then itself. -/
def selfAndMissingFiles : ShaderFiles Nat :=
  { files := [(0, some "#include \"missing.glsl\"\n#include \"root.glsl\"\n".toList)]
    resolve := exampleResolve exampleTable
    name := exampleName exampleTable }

/-- An example file system: `root.glsl` includes `b.glsl`, which includes
`root.glsl` again. Every include line is well formed and names an existing
file. -/
def cycleFiles : ShaderFiles Nat :=
  { files :=
      [(0, some "#version 410\n#include \"b.glsl\"\n".toList),
       (1, some "float b;\n#include \"root.glsl\"\n".toList)]
    resolve := exampleResolve exampleTable
    name := exampleName exampleTable }

namespace ShaderPreprocessor

variable {P : Type} [LinearOrder P]

/-- The number of existing files that are not in `visited`. -/
def remaining (fs : ShaderFiles P) (visited : List P) : Nat :=
  ((fs.files.map Prod.fst).toFinset \ visited.toFinset).card

/-- What holds between the visited set `v` before a successful expansion of the
file `p` and the set `v'` after it: `v'` extends `v` by files that were new,
`p` among them; the new files are closed under `Includes`, all reached from
`p`, and none of them lies on an include cycle. -/
structure Expanded (fs : ShaderFiles P) (p : P) (v v' : List P) : Prop where
  mono : ∀ x ∈ v, x ∈ v'
  fresh : p ∉ v
  visited : p ∈ v'
  closed : ∀ x, x ∈ v' → x ∉ v → ∀ y, Includes fs x y → y ∈ v' ∧ y ∉ v
  reach : ∀ x, x ∈ v' → x ∉ v → Relation.ReflTransGen (Includes fs) p x
  acyclic : ∀ x, x ∈ v' → x ∉ v → ¬ Relation.TransGen (Includes fs) x x
  nodup : v.Nodup → v'.Nodup

/-- The same for the line loop of the file `c` over the lines `lines`: the new
files are those reached from the targets of these lines. -/
structure ExpandedLines (fs : ShaderFiles P) (c : P) (lines : List Text) (v v' : List P) :
    Prop where
  mono : ∀ x ∈ v, x ∈ v'
  closed : ∀ x, x ∈ v' → x ∉ v → ∀ y, Includes fs x y → y ∈ v' ∧ y ∉ v
  reach : ∀ x, x ∈ v' → x ∉ v →
    ∃ g ∈ lineTargets fs c lines, Relation.ReflTransGen (Includes fs) g x
  acyclic : ∀ x, x ∈ v' → x ∉ v → ¬ Relation.TransGen (Includes fs) x x
  targets : ∀ g ∈ lineTargets fs c lines, g ∈ v' ∧ g ∉ v
  nodup : v.Nodup → v'.Nodup

/-- A file system in which every existing file is readable and every include
line of every file is well formed and names an existing file. -/
def WellFormed (fs : ShaderFiles P) : Prop :=
  ∀ c ∈ fs.files.map Prod.fst,
    ∃ source, ReadFile fs c = some source ∧
      ∀ line ∈ splitLines source, isIncludeLine line = true →
        ∃ rel, quotedPath line = some rel ∧ fs.resolve c rel ∈ fs.files.map Prod.fst

/-- The order in which a depth-first expansion of the quoted includes opens
the files, from the file `p`: `p` itself, then, for each include directive of `p`
in line order, the files opened from its target. The first argument bounds the
depth of the expansion. -/
def openOrder (fs : ShaderFiles P) : Nat → P → List P
  | 0, _ => []
  | fuel + 1, p => p :: ((includeTargets fs p).map fun q => openOrder fs fuel q).flatten

/-- The first-seen number of a file: its position in the order in which the
expansion from `root` opens the files. -/
def firstSeenId (fs : ShaderFiles P) (fuel : Nat) (root : P) : P → Nat :=
  fun x => (openOrder fs fuel root).indexOf x

/-- The expansion of the lines of the file `c`, from the line numbered
`lineNumber` on, under a fixed numbering `idOf` of the files: a plain line is
copied; an include line is replaced by the expansion `sub` of its target,
followed by a `#line` directive that names the next line of `c` and the number
of `c`. -/
def expandLines (fs : ShaderFiles P) (idOf : P → Nat) (sub : P → Text) (c : P) :
    List Text → Nat → Text
  | [], _ => []
  | line :: rest, lineNumber =>
    (if isIncludeLine line then
      match quotedPath line with
      | some rel => sub (fs.resolve c rel) ++ lineDirective (lineNumber + 1) (idOf c)
      | none => []
    else line ++ "\n".toList) ++ expandLines fs idOf sub c rest (lineNumber + 1)

/-- The expansion of the file `p` under a fixed numbering `idOf` of the files:
when `emitLineDirective` is set, the directive `#line 1 <id of p>`; then the
expanded lines of `p`. The first argument bounds the depth of the expansion. -/
def expand (fs : ShaderFiles P) (idOf : P → Nat) : Nat → P → Bool → Text
  | 0, _, _ => []
  | fuel + 1, p, emitLineDirective =>
    (if emitLineDirective then lineDirective 1 (idOf p) else []) ++
      match ReadFile fs p with
      | some source =>
        expandLines fs idOf (fun q => expand fs idOf fuel q true) p (splitLines source) 1
      | none => []

/-- The header comment block with exactly one line `// source <id>: <path>` for
each file of `deps`, in the order of `deps`, under a fixed numbering `idOf`. -/
def sourceMap (fs : ShaderFiles P) (idOf : P → Nat) (deps : List P) : Text :=
  "// === ShaderPreprocessor source map ===\n".toList ++
  (deps.map fun p => "// source ".toList ++ decimal (idOf p) ++ ": ".toList ++ fs.name p ++
    "\n".toList).flatten ++
  "// ======================================\n".toList

/-- A numbering `idOf` gives the files of `order` the consecutive numbers from
`base` on. -/
def Agrees (idOf : P → Nat) (order : List P) (base : Nat) : Prop :=
  ∀ k x, order[k]? = some x → idOf x = base + k

/-- What holds between the visited set and registry before (`v`, `r`) and after
(`v'`, `r'`) a successful expansion that opened the files `order`, in this
order: the keys of the registry are the visited set; the files of `order` are
new and distinct, and they are what `v'` adds to `v`; the registry keeps the
numbers of the old files and gives the new ones the consecutive numbers from
`r.next` on. -/
structure Numbered (order v v' : List P) (r r' : SourceRegistry P) : Prop where
  keys : r'.ids.map Prod.fst = v'
  next : r'.next = r.next + order.length
  mem : ∀ x, x ∈ v' ↔ x ∈ v ∨ x ∈ order
  disjoint : ∀ x ∈ order, x ∉ v
  nodup : order.Nodup
  old : ∀ x ∈ v, r'.ids.lookup x = r.ids.lookup x
  new : ∀ k x, order[k]? = some x → r'.ids.lookup x = some (r.next + k)

end ShaderPreprocessor

/-! ### renderer/backend/Shader.cpp

The GL driver is a state of a type `G` and the entry points `Shader.cpp` calls,
as functions on it. Object names are natural numbers; `0` is no object. -/

/-- The GL entry points of `Shader.cpp`: object creation hands back the new name
and the driver state; `glCompileShader` stands for `glShaderSource` followed by
`glCompileShader`; `compileStatus` and `linkStatus` are the `glGetShaderiv` and
`glGetProgramiv` queries; `bindUniformBlocks` is the loop over `kBlocks`. -/
structure GLDriver (G : Type) where
  glCreateShader : G → Nat → Nat × G
  glCompileShader : G → Nat → Text → G
  compileStatus : G → Nat → Bool
  glDeleteShader : G → Nat → G
  glCreateProgram : G → Nat × G
  glAttachShader : G → Nat → Nat → G
  glLinkProgram : G → Nat → G
  linkStatus : G → Nat → Bool
  glDeleteProgram : G → Nat → G
  bindUniformBlocks : G → Nat → G

/-- The constant `GL_VERTEX_SHADER`. -/
def GL_VERTEX_SHADER : Nat := 35633

/-- The constant `GL_FRAGMENT_SHADER`. -/
def GL_FRAGMENT_SHADER : Nat := 35632

/-- The constant `GL_GEOMETRY_SHADER`. -/
def GL_GEOMETRY_SHADER : Nat := 36313

/-- The class `Shader`; an empty `geomPath_` is `none`. -/
structure Shader (P : Type) where
  id_ : Nat := 0
  vertPath_ : P
  fragPath_ : P
  geomPath_ : Option P := none
  deps_ : List P := []

namespace Shader

variable {P : Type} [LinearOrder P] {G : Type}

/-- The method `Shader::CompileStage`: the new object, or `0` after a failed
compile, whose object is deleted. -/
def CompileStage (gl : GLDriver G) (g : G) (glType : Nat) (src : Text) : Nat × G :=
  let (obj, g1) := gl.glCreateShader g glType
  let g2 := gl.glCompileShader g1 obj src
  if !gl.compileStatus g2 obj then (0, gl.glDeleteShader g2 obj) else (obj, g2)

/-- The function `Shader::LinkProgram`: the new program, or `0` after a failed
link, whose program is deleted. -/
def LinkProgram (gl : GLDriver G) (g : G) (vert frag geom : Nat) : Nat × G :=
  let (prog, g1) := gl.glCreateProgram g
  let g2 := gl.glAttachShader g1 prog vert
  let g3 := gl.glAttachShader g2 prog frag
  let g4 := if geom ≠ 0 then gl.glAttachShader g3 prog geom else g3
  let g5 := gl.glLinkProgram g4 prog
  if !gl.linkStatus g5 prog then (0, gl.glDeleteProgram g5 prog)
  else (prog, gl.bindUniformBlocks g5 prog)

/-- The end of `Shader::Reload`, from the call of `LinkProgram` on: the stage
objects are deleted; after a failed link the shader is as it was; else the old
program is deleted and `id_` and `deps_` are replaced. -/
def linkAndCommit (gl : GLDriver G) (s : Shader P) (newDeps : List P)
    (vertObj fragObj geomObj : Nat) (g : G) : Bool × Shader P × G :=
  let (newProg, g1) := LinkProgram gl g vertObj fragObj geomObj
  let g2 := gl.glDeleteShader g1 vertObj
  let g3 := gl.glDeleteShader g2 fragObj
  let g4 := if geomObj ≠ 0 then gl.glDeleteShader g3 geomObj else g3
  if newProg = 0 then (false, s, g4)
  else
    let g5 := if s.id_ ≠ 0 then gl.glDeleteProgram g4 s.id_ else g4
    (true, { s with id_ := newProg, deps_ := newDeps }, g5)

/-- The method `Shader::Reload`: its result, the shader after it and the driver
state after it. An exception of `ShaderPreprocessor::Process` is caught by the
enclosing `try` block. -/
def Reload (fs : ShaderFiles P) (gl : GLDriver G) (g : G) (s : Shader P) :
    Bool × Shader P × G :=
  match ShaderPreprocessor.Process fs s.vertPath_ with
  | .error _ => (false, s, g)
  | .ok vert =>
    match ShaderPreprocessor.Process fs s.fragPath_ with
    | .error _ => (false, s, g)
    | .ok frag =>
      let newDeps := vert.dependencies ++ frag.dependencies
      let (vertObj, g1) := CompileStage gl g GL_VERTEX_SHADER vert.source
      let (fragObj, g2) := CompileStage gl g1 GL_FRAGMENT_SHADER frag.source
      if vertObj = 0 ∨ fragObj = 0 then
        let g3 := if vertObj ≠ 0 then gl.glDeleteShader g2 vertObj else g2
        let g4 := if fragObj ≠ 0 then gl.glDeleteShader g3 fragObj else g3
        (false, s, g4)
      else
        match s.geomPath_ with
        | none => linkAndCommit gl s newDeps vertObj fragObj 0 g2
        | some geomPath =>
          match ShaderPreprocessor.Process fs geomPath with
          | .error _ => (false, s, gl.glDeleteShader (gl.glDeleteShader g2 vertObj) fragObj)
          | .ok geom =>
            let (geomObj, g3) := CompileStage gl g2 GL_GEOMETRY_SHADER geom.source
            if geomObj = 0 then
              (false, s, gl.glDeleteShader (gl.glDeleteShader g3 vertObj) fragObj)
            else linkAndCommit gl s (newDeps ++ geom.dependencies) vertObj fragObj geomObj g3

/-- The accessor `Shader::GetDependencies`. -/
def GetDependencies (s : Shader P) : List P := s.deps_

end Shader

/-! ### resources/ResourceManager.cpp: shader hot-reload

A `Shader*` is the position of the shader in the store of the shaders of the
program. A `file_time_type` is an integer. -/

/-- The struct `ResourceManager::ShaderRecord`. -/
structure ShaderRecord (P : Type) where
  shader : Nat
  deps : List P
  timestamps : List Int

/-- What the hot-reload reaches outside the registry: the shader files, the GL
driver, `std::filesystem::last_write_time` (`none` when the call sets its error
code, in which case it hands back `file_time_type::min()`, here `timeMin`), and
`path.filename().string()`. -/
structure ReloadEnv (P G : Type) where
  fs : ShaderFiles P
  gl : GLDriver G
  last_write_time : P → Option Int
  timeMin : Int
  filename : P → Text

/-- What `PollShaderReload` reads and writes besides the records: the driver
state, the shaders the records point to, and the member `lastReloadedShader_`. -/
structure ReloadState (P G : Type) where
  gl : G
  shaders : List (Shader P)
  lastReloadedShader_ : Text := []

namespace ResourceManager

variable {P : Type} [LinearOrder P] {G : Type}

/-- The call `std::filesystem::last_write_time(p, ec)`: the time and whether `ec`
is set. -/
def lastWriteTime (env : ReloadEnv P G) (p : P) : Int × Bool :=
  match env.last_write_time p with
  | some t => (t, false)
  | none => (env.timeMin, true)

/-- The method `ResourceManager::RefreshTimestamps`: the times of all
dependencies, the error code ignored. -/
def RefreshTimestamps (env : ReloadEnv P G) (rec : ShaderRecord P) : ShaderRecord P :=
  { rec with timestamps := rec.deps.map fun p => (lastWriteTime env p).1 }

/-- The method `ResourceManager::TrackShaderForReload`, on the member
`trackedShaders_`. -/
def TrackShaderForReload (env : ReloadEnv P G) (trackedShaders_ : List (ShaderRecord P))
    (shaders : List (Shader P)) (shader : Nat) : Except Fault (List (ShaderRecord P)) :=
  match shaders[shader]? with
  | none => .error .outOfRange
  | some sh =>
    .ok (trackedShaders_ ++
      [RefreshTimestamps env { shader := shader, deps := sh.GetDependencies, timestamps := [] }])

/-- The inner loop of `PollShaderReload`, from index `i` on: `changed` is set at
the first dependency whose time is read without error and is not
`rec.timestamps[i]`. -/
def changed (env : ReloadEnv P G) (timestamps : List Int) : List P → Nat → Except Fault Bool
  | [], _ => .ok false
  | d :: ds, i =>
    let (newTime, ec) := lastWriteTime env d
    if ec then changed env timestamps ds (i + 1)
    else
      match timestamps[i]? with
      | none => .error .outOfRange
      | some t => if newTime ≠ t then .ok true else changed env timestamps ds (i + 1)

/-- The body of the outer loop of `PollShaderReload` for one record. -/
def pollRecord (env : ReloadEnv P G) (st : ReloadState P G) (rec : ShaderRecord P) :
    Except Fault (ShaderRecord P × ReloadState P G) :=
  match changed env rec.timestamps rec.deps 0 with
  | .error e => .error e
  | .ok false => .ok (rec, st)
  | .ok true =>
    match st.shaders[rec.shader]? with
    | none => .error .outOfRange
    | some sh =>
      let (ok, sh1, g1) := Shader.Reload env.fs env.gl st.gl sh
      let st1 : ReloadState P G :=
        { st with gl := g1, shaders := st.shaders.set rec.shader sh1 }
      if ok then
        let rec1 := RefreshTimestamps env { rec with deps := sh1.GetDependencies }
        .ok (rec1,
          match rec1.deps.head? with
          | some d => { st1 with lastReloadedShader_ := env.filename d }
          | none => st1)
      else .ok (rec, st1)

/-- The method `ResourceManager::PollShaderReload`, on the member
`trackedShaders_`. -/
def PollShaderReload (env : ReloadEnv P G) :
    List (ShaderRecord P) → ReloadState P G →
      Except Fault (List (ShaderRecord P) × ReloadState P G)
  | [], st => .ok ([], st)
  | rec :: recs, st =>
    match pollRecord env st rec with
    | .error e => .error e
    | .ok (rec1, st1) =>
      match PollShaderReload env recs st1 with
      | .error e => .error e
      | .ok (recs1, st2) => .ok (rec1 :: recs1, st2)

/-- A dependency of the record has a current modification time that can be read
and differs from the stored one. -/
def Differs (env : ReloadEnv P G) (rec : ShaderRecord P) : Prop :=
  ∃ (i : Nat) (d : P) (t now : Int), rec.deps[i]? = some d ∧ rec.timestamps[i]? = some t ∧
    env.last_write_time d = some now ∧ now ≠ t

end ResourceManager

/-- A GL driver used in examples: the state counts the objects created, every
compile and every link succeeds. -/
def countingDriver : GLDriver Nat :=
  { glCreateShader := fun g _ => (g + 1, g + 1)
    glCompileShader := fun g _ _ => g
    compileStatus := fun _ _ => true
    glDeleteShader := fun g _ => g
    glCreateProgram := fun g => (g + 1, g + 1)
    glAttachShader := fun g _ _ => g
    glLinkProgram := fun g _ => g
    linkStatus := fun _ _ => true
    glDeleteProgram := fun g _ => g
    bindUniformBlocks := fun g _ => g }

/-- A shader used in examples: `root.glsl` of `chainFiles` as vertex stage and
`d.glsl` as fragment stage, compiled before as program 9. -/
def exampleShader : Shader Nat :=
  { id_ := 9, vertPath_ := 0, fragPath_ := 3, deps_ := [0, 1, 3, 3] }

/-- A hot-reload environment used in examples: the files of `chainFiles`, all
written at time 5 but `b.glsl`, written at time 6. -/
def exampleReloadEnv : ReloadEnv Nat Nat :=
  { fs := chainFiles
    gl := countingDriver
    last_write_time := fun p => if p = 1 then some 6 else some 5
    timeMin := -1
    filename := exampleName exampleTable }

/-- The same environment after `b.glsl` was deleted: `last_write_time` sets its
error code for it and hands back `file_time_type::min()`. -/
def deletedReloadEnv : ReloadEnv Nat Nat :=
  { exampleReloadEnv with last_write_time := fun p => if p = 1 then none else some 5 }

/-- The record of `exampleShader`, tracked when all files had time 5. -/
def exampleRecord : ShaderRecord Nat :=
  { shader := 0, deps := [0, 1, 3, 3], timestamps := [5, 5, 5, 5] }

/-- The component-wise order of two `vec3`: every component of `a` is at most
that of `b`. -/
def Vec3.le (a b : Vec3) : Prop := a.x ≤ b.x ∧ a.y ≤ b.y ∧ a.z ≤ b.z

/-! ### resources/ResourceManager.cpp: the loading operations

A `std::filesystem::path` is the string that spells it. The two caches are
`std::unordered_map`s, kept as association lists: `find` is a lookup and
`emplace` of a key that is not present adds the pair. -/

/-- The struct `RawMesh`. -/
structure RawMesh where
  vertices : List MeshVertex := []
  indices : List Nat := []
  localBounds : AABB := {}

/-- The method `Texture::IsValid`. -/
def Texture.IsValid (t : Texture) : Bool := t.id_ != 0

/-- What the loading operations reach outside the registry: the file system
through `std::filesystem::weakly_canonical`, the mesh loader `MeshLoader::Load`
(an empty vector on failure), the texture loader `Texture::FromFile` with its
`genMipmaps` flag, and the GL name `meshBuffer_.GetVAO()` of the vertex array of
the mega-buffer. -/
structure ResourceEnv where
  weakly_canonical : String → String
  Load : String → List RawMesh
  FromFile : String → Bool → Texture
  GetVAO : Nat

/-- The kinds of resources the registry hands out handles for. -/
inductive ResourceKind where
  | mesh
  | texture
  | material
  deriving DecidableEq

/-- One call of a public loading operation of `ResourceManager`. -/
inductive ResourceOp where
  | AddMesh (raw : RawMesh)
  | LoadMesh (path : String)
  | LoadAllMeshes (path : String)
  | LoadTexture (path : String) (sRGB genMipmaps : Bool)
  | CreateMaterial (mat : Material)

namespace ResourceManager

/-- The constructor `ResourceManager::ResourceManager()`: empty pools and
caches, a fresh mega-buffer, and the three fallback textures that
`Texture::FromData` returned. -/
def new (white flatNormal orm : Texture) : ResourceManager :=
  { defaultAlbedo_ := white, defaultNormal_ := flatNormal, defaultMetalRough_ := orm }

/-- The method `ResourceManager::AddMesh`. -/
def AddMesh (env : ResourceEnv) (rm : ResourceManager) (raw : RawMesh) :
    Except Fault (Handle × ResourceManager) :=
  match rm.meshBuffer_.Upload raw.vertices raw.indices with
  | .error e => .error e
  | .ok (alloc, meshBuffer) =>
    let gpu : GPUMesh :=
      { sharedVAOID := env.GetVAO
        baseVertex := alloc.baseVertex
        baseIndex := alloc.baseIndex
        indexCount := raw.indices.length % 4294967296
        localBounds := raw.localBounds }
    match rm.meshPool_.Insert gpu with
    | .error e => .error e
    | .ok (h, pool) => .ok (h, { rm with meshBuffer_ := meshBuffer, meshPool_ := pool })

/-- The method `ResourceManager::LoadMesh`: the cached handle when the
canonical path is in `meshCache_`; else the loader is run, the null handle is
returned for an empty result, and the first mesh is added and cached. -/
def LoadMesh (env : ResourceEnv) (rm : ResourceManager) (path : String) :
    Except Fault (Handle × ResourceManager) :=
  let key := env.weakly_canonical path
  match rm.meshCache_.lookup key with
  | some h => .ok (h, rm)
  | none =>
    match env.Load path with
    | [] => .ok ({}, rm)
    | raw :: _ =>
      match AddMesh env rm raw with
      | .error e => .error e
      | .ok (h, rm1) => .ok (h, { rm1 with meshCache_ := (key, h) :: rm1.meshCache_ })

/-- The loop of `LoadAllMeshes`: `AddMesh` for every raw mesh, the handles
pushed on `handles`. -/
def addAll (env : ResourceEnv) :
    List RawMesh → ResourceManager → List Handle → Except Fault (List Handle × ResourceManager)
  | [], rm, handles => .ok (handles, rm)
  | raw :: raws, rm, handles =>
    match AddMesh env rm raw with
    | .error e => .error e
    | .ok (h, rm1) => addAll env raws rm1 (handles ++ [h])

/-- The method `ResourceManager::LoadAllMeshes`. -/
def LoadAllMeshes (env : ResourceEnv) (rm : ResourceManager) (path : String) :
    Except Fault (List Handle × ResourceManager) :=
  addAll env (env.Load path) rm []

/-- The method `ResourceManager::LoadTexture`; the `sRGB` parameter is unused. -/
def LoadTexture (env : ResourceEnv) (rm : ResourceManager) (path : String)
    (_sRGB genMipmaps : Bool) : Except Fault (Handle × ResourceManager) :=
  let key := env.weakly_canonical path
  match rm.textureCache_.lookup key with
  | some h => .ok (h, rm)
  | none =>
    let tex := env.FromFile path genMipmaps
    if !tex.IsValid then .ok ({}, rm)
    else
      match rm.texturePool_.Insert tex with
      | .error e => .error e
      | .ok (h, pool) =>
        .ok (h, { rm with texturePool_ := pool, textureCache_ := (key, h) :: rm.textureCache_ })

/-- The method `ResourceManager::CreateMaterial`. -/
def CreateMaterial (rm : ResourceManager) (mat : Material) :
    Except Fault (Handle × ResourceManager) :=
  match rm.materialPool_.Insert mat with
  | .error e => .error e
  | .ok (h, pool) => .ok (h, { rm with materialPool_ := pool })

/-- One public loading operation: the handles it returns, with their kinds, and
the registry after it. -/
def step (env : ResourceEnv) (rm : ResourceManager) :
    ResourceOp → Except Fault (List (ResourceKind × Handle) × ResourceManager)
  | .AddMesh raw =>
    match AddMesh env rm raw with
    | .error e => .error e
    | .ok (h, rm1) => .ok ([(.mesh, h)], rm1)
  | .LoadMesh path =>
    match LoadMesh env rm path with
    | .error e => .error e
    | .ok (h, rm1) => .ok ([(.mesh, h)], rm1)
  | .LoadAllMeshes path =>
    match LoadAllMeshes env rm path with
    | .error e => .error e
    | .ok (hs, rm1) => .ok (hs.map fun h => (.mesh, h), rm1)
  | .LoadTexture path sRGB genMipmaps =>
    match LoadTexture env rm path sRGB genMipmaps with
    | .error e => .error e
    | .ok (h, rm1) => .ok ([(.texture, h)], rm1)
  | .CreateMaterial mat =>
    match CreateMaterial rm mat with
    | .error e => .error e
    | .ok (h, rm1) => .ok ([(.material, h)], rm1)

/-- A sequence of public loading operations, each in the environment it is made
in: all the handles returned, and the registry at the end. It stops at the
first call that does not return. -/
def run (rm : ResourceManager) :
    List (ResourceEnv × ResourceOp) → Except Fault (List (ResourceKind × Handle) × ResourceManager)
  | [] => .ok ([], rm)
  | (env, op) :: ops =>
    match step env rm op with
    | .error e => .error e
    | .ok (outs, rm1) =>
      match run rm1 ops with
      | .error e => .error e
      | .ok (outs', rm2) => .ok (outs ++ outs', rm2)

/-- The number of slots of the pool of a kind. -/
def slotCount (rm : ResourceManager) : ResourceKind → Nat
  | .mesh => rm.meshPool_.slots_.length
  | .texture => rm.texturePool_.slots_.length
  | .material => rm.materialPool_.slots_.length

/-- The method `HandlePool::IsValid` of the pool of a kind. -/
def IsValid (rm : ResourceManager) : ResourceKind → Handle → Bool
  | .mesh, h => rm.meshPool_.IsValid h
  | .texture, h => rm.texturePool_.IsValid h
  | .material, h => rm.materialPool_.IsValid h

/-- Whether the lookup `GetMesh`, `GetTexture` or `GetMaterial` returns. -/
def lookupReturns (rm : ResourceManager) : ResourceKind → Handle → Bool
  | .mesh, h => match rm.GetMesh h with | .ok _ => true | .error _ => false
  | .texture, h => match rm.GetTexture h with | .ok _ => true | .error _ => false
  | .material, h => match rm.GetMaterial h with | .ok _ => true | .error _ => false

end ResourceManager

/-- A pool from which no slot was ever removed: the free list is empty, and
every slot is occupied and has generation 0. -/
def HandlePool.NeverRemoved {T : Type} (p : HandlePool T) : Prop :=
  p.freeList_ = [] ∧ ∀ s ∈ p.slots_, s.occupied = true ∧ s.generation = 0

/-- The invariant of the registry under its loading operations: no pool ever had
a slot removed, and every cached handle has generation 0 and names a slot of its
pool. -/
structure ResourceManager.Inv (rm : ResourceManager) : Prop where
  mesh : rm.meshPool_.NeverRemoved
  texture : rm.texturePool_.NeverRemoved
  material : rm.materialPool_.NeverRemoved
  meshCache : ∀ e ∈ rm.meshCache_, e.2.generation = 0 ∧ e.2.index < rm.meshPool_.slots_.length
  textureCache : ∀ e ∈ rm.textureCache_,
    e.2.generation = 0 ∧ e.2.index < rm.texturePool_.slots_.length

/-- A loading environment used in examples: every spelling is canonical, the
file `box.obj` holds one mesh of three vertices and three indices, and no
texture loads. -/
def exampleEnv : ResourceEnv :=
  { weakly_canonical := fun p => p
    Load := fun p =>
      if p = "box.obj" then
        [{ vertices := [sampleVertex, sampleVertex, sampleVertex], indices := [0, 1, 2] }]
      else []
    FromFile := fun _ _ => {}
    GetVAO := 1 }

/-- The same file system with a second spelling of `box.obj` and a loader that
finds nothing any more. -/
def laterEnv : ResourceEnv :=
  { weakly_canonical := fun p => if p = "./box.obj" then "box.obj" else p
    Load := fun _ => []
    FromFile := fun _ _ => {}
    GetVAO := 1 }

/-- The registry after `box.obj` was loaded into a fresh registry in
`exampleEnv`: both cursors of the mega-buffer at 3, one mesh slot, one cache
entry. -/
def boxManager : ResourceManager :=
  { meshBuffer_ := { MeshBuffer.new with nextVertex_ := 3, nextIndex_ := 3 }
    meshPool_ :=
      { slots_ := [{ value := { sharedVAOID := 1, baseVertex := 0, baseIndex := 0,
                                indexCount := 3, localBounds := {} },
                     generation := 0, occupied := true }] }
    meshCache_ := [("box.obj", ⟨0, 0⟩)] }

/-- The registry `boxManager` after a default material was created. -/
def boxMaterialManager : ResourceManager :=
  { boxManager with
    materialPool_ := { slots_ := [{ value := {}, generation := 0, occupied := true }] } }

/-! ### renderer/frontend/passes

The GL context is the record of the three pieces of global state the passes are
specified on: the bound framebuffer, the cull-face winding and the depth-test
flag. A pass is the sequence of GL calls its `Execute` makes, in source order;
calls that touch none of the three pieces leave the record as it is. -/

/-- The argument of `glCullFace`. -/
inductive CullFaceMode where
  | FRONT
  | BACK
  | FRONT_AND_BACK
  deriving DecidableEq

/-- The capabilities the passes enable or disable. -/
inductive GLCap where
  | DEPTH_TEST
  | CULL_FACE
  deriving DecidableEq

/-- The GL calls the passes make, directly or through `Framebuffer`, `Shader`,
`VertexArray` and `UniformBufferCache`. -/
inductive GLCall where
  | glBindFramebuffer (id : Nat)
  | glEnable (cap : GLCap)
  | glDisable (cap : GLCap)
  | glCullFace (mode : CullFaceMode)
  | glViewport
  | glClearColor
  | glClear
  | glUseProgram (id : Nat)
  | glUniform
  | glActiveTexture (unit : Nat)
  | glBindTexture (id : Nat)
  | glBindVertexArray (id : Nat)
  | glDrawElementsBaseVertex
  | glDrawArrays
  | uploadUniformBuffer
  deriving DecidableEq

/-- The GL state the passes are specified on. -/
structure GLState where
  framebuffer : Nat
  cullFace : CullFaceMode
  depthTest : Bool
  deriving DecidableEq

/-- The effect of one GL call on the state. -/
def GLState.call (s : GLState) : GLCall → GLState
  | .glBindFramebuffer id => { s with framebuffer := id }
  | .glEnable .DEPTH_TEST => { s with depthTest := true }
  | .glDisable .DEPTH_TEST => { s with depthTest := false }
  | .glCullFace mode => { s with cullFace := mode }
  | _ => s

/-- The effect of a sequence of GL calls. -/
def GLState.run (s : GLState) (calls : List GLCall) : GLState :=
  calls.foldl GLState.call s

/-- The class `Framebuffer`, reduced to its GL name and colour attachments. -/
structure Framebuffer where
  id_ : Nat
  colorAttachments_ : List Texture := []

/-- The method `Framebuffer::GetColorAttachment`, behind its range assertion. -/
def Framebuffer.GetColorAttachment (f : Framebuffer) (index : Nat) : Except Fault Texture :=
  match f.colorAttachments_[index]? with
  | some t => .ok t
  | none => .error .assertFailed

/-- The class `ShadowPass`: its framebuffer and the program of its shader. -/
structure ShadowPass where
  fbo_ : Framebuffer
  shader_ : Nat

/-- The class `GeometryPass`. -/
structure GeometryPass where
  fbo_ : Framebuffer
  shader_ : Nat

/-- The class `LightingPass`; `quadVAO_` is the GL name of the vertex array. -/
structure LightingPass where
  fbo_ : Framebuffer
  shader_ : Nat
  quadVAO_ : Nat

/-- The class `PostProcessPass`. -/
structure PostProcessPass where
  bloomA_ : Framebuffer
  bloomB_ : Framebuffer
  tonemapFBO_ : Framebuffer
  fxaaFBO_ : Framebuffer
  bloomThresholdShader_ : Nat
  bloomBlurShader_ : Nat
  tonemapShader_ : Nat
  fxaaShader_ : Nat
  quadVAO_ : Nat

/-- The GL calls of `ShadowPass::Execute`: the `ShadowData` upload, the bind of
the depth framebuffer, `glEnable(GL_DEPTH_TEST)`, `glCullFace(GL_FRONT)`, one
draw per shadow caster, then `glCullFace(GL_BACK)`, the unbind of the vertex
array and `Framebuffer::BindDefault`. -/
def ShadowPass.calls (pass : ShadowPass) (queue : RenderQueue) : List GLCall :=
  [.uploadUniformBuffer, .glBindFramebuffer pass.fbo_.id_, .glViewport, .glClear,
    .glEnable .DEPTH_TEST, .glCullFace .FRONT, .glUseProgram pass.shader_] ++
  (queue.ShadowCasters.1.map fun cmd =>
    [GLCall.uploadUniformBuffer, .glBindVertexArray cmd.vaoID,
      .glDrawElementsBaseVertex]).flatten ++
  [.glCullFace .BACK, .glBindVertexArray 0, .glBindFramebuffer 0]

/-- The method `ShadowPass::Execute`, on the GL state. -/
def ShadowPass.Execute (pass : ShadowPass) (queue : RenderQueue) (gl : GLState) : GLState :=
  gl.run (pass.calls queue)

/-- The GL calls of `GeometryPass::Execute`: the bind of the G-buffer, the
clear, `glEnable(GL_DEPTH_TEST)`, `glEnable(GL_CULL_FACE)`, the three sampler
uniforms, one draw per opaque command with its three textures and three factor
uniforms, then the unbind of the vertex array and `Framebuffer::BindDefault`. -/
def GeometryPass.calls (pass : GeometryPass) (queue : RenderQueue) : List GLCall :=
  [.glBindFramebuffer pass.fbo_.id_, .glViewport, .glClearColor, .glClear,
    .glEnable .DEPTH_TEST, .glEnable .CULL_FACE, .glUseProgram pass.shader_,
    .glUniform, .glUniform, .glUniform] ++
  (queue.OpaqueCommands.map fun cmd =>
    [GLCall.uploadUniformBuffer,
      .glActiveTexture 0, .glBindTexture cmd.albedoTexID,
      .glActiveTexture 1, .glBindTexture cmd.normalTexID,
      .glActiveTexture 2, .glBindTexture cmd.metallicRoughTexID,
      .glUniform, .glUniform, .glUniform,
      .glBindVertexArray cmd.vaoID, .glDrawElementsBaseVertex]).flatten ++
  [.glBindVertexArray 0, .glBindFramebuffer 0]

/-- The method `GeometryPass::Execute`, on the GL state. -/
def GeometryPass.Execute (pass : GeometryPass) (queue : RenderQueue) (gl : GLState) :
    GLState :=
  gl.run (pass.calls queue)

/-- The GL calls of `LightingPass::Execute`: the bind of the HDR framebuffer,
`glDisable(GL_DEPTH_TEST)`, the clear, five sampler uniforms, five texture
binds, the fullscreen triangle, and `Framebuffer::BindDefault`. -/
def LightingPass.calls (pass : LightingPass)
    (gNormal gAlbedo gMaterial gDepth shadowMap : Texture) : List GLCall :=
  [.glBindFramebuffer pass.fbo_.id_, .glViewport, .glDisable .DEPTH_TEST, .glClear,
    .glUseProgram pass.shader_, .glUniform, .glUniform, .glUniform, .glUniform, .glUniform,
    .glActiveTexture 0, .glBindTexture gNormal.GetID,
    .glActiveTexture 1, .glBindTexture gAlbedo.GetID,
    .glActiveTexture 2, .glBindTexture gMaterial.GetID,
    .glActiveTexture 3, .glBindTexture gDepth.GetID,
    .glActiveTexture 4, .glBindTexture shadowMap.GetID,
    .glBindVertexArray pass.quadVAO_, .glDrawArrays, .glBindVertexArray 0,
    .glBindFramebuffer 0]

/-- The method `LightingPass::Execute`, on the GL state. -/
def LightingPass.Execute (pass : LightingPass)
    (gNormal gAlbedo gMaterial gDepth shadowMap : Texture) (gl : GLState) : GLState :=
  gl.run (pass.calls gNormal gAlbedo gMaterial gDepth shadowMap)

/-- The GL calls of `PostProcessPass::DrawFullscreenTriangle`. -/
def PostProcessPass.DrawFullscreenTriangle (pass : PostProcessPass) : List GLCall :=
  [.glBindVertexArray pass.quadVAO_, .glDrawArrays, .glBindVertexArray 0]

/-- The ping-pong blur loop of `PostProcessPass::Execute`, with `i` iterations
left: bind `dst`, draw from the colour attachment of `src`, swap. It hands back
the GL state and the final `src`. -/
def PostProcessPass.blurLoop (pass : PostProcessPass) :
    Nat → Framebuffer → Framebuffer → GLState → Except Fault (GLState × Framebuffer)
  | 0, src, _, gl => .ok (gl, src)
  | i + 1, src, dst, gl =>
    match src.GetColorAttachment 0 with
    | .error e => .error e
    | .ok tex =>
      let gl1 := gl.run ([.glBindFramebuffer dst.id_, .glUniform, .glActiveTexture 0,
        .glBindTexture tex.GetID] ++ pass.DrawFullscreenTriangle)
      PostProcessPass.blurLoop pass i dst src gl1

/-- The method `PostProcessPass::Execute`, on the GL state:
`glDisable(GL_DEPTH_TEST)`, the bloom threshold into `bloomA_`, four blur
iterations, the tone map, the FXAA step, `Framebuffer::BindDefault`, and the
colour attachment of `fxaaFBO_` as result. -/
def PostProcessPass.Execute (pass : PostProcessPass) (hdrColor : Texture) (gl : GLState) :
    Except Fault (Texture × GLState) :=
  let gl1 := gl.run ([.glDisable .DEPTH_TEST, .glBindFramebuffer pass.bloomA_.id_, .glViewport,
    .glUseProgram pass.bloomThresholdShader_, .glUniform, .glUniform, .glActiveTexture 0,
    .glBindTexture hdrColor.GetID] ++ pass.DrawFullscreenTriangle ++
    [.glUseProgram pass.bloomBlurShader_, .glUniform])
  match PostProcessPass.blurLoop pass 4 pass.bloomA_ pass.bloomB_ gl1 with
  | .error e => .error e
  | .ok (gl2, src) =>
    match src.GetColorAttachment 0 with
    | .error e => .error e
    | .ok bloom =>
      let gl3 := gl2.run ([.glBindFramebuffer pass.tonemapFBO_.id_, .glViewport,
        .glUseProgram pass.tonemapShader_, .glUniform, .glUniform, .glUniform,
        .glActiveTexture 0, .glBindTexture hdrColor.GetID,
        .glActiveTexture 1, .glBindTexture bloom.GetID] ++ pass.DrawFullscreenTriangle)
      match pass.tonemapFBO_.GetColorAttachment 0 with
      | .error e => .error e
      | .ok tone =>
        let gl4 := gl3.run ([.glBindFramebuffer pass.fxaaFBO_.id_,
          .glUseProgram pass.fxaaShader_, .glUniform, .glActiveTexture 0,
          .glBindTexture tone.GetID] ++ pass.DrawFullscreenTriangle ++
          [.glBindFramebuffer 0])
        match pass.fxaaFBO_.GetColorAttachment 0 with
        | .error e => .error e
        | .ok result => .ok (result, gl4)

/-- A GL state used in examples: framebuffer 7 bound, front faces culled, the
depth test off. -/
def frontCullState : GLState := { framebuffer := 7, cullFace := .FRONT, depthTest := false }

/-- A framebuffer used in examples, with one colour attachment. -/
def exampleFramebuffer (id : Nat) : Framebuffer :=
  { id_ := id, colorAttachments_ := [{ id_ := id + 100 }] }

/-- The four passes used in examples. -/
def exampleShadowPass : ShadowPass := { fbo_ := exampleFramebuffer 1, shader_ := 11 }

/-- The geometry pass used in examples. -/
def exampleGeometryPass : GeometryPass := { fbo_ := exampleFramebuffer 2, shader_ := 12 }

/-- The lighting pass used in examples. -/
def exampleLightingPass : LightingPass :=
  { fbo_ := exampleFramebuffer 3, shader_ := 13, quadVAO_ := 21 }

/-- The post-process pass used in examples. -/
def examplePostProcessPass : PostProcessPass :=
  { bloomA_ := exampleFramebuffer 4, bloomB_ := exampleFramebuffer 5,
    tonemapFBO_ := exampleFramebuffer 6, fxaaFBO_ := exampleFramebuffer 8,
    bloomThresholdShader_ := 14, bloomBlurShader_ := 15, tonemapShader_ := 16,
    fxaaShader_ := 17, quadVAO_ := 22 }

/-! ### core/Frustum.cpp in `float` arithmetic

The definitions above compute with exact rationals. The definitions of this
section compute as the program does, in IEEE-754 binary32: every operation
rounds its exact result to the nearest `float` (ties to even), overflows to an
infinity, and propagates NaN. The two zeros are not told apart: the code of
`Frustum.cpp` never divides by zero and never inspects the sign of a zero. No
two operations are fused.

The glm operations are taken in the order glm evaluates them: the product of a
`mat4` and a `vec4` is `(m[0] * v.x + m[1] * v.y) + (m[2] * v.z + m[3] * v.w)`
on whole columns, `glm::length` is `sqrt(dot(v, v))` with the three products of
the dot product summed from the left, and `p /= len` divides each component. -/

namespace binary32

/-- A value of the C++ type `float`: the finite value `m * 2 ^ e`, an infinity
with its sign, or NaN. -/
inductive F32 where
  | finite (m : Int) (e : Int)
  | inf (negative : Bool)
  | nan
  deriving DecidableEq

/-- The number of binary digits of `n`, by halving; the first argument bounds
the number of halvings. -/
def bitLength : Nat → Nat → Nat
  | 0, _ => 0
  | fuel + 1, n => if n = 0 then 0 else bitLength fuel (n / 2) + 1

/-- The number of binary digits of `n`. -/
def bits (n : Nat) : Nat := bitLength n n

/-- The quotient of `n` by `2 ^ shift`, rounded to nearest, ties to even. -/
def shiftRound (n shift : Nat) : Nat :=
  if shift = 0 then n
  else
    let q := n / 2 ^ shift
    let r := n % 2 ^ shift
    let half := 2 ^ (shift - 1)
    if r > half ∨ (r = half ∧ q % 2 = 1) then q + 1 else q

/-- The `float` nearest to the real number `m * 2 ^ e`, ties to even: 24
significant bits, exponents of the last bit from -149 (subnormal numbers) on,
and an infinity from `2 ^ 128` on. The result is in normal form: a mantissa of
24 bits, or the exponent -149. -/
def round (m : Int) (e : Int) : F32 :=
  if m = 0 then .finite 0 0
  else
    let n := m.natAbs
    let E : Int := e + (bits n : Int) - 1
    let q : Int := max (E - 23) (-149)
    let r : Nat := if q ≤ e then n * 2 ^ (e - q).toNat else shiftRound n (q - e).toNat
    if r = 0 then .finite 0 0
    else if (bits r : Int) + q > 128 then .inf (decide (m < 0))
    else if r = 16777216 then .finite (if m < 0 then -8388608 else 8388608) (q + 1)
    else .finite (if m < 0 then -(r : Int) else (r : Int)) q

namespace F32

/-- The literal `0.0f`. -/
def zero : F32 := .finite 0 0

/-- The literal `1.0f`. -/
def one : F32 := .finite 8388608 (-23)

/-- The literal `1e-6f`: the `float` nearest to 10^-6. -/
def lengthEpsilon : F32 := .finite 8796093 (-43)

/-- The unary minus. -/
def neg : F32 → F32
  | .finite m e => .finite (-m) e
  | .inf s => .inf (!s)
  | .nan => .nan

/-- The operator `+` on `float`. -/
def add : F32 → F32 → F32
  | .finite m1 e1, .finite m2 e2 =>
    let e := min e1 e2
    round (m1 * 2 ^ (e1 - e).toNat + m2 * 2 ^ (e2 - e).toNat) e
  | .nan, _ => .nan
  | _, .nan => .nan
  | .inf s1, .inf s2 => if s1 = s2 then .inf s1 else .nan
  | .inf s, .finite _ _ => .inf s
  | .finite _ _, .inf s => .inf s

/-- The operator `-` on `float`. -/
def sub (a b : F32) : F32 := a.add b.neg

/-- The operator `*` on `float`. -/
def mul : F32 → F32 → F32
  | .finite m1 e1, .finite m2 e2 => round (m1 * m2) (e1 + e2)
  | .nan, _ => .nan
  | _, .nan => .nan
  | .inf s1, .inf s2 => .inf (s1 != s2)
  | .inf s, .finite m _ => if m = 0 then .nan else .inf (s != decide (m < 0))
  | .finite m _, .inf s => if m = 0 then .nan else .inf (s != decide (m < 0))

/-- The operator `/` on `float`. The quotient of the two mantissas is taken to
at least 30 bits, with one more bit that records a remainder, and rounded. -/
def div : F32 → F32 → F32
  | .finite m1 e1, .finite m2 e2 =>
    if m2 = 0 then (if m1 = 0 then .nan else .inf (decide (m1 < 0)))
    else
      let n1 := m1.natAbs
      let n2 := m2.natAbs
      let k := bits n2 + 30
      let t := n1 * 2 ^ k / n2
      let sticky := if n1 * 2 ^ k % n2 = 0 then 0 else 1
      let mant : Int := (2 * t + sticky : Nat)
      round (if decide (m1 < 0) != decide (m2 < 0) then -mant else mant) (e1 - e2 - k - 1)
  | .nan, _ => .nan
  | _, .nan => .nan
  | .inf _, .inf _ => .nan
  | .inf s, .finite m _ => .inf (s != decide (m < 0))
  | .finite _ _, .inf _ => .finite 0 0

end F32

/-- The bit-by-bit search for the integer square root: with `k` bits left and
the root found so far in `r`. -/
def isqrtAux (n : Nat) : Nat → Nat → Nat
  | 0, r => r
  | k + 1, r =>
    if (r + 2 ^ k) * (r + 2 ^ k) ≤ n then isqrtAux n k (r + 2 ^ k) else isqrtAux n k r

/-- The integer square root: the largest `r` with `r * r ≤ n`. -/
def isqrt (n : Nat) : Nat := isqrtAux n (bits n / 2 + 1) 0

namespace F32

/-- The function `std::sqrt` on `float`, which is correctly rounded: the
integer square root of the mantissa, scaled to more than 30 bits, with one more
bit that records a remainder, and rounded. -/
def sqrt : F32 → F32
  | .finite m e =>
    if m < 0 then .nan
    else if m = 0 then .finite 0 0
    else
      let k : Nat := if (e - 62) % 2 = 0 then 62 else 63
      let n := m.natAbs * 2 ^ k
      let t := isqrt n
      let sticky := if t * t = n then 0 else 1
      round ((2 * t + sticky : Nat) : Int) ((e - k) / 2 - 1)
  | .inf s => if s then .nan else .inf false
  | .nan => .nan

/-- The operator `<` on `float`; a comparison with NaN is false. -/
def lt : F32 → F32 → Bool
  | .finite m1 e1, .finite m2 e2 =>
    let e := min e1 e2
    decide (m1 * 2 ^ (e1 - e).toNat < m2 * 2 ^ (e2 - e).toNat)
  | .nan, _ => false
  | _, .nan => false
  | .inf s1, .inf s2 => s1 && !s2
  | .inf s, .finite _ _ => s
  | .finite _ _, .inf s => !s

/-- The operator `<=` on `float`; a comparison with NaN is false. -/
def le : F32 → F32 → Bool
  | .finite m1 e1, .finite m2 e2 =>
    let e := min e1 e2
    decide (m1 * 2 ^ (e1 - e).toNat ≤ m2 * 2 ^ (e2 - e).toNat)
  | .nan, _ => false
  | _, .nan => false
  | .inf s1, .inf s2 => s1 || !s2
  | .inf s, .finite _ _ => s
  | .finite _ _, .inf s => !s

/-- The operator `>` on `float`. -/
def gt (a b : F32) : Bool := b.lt a

/-- The operator `>=` on `float`. -/
def ge (a b : F32) : Bool := b.le a

/-- Whether the value is a finite number. -/
def isFinite : F32 → Bool
  | .finite _ _ => true
  | _ => false

/-- The rational number a finite value stands for (0 for the others). -/
def toRat : F32 → ℚ
  | .finite m e => (m : ℚ) * (2 : ℚ) ^ e
  | _ => 0

end F32

/-- The type `glm::vec3`. -/
structure Vec3 where
  x : F32
  y : F32
  z : F32
  deriving DecidableEq

/-- The type `glm::vec4`. -/
structure Vec4 where
  x : F32
  y : F32
  z : F32
  w : F32
  deriving DecidableEq

/-- The type `glm::mat4`, by columns. -/
structure Mat4 where
  c0 : Vec4
  c1 : Vec4
  c2 : Vec4
  c3 : Vec4
  deriving DecidableEq

/-- The struct `AABB`. -/
structure AABB where
  min : Vec3
  max : Vec3
  deriving DecidableEq

/-- The struct `Frustum`: the array `planes`, in the order left, right, bottom,
top, near, far. -/
structure Frustum where
  plane0 : Vec4
  plane1 : Vec4
  plane2 : Vec4
  plane3 : Vec4
  plane4 : Vec4
  plane5 : Vec4
  deriving DecidableEq

/-- The rational vector a `vec3` of finite values stands for. -/
def Vec3.toRat (v : Vec3) : engine.Vec3 := ⟨v.x.toRat, v.y.toRat, v.z.toRat⟩

/-- The rational vector a `vec4` of finite values stands for. -/
def Vec4.toRat (v : Vec4) : engine.Vec4 := ⟨v.x.toRat, v.y.toRat, v.z.toRat, v.w.toRat⟩

/-- The rational matrix a `mat4` of finite values stands for. -/
def Mat4.toRat (m : Mat4) : engine.Mat4 := ⟨m.c0.toRat, m.c1.toRat, m.c2.toRat, m.c3.toRat⟩

/-- The rational box a box of finite values stands for. -/
def AABB.toRat (b : AABB) : engine.AABB := ⟨b.min.toRat, b.max.toRat⟩

/-- All three components are finite. -/
def Vec3.isFinite (v : Vec3) : Bool := v.x.isFinite && v.y.isFinite && v.z.isFinite

/-- All four components are finite. -/
def Vec4.isFinite (v : Vec4) : Bool :=
  v.x.isFinite && v.y.isFinite && v.z.isFinite && v.w.isFinite

/-- The conversion `glm::vec3(v)` of a `vec4`. -/
def Vec4.xyz (v : Vec4) : Vec3 := ⟨v.x, v.y, v.z⟩

/-- The operator `+` of two `vec4`, component by component. -/
def Vec4.add (a b : Vec4) : Vec4 := ⟨a.x.add b.x, a.y.add b.y, a.z.add b.z, a.w.add b.w⟩

/-- The operator `-` of two `vec4`, component by component. -/
def Vec4.sub (a b : Vec4) : Vec4 := ⟨a.x.sub b.x, a.y.sub b.y, a.z.sub b.z, a.w.sub b.w⟩

/-- The operator `*` of two `vec4`, component by component. -/
def Vec4.mul (a b : Vec4) : Vec4 := ⟨a.x.mul b.x, a.y.mul b.y, a.z.mul b.z, a.w.mul b.w⟩

/-- The operator `/=` of a `vec4` and a scalar: every component is divided. -/
def Vec4.divScalar (a : Vec4) (s : F32) : Vec4 := ⟨a.x.div s, a.y.div s, a.z.div s, a.w.div s⟩

/-- The constructor `vec4(s)`. -/
def Vec4.splat (s : F32) : Vec4 := ⟨s, s, s, s⟩

/-- The product `m * v` as glm computes it:
`(m[0] * v.x + m[1] * v.y) + (m[2] * v.z + m[3] * v.w)` on whole columns. -/
def Mat4.mulVec (m : Mat4) (v : Vec4) : Vec4 :=
  let Mul0 := m.c0.mul (Vec4.splat v.x)
  let Mul1 := m.c1.mul (Vec4.splat v.y)
  let Add0 := Mul0.add Mul1
  let Mul2 := m.c2.mul (Vec4.splat v.z)
  let Mul3 := m.c3.mul (Vec4.splat v.w)
  let Add1 := Mul2.add Mul3
  Add0.add Add1

/-- The lambda `row` of `FromViewProjection`. -/
def Mat4.row (vp : Mat4) : Nat → Vec4
  | 0 => ⟨vp.c0.x, vp.c1.x, vp.c2.x, vp.c3.x⟩
  | 1 => ⟨vp.c0.y, vp.c1.y, vp.c2.y, vp.c3.y⟩
  | 2 => ⟨vp.c0.z, vp.c1.z, vp.c2.z, vp.c3.z⟩
  | _ => ⟨vp.c0.w, vp.c1.w, vp.c2.w, vp.c3.w⟩

/-- The function `glm::dot` of a `vec3` with itself: the three products, summed
from the left. -/
def Vec3.dotSelf (v : Vec3) : F32 := ((v.x.mul v.x).add (v.y.mul v.y)).add (v.z.mul v.z)

/-- The function `glm::length` of a `vec3`: `sqrt(dot(v, v))`. -/
def Vec3.length (v : Vec3) : F32 := v.dotSelf.sqrt

/-- The body of the normalising loop of `FromViewProjection`:
`len = length(vec3(p)); if (len > 1e-6f) p /= len`. -/
def normalizePlane (p : Vec4) : Vec4 :=
  let len := p.xyz.length
  if len.gt F32.lengthEpsilon then p.divScalar len else p

/-- The six planes of `FromViewProjection` before the normalising loop. -/
def rowPlanes (vp : Mat4) : List Vec4 :=
  [(vp.row 3).add (vp.row 0), (vp.row 3).sub (vp.row 0),
   (vp.row 3).add (vp.row 1), (vp.row 3).sub (vp.row 1),
   (vp.row 3).add (vp.row 2), (vp.row 3).sub (vp.row 2)]

/-- The function `Frustum::FromViewProjection`. -/
def Frustum.FromViewProjection (vp : Mat4) : Frustum :=
  let r0 := vp.row 0
  let r1 := vp.row 1
  let r2 := vp.row 2
  let r3 := vp.row 3
  { plane0 := normalizePlane (r3.add r0)
    plane1 := normalizePlane (r3.sub r0)
    plane2 := normalizePlane (r3.add r1)
    plane3 := normalizePlane (r3.sub r1)
    plane4 := normalizePlane (r3.add r2)
    plane5 := normalizePlane (r3.sub r2) }

/-- The member `Frustum::planes`, as the sequence a range-for visits. -/
def Frustum.planes (f : Frustum) : List Vec4 :=
  [f.plane0, f.plane1, f.plane2, f.plane3, f.plane4, f.plane5]

/-- The expression `p.x * c.x + p.y * c.y + p.z * c.z + p.w` of the plane
tests: three products, summed from the left. -/
def planeDistance (p : Vec4) (c : Vec3) : F32 :=
  (((p.x.mul c.x).add (p.y.mul c.y)).add (p.z.mul c.z)).add p.w

/-- The corner loop of `ContainsAABB`: the value of `allOutside` after it. -/
def allOutside (p : Vec4) : List Vec3 → Bool
  | [] => true
  | c :: cs => if (planeDistance p c).ge F32.zero then false else allOutside p cs

/-- The plane loop of `ContainsAABB`. -/
def planeLoop (corners : List Vec3) : List Vec4 → Bool
  | [] => true
  | p :: ps => if allOutside p corners then false else planeLoop corners ps

/-- The world-space image of a local point as the code computes it:
`vec3(model * vec4(x, y, z, 1.0f))`. -/
def worldPoint (model : Mat4) (p : Vec3) : Vec3 :=
  (model.mulVec ⟨p.x, p.y, p.z, F32.one⟩).xyz

/-- Corner `i` of the corner loop of `ContainsAABB`. -/
def boxCorner (aabb : AABB) (model : Mat4) (i : Nat) : Vec3 :=
  worldPoint model
    ⟨if i &&& 1 ≠ 0 then aabb.max.x else aabb.min.x,
     if i &&& 2 ≠ 0 then aabb.max.y else aabb.min.y,
     if i &&& 4 ≠ 0 then aabb.max.z else aabb.min.z⟩

/-- The method `Frustum::ContainsAABB`. -/
def Frustum.ContainsAABB (f : Frustum) (aabb : AABB) (model : Mat4) : Bool :=
  let corners := (List.range 8).map (boxCorner aabb model)
  planeLoop corners f.planes

/-- The matrix `glm::mat4(1.0f)`. -/
def identity : Mat4 :=
  ⟨⟨F32.one, F32.zero, F32.zero, F32.zero⟩, ⟨F32.zero, F32.one, F32.zero, F32.zero⟩,
   ⟨F32.zero, F32.zero, F32.one, F32.zero⟩, ⟨F32.zero, F32.zero, F32.zero, F32.one⟩⟩

/-- A plane used in examples: `(0, 0, 0, 1)`, at distance 1 from every point. -/
def farPlane : Vec4 := ⟨F32.zero, F32.zero, F32.zero, F32.one⟩

/-- A frustum used in examples: all six planes are `(0, 0, 0, 1)`. -/
def openFrustum : Frustum :=
  { plane0 := farPlane, plane1 := farPlane, plane2 := farPlane, plane3 := farPlane,
    plane4 := farPlane, plane5 := farPlane }

/-- A model matrix used in examples: the scaling by `2^127` along `x`. -/
def hugeModel : Mat4 :=
  { identity with c0 := ⟨.finite 1 127, F32.zero, F32.zero, F32.zero⟩ }

/-- A box used in examples: from `(4, 0, 0)` to `(8, 0, 0)`. -/
def farBox : AABB :=
  { min := ⟨.finite 4 0, F32.zero, F32.zero⟩, max := ⟨.finite 8 0, F32.zero, F32.zero⟩ }

/-- A box used in examples: the cube from `(0, 0, 0)` to `(1, 1, 1)`. -/
def unitBox : AABB :=
  { min := ⟨F32.zero, F32.zero, F32.zero⟩, max := ⟨F32.one, F32.one, F32.one⟩ }

/-- A view-projection matrix used in examples: its rows are
`(1 - 2^-20, 0, 0, 0)`, `(0, 1, 0, 0)`, `(0, 0, 1, 0)` and `(1, 0, 0, 1)`. -/
def thinViewProjection : Mat4 :=
  { c0 := ⟨.finite 1048575 (-20), F32.zero, F32.zero, F32.one⟩
    c1 := ⟨F32.zero, F32.one, F32.zero, F32.zero⟩
    c2 := ⟨F32.zero, F32.zero, F32.one, F32.zero⟩
    c3 := ⟨F32.zero, F32.zero, F32.zero, F32.one⟩ }

/-- A view-projection matrix used in examples: its rows are `(3, 4, 0, 0)`,
`(0, 1, 0, 0)`, `(0, 0, 1, 0)` and `(0, 0, 0, 1)`. -/
def obliqueViewProjection : Mat4 :=
  { c0 := ⟨.finite 3 0, F32.zero, F32.zero, F32.zero⟩
    c1 := ⟨.finite 4 0, F32.one, F32.zero, F32.zero⟩
    c2 := ⟨F32.zero, F32.zero, F32.one, F32.zero⟩
    c3 := ⟨F32.zero, F32.zero, F32.zero, F32.one⟩ }

/-- The squared length of the normal of a plane, as a rational number. -/
def normalSq (p : Vec4) : ℚ := engine.Vec3.dot p.xyz.toRat p.xyz.toRat

/-- A view-projection matrix used in examples: its rows are `(2^100, 0, 0, 0)`,
`(0, 1, 0, 0)`, `(0, 0, 1, 0)` and `(0, 0, 0, 1)`. -/
def hugeViewProjection : Mat4 :=
  { c0 := ⟨.finite 1 100, F32.zero, F32.zero, F32.zero⟩
    c1 := ⟨F32.zero, F32.one, F32.zero, F32.zero⟩
    c2 := ⟨F32.zero, F32.zero, F32.one, F32.zero⟩
    c3 := ⟨F32.zero, F32.zero, F32.zero, F32.one⟩ }

/-- The unit roundoff of `float`: 2^-24, half the distance from 1 to the next
`float`. -/
def unitRoundoff : ℚ := 1 / 2 ^ 24

/-- Half the distance between two subnormal `float` values: 2^-150. -/
def underflowUnit : ℚ := 1 / 2 ^ 150

/-- The relative error bound of the division: the rounding error 2^-24 and the
error of the quotient of the mantissas, below 2^-30. -/
def divisionError : ℚ := 1 / 2 ^ 24 + 1 / 2 ^ 30

/-- All sixteen entries are finite. -/
def Mat4.isFinite (m : Mat4) : Bool :=
  m.c0.isFinite && m.c1.isFinite && m.c2.isFinite && m.c3.isFinite

/-- All six coordinates are finite. -/
def AABB.isFinite (b : AABB) : Bool := b.min.isFinite && b.max.isFinite

/-- All six planes are finite. -/
def Frustum.isFinite (f : Frustum) : Bool := f.planes.all Vec4.isFinite

end binary32

/-! ## Theorems -/

namespace HandlePool

variable {T : Type}

/-- Validity of a handle, spelled out on the slot it names. -/
theorem isValid_iff (p : HandlePool T) (h : Handle) :
    p.IsValid h = true ↔
      ∃ s, p.slots_[h.index]? = some s ∧ s.occupied = true ∧ s.generation = h.generation := by
  unfold IsValid
  cases hs : p.slots_[h.index]? with
  | none => simp
  | some s => cases ho : s.occupied <;> simp [ho]

/-- A handle whose slot is not occupied is invalid. -/
theorem isValid_false_of_unoccupied (p : HandlePool T) (h : Handle) (s : Slot T)
    (hs : p.slots_[h.index]? = some s) (ho : s.occupied = false) : p.IsValid h = false := by
  simp [IsValid, hs, ho]

/-- What `Insert` does when the free list is not empty. -/
theorem insert_reuse (p : HandlePool T) (v : T) (idx : Nat) (s : Slot T)
    (hf : p.freeList_.getLast? = some idx) (hs : p.slots_[idx]? = some s) :
    p.Insert v = .ok ({ index := idx, generation := s.generation },
      { slots_ := p.slots_.set idx { s with value := v, occupied := true },
        freeList_ := p.freeList_.dropLast }) := by
  have hlt : idx < p.slots_.length := (List.getElem?_eq_some_iff.mp hs).1
  simp [Insert, hf, hs, List.getElem?_set, hlt]

/-- What `Insert` does when the free list is empty and the slot count still
fits the 32-bit index. -/
theorem insert_push (p : HandlePool T) (v : T) (hf : p.freeList_ = [])
    (hlen : p.slots_.length < 4294967296) :
    p.Insert v = .ok ({ index := p.slots_.length, generation := 0 },
      { slots_ := p.slots_ ++ [{ value := v, generation := 0, occupied := true }],
        freeList_ := [] }) := by
  simp [Insert, hf, Nat.mod_eq_of_lt hlen]

/-- With an empty free list `Insert` always returns, and appends one slot. -/
theorem insert_push_slots (p : HandlePool T) (v : T) (hf : p.freeList_ = []) :
    ∃ h, p.Insert v = .ok (h,
      { slots_ := p.slots_ ++ [{ value := v, generation := 0, occupied := true }],
        freeList_ := [] }) := by
  have hlt : p.slots_.length % 4294967296 <
      (p.slots_ ++ [({ value := v, generation := 0, occupied := true } : Slot T)]).length := by
    have := Nat.mod_le p.slots_.length 4294967296
    simp
    omega
  obtain ⟨s', hs'⟩ : ∃ s', (p.slots_ ++
      [({ value := v, generation := 0, occupied := true } : Slot T)])[
        p.slots_.length % 4294967296]? = some s' :=
    ⟨_, List.getElem?_eq_getElem hlt⟩
  refine ⟨{ index := p.slots_.length % 4294967296, generation := s'.generation }, ?_⟩
  simp only [Insert, hf, List.getLast?_nil]
  rw [hs']

/-- The default-constructed pool is well formed. -/
theorem wf_empty : (empty : HandlePool T).WF := by
  simp [WF, empty]

/-- `Insert` keeps the pool well formed. -/
theorem wf_insert (p p' : HandlePool T) (v : T) (h : Handle) (hwf : p.WF)
    (hi : p.Insert v = .ok (h, p')) : p'.WF := by
  obtain ⟨hnd, hfree⟩ := hwf
  cases hf : p.freeList_.getLast? with
  | none =>
    have hnil : p.freeList_ = [] := List.getLast?_eq_none_iff.mp hf
    obtain ⟨h', hh'⟩ := insert_push_slots p v hnil
    rw [hh'] at hi
    injection hi with hi
    injection hi with _ hp
    subst hp
    simp [WF]
  | some idx =>
    have hmem : idx ∈ p.freeList_ := List.mem_of_getLast?_eq_some hf
    obtain ⟨s, hs, -⟩ := hfree idx hmem
    rw [insert_reuse p v idx s hf hs] at hi
    injection hi with hi
    injection hi with _ hp
    subst hp
    have hsplit : p.freeList_.dropLast ++ [idx] = p.freeList_ :=
      List.dropLast_append_getLast? idx hf
    have hnd' : (p.freeList_.dropLast ++ [idx]).Nodup := by rw [hsplit]; exact hnd
    rw [List.nodup_append] at hnd'
    refine ⟨hnd'.1, ?_⟩
    intro i hi'
    have hne : idx ≠ i := by
      rintro rfl
      exact hnd'.2.2 hi' (by simp)
    obtain ⟨t, ht, hto⟩ := hfree i (List.mem_of_mem_dropLast hi')
    exact ⟨t, by simp [List.getElem?_set, hne, ht], hto⟩

/-- `Remove` keeps the pool well formed. -/
theorem wf_remove (p p' : HandlePool T) (h : Handle) (hwf : p.WF)
    (hr : p.Remove h = .ok p') : p'.WF := by
  obtain ⟨hnd, hfree⟩ := hwf
  cases hv : p.IsValid h with
  | false => simp [Remove, hv] at hr
  | true =>
    obtain ⟨s, hs, hocc, -⟩ := (isValid_iff p h).mp hv
    have hlt : h.index < p.slots_.length := (List.getElem?_eq_some_iff.mp hs).1
    simp only [Remove, hv, hs, if_true] at hr
    injection hr with hp
    subst hp
    have hnot : h.index ∉ p.freeList_ := by
      intro hmem
      obtain ⟨t, ht, hto⟩ := hfree _ hmem
      rw [hs] at ht
      injection ht with ht
      subst ht
      rw [hocc] at hto
      exact Bool.noConfusion hto
    refine ⟨?_, ?_⟩
    · rw [List.nodup_append]
      refine ⟨hnd, by simp, ?_⟩
      intro a ha hb
      rw [List.mem_singleton] at hb
      subst hb
      exact hnot ha
    · intro i hi
      rw [List.mem_append, List.mem_singleton] at hi
      rcases hi with hi | rfl
      · have hne : h.index ≠ i := by
          rintro rfl
          exact hnot hi
        obtain ⟨t, ht, hto⟩ := hfree i hi
        exact ⟨t, by simp [List.getElem?_set, hne, ht], hto⟩
      · exact ⟨{ s with occupied := false, generation := (s.generation + 1) % 4294967296 },
          by simp [List.getElem?_set, hlt], rfl⟩

/-- One client call keeps the pool well formed. -/
theorem wf_step (p p' : HandlePool T) (op : PoolOp T) (hwf : p.WF)
    (hs : p.step op = .ok p') : p'.WF := by
  cases op with
  | insert v =>
    simp only [step] at hs
    cases hi : p.Insert v with
    | error e => simp [hi] at hs
    | ok r =>
      simp only [hi] at hs
      injection hs with hs
      subst hs
      exact wf_insert p r.2 v r.1 hwf hi
  | remove h => exact wf_remove p p' h hwf hs

/-- A run of client calls keeps the pool well formed. -/
theorem wf_run (ops : List (PoolOp T)) : ∀ (p p' : HandlePool T), p.WF →
    p.run ops = .ok p' → p'.WF := by
  induction ops with
  | nil =>
    intro p p' hwf hr
    simp only [run] at hr
    injection hr with hr
    subst hr
    exact hwf
  | cons op ops ih =>
    intro p p' hwf hr
    simp only [run] at hr
    cases hs : p.step op with
    | error e => simp [hs] at hr
    | ok q =>
      simp only [hs] at hr
      exact ih q p' (wf_step p q op hwf hs) hr

/-- Every reachable pool is well formed. -/
theorem reachable_wf (p : HandlePool T) (hr : p.Reachable) : p.WF := by
  obtain ⟨ops, hops⟩ := hr
  exact wf_run ops empty p wf_empty hops

/-- C2: for every pool and every handle valid in it, `Remove` returns, and in
the pool it leaves the handle is reported invalid, `Get` dies on the
invalid-handle assertion and so does a second `Remove`. -/
theorem remove_then_invalid (p : HandlePool T) (h : Handle) (hv : p.IsValid h = true) :
    ∃ p', p.Remove h = .ok p' ∧ p'.IsValid h = false ∧
      p'.Get h = .error .assertFailed ∧ p'.Remove h = .error .assertFailed := by
  obtain ⟨s, hs, -, -⟩ := (isValid_iff p h).mp hv
  have hlt : h.index < p.slots_.length := (List.getElem?_eq_some_iff.mp hs).1
  have hinv : IsValid
      { slots_ := p.slots_.set h.index
          { s with occupied := false, generation := (s.generation + 1) % 4294967296 },
        freeList_ := p.freeList_ ++ [h.index] } h = false := by
    simp [IsValid, List.getElem?_set, hlt]
  refine ⟨_, ?_, hinv, ?_, ?_⟩
  · simp [Remove, hv, hs]
  · simp [Get, hinv]
  · simp [Remove, hinv]

/-- A witness for C2: the handle of a one-element pool, removed. -/
theorem remove_then_invalid_witness :
    ∃ p', ({ slots_ := [{ value := 7, generation := 0, occupied := true }], freeList_ := [] } :
        HandlePool Nat).Remove { index := 0, generation := 0 } = .ok p' ∧
      p'.IsValid { index := 0, generation := 0 } = false ∧
      p'.Get { index := 0, generation := 0 } = .error .assertFailed ∧
      p'.Remove { index := 0, generation := 0 } = .error .assertFailed :=
  remove_then_invalid _ _ (by decide)

/-- A handle is judged, and read, through its own slot only. -/
theorem isValid_get_congr (p p' : HandlePool T) (h : Handle)
    (heq : p'.slots_[h.index]? = p.slots_[h.index]?) :
    p'.IsValid h = p.IsValid h ∧ p'.Get h = p.Get h := by
  have hv : p'.IsValid h = p.IsValid h := by simp [IsValid, heq]
  exact ⟨hv, by simp [Get, hv, heq]⟩

/-- A run of two sequences of calls, one after the other: when the first
returns the pool `q`, the whole run is the run of the second from `q`. -/
theorem run_append_ok (a b : List (PoolOp T)) : ∀ (p q : HandlePool T),
    p.run a = .ok q → p.run (a ++ b) = q.run b := by
  induction a with
  | nil =>
    intro p q h
    simp only [run] at h
    injection h with h
    subst h
    rfl
  | cons op a ih =>
    intro p q h
    simp only [run, List.cons_append] at h ⊢
    cases hs : p.step op with
    | error e => simp [hs] at h
    | ok r =>
      simp only [hs] at h ⊢
      exact ih r q h

/-- The pool after `n` calls `Insert(0)` is `filledPool n`. -/
theorem run_inserts (n : Nat) : ∀ m : Nat,
    (filledPool m).run (List.replicate n (PoolOp.insert 0)) = .ok (filledPool (m + n)) := by
  induction n with
  | zero => intro m; rfl
  | succ n ih =>
    intro m
    obtain ⟨h, hh⟩ := insert_push_slots (filledPool m) 0 rfl
    have hstep : (filledPool m).step (PoolOp.insert 0) = .ok (filledPool (m + 1)) := by
      simp only [step, hh]
      simp only [filledPool, List.replicate_succ']
      rfl
    rw [List.replicate_succ]
    simp only [run, hstep]
    rw [ih (m + 1)]
    congr 2
    omega

/-- Every `filledPool n` is reachable. -/
theorem filledPool_reachable (n : Nat) : (filledPool n).Reachable := by
  refine ⟨List.replicate n (PoolOp.insert 0), ?_⟩
  have h := run_inserts n 0
  rw [Nat.zero_add] at h
  exact h

/-- On a pool of `n` slots, `n` a positive multiple of 2^32, `Insert(v)` hands
out the handle of slot 0, and `Get` of that handle reads the old value 0. -/
theorem insert_wrapped (n v : Nat) (hpos : 0 < n) (hmod : n % 4294967296 = 0) :
    ∃ p', (filledPool n).Insert v = .ok ({ index := 0, generation := 0 }, p') ∧
      p'.IsValid { index := 0, generation := 0 } = true ∧
      p'.Get { index := 0, generation := 0 } = .ok 0 := by
  have h0 : (List.replicate n freshSlot ++
      [({ value := v, generation := 0, occupied := true } : Slot Nat)])[0]? = some freshSlot := by
    rw [List.getElem?_append_left (by simpa using hpos)]
    exact List.getElem?_replicate_of_lt hpos
  refine ⟨{ slots_ := List.replicate n freshSlot ++
      [{ value := v, generation := 0, occupied := true }], freeList_ := [] }, ?_, ?_, ?_⟩
  · simp only [Insert, filledPool, List.getLast?_nil, List.length_replicate, hmod]
    rw [h0]
    rfl
  · simp only [IsValid]
    rw [h0]
    rfl
  · simp only [Get, IsValid]
    rw [h0]
    rfl

/-- C1, as written, fails on a pool of 2^32 slots (reached by 2^32 calls
`Insert(0)`): the slot count no longer fits the 32-bit index, `Insert(1)`
returns the handle `{0, 0}` of the first slot, and `Get` of it yields 0, not 1. -/
theorem insert_get_wraps_at_full_index :
    (filledPool 4294967296).Reachable ∧
      ∃ p', (filledPool 4294967296).Insert 1 = .ok ({ index := 0, generation := 0 }, p') ∧
        p'.IsValid { index := 0, generation := 0 } = true ∧
        p'.Get { index := 0, generation := 0 } = .ok 0 ∧
        p'.Get { index := 0, generation := 0 } ≠ .ok 1 := by
  refine ⟨filledPool_reachable 4294967296, ?_⟩
  obtain ⟨p', h1, h2, h3⟩ := insert_wrapped 4294967296 1 (by decide) (by decide)
  refine ⟨p', h1, h2, h3, ?_⟩
  rw [h3]
  intro h
  injection h with h
  exact absurd h (by decide)

/-- C1 (amended): in every reachable pool whose slot count fits the 32-bit
index (fewer than 2^32 slots), `Insert(v)` returns a handle that the pool
reports valid and through which `Get` returns `v`. -/
theorem insert_get_roundtrip (p : HandlePool T) (v : T) (hr : p.Reachable)
    (hlen : p.slots_.length < 4294967296) :
    ∃ h p', p.Insert v = .ok (h, p') ∧ p'.IsValid h = true ∧ p'.Get h = .ok v := by
  obtain ⟨-, hfree⟩ := reachable_wf p hr
  cases hf : p.freeList_.getLast? with
  | none =>
    have hnil : p.freeList_ = [] := List.getLast?_eq_none_iff.mp hf
    refine ⟨_, _, insert_push p v hnil hlen, ?_⟩
    have hv : IsValid (T := T)
        ⟨p.slots_ ++ [{ value := v, generation := 0, occupied := true }], []⟩
        ⟨p.slots_.length, 0⟩ = true := by
      simp [IsValid]
    exact ⟨hv, by simp [Get, hv]⟩
  | some idx =>
    obtain ⟨s, hs, -⟩ := hfree idx (List.mem_of_getLast?_eq_some hf)
    have hlt : idx < p.slots_.length := (List.getElem?_eq_some_iff.mp hs).1
    refine ⟨_, _, insert_reuse p v idx s hf hs, ?_⟩
    have hv : IsValid (T := T)
        ⟨p.slots_.set idx { s with value := v, occupied := true }, p.freeList_.dropLast⟩
        ⟨idx, s.generation⟩ = true := by
      simp [IsValid, List.getElem?_set, hlt]
    exact ⟨hv, by simp [Get, hv, List.getElem?_set, hlt]⟩

/-- A witness for C1 (amended): `Insert(5)` on the pool left by `Insert(0)`. -/
theorem insert_get_roundtrip_witness :
    onePool.Reachable ∧ onePool.slots_.length < 4294967296 ∧
      ∃ h p', onePool.Insert 5 = .ok (h, p') ∧ p'.IsValid h = true ∧ p'.Get h = .ok 5 :=
  ⟨⟨[PoolOp.insert 0], rfl⟩, by decide,
    insert_get_roundtrip onePool 5 ⟨[PoolOp.insert 0], rfl⟩ (by decide)⟩

/-- `Insert` leaves every existing slot in place, with its generation. -/
theorem insert_keeps_generation (p p' : HandlePool T) (v : T) (g : Handle)
    (hi : p.Insert v = .ok (g, p')) (i : Nat) (s : Slot T) (hs : p.slots_[i]? = some s) :
    ∃ s', p'.slots_[i]? = some s' ∧ s'.generation = s.generation := by
  have hlt : i < p.slots_.length := (List.getElem?_eq_some_iff.mp hs).1
  cases hf : p.freeList_.getLast? with
  | none =>
    have hnil : p.freeList_ = [] := List.getLast?_eq_none_iff.mp hf
    obtain ⟨h', hh'⟩ := insert_push_slots p v hnil
    rw [hh'] at hi
    injection hi with hi
    injection hi with _ hp
    subst hp
    exact ⟨s, by simp [List.getElem?_append_left hlt, hs], rfl⟩
  | some idx =>
    cases ht : p.slots_[idx]? with
    | none => simp [Insert, hf, ht] at hi
    | some t =>
      rw [insert_reuse p v idx t hf ht] at hi
      injection hi with hi
      injection hi with _ hp
      subst hp
      by_cases hidx : idx = i
      · subst hidx
        rw [hs] at ht
        injection ht with ht
        subst ht
        exact ⟨{ s with value := v, occupied := true }, by simp [List.getElem?_set, hlt], rfl⟩
      · exact ⟨s, by simp [List.getElem?_set, hidx, hs], rfl⟩

/-- One client call leaves every existing slot in place; its generation moves
exactly when the call removes a handle of that slot, and then by one, mod 2^32. -/
theorem step_generation (p p' : HandlePool T) (op : PoolOp T) (hstep : p.step op = .ok p')
    (i : Nat) (s : Slot T) (hs : p.slots_[i]? = some s) :
    ∃ s', p'.slots_[i]? = some s' ∧
      s'.generation =
        if removesSlot i op then (s.generation + 1) % 4294967296 else s.generation := by
  have hlt : i < p.slots_.length := (List.getElem?_eq_some_iff.mp hs).1
  cases op with
  | insert v =>
    simp only [step] at hstep
    cases hi : p.Insert v with
    | error e => simp [hi] at hstep
    | ok r =>
      simp only [hi] at hstep
      injection hstep with hstep
      subst hstep
      obtain ⟨s', h1, h2⟩ := insert_keeps_generation p r.2 v r.1 hi i s hs
      exact ⟨s', h1, by simp [removesSlot, h2]⟩
  | remove h =>
    simp only [step] at hstep
    cases hv : p.IsValid h with
    | false => simp [Remove, hv] at hstep
    | true =>
      obtain ⟨t, ht, -, -⟩ := (isValid_iff p h).mp hv
      simp only [Remove, hv, ht, if_true] at hstep
      injection hstep with hp
      subst hp
      by_cases hidx : h.index = i
      · rw [hidx] at ht
        rw [hs] at ht
        injection ht with ht
        subst ht
        exact ⟨{ s with occupied := false, generation := (s.generation + 1) % 4294967296 },
          by simp [List.getElem?_set, hidx, hlt], by simp [removesSlot, hidx]⟩
      · exact ⟨s, by simp [List.getElem?_set, hidx, hs], by simp [removesSlot, hidx]⟩

/-- Over a run, the generation of a slot advances by the number of successful
removals of that slot, mod 2^32, and that number is at most the number of
`Remove` calls naming the slot. -/
theorem run_generation (ops : List (PoolOp T)) : ∀ (p p' : HandlePool T) (i : Nat) (s : Slot T),
    p.run ops = .ok p' → p.slots_[i]? = some s → s.generation < 4294967296 →
    ∃ s' k, p'.slots_[i]? = some s' ∧ k = ops.countP (removesSlot i) ∧
      s'.generation = (s.generation + k) % 4294967296 := by
  induction ops with
  | nil =>
    intro p p' i s hr hs hg
    simp only [run] at hr
    injection hr with hr
    subst hr
    exact ⟨s, 0, hs, by simp, by simp [Nat.mod_eq_of_lt hg]⟩
  | cons op ops ih =>
    intro p p' i s hr hs hg
    simp only [run] at hr
    cases hstep : p.step op with
    | error e => simp [hstep] at hr
    | ok q =>
      simp only [hstep] at hr
      obtain ⟨t, ht, htg⟩ := step_generation p q op hstep i s hs
      have htlt : t.generation < 4294967296 := by
        rw [htg]
        split
        · exact Nat.mod_lt _ (by decide)
        · exact hg
      obtain ⟨s', k, hs', hk, hgen⟩ := ih q p' i t hr ht htlt
      refine ⟨s', _, hs', rfl, ?_⟩
      rw [hgen, htg, List.countP_cons, ← hk]
      cases hrem : removesSlot i op
      · simp
      · simp only [if_true]
        omega

/-- One round of `churn` on the one-slot pool: the slot is free again and its
generation has advanced by one, mod 2^32. -/
theorem churn_run (n : Nat) : ∀ (g v : Nat), g < 4294967296 →
    ∃ v', (HandlePool.mk [{ value := v, generation := g, occupied := false }] [0]).run (churn g n) =
      .ok (HandlePool.mk [{ value := v', generation := (g + n) % 4294967296, occupied := false }]
        [0]) := by
  induction n with
  | zero =>
    intro g v hg
    exact ⟨v, by simp [churn, run, Nat.mod_eq_of_lt hg]⟩
  | succ n ih =>
    intro g v hg
    obtain ⟨v', hv'⟩ := ih ((g + 1) % 4294967296) 0 (Nat.mod_lt _ (by decide))
    refine ⟨v', ?_⟩
    have h1 : (HandlePool.mk [({ value := v, generation := g, occupied := false } : Slot Nat)]
        [0]).step (PoolOp.insert 0) =
        .ok (HandlePool.mk [{ value := 0, generation := g, occupied := true }] []) := by
      simp [step, Insert]
    have h2 : (HandlePool.mk [({ value := 0, generation := g, occupied := true } : Slot Nat)]
        []).step (PoolOp.remove { index := 0, generation := g }) =
        .ok (HandlePool.mk
          [{ value := 0, generation := (g + 1) % 4294967296, occupied := false }] [0]) := by
      simp [step, Remove, IsValid]
    have hmod : ((g + 1) % 4294967296 + n) % 4294967296 = (g + (n + 1)) % 4294967296 := by
      omega
    rw [hmod] at hv'
    simp only [churn, run, h1, h2, hv']

/-- C3, as written, fails once the 32-bit generation has wrapped: the handle
`{0, 0}` of the pool left by one `Insert(0)` is removed; after 2^32 - 1 rounds of
"`Insert`, then `Remove` of the fresh handle" and one more `Insert`, the slot is
occupied at generation 0 again and the removed handle is reported valid. -/
theorem removed_handle_valid_after_wrap :
    onePool.Reachable ∧ onePool.IsValid { index := 0, generation := 0 } = true ∧
      ∃ p1 p2, onePool.Remove { index := 0, generation := 0 } = .ok p1 ∧
        p1.run (churn 1 4294967295 ++ [PoolOp.insert 0]) = .ok p2 ∧
        p2.IsValid { index := 0, generation := 0 } = true := by
  refine ⟨⟨[PoolOp.insert 0], rfl⟩, rfl, ?_⟩
  obtain ⟨v', hv'⟩ := churn_run 4294967295 1 0 (by decide)
  have hmod : (1 + 4294967295) % 4294967296 = 0 := by decide
  rw [hmod] at hv'
  refine ⟨HandlePool.mk [{ value := 0, generation := 1, occupied := false }] [0],
    HandlePool.mk [{ value := 0, generation := 0, occupied := true }] [], rfl, ?_, rfl⟩
  rw [run_append_ok _ _ _ _ hv']
  simp [run, step, Insert]

/-- C3 (amended): after `Remove(h)` of a valid handle, `h` is invalid in every
state reached by a sequence of `Insert` and `Remove` calls that removes handles
of the slot of `h` fewer than 2^32 - 1 times, whether or not the slot has been
reused; each `Remove` advances the slot's 32-bit generation by one, mod 2^32. -/
theorem removed_handle_stays_invalid (p p1 p2 : HandlePool T) (h : Handle)
    (ops : List (PoolOp T)) (hv : p.IsValid h = true) (hrem : p.Remove h = .ok p1)
    (hrun : p1.run ops = .ok p2) (hcount : ops.countP (removesSlot h.index) < 4294967295) :
    p2.IsValid h = false := by
  obtain ⟨s, hs, -, hgen⟩ := (isValid_iff p h).mp hv
  have hlt : h.index < p.slots_.length := (List.getElem?_eq_some_iff.mp hs).1
  simp only [Remove, hv, hs, if_true] at hrem
  injection hrem with hp
  subst hp
  obtain ⟨s', k, hs', hk, hg'⟩ := run_generation ops _ p2 h.index
    { s with occupied := false, generation := (s.generation + 1) % 4294967296 } hrun
    (by simp [List.getElem?_set, hlt]) (Nat.mod_lt _ (by decide))
  cases hval : p2.IsValid h with
  | false => rfl
  | true =>
    obtain ⟨t, ht, -, htg⟩ := (isValid_iff p2 h).mp hval
    rw [hs'] at ht
    injection ht with ht
    subst ht
    simp only at hg'
    rw [← hk] at hcount
    omega

/-- A witness for C3 (amended): the handle `{0, 0}` stays invalid while its
slot is reused and removed once more. -/
theorem removed_handle_stays_invalid_witness :
    onePool.IsValid { index := 0, generation := 0 } = true ∧
      (HandlePool.mk [{ value := 9, generation := 2, occupied := false }] [0] :
        HandlePool Nat).IsValid { index := 0, generation := 0 } = false :=
  ⟨rfl, removed_handle_stays_invalid onePool
    (HandlePool.mk [{ value := 0, generation := 1, occupied := false }] [0])
    (HandlePool.mk [{ value := 9, generation := 2, occupied := false }] [0])
    { index := 0, generation := 0 }
    [PoolOp.insert 9, PoolOp.remove { index := 0, generation := 1 }]
    rfl rfl rfl (by decide)⟩

/-- C4: in every reachable pool a valid handle `h` stays valid and keeps its
value across `Insert(v)`, for every `v`, and across `Remove(g)` of every valid
handle `g` other than `h`; both calls return. -/
theorem other_entries_keep_handle (p : HandlePool T) (h : Handle) (hr : p.Reachable)
    (hv : p.IsValid h = true) :
    (∀ v : T, ∃ g p', p.Insert v = .ok (g, p') ∧ p'.IsValid h = true ∧ p'.Get h = p.Get h) ∧
    (∀ g : Handle, p.IsValid g = true → g ≠ h →
      ∃ p', p.Remove g = .ok p' ∧ p'.IsValid h = true ∧ p'.Get h = p.Get h) := by
  obtain ⟨-, hfree⟩ := reachable_wf p hr
  obtain ⟨s, hs, hocc, hgen⟩ := (isValid_iff p h).mp hv
  have hlt : h.index < p.slots_.length := (List.getElem?_eq_some_iff.mp hs).1
  constructor
  · intro v
    cases hf : p.freeList_.getLast? with
    | none =>
      have hnil : p.freeList_ = [] := List.getLast?_eq_none_iff.mp hf
      obtain ⟨g, hg⟩ := insert_push_slots p v hnil
      refine ⟨g, _, hg, ?_⟩
      have hc := isValid_get_congr p
        ⟨p.slots_ ++ [{ value := v, generation := 0, occupied := true }], []⟩ h
        (by simp [List.getElem?_append_left hlt])
      exact ⟨by rw [hc.1]; exact hv, hc.2⟩
    | some idx =>
      obtain ⟨t, ht, hto⟩ := hfree idx (List.mem_of_getLast?_eq_some hf)
      have hne : idx ≠ h.index := by
        rintro rfl
        rw [hs] at ht
        injection ht with ht
        subst ht
        rw [hocc] at hto
        exact Bool.noConfusion hto
      refine ⟨_, _, insert_reuse p v idx t hf ht, ?_⟩
      have hc := isValid_get_congr p
        ⟨p.slots_.set idx { t with value := v, occupied := true }, p.freeList_.dropLast⟩ h
        (by simp [List.getElem?_set, hne])
      exact ⟨by rw [hc.1]; exact hv, hc.2⟩
  · intro g hg hgh
    obtain ⟨t, ht, htocc, htgen⟩ := (isValid_iff p g).mp hg
    have hne : g.index ≠ h.index := by
      intro hidx
      apply hgh
      rw [hidx, hs] at ht
      injection ht with ht
      subst ht
      cases g
      cases h
      simp only at hidx htgen hgen
      subst hidx
      rw [← htgen, ← hgen]
    refine ⟨⟨p.slots_.set g.index
        { t with occupied := false, generation := (t.generation + 1) % 4294967296 },
      p.freeList_ ++ [g.index]⟩, by simp [Remove, hg, ht], ?_⟩
    have hc := isValid_get_congr p
      ⟨p.slots_.set g.index
        { t with occupied := false, generation := (t.generation + 1) % 4294967296 },
      p.freeList_ ++ [g.index]⟩ h (by simp [List.getElem?_set, hne])
    exact ⟨by rw [hc.1]; exact hv, hc.2⟩

/-- A witness for C4: the first handle of a two-element pool. -/
theorem other_entries_keep_handle_witness :
    (filledPool 2).Reachable ∧ (filledPool 2).IsValid { index := 0, generation := 0 } = true ∧
      ((∀ v : Nat, ∃ g p', (filledPool 2).Insert v = .ok (g, p') ∧
          p'.IsValid { index := 0, generation := 0 } = true ∧
          p'.Get { index := 0, generation := 0 } =
            (filledPool 2).Get { index := 0, generation := 0 }) ∧
       (∀ g : Handle, (filledPool 2).IsValid g = true → g ≠ { index := 0, generation := 0 } →
          ∃ p', (filledPool 2).Remove g = .ok p' ∧
            p'.IsValid { index := 0, generation := 0 } = true ∧
            p'.Get { index := 0, generation := 0 } =
              (filledPool 2).Get { index := 0, generation := 0 })) :=
  ⟨filledPool_reachable 2, rfl,
    other_entries_keep_handle (filledPool 2) { index := 0, generation := 0 }
      (filledPool_reachable 2) rfl⟩

end HandlePool

namespace MeshBuffer

/-- The freshly constructed buffer satisfies the invariant. -/
theorem inv_new : MeshBuffer.new.Inv := by
  simp [Inv, MeshBuffer.new]

/-- An upload that fits: both assertions of `Upload` and the range checks of
the two `Buffer::Upload` calls pass, the old cursors are returned, and the
cursors advance by the two sizes without wrapping. -/
theorem upload_ok (mb : MeshBuffer) (vertices : List MeshVertex) (indices : List Nat)
    (hinv : mb.Inv) (hv : mb.nextVertex_ + vertices.length ≤ 524288)
    (hi : mb.nextIndex_ + indices.length ≤ 1572864) :
    mb.Upload vertices indices =
      .ok ({ baseVertex := mb.nextVertex_, baseIndex := mb.nextIndex_ },
        { vbo_ := mb.vbo_, ibo_ := mb.ibo_,
          nextVertex_ := mb.nextVertex_ + vertices.length,
          nextIndex_ := mb.nextIndex_ + indices.length }) := by
  obtain ⟨h1, h2, -, -⟩ := hinv
  simp only [kMaxVertices, kMaxIndices, sizeofMeshVertex, sizeofIndex] at h1 h2
  have e1 : (mb.nextVertex_ + vertices.length % 4294967296) % 4294967296 =
      mb.nextVertex_ + vertices.length := by omega
  have e2 : (mb.nextIndex_ + indices.length % 4294967296) % 4294967296 =
      mb.nextIndex_ + indices.length := by omega
  have b1 : mb.nextVertex_ * 44 + vertices.length * 44 ≤ mb.vbo_.byteSize_ := by omega
  have b2 : mb.nextIndex_ * 4 + indices.length * 4 ≤ mb.ibo_.byteSize_ := by omega
  simp only [Upload, Buffer.Upload, kMaxVertices, kMaxIndices, sizeofMeshVertex, sizeofIndex,
    hv, hi, e1, e2, b1, b2, not_true_eq_false, if_false, if_true]

/-- An upload that does not fit dies on one of the two capacity assertions. -/
theorem upload_fatal (mb : MeshBuffer) (vertices : List MeshVertex) (indices : List Nat)
    (h : mb.nextVertex_ + vertices.length > 524288 ∨ mb.nextIndex_ + indices.length > 1572864) :
    mb.Upload vertices indices = .error .assertFailed := by
  simp only [Upload, kMaxVertices, kMaxIndices]
  by_cases hv : mb.nextVertex_ + vertices.length ≤ 524288
  · have hi : ¬ mb.nextIndex_ + indices.length ≤ 1572864 := by omega
    simp [hv, hi]
  · simp [hv]

/-- An upload that returns keeps the invariant. -/
theorem inv_upload (mb mb' : MeshBuffer) (vertices : List MeshVertex) (indices : List Nat)
    (a : Allocation) (hinv : mb.Inv) (hu : mb.Upload vertices indices = .ok (a, mb')) :
    mb'.Inv := by
  by_cases h : mb.nextVertex_ + vertices.length > 524288 ∨
      mb.nextIndex_ + indices.length > 1572864
  · rw [upload_fatal mb vertices indices h] at hu
    exact Except.noConfusion hu
  · have hv : mb.nextVertex_ + vertices.length ≤ 524288 := by omega
    have hi : mb.nextIndex_ + indices.length ≤ 1572864 := by omega
    rw [upload_ok mb vertices indices hinv hv hi] at hu
    injection hu with hu
    injection hu with _ hmb
    subst hmb
    obtain ⟨h1, h2, -, -⟩ := hinv
    exact ⟨h1, h2, hv, hi⟩

/-- A sequence of uploads that returns keeps the invariant. -/
theorem inv_uploadAll (reqs : List (List MeshVertex × List Nat)) :
    ∀ (mb mb' : MeshBuffer) (allocs : List Allocation), mb.Inv →
      mb.uploadAll reqs = .ok (allocs, mb') → mb'.Inv := by
  induction reqs with
  | nil =>
    intro mb mb' allocs hinv h
    simp only [uploadAll] at h
    injection h with h
    injection h with _ hmb
    subst hmb
    exact hinv
  | cons r rs ih =>
    intro mb mb' allocs hinv h
    simp only [uploadAll] at h
    cases hu : mb.Upload r.1 r.2 with
    | error e => simp [hu] at h
    | ok res =>
      obtain ⟨a, mb1⟩ := res
      simp only [hu] at h
      cases hrest : mb1.uploadAll rs with
      | error e => simp [hrest] at h
      | ok res2 =>
        obtain ⟨as, mb2⟩ := res2
        simp only [hrest] at h
        injection h with h
        injection h with _ hmb
        subst hmb
        exact ih mb1 mb2 as (inv_upload mb mb1 r.1 r.2 a hinv hu) hrest

/-- Every reachable buffer satisfies the invariant. -/
theorem reachable_inv (mb : MeshBuffer) (hr : mb.Reachable) : mb.Inv := by
  obtain ⟨reqs, allocs, h⟩ := hr
  exact inv_uploadAll reqs MeshBuffer.new mb allocs inv_new h

/-- C6: in every reachable `MeshBuffer` both cursors are within capacity;
`Upload` dies on a fatal assertion exactly when one of the two sums exceeds its
capacity (524288 vertices, 1572864 indices); otherwise it returns and advances
the cursors by exactly the two sizes, an upload that exactly fills the
capacity included. -/
theorem upload_fatal_iff_over_capacity (mb : MeshBuffer) (vertices : List MeshVertex)
    (indices : List Nat) (hr : mb.Reachable) :
    mb.VertexCount ≤ kMaxVertices ∧ mb.IndexCount ≤ kMaxIndices ∧
    (mb.Upload vertices indices = .error .assertFailed ↔
      mb.VertexCount + vertices.length > 524288 ∨ mb.IndexCount + indices.length > 1572864) ∧
    (¬ (mb.VertexCount + vertices.length > 524288 ∨
        mb.IndexCount + indices.length > 1572864) →
      ∃ a mb', mb.Upload vertices indices = .ok (a, mb') ∧ mb'.Reachable ∧
        mb'.VertexCount = mb.VertexCount + vertices.length ∧
        mb'.IndexCount = mb.IndexCount + indices.length) ∧
    (mb.VertexCount + vertices.length = 524288 → mb.IndexCount + indices.length = 1572864 →
      ∃ a mb', mb.Upload vertices indices = .ok (a, mb') ∧
        mb'.VertexCount = kMaxVertices ∧ mb'.IndexCount = kMaxIndices) := by
  have hinv := reachable_inv mb hr
  have hfit : ∀ (hv : mb.nextVertex_ + vertices.length ≤ 524288)
      (hi : mb.nextIndex_ + indices.length ≤ 1572864),
      (⟨mb.vbo_, mb.ibo_, mb.nextVertex_ + vertices.length,
        mb.nextIndex_ + indices.length⟩ : MeshBuffer).Reachable := by
    intro hv hi
    obtain ⟨reqs, allocs, h⟩ := hr
    refine ⟨reqs ++ [(vertices, indices)], allocs ++ [⟨mb.nextVertex_, mb.nextIndex_⟩], ?_⟩
    have happ : ∀ (rs : List (List MeshVertex × List Nat)) (m0 : MeshBuffer)
        (as : List Allocation), m0.uploadAll rs = .ok (as, mb) →
        m0.uploadAll (rs ++ [(vertices, indices)]) =
          .ok (as ++ [⟨mb.nextVertex_, mb.nextIndex_⟩],
            ⟨mb.vbo_, mb.ibo_, mb.nextVertex_ + vertices.length,
              mb.nextIndex_ + indices.length⟩) := by
      intro rs
      induction rs with
      | nil =>
        intro m0 as h0
        simp only [uploadAll] at h0
        injection h0 with h0
        injection h0 with has hm
        subst has
        subst hm
        simp [uploadAll, upload_ok m0 vertices indices hinv hv hi]
      | cons r rs ih =>
        intro m0 as h0
        simp only [uploadAll, List.cons_append] at h0 ⊢
        cases hu : m0.Upload r.1 r.2 with
        | error e => simp [hu] at h0
        | ok res =>
          obtain ⟨a, m1⟩ := res
          simp only [hu] at h0 ⊢
          cases hrest : m1.uploadAll rs with
          | error e => simp [hrest] at h0
          | ok res2 =>
            obtain ⟨as2, m2⟩ := res2
            simp only [hrest] at h0
            injection h0 with h0
            injection h0 with has hm
            subst has
            subst hm
            simp [ih m1 as2 hrest]
    exact happ reqs MeshBuffer.new allocs h
  refine ⟨hinv.2.2.1, hinv.2.2.2, ⟨?_, upload_fatal mb vertices indices⟩, ?_, ?_⟩
  · intro hfail
    by_contra hcon
    have hv : mb.nextVertex_ + vertices.length ≤ 524288 := by
      simp only [VertexCount, IndexCount] at hcon; omega
    have hi : mb.nextIndex_ + indices.length ≤ 1572864 := by
      simp only [VertexCount, IndexCount] at hcon; omega
    rw [upload_ok mb vertices indices hinv hv hi] at hfail
    exact Except.noConfusion hfail
  · intro hcon
    have hv : mb.nextVertex_ + vertices.length ≤ 524288 := by
      simp only [VertexCount, IndexCount] at hcon; omega
    have hi : mb.nextIndex_ + indices.length ≤ 1572864 := by
      simp only [VertexCount, IndexCount] at hcon; omega
    exact ⟨_, _, upload_ok mb vertices indices hinv hv hi, hfit hv hi, rfl, rfl⟩
  · intro hv hi
    simp only [VertexCount, IndexCount] at hv hi
    exact ⟨_, _, upload_ok mb vertices indices hinv (le_of_eq hv) (le_of_eq hi), hv, hi⟩

/-- A witness for C6: a one-vertex, three-index upload into the fresh buffer. -/
theorem upload_fatal_iff_over_capacity_witness :
    MeshBuffer.new.Reachable ∧
    (MeshBuffer.new.VertexCount ≤ kMaxVertices ∧ MeshBuffer.new.IndexCount ≤ kMaxIndices ∧
    (MeshBuffer.new.Upload [sampleVertex] [0, 1, 2] = .error .assertFailed ↔
      MeshBuffer.new.VertexCount + [sampleVertex].length > 524288 ∨
        MeshBuffer.new.IndexCount + [0, 1, 2].length > 1572864) ∧
    (¬ (MeshBuffer.new.VertexCount + [sampleVertex].length > 524288 ∨
        MeshBuffer.new.IndexCount + [0, 1, 2].length > 1572864) →
      ∃ a mb', MeshBuffer.new.Upload [sampleVertex] [0, 1, 2] = .ok (a, mb') ∧ mb'.Reachable ∧
        mb'.VertexCount = MeshBuffer.new.VertexCount + [sampleVertex].length ∧
        mb'.IndexCount = MeshBuffer.new.IndexCount + [0, 1, 2].length) ∧
    (MeshBuffer.new.VertexCount + [sampleVertex].length = 524288 →
      MeshBuffer.new.IndexCount + [0, 1, 2].length = 1572864 →
      ∃ a mb', MeshBuffer.new.Upload [sampleVertex] [0, 1, 2] = .ok (a, mb') ∧
        mb'.VertexCount = kMaxVertices ∧ mb'.IndexCount = kMaxIndices)) :=
  ⟨⟨[], [], rfl⟩, upload_fatal_iff_over_capacity MeshBuffer.new [sampleVertex] [0, 1, 2]
    ⟨[], [], rfl⟩⟩

/-- Prefix sums of a list of sizes grow with the prefix. -/
theorem sum_take_mono (l : List Nat) : ∀ i j : Nat, i ≤ j → (l.take i).sum ≤ (l.take j).sum := by
  induction l with
  | nil => intro i j _; simp
  | cons x xs ih =>
    intro i j hij
    cases i with
    | zero => simp
    | succ i =>
      cases j with
      | zero => omega
      | succ j =>
        have := ih i j (by omega)
        simp only [List.take_succ_cons, List.sum_cons]
        omega

/-- The prefix sum one element further adds that element. -/
theorem sum_take_succ (l : List Nat) : ∀ (i n : Nat), l[i]? = some n →
    (l.take (i + 1)).sum = (l.take i).sum + n := by
  induction l with
  | nil => intro i n h; simp at h
  | cons x xs ih =>
    intro i n h
    cases i with
    | zero =>
      simp only [List.getElem?_cons_zero, Option.some.injEq] at h
      simp [h]
    | succ i =>
      simp only [List.getElem?_cons_succ] at h
      have := ih i n h
      simp only [List.take_succ_cons, List.sum_cons]
      omega

/-- The end of one upload's vertex range is at most the start of every later one. -/
theorem vertexTotal_take_step (reqs : List (List MeshVertex × List Nat)) (i j : Nat)
    (r : List MeshVertex × List Nat) (hij : i < j) (hr : reqs[i]? = some r) :
    vertexTotal (reqs.take i) + r.1.length ≤ vertexTotal (reqs.take j) := by
  have h1 := sum_take_succ (reqs.map fun r => r.1.length) i r.1.length (by simp [hr])
  have h2 := sum_take_mono (reqs.map fun r => r.1.length) (i + 1) j hij
  simp only [vertexTotal, List.map_take]
  omega

/-- The end of one upload's index range is at most the start of every later one. -/
theorem indexTotal_take_step (reqs : List (List MeshVertex × List Nat)) (i j : Nat)
    (r : List MeshVertex × List Nat) (hij : i < j) (hr : reqs[i]? = some r) :
    indexTotal (reqs.take i) + r.2.length ≤ indexTotal (reqs.take j) := by
  have h1 := sum_take_succ (reqs.map fun r => r.2.length) i r.2.length (by simp [hr])
  have h2 := sum_take_mono (reqs.map fun r => r.2.length) (i + 1) j hij
  simp only [indexTotal, List.map_take]
  omega

/-- A sequence of uploads whose totals fit behind the current cursors returns,
one allocation per call, and the allocation of call `k` is the cursor pair
advanced by the sizes of the calls before it. -/
theorem uploadAll_bases (reqs : List (List MeshVertex × List Nat)) :
    ∀ mb : MeshBuffer, mb.Inv → mb.nextVertex_ + vertexTotal reqs ≤ 524288 →
      mb.nextIndex_ + indexTotal reqs ≤ 1572864 →
      ∃ allocs mb', mb.uploadAll reqs = .ok (allocs, mb') ∧ allocs.length = reqs.length ∧
        ∀ k a, allocs[k]? = some a →
          a.baseVertex = mb.nextVertex_ + vertexTotal (reqs.take k) ∧
          a.baseIndex = mb.nextIndex_ + indexTotal (reqs.take k) := by
  induction reqs with
  | nil =>
    intro mb _ _ _
    exact ⟨[], mb, rfl, rfl, by intro k a h; simp at h⟩
  | cons r rs ih =>
    intro mb hinv hv hi
    simp only [vertexTotal, indexTotal, List.map_cons, List.sum_cons] at hv hi
    have hv1 : mb.nextVertex_ + r.1.length ≤ 524288 := by omega
    have hi1 : mb.nextIndex_ + r.2.length ≤ 1572864 := by omega
    have hu := upload_ok mb r.1 r.2 hinv hv1 hi1
    obtain ⟨as, mb2, hrest, hlen, hbase⟩ := ih _ (inv_upload mb _ r.1 r.2 _ hinv hu)
      (by simp only [vertexTotal]; omega) (by simp only [indexTotal]; omega)
    refine ⟨{ baseVertex := mb.nextVertex_, baseIndex := mb.nextIndex_ } :: as, mb2,
      by simp only [uploadAll, hu, hrest], by simp [hlen], ?_⟩
    intro k a hk
    cases k with
    | zero =>
      simp only [List.getElem?_cons_zero, Option.some.injEq] at hk
      subst hk
      simp [vertexTotal, indexTotal]
    | succ k =>
      simp only [List.getElem?_cons_succ] at hk
      obtain ⟨h1, h2⟩ := hbase k a hk
      simp only [vertexTotal, indexTotal, List.take_succ_cons, List.map_cons, List.sum_cons]
        at h1 h2 ⊢
      omega

/-- C5: on a freshly constructed `MeshBuffer`, every sequence of uploads whose
totals stay within capacity returns one allocation per call; call `k` gets
`baseVertex` equal to the number of vertices of the calls before it and
`baseIndex` equal to their number of indices (so two uploads of `N1` and `N2`
vertices get bases 0 and `N1`), and the ranges `[base, base + count)` of two
different calls do not overlap. -/
theorem upload_bases_are_prefix_sums (reqs : List (List MeshVertex × List Nat))
    (hv : vertexTotal reqs ≤ kMaxVertices) (hi : indexTotal reqs ≤ kMaxIndices) :
    ∃ allocs mb', MeshBuffer.new.uploadAll reqs = .ok (allocs, mb') ∧
      allocs.length = reqs.length ∧
      (∀ k a, allocs[k]? = some a →
        a.baseVertex = vertexTotal (reqs.take k) ∧ a.baseIndex = indexTotal (reqs.take k)) ∧
      (∀ (i j : Nat) (a b : Allocation) (ri rj : List MeshVertex × List Nat), i ≠ j →
        allocs[i]? = some a → allocs[j]? = some b →
        reqs[i]? = some ri → reqs[j]? = some rj →
        (a.baseVertex + ri.1.length ≤ b.baseVertex ∨
          b.baseVertex + rj.1.length ≤ a.baseVertex) ∧
        (a.baseIndex + ri.2.length ≤ b.baseIndex ∨
          b.baseIndex + rj.2.length ≤ a.baseIndex)) := by
  obtain ⟨allocs, mb', hrun, hlen, hbase⟩ := uploadAll_bases reqs MeshBuffer.new inv_new
    (by simpa [MeshBuffer.new, kMaxVertices] using hv)
    (by simpa [MeshBuffer.new, kMaxIndices] using hi)
  have hbase' : ∀ k a, allocs[k]? = some a →
      a.baseVertex = vertexTotal (reqs.take k) ∧ a.baseIndex = indexTotal (reqs.take k) := by
    intro k a hk
    have := hbase k a hk
    simpa [MeshBuffer.new] using this
  refine ⟨allocs, mb', hrun, hlen, hbase', ?_⟩
  intro i j a b ri rj hij ha hb hri hrj
  obtain ⟨hav, hai⟩ := hbase' i a ha
  obtain ⟨hbv, hbi⟩ := hbase' j b hb
  rw [hav, hai, hbv, hbi]
  rcases Nat.lt_or_gt_of_ne hij with hlt | hgt
  · exact ⟨Or.inl (vertexTotal_take_step reqs i j ri hlt hri),
      Or.inl (indexTotal_take_step reqs i j ri hlt hri)⟩
  · exact ⟨Or.inr (vertexTotal_take_step reqs j i rj hgt hrj),
      Or.inr (indexTotal_take_step reqs j i rj hgt hrj)⟩

/-- A witness for C5: two uploads, of one and of two vertices, on the fresh
buffer get the bases (0, 0) and (1, 3). -/
theorem upload_bases_are_prefix_sums_witness :
    vertexTotal sampleUploads ≤ kMaxVertices ∧ indexTotal sampleUploads ≤ kMaxIndices ∧
    (∃ mb', MeshBuffer.new.uploadAll sampleUploads =
      .ok ([{ baseVertex := 0, baseIndex := 0 }, { baseVertex := 1, baseIndex := 3 }], mb')) ∧
    ∃ allocs mb', MeshBuffer.new.uploadAll sampleUploads = .ok (allocs, mb') ∧
      allocs.length = sampleUploads.length ∧
      (∀ k a, allocs[k]? = some a →
        a.baseVertex = vertexTotal (sampleUploads.take k) ∧
        a.baseIndex = indexTotal (sampleUploads.take k)) ∧
      (∀ (i j : Nat) (a b : Allocation) (ri rj : List MeshVertex × List Nat), i ≠ j →
        allocs[i]? = some a → allocs[j]? = some b →
        sampleUploads[i]? = some ri → sampleUploads[j]? = some rj →
        (a.baseVertex + ri.1.length ≤ b.baseVertex ∨
          b.baseVertex + rj.1.length ≤ a.baseVertex) ∧
        (a.baseIndex + ri.2.length ≤ b.baseIndex ∨
          b.baseIndex + rj.2.length ≤ a.baseIndex)) :=
  ⟨by decide, by decide, ⟨_, rfl⟩,
    upload_bases_are_prefix_sums sampleUploads (by decide) (by decide)⟩

end MeshBuffer

/-! ### The sort -/

/-- Inserting an element permutes the list with that element in front. -/
theorem stdSortInsert_perm {α : Type} (comp : α → α → Bool) (x : α) :
    ∀ l : List α, (stdSortInsert comp x l).Perm (x :: l) := by
  intro l
  induction l with
  | nil => exact List.Perm.refl _
  | cons y ys ih =>
    simp only [stdSortInsert]
    split
    · exact List.Perm.refl _
    · exact (List.Perm.cons y ih).trans (List.Perm.swap x y ys)

/-- The sort permutes its input. -/
theorem stdSort_perm {α : Type} (comp : α → α → Bool) :
    ∀ l : List α, (stdSort comp l).Perm l := by
  intro l
  induction l with
  | nil => exact List.Perm.refl _
  | cons x xs ih =>
    simp only [stdSort]
    exact (stdSortInsert_perm comp x _).trans (List.Perm.cons x ih)

/-- Inserting into a list in which no later element is placed by `comp` before
an earlier one gives such a list again, for a comparator that is asymmetric and
whose complement is transitive (a strict weak ordering). -/
theorem stdSortInsert_ordered {α : Type} (comp : α → α → Bool)
    (hasymm : ∀ a b, comp a b = true → comp b a = false)
    (htrans : ∀ a b c, comp b a = false → comp c b = false → comp c a = false) (x : α) :
    ∀ l : List α, l.Pairwise (fun a b => comp b a = false) →
      (stdSortInsert comp x l).Pairwise (fun a b => comp b a = false) := by
  intro l
  induction l with
  | nil => intro _; simp [stdSortInsert]
  | cons y ys ih =>
    intro hl
    rw [List.pairwise_cons] at hl
    obtain ⟨hy, hys⟩ := hl
    simp only [stdSortInsert]
    cases hc : comp x y with
    | true =>
      simp only [if_true]
      refine List.Pairwise.cons ?_ (List.Pairwise.cons hy hys)
      intro z hz
      rw [List.mem_cons] at hz
      rcases hz with rfl | hz
      · exact hasymm _ _ hc
      · exact htrans x y z (hasymm _ _ hc) (hy z hz)
    | false =>
      simp only [Bool.false_eq_true, if_false]
      refine List.Pairwise.cons ?_ (ih hys)
      intro z hz
      have hz' := (stdSortInsert_perm comp x ys).mem_iff.mp hz
      rw [List.mem_cons] at hz'
      rcases hz' with rfl | hz'
      · exact hc
      · exact hy z hz'

/-- The output of the sort has no later element placed by `comp` before an
earlier one. -/
theorem stdSort_ordered {α : Type} (comp : α → α → Bool)
    (hasymm : ∀ a b, comp a b = true → comp b a = false)
    (htrans : ∀ a b c, comp b a = false → comp c b = false → comp c a = false) :
    ∀ l : List α, (stdSort comp l).Pairwise (fun a b => comp b a = false) := by
  intro l
  induction l with
  | nil => simp [stdSort]
  | cons x xs ih =>
    simp only [stdSort]
    exact stdSortInsert_ordered comp hasymm htrans x _ ih

/-- In a pairwise related list, neighbours are related. -/
theorem pairwise_adjacent {α : Type} (R : α → α → Prop) :
    ∀ l : List α, l.Pairwise R → ∀ (i : Nat) (a b : α),
      l[i]? = some a → l[i + 1]? = some b → R a b := by
  intro l
  induction l with
  | nil => intro _ i a b h; simp at h
  | cons x xs ih =>
    intro hl i a b ha hb
    rw [List.pairwise_cons] at hl
    cases i with
    | zero =>
      simp only [List.getElem?_cons_zero, Option.some.injEq] at ha
      simp only [List.getElem?_cons_succ] at hb
      subst ha
      exact hl.1 b (List.getElem?_mem hb)
    | succ i =>
      simp only [List.getElem?_cons_succ] at ha hb
      exact ih hl.2 i a b ha hb

namespace RenderQueue

/-- C7: after `Sort()`, every adjacent pair of the opaque sequence has
non-decreasing `distanceToCamera` and every adjacent pair of the transparent
sequence has non-increasing `distanceToCamera`. -/
theorem sort_orders_by_distance (q : RenderQueue) :
    (∀ (i : Nat) (a b : RenderCommand), q.SortQueue.opaques_[i]? = some a →
      q.SortQueue.opaques_[i + 1]? = some b → a.distanceToCamera ≤ b.distanceToCamera) ∧
    (∀ (i : Nat) (a b : RenderCommand), q.SortQueue.transparents_[i]? = some a →
      q.SortQueue.transparents_[i + 1]? = some b →
      a.distanceToCamera ≥ b.distanceToCamera) := by
  constructor
  · intro i a b ha hb
    have hp := stdSort_ordered
      (fun a b : RenderCommand => decide (a.distanceToCamera < b.distanceToCamera))
      (by
        intro a b h
        simp only [decide_eq_true_eq, decide_eq_false_iff_not, not_lt] at h ⊢
        exact le_of_lt h)
      (by
        intro a b c h1 h2
        simp only [decide_eq_false_iff_not, not_lt] at h1 h2 ⊢
        exact le_trans h1 h2)
      q.opaques_
    have h := pairwise_adjacent _ _ hp i a b ha hb
    simpa using h
  · intro i a b ha hb
    have hp := stdSort_ordered
      (fun a b : RenderCommand => decide (a.distanceToCamera > b.distanceToCamera))
      (by
        intro a b h
        simp only [gt_iff_lt, decide_eq_true_eq, decide_eq_false_iff_not, not_lt] at h ⊢
        exact le_of_lt h)
      (by
        intro a b c h1 h2
        simp only [gt_iff_lt, decide_eq_false_iff_not, not_lt] at h1 h2 ⊢
        exact le_trans h2 h1)
      q.transparents_
    have h := pairwise_adjacent _ _ hp i a b ha hb
    simpa using h

/-- The smaller of two scalars, as glm computes it, is at most the second. -/
theorem glmMin_le_right (x y : ℚ) : glmMin x y ≤ y := by
  unfold glmMin
  split
  · exact le_refl y
  · exact not_lt.mp (by assumption)

/-- The larger of two scalars, as glm computes it, is at least the second. -/
theorem le_glmMax_right (x y : ℚ) : y ≤ glmMax x y := by
  unfold glmMax
  split
  · exact le_refl y
  · exact not_lt.mp (by assumption)

/-- C8: `Submit(c)` appends `c` at the end of the transparent sequence when
`c.transparent` is set and at the end of the opaque sequence otherwise, leaves
the other sequence as it was, and replaces the scene bounds by the old bounds
expanded with the translation column of `c.modelMatrix`; the new bounds contain
that point. -/
theorem submit_appends_and_expands (q : RenderQueue) (c : RenderCommand) :
    (c.transparent = true →
      (q.Submit c).transparents_ = q.transparents_ ++ [c] ∧
      (q.Submit c).opaques_ = q.opaques_) ∧
    (c.transparent = false →
      (q.Submit c).opaques_ = q.opaques_ ++ [c] ∧
      (q.Submit c).transparents_ = q.transparents_) ∧
    (q.Submit c).sceneBounds_ =
      q.sceneBounds_.Expand
        { x := c.modelMatrix.c3.x, y := c.modelMatrix.c3.y, z := c.modelMatrix.c3.z } ∧
    ((q.Submit c).sceneBounds_.min.x ≤ c.modelMatrix.c3.x ∧
      c.modelMatrix.c3.x ≤ (q.Submit c).sceneBounds_.max.x) ∧
    ((q.Submit c).sceneBounds_.min.y ≤ c.modelMatrix.c3.y ∧
      c.modelMatrix.c3.y ≤ (q.Submit c).sceneBounds_.max.y) ∧
    ((q.Submit c).sceneBounds_.min.z ≤ c.modelMatrix.c3.z ∧
      c.modelMatrix.c3.z ≤ (q.Submit c).sceneBounds_.max.z) := by
  have hb : (q.Submit c).sceneBounds_ =
      q.sceneBounds_.Expand
        { x := c.modelMatrix.c3.x, y := c.modelMatrix.c3.y, z := c.modelMatrix.c3.z } := by
    unfold Submit
    cases c.transparent <;> rfl
  refine ⟨?_, ?_, hb, ?_, ?_, ?_⟩
  · intro ht
    simp [Submit, ht]
  · intro ht
    simp [Submit, ht]
  · rw [hb]
    exact ⟨glmMin_le_right _ _, le_glmMax_right _ _⟩
  · rw [hb]
    exact ⟨glmMin_le_right _ _, le_glmMax_right _ _⟩
  · rw [hb]
    exact ⟨glmMin_le_right _ _, le_glmMax_right _ _⟩

/-- The loop of `ShadowCasters` appends to `result` the commands that cast a
shadow, in order. -/
theorem shadowCasters_loop (l : List RenderCommand) : ∀ init : List RenderCommand,
    l.foldl (fun result cmd => if cmd.castsShadow then result ++ [cmd] else result) init =
      init ++ l.filter (fun cmd => cmd.castsShadow) := by
  induction l with
  | nil => intro init; simp
  | cons x xs ih =>
    intro init
    simp only [List.foldl_cons, List.filter_cons]
    rw [ih]
    cases x.castsShadow <;> simp

/-- One client call keeps transparent commands out of the opaque sequence. -/
theorem step_opaques_not_transparent (q : RenderQueue) (op : QueueOp)
    (h : ∀ c ∈ q.opaques_, c.transparent = false) :
    ∀ c ∈ (q.step op).opaques_, c.transparent = false := by
  cases op with
  | submit cmd =>
    intro c hc
    cases ht : cmd.transparent with
    | true =>
      have : (q.Submit cmd).opaques_ = q.opaques_ := by simp [Submit, ht]
      simp only [step, this] at hc
      exact h c hc
    | false =>
      have : (q.Submit cmd).opaques_ = q.opaques_ ++ [cmd] := by simp [Submit, ht]
      simp only [step, this, List.mem_append, List.mem_singleton] at hc
      rcases hc with hc | rfl
      · exact h c hc
      · exact ht
  | sort =>
    intro c hc
    exact h c ((stdSort_perm _ q.opaques_).mem_iff.mp hc)
  | clear =>
    intro c hc
    simp [step, Clear] at hc

/-- A run of client calls keeps transparent commands out of the opaque sequence. -/
theorem run_opaques_not_transparent (ops : List QueueOp) : ∀ q : RenderQueue,
    (∀ c ∈ q.opaques_, c.transparent = false) →
    ∀ c ∈ (q.run ops).opaques_, c.transparent = false := by
  induction ops with
  | nil => intro q h; exact h
  | cons op ops ih =>
    intro q h
    exact ih (q.step op) (step_opaques_not_transparent q op h)

/-- C9: for every queue, `ShadowCasters()` returns exactly the commands of the
opaque sequence whose `castsShadow` flag is set, in the order of that sequence,
and leaves the queue as it was; and in every queue built from the empty one by
`Submit`, `Sort` and `Clear`, no returned command has the `transparent` flag:
a command submitted as transparent is never returned, whatever its
`castsShadow` flag. -/
theorem shadowCasters_are_opaque_casters :
    (∀ q : RenderQueue,
      q.ShadowCasters.1 = q.opaques_.filter (fun cmd => cmd.castsShadow) ∧
      q.ShadowCasters.2 = q) ∧
    (∀ (ops : List QueueOp) (c : RenderCommand),
      c ∈ ((RenderQueue.run {} ops).ShadowCasters).1 →
        c.transparent = false ∧ c.castsShadow = true) := by
  have hfilter : ∀ q : RenderQueue,
      q.ShadowCasters.1 = q.opaques_.filter (fun cmd => cmd.castsShadow) := by
    intro q
    simp only [ShadowCasters]
    rw [shadowCasters_loop]
    rfl
  refine ⟨fun q => ⟨hfilter q, rfl⟩, ?_⟩
  intro ops c hc
  rw [hfilter, List.mem_filter] at hc
  refine ⟨run_opaques_not_transparent ops {} ?_ c hc.1, hc.2⟩
  intro c hc
  simp at hc

/-- C10: after `Clear()` both sequences are empty, `TotalCount()` is 0,
`ShadowCasters()` is empty and `SceneBounds()` is the default-constructed
(empty, invalid) box, whatever the queue held; `RenderFrame` leaves the
renderer with the queue its final `Clear()` produces, so with no command. -/
theorem clear_resets_queue (q : RenderQueue) (r : Renderer) :
    q.Clear.OpaqueCommands = [] ∧ q.Clear.TransparentCommands = [] ∧
    q.Clear.TotalCount = 0 ∧ q.Clear.ShadowCasters.1 = [] ∧
    q.Clear.SceneBounds = ({} : AABB) ∧ q.Clear.SceneBounds.IsValid = false ∧
    q.Clear = ({} : RenderQueue) ∧
    r.RenderFrame.2.queue_ = r.queue_.SortQueue.Clear ∧
    r.RenderFrame.2.queue_.OpaqueCommands = [] ∧
    r.RenderFrame.2.queue_.TransparentCommands = [] ∧
    r.RenderFrame.2.queue_.TotalCount = 0 := by
  refine ⟨rfl, rfl, rfl, rfl, rfl, ?_, rfl, rfl, rfl, rfl, rfl⟩
  simp only [SceneBounds, Clear, AABB.IsValid, Vec3.splat, floatMax]
  norm_num

end RenderQueue

/-! ### Frustum culling -/

/-- The eight corners of the corner loop, written out. -/
theorem corners_eq (aabb : AABB) (model : Mat4) :
    (List.range 8).map (boxCorner aabb model) =
      [worldPoint model ⟨aabb.min.x, aabb.min.y, aabb.min.z⟩,
       worldPoint model ⟨aabb.max.x, aabb.min.y, aabb.min.z⟩,
       worldPoint model ⟨aabb.min.x, aabb.max.y, aabb.min.z⟩,
       worldPoint model ⟨aabb.max.x, aabb.max.y, aabb.min.z⟩,
       worldPoint model ⟨aabb.min.x, aabb.min.y, aabb.max.z⟩,
       worldPoint model ⟨aabb.max.x, aabb.min.y, aabb.max.z⟩,
       worldPoint model ⟨aabb.min.x, aabb.max.y, aabb.max.z⟩,
       worldPoint model ⟨aabb.max.x, aabb.max.y, aabb.max.z⟩] := by
  have h24 : (2 &&& 4 : Nat) = 0 := by decide
  have h34 : (3 &&& 4 : Nat) = 0 := by decide
  have h42 : (4 &&& 2 : Nat) = 0 := by decide
  have h52 : (5 &&& 2 : Nat) = 0 := by decide
  simp [List.range, List.range.loop, boxCorner, worldPoint, h24, h34, h42, h52]

/-- The corner loop ends with `allOutside` set exactly when every corner has a
negative distance. -/
theorem allOutside_eq_true_iff (p : Vec4) (corners : List Vec3) :
    allOutside p corners = true ↔ ∀ c ∈ corners, planeDistance p c < 0 := by
  induction corners with
  | nil => simp [allOutside]
  | cons c cs ih =>
    simp only [allOutside, List.mem_cons, forall_eq_or_imp]
    by_cases h : planeDistance p c ≥ 0
    · simp only [h, if_true]
      constructor
      · intro hf
        exact Bool.noConfusion hf
      · intro hall
        exact absurd hall.1 (not_lt.mpr h)
    · simp only [h, if_false, ih]
      exact ⟨fun hall => ⟨not_le.mp h, hall⟩, fun hall => hall.2⟩

/-- The plane loop returns `true` exactly when no plane has every corner
outside. -/
theorem planeLoop_eq_true_iff (corners : List Vec3) (planes : List Vec4) :
    planeLoop corners planes = true ↔ ∀ p ∈ planes, allOutside p corners = false := by
  induction planes with
  | nil => simp [planeLoop]
  | cons p ps ih =>
    simp only [planeLoop, List.mem_cons, forall_eq_or_imp]
    cases h : allOutside p corners with
    | true => simp
    | false => simp [ih]

/-- A plane with a corner at non-negative distance does not have all corners
outside. -/
theorem allOutside_false_of_corner (p : Vec4) (corners : List Vec3) (c : Vec3)
    (hc : c ∈ corners) (hd : 0 ≤ planeDistance p c) : allOutside p corners = false := by
  cases h : allOutside p corners with
  | false => rfl
  | true =>
    have := (allOutside_eq_true_iff p corners).mp h c hc
    exact absurd hd (not_le.mpr this)

namespace Frustum

/-- The planes of `FromViewProjection` are the normalised Gribb/Hartmann planes. -/
theorem fromViewProjection_planes_eq (L : CMath) (vp : Mat4) :
    (FromViewProjection L vp).planes = (gribbHartmannPlanes vp).map (normalizePlane L) := by
  simp [FromViewProjection, planes, gribbHartmannPlanes, Mat4.row, Vec4.get, Vec4.add,
    Vec4.sub]

end Frustum

/-! ### Command gathering -/

/-- `Get` returns exactly for valid handles, and then the value of the slot. -/
theorem HandlePool.get_eq_ok_iff {T : Type} (p : HandlePool T) (h : Handle) (v : T) :
    p.Get h = .ok v ↔
      p.IsValid h = true ∧ ∃ s, p.slots_[h.index]? = some s ∧ s.value = v := by
  unfold HandlePool.Get
  cases hv : p.IsValid h with
  | false => simp
  | true =>
    obtain ⟨s, hs, -, -⟩ := (HandlePool.isValid_iff p h).mp hv
    simp [hs]

/-- `Get` returns for every valid handle. -/
theorem HandlePool.get_ok_of_isValid {T : Type} (p : HandlePool T) (h : Handle)
    (hv : p.IsValid h = true) : ∃ v, p.Get h = .ok v := by
  obtain ⟨s, hs, -, -⟩ := (HandlePool.isValid_iff p h).mp hv
  exact ⟨s.value, (HandlePool.get_eq_ok_iff p h s.value).mpr ⟨hv, s, hs, rfl⟩⟩

namespace RenderSystem

/-- A live texture index resolves. -/
theorem resolveTexID_ok (rm : ResourceManager) (idx : Nat) (fallback : Texture)
    (h : texIndexLive rm idx) : ∃ id, resolveTexID rm idx fallback = .ok id := by
  unfold resolveTexID
  by_cases hidx : idx = kInvalidTexIndex
  · exact ⟨fallback.GetID, by simp [hidx]⟩
  · rcases h with h | h
    · exact absurd h hidx
    · obtain ⟨t, ht⟩ := HandlePool.get_ok_of_isValid _ _ h
      exact ⟨t.GetID, by simp [hidx, ResourceManager.GetTexture, ht]⟩

/-- What a resolved texture identifier is: the fallback's for the sentinel, and
otherwise the identifier of the texture in the slot of that index, which is
live at generation 0. -/
theorem resolveTexID_spec (rm : ResourceManager) (idx id : Nat) (fallback : Texture)
    (h : resolveTexID rm idx fallback = .ok id) :
    (idx = kInvalidTexIndex → id = fallback.GetID) ∧
    (idx ≠ kInvalidTexIndex →
      rm.texturePool_.IsValid { index := idx, generation := 0 } = true ∧
      ∃ s, rm.texturePool_.slots_[idx]? = some s ∧ id = s.value.GetID) := by
  unfold resolveTexID at h
  by_cases hidx : idx = kInvalidTexIndex
  · simp only [hidx, if_true] at h
    injection h with h
    exact ⟨fun _ => h.symm, fun hne => absurd hidx hne⟩
  · simp only [hidx, if_false] at h
    refine ⟨fun he => absurd he hidx, fun _ => ?_⟩
    cases ht : rm.GetTexture { index := idx, generation := 0 } with
    | error e => simp [ht] at h
    | ok t =>
      simp only [ht] at h
      injection h with h
      obtain ⟨hv, s, hs, hval⟩ := (HandlePool.get_eq_ok_iff _ _ _).mp ht
      exact ⟨hv, s, hs, by rw [hval]; exact h.symm⟩

/-- The command of an entity with live resources is assembled. -/
theorem assembleCommand_ok (L : CMath) (rm : ResourceManager) (cameraPos : Vec3)
    (tc : TransformComponent) (mc : MeshComponent) (mesh : GPUMesh)
    (hlive : resourcesLive rm mc) :
    ∃ cmd, assembleCommand L rm cameraPos tc mc mesh = .ok cmd := by
  unfold assembleCommand
  by_cases hv : ({ index := mc.materialHandle, generation := 0 } : Handle).IsValid = true
  · rcases hlive.2 with hk | ⟨mat, hmat, h1, h2, h3⟩
    · simp [Handle.IsValid, hk] at hv
    · obtain ⟨a, ha⟩ := resolveTexID_ok rm mat.albedoTexIndex rm.DefaultAlbedo h1
      obtain ⟨n, hn⟩ := resolveTexID_ok rm mat.normalTexIndex rm.DefaultNormal h2
      obtain ⟨m, hm⟩ := resolveTexID_ok rm mat.metallicRoughIndex rm.DefaultMetalRough h3
      simp only [hv, if_true, hmat, ha, hn, hm]
      exact ⟨_, rfl⟩
  · simp only [hv]
    exact ⟨_, rfl⟩

/-- An assembled command is opaque. -/
theorem assembleCommand_transparent_false (L : CMath) (rm : ResourceManager) (cameraPos : Vec3)
    (tc : TransformComponent) (mc : MeshComponent) (mesh : GPUMesh) (cmd : RenderCommand)
    (h : assembleCommand L rm cameraPos tc mc mesh = .ok cmd) : cmd.transparent = false := by
  unfold assembleCommand at h
  by_cases hv : ({ index := mc.materialHandle, generation := 0 } : Handle).IsValid = true
  · simp only [hv, if_true] at h
    cases hmat : rm.GetMaterial { index := mc.materialHandle, generation := 0 } with
    | error e => simp [hmat] at h
    | ok mat =>
      simp only [hmat] at h
      cases ha : resolveTexID rm mat.albedoTexIndex rm.DefaultAlbedo with
      | error e => simp [ha] at h
      | ok a =>
        simp only [ha] at h
        cases hn : resolveTexID rm mat.normalTexIndex rm.DefaultNormal with
        | error e => simp [hn] at h
        | ok n =>
          simp only [hn] at h
          cases hm : resolveTexID rm mat.metallicRoughIndex rm.DefaultMetalRough with
          | error e => simp [hm] at h
          | ok m =>
            simp only [hm] at h
            injection h with h
            rw [← h]
  · simp only [hv] at h
    injection h with h
    rw [← h]

/-- Submitting an opaque command appends it to the opaque sequence only. -/
theorem submit_transparent_false (q : RenderQueue) (cmd : RenderCommand)
    (h : cmd.transparent = false) :
    (q.Submit cmd).opaques_ = q.opaques_ ++ [cmd] ∧
    (q.Submit cmd).transparents_ = q.transparents_ := by
  simp [RenderQueue.Submit, h]

/-- What one call of the lambda does when it returns. -/
theorem visit_ok_spec (L : CMath) (rm : ResourceManager) (cameraPos : Vec3) (frustum : Frustum)
    (e : TransformComponent × MeshComponent) (st st' : CullStats × RenderQueue)
    (h : visit L rm cameraPos frustum e.1 e.2 st = .ok st') :
    (e.2.visible = false ∧ isCulled rm frustum e = false ∧ isDrawn rm frustum e = false ∧
      st' = st) ∨
    (e.2.visible = true ∧ isCulled rm frustum e = true ∧ isDrawn rm frustum e = false ∧
      st' = ({ total := (st.1.total + 1) % 4294967296,
               culled := (st.1.culled + 1) % 4294967296,
               visible := st.1.visible }, st.2)) ∨
    (e.2.visible = true ∧ isCulled rm frustum e = false ∧ isDrawn rm frustum e = true ∧
      ∃ cmd, emitted L rm cameraPos e cmd ∧
        st' = ({ total := (st.1.total + 1) % 4294967296,
                 culled := st.1.culled,
                 visible := (st.1.visible + 1) % 4294967296 }, st.2.Submit cmd)) := by
  unfold visit at h
  cases hvis : e.2.visible with
  | false =>
    simp only [hvis, Bool.not_false, if_true] at h
    injection h with h
    exact Or.inl ⟨rfl, by simp [isCulled, hvis], by simp [isDrawn, hvis], h.symm⟩
  | true =>
    simp only [hvis, Bool.not_true, Bool.false_eq_true, if_false] at h
    cases hmesh : rm.GetMesh { index := e.2.meshHandle, generation := 0 } with
    | error err => simp [hmesh] at h
    | ok mesh =>
      simp only [hmesh] at h
      cases hc : frustum.ContainsAABB mesh.localBounds e.1.worldMatrix with
      | false =>
        simp only [hc, Bool.not_false, if_true] at h
        injection h with h
        exact Or.inr (Or.inl ⟨rfl, by simp [isCulled, hvis, hmesh, hc],
          by simp [isDrawn, hvis, hmesh, hc], h.symm⟩)
      | true =>
        simp only [hc, Bool.not_true, Bool.false_eq_true, if_false] at h
        cases hcmd : assembleCommand L rm cameraPos e.1 e.2 mesh with
        | error err => simp [hcmd] at h
        | ok cmd =>
          simp only [hcmd] at h
          injection h with h
          exact Or.inr (Or.inr ⟨rfl, by simp [isCulled, hvis, hmesh, hc],
            by simp [isDrawn, hvis, hmesh, hc], cmd, ⟨mesh, hmesh, hcmd⟩, h.symm⟩)

/-- One call of the lambda returns when the resources of the entity are live. -/
theorem visit_returns (L : CMath) (rm : ResourceManager) (cameraPos : Vec3) (frustum : Frustum)
    (e : TransformComponent × MeshComponent) (st : CullStats × RenderQueue)
    (hlive : e.2.visible = true → resourcesLive rm e.2) :
    ∃ st', visit L rm cameraPos frustum e.1 e.2 st = .ok st' := by
  unfold visit
  cases hvis : e.2.visible with
  | false => exact ⟨st, by simp⟩
  | true =>
    have hl := hlive hvis
    obtain ⟨mesh, hmesh⟩ := HandlePool.get_ok_of_isValid _ _ hl.1
    obtain ⟨cmd, hcmd⟩ := assembleCommand_ok L rm cameraPos e.1 e.2 mesh hl
    simp only [Bool.not_true, Bool.false_eq_true, if_false, ResourceManager.GetMesh, hmesh]
    cases hc : frustum.ContainsAABB mesh.localBounds e.1.worldMatrix with
    | false =>
      simp only [Bool.not_false, if_true]
      exact ⟨_, rfl⟩
    | true =>
      simp only [Bool.not_true, Bool.false_eq_true, if_false, hcmd]
      exact ⟨_, rfl⟩

/-- The iteration returns when the resources of every visible-flagged entity
are live. -/
theorem gatherLoop_returns (L : CMath) (rm : ResourceManager) (cameraPos : Vec3)
    (frustum : Frustum) (ents : List (TransformComponent × MeshComponent)) :
    ∀ st : CullStats × RenderQueue,
      (∀ e ∈ ents, e.2.visible = true → resourcesLive rm e.2) →
      ∃ st', gatherLoop L rm cameraPos frustum ents st = .ok st' := by
  induction ents with
  | nil => intro st _; exact ⟨st, rfl⟩
  | cons e es ih =>
    intro st hlive
    obtain ⟨st1, h1⟩ := visit_returns L rm cameraPos frustum e st
      (hlive e (List.mem_cons_self _ _))
    obtain ⟨st2, h2⟩ := ih st1 (fun e' he' => hlive e' (List.mem_cons_of_mem _ he'))
    exact ⟨st2, by simp only [gatherLoop, h1, h2]⟩

/-- What the iteration has done when it returns: the counters have advanced,
mod 2^32, by the numbers of visible-flagged, culled and drawn entities, and the
opaque sequence has grown by the commands of the drawn entities, in order. -/
theorem gatherLoop_ok_spec (L : CMath) (rm : ResourceManager) (cameraPos : Vec3)
    (frustum : Frustum) (ents : List (TransformComponent × MeshComponent)) :
    ∀ st st' : CullStats × RenderQueue,
      gatherLoop L rm cameraPos frustum ents st = .ok st' →
      st.1.total < 4294967296 → st.1.culled < 4294967296 → st.1.visible < 4294967296 →
      st'.1.total =
        (st.1.total + ents.countP (isCulled rm frustum) + ents.countP (isDrawn rm frustum))
          % 4294967296 ∧
      st'.1.culled = (st.1.culled + ents.countP (isCulled rm frustum)) % 4294967296 ∧
      st'.1.visible = (st.1.visible + ents.countP (isDrawn rm frustum)) % 4294967296 ∧
      st'.2.transparents_ = st.2.transparents_ ∧
      ∃ cmds, st'.2.opaques_ = st.2.opaques_ ++ cmds ∧
        List.Forall₂ (emitted L rm cameraPos) (ents.filter (isDrawn rm frustum)) cmds := by
  induction ents with
  | nil =>
    intro st st' h ht hc hv
    simp only [gatherLoop] at h
    injection h with h
    subst h
    refine ⟨?_, ?_, ?_, rfl, [], by simp, by simp⟩
    · simp [Nat.mod_eq_of_lt ht]
    · simp [Nat.mod_eq_of_lt hc]
    · simp [Nat.mod_eq_of_lt hv]
  | cons e es ih =>
    intro st st' h ht hc hv
    simp only [gatherLoop] at h
    cases h1 : visit L rm cameraPos frustum e.1 e.2 st with
    | error err => simp [h1] at h
    | ok st1 =>
      simp only [h1] at h
      have hM : (0 : Nat) < 4294967296 := by decide
      rcases visit_ok_spec L rm cameraPos frustum e st st1 h1 with
        ⟨-, hcu, hdr, hst⟩ | ⟨-, hcu, hdr, hst⟩ | ⟨-, hcu, hdr, cmd, hem, hst⟩ <;>
        rw [hst] at h
      · obtain ⟨e1, e2, e3, e4, cmds, e5, e6⟩ := ih st st' h ht hc hv
        refine ⟨?_, ?_, ?_, e4, cmds, e5, ?_⟩
        · rw [e1]; simp [List.countP_cons, hcu, hdr]
        · rw [e2]; simp [List.countP_cons, hcu]
        · rw [e3]; simp [List.countP_cons, hdr]
        · simpa [List.filter_cons, hdr] using e6
      · obtain ⟨e1, e2, e3, e4, cmds, e5, e6⟩ := ih _ st' h (Nat.mod_lt _ hM)
          (Nat.mod_lt _ hM) hv
        simp only at e1 e2 e3 e4 e5
        refine ⟨?_, ?_, ?_, e4, cmds, e5, ?_⟩
        · rw [e1]; simp only [List.countP_cons, hcu, hdr, if_true]; simp; omega
        · rw [e2]; simp only [List.countP_cons, hcu, if_true]; omega
        · rw [e3]; simp [List.countP_cons, hdr]
        · simpa [List.filter_cons, hdr] using e6
      · obtain ⟨e1, e2, e3, e4, cmds, e5, e6⟩ := ih _ st' h (Nat.mod_lt _ hM) hc
          (Nat.mod_lt _ hM)
        simp only at e1 e2 e3 e4 e5
        obtain ⟨mesh, hmesh, hcmd⟩ := hem
        have hop := submit_transparent_false st.2 cmd
          (assembleCommand_transparent_false L rm cameraPos e.1 e.2 mesh cmd hcmd)
        refine ⟨?_, ?_, ?_, by rw [e4, hop.2], cmd :: cmds, ?_, ?_⟩
        · rw [e1]; simp only [List.countP_cons, hcu, hdr, if_true]; simp; omega
        · rw [e2]; simp [List.countP_cons, hcu]
        · rw [e3]; simp only [List.countP_cons, hdr, if_true]; omega
        · rw [e5, hop.1]; simp
        · simp only [List.filter_cons, hdr, if_true]
          exact List.Forall₂.cons ⟨mesh, hmesh, hcmd⟩ e6

/-- Two predicates that never hold together are counted on at most as many
elements as the list has. -/
theorem countP_add_le_length {α : Type} (p q : α → Bool) (l : List α)
    (h : ∀ x, ¬ (p x = true ∧ q x = true)) : l.countP p + l.countP q ≤ l.length := by
  induction l with
  | nil => simp
  | cons x xs ih =>
    simp only [List.countP_cons, List.length_cons]
    have hx := h x
    cases hp : p x <;> cases hq : q x <;> simp_all <;> omega

/-- No entity is both culled and drawn. -/
theorem not_culled_and_drawn (rm : ResourceManager) (frustum : Frustum)
    (e : TransformComponent × MeshComponent) :
    ¬ (isCulled rm frustum e = true ∧ isDrawn rm frustum e = true) := by
  unfold isCulled isDrawn
  cases e.2.visible <;>
    cases rm.GetMesh { index := e.2.meshHandle, generation := 0 } <;> simp

/-- The frustum `openFrustum` contains every box. -/
theorem openFrustum_contains (aabb : AABB) (model : Mat4) :
    openFrustum.ContainsAABB aabb model = true := by
  simp only [Frustum.ContainsAABB]
  rw [planeLoop_eq_true_iff, corners_eq]
  intro pl hpl
  simp only [Frustum.planes, openFrustum, List.mem_cons, List.mem_singleton, List.not_mem_nil,
    or_false, or_self] at hpl
  subst hpl
  simp [allOutside, planeDistance]

/-- C13, as written, fails when a live material names a texture that is not
live: the only entity of `oneEntityRegistry` is flagged visible and references
mesh 0 and material 0 of `danglingManager`, both live, and passes the frustum
test; material 0 names texture 0 of an empty texture pool, and the call dies on
the invalid-handle assertion of `GetTexture` instead of returning counts. -/
theorem gatherCommands_aborts_on_dangling_texture :
    oneEntityRegistry.eachTransformMesh = [({}, {})] ∧
    danglingManager.meshPool_.IsValid { index := 0, generation := 0 } = true ∧
    danglingManager.materialPool_.IsValid { index := 0, generation := 0 } = true ∧
    GatherCommands exampleMath oneEntityRegistry danglingManager {} ⟨0, 0, 3⟩ openFrustum =
      .error .assertFailed := by
  refine ⟨rfl, rfl, rfl, ?_⟩
  have hreg : oneEntityRegistry.eachTransformMesh = [({}, {})] := rfl
  have hmesh : danglingManager.GetMesh { index := 0, generation := 0 } =
      .ok { localBounds := unitBox } := rfl
  have hmat : danglingManager.GetMaterial { index := 0, generation := 0 } =
      .ok { albedoTexIndex := 0 } := rfl
  have htex : danglingManager.GetTexture { index := 0, generation := 0 } =
      .error .assertFailed := rfl
  have hvalid : ({ index := 0, generation := 0 } : Handle).IsValid = true := by decide
  have hres : resolveTexID danglingManager 0 danglingManager.DefaultAlbedo =
      .error .assertFailed := by
    simp [resolveTexID, kInvalidTexIndex, htex]
  have hasm : assembleCommand exampleMath danglingManager ⟨0, 0, 3⟩ {} {}
      { localBounds := unitBox } = .error .assertFailed := by
    simp only [assembleCommand, hvalid, if_true, hmat, hres]
  simp only [GatherCommands, hreg, gatherLoop, visit, hmesh, openFrustum_contains, hasm]
  rfl

/-- C13 (amended): for a registry with fewer than 2^32 entities carrying a
transform and a mesh, in which every visible-flagged such entity references a
live mesh and either no material or a live material whose texture indices are
unset or live: `GatherCommands` returns; `total = culled + visible`; `culled`
is the number of visible-flagged entities whose `ContainsAABB` test is false;
`visible` is the number of commands appended to the queue; the appended
commands are those of the visible-flagged entities that pass the test, in
order, so an entity whose flag is off, or that is culled, adds none. -/
theorem gatherCommands_counts (L : CMath) (registry : Registry) (rm : ResourceManager)
    (queue : RenderQueue) (cameraPos : Vec3) (frustum : Frustum)
    (hlen : registry.eachTransformMesh.length < 4294967296)
    (hlive : ∀ e ∈ registry.eachTransformMesh, e.2.visible = true → resourcesLive rm e.2) :
    ∃ stats queue',
      GatherCommands L registry rm queue cameraPos frustum = .ok (stats, queue') ∧
      stats.total = stats.culled + stats.visible ∧
      stats.culled = registry.eachTransformMesh.countP (isCulled rm frustum) ∧
      stats.visible = registry.eachTransformMesh.countP (isDrawn rm frustum) ∧
      queue'.TotalCount = queue.TotalCount + stats.visible ∧
      queue'.transparents_ = queue.transparents_ ∧
      ∃ cmds, queue'.opaques_ = queue.opaques_ ++ cmds ∧
        List.Forall₂ (emitted L rm cameraPos)
          (registry.eachTransformMesh.filter (isDrawn rm frustum)) cmds := by
  obtain ⟨st', hrun⟩ := gatherLoop_returns L rm cameraPos frustum registry.eachTransformMesh
    ({}, queue) hlive
  obtain ⟨e1, e2, e3, e4, cmds, e5, e6⟩ := gatherLoop_ok_spec L rm cameraPos frustum
    registry.eachTransformMesh ({}, queue) st' hrun (by simp) (by simp) (by simp)
  have hsum := countP_add_le_length (isCulled rm frustum) (isDrawn rm frustum)
    registry.eachTransformMesh (not_culled_and_drawn rm frustum)
  have hlenc := e6.length_eq
  have hfl : (registry.eachTransformMesh.filter (isDrawn rm frustum)).length =
      registry.eachTransformMesh.countP (isDrawn rm frustum) := by
    rw [List.countP_eq_length_filter]
  simp only [Nat.zero_add] at e1 e2 e3
  simp only at e4 e5
  have h1 : st'.1.total = registry.eachTransformMesh.countP (isCulled rm frustum) +
      registry.eachTransformMesh.countP (isDrawn rm frustum) := by
    rw [e1]; exact Nat.mod_eq_of_lt (by omega)
  have h2 : st'.1.culled = registry.eachTransformMesh.countP (isCulled rm frustum) := by
    rw [e2]; exact Nat.mod_eq_of_lt (by omega)
  have h3 : st'.1.visible = registry.eachTransformMesh.countP (isDrawn rm frustum) := by
    rw [e3]; exact Nat.mod_eq_of_lt (by omega)
  refine ⟨st'.1, st'.2, hrun, by rw [h1, h2, h3], h2, h3, ?_, e4, cmds, e5, e6⟩
  simp only [RenderQueue.TotalCount, e4, e5, List.length_append]
  omega

/-- The resources of the entity of `oneEntityRegistry` are live in
`liveManager`. -/
theorem liveManager_live :
    ∀ e ∈ oneEntityRegistry.eachTransformMesh, e.2.visible = true →
      resourcesLive liveManager e.2 := by
  intro e he _
  have hreg : oneEntityRegistry.eachTransformMesh = [({}, {})] := rfl
  rw [hreg, List.mem_singleton] at he
  subst he
  exact ⟨rfl, Or.inr ⟨{}, rfl, Or.inl rfl, Or.inl rfl, Or.inl rfl⟩⟩

/-- A witness for C13 (amended): the one-entity registry with live resources. -/
theorem gatherCommands_counts_witness :
    oneEntityRegistry.eachTransformMesh.length < 4294967296 ∧
    ∃ stats queue',
      GatherCommands exampleMath oneEntityRegistry liveManager {} ⟨0, 0, 3⟩ openFrustum =
        .ok (stats, queue') ∧
      stats.total = stats.culled + stats.visible ∧
      stats.culled = oneEntityRegistry.eachTransformMesh.countP (isCulled liveManager openFrustum) ∧
      stats.visible = oneEntityRegistry.eachTransformMesh.countP (isDrawn liveManager openFrustum) ∧
      queue'.TotalCount = ({} : RenderQueue).TotalCount + stats.visible ∧
      queue'.transparents_ = ({} : RenderQueue).transparents_ ∧
      ∃ cmds, queue'.opaques_ = ({} : RenderQueue).opaques_ ++ cmds ∧
        List.Forall₂ (emitted exampleMath liveManager ⟨0, 0, 3⟩)
          (oneEntityRegistry.eachTransformMesh.filter (isDrawn liveManager openFrustum)) cmds :=
  ⟨by decide,
    gatherCommands_counts exampleMath oneEntityRegistry liveManager {} ⟨0, 0, 3⟩ openFrustum
      (by decide) liveManager_live⟩

/-- What an assembled command holds: the distance computed by the library
square root from the translation column and the camera position, and, for a
material index other than the sentinel, the factors of the live material of
that index and its three texture identifiers, each the fallback's for an unset
index and else that of the texture stored at the index in the texture pool. -/
theorem assembleCommand_spec (L : CMath) (rm : ResourceManager) (cameraPos : Vec3)
    (tc : TransformComponent) (mc : MeshComponent) (mesh : GPUMesh) (cmd : RenderCommand)
    (h : assembleCommand L rm cameraPos tc mc mesh = .ok cmd) :
    cmd.distanceToCamera =
      L.sqrt ((tc.worldMatrix.c3.x - cameraPos.x) * (tc.worldMatrix.c3.x - cameraPos.x) +
        (tc.worldMatrix.c3.y - cameraPos.y) * (tc.worldMatrix.c3.y - cameraPos.y) +
        (tc.worldMatrix.c3.z - cameraPos.z) * (tc.worldMatrix.c3.z - cameraPos.z)) ∧
    (mc.materialHandle ≠ 4294967295 →
      ∃ m, rm.materialPool_.IsValid { index := mc.materialHandle, generation := 0 } = true ∧
        rm.materialPool_.slots_[mc.materialHandle]? = some m ∧
        cmd.albedoFactor = m.value.albedoFactor ∧
        cmd.metallicFactor = m.value.metallicFactor ∧
        cmd.roughnessFactor = m.value.roughnessFactor ∧
        (m.value.albedoTexIndex = 4294967295 → cmd.albedoTexID = rm.defaultAlbedo_.id_) ∧
        (m.value.albedoTexIndex ≠ 4294967295 →
          ∃ t, rm.texturePool_.slots_[m.value.albedoTexIndex]? = some t ∧
            cmd.albedoTexID = t.value.id_) ∧
        (m.value.normalTexIndex = 4294967295 → cmd.normalTexID = rm.defaultNormal_.id_) ∧
        (m.value.normalTexIndex ≠ 4294967295 →
          ∃ t, rm.texturePool_.slots_[m.value.normalTexIndex]? = some t ∧
            cmd.normalTexID = t.value.id_) ∧
        (m.value.metallicRoughIndex = 4294967295 →
          cmd.metallicRoughTexID = rm.defaultMetalRough_.id_) ∧
        (m.value.metallicRoughIndex ≠ 4294967295 →
          ∃ t, rm.texturePool_.slots_[m.value.metallicRoughIndex]? = some t ∧
            cmd.metallicRoughTexID = t.value.id_)) := by
  unfold assembleCommand at h
  by_cases hv : ({ index := mc.materialHandle, generation := 0 } : Handle).IsValid = true
  · simp only [hv, if_true] at h
    cases hmat : rm.GetMaterial { index := mc.materialHandle, generation := 0 } with
    | error e => simp [hmat] at h
    | ok mat =>
      simp only [hmat] at h
      cases ha : resolveTexID rm mat.albedoTexIndex rm.DefaultAlbedo with
      | error e => simp [ha] at h
      | ok a =>
        simp only [ha] at h
        cases hn : resolveTexID rm mat.normalTexIndex rm.DefaultNormal with
        | error e => simp [hn] at h
        | ok n =>
          simp only [hn] at h
          cases hm : resolveTexID rm mat.metallicRoughIndex rm.DefaultMetalRough with
          | error e => simp [hm] at h
          | ok m =>
            simp only [hm] at h
            injection h with h
            subst h
            refine ⟨rfl, fun _ => ?_⟩
            obtain ⟨hval, s, hs, hsv⟩ := (HandlePool.get_eq_ok_iff _ _ _).mp hmat
            subst hsv
            have sa := resolveTexID_spec rm _ _ _ ha
            have sn := resolveTexID_spec rm _ _ _ hn
            have sm := resolveTexID_spec rm _ _ _ hm
            exact ⟨s, hval, hs, rfl, rfl, rfl, sa.1, fun hne => (sa.2 hne).2,
              sn.1, fun hne => (sn.2 hne).2, sm.1, fun hne => (sm.2 hne).2⟩
  · simp only [hv] at h
    injection h with h
    subst h
    refine ⟨rfl, fun hne => ?_⟩
    exact absurd (by simpa [Handle.IsValid, Handle.kInvalid] using hne) hv

/-- Normalising a plane does not turn a non-negative distance negative. -/
theorem normalizePlane_distance_nonneg (L : CMath) (p : Vec4) (c : Vec3)
    (h : 0 ≤ planeDistance p c) : 0 ≤ planeDistance (normalizePlane L p) c := by
  unfold normalizePlane
  by_cases hlen : Vec3.length L p.xyz > lengthEpsilon
  · simp only [hlen, if_true]
    have hpos : 0 < Vec3.length L p.xyz := lt_trans (by norm_num [lengthEpsilon]) hlen
    have heq : planeDistance (p.divScalar (Vec3.length L p.xyz)) c =
        planeDistance p c / Vec3.length L p.xyz := by
      simp only [planeDistance, Vec4.divScalar]
      field_simp
    rw [heq]
    exact div_nonneg h (le_of_lt hpos)
  · simp only [hlen, if_false]
    exact h

/-- The view matrix of the scenario is the translation by (0, 0, -3), when the
library square root is exact on 9 and on 1. -/
theorem lookAt_scenario (L : CMath) (hs9 : L.sqrt 9 = 3) (hs1 : L.sqrt 1 = 1) :
    glmLookAt L ⟨0, 0, 3⟩ ⟨0, 0, 0⟩ ⟨0, 1, 0⟩ =
      { c0 := ⟨1, 0, 0, 0⟩, c1 := ⟨0, 1, 0, 0⟩, c2 := ⟨0, 0, 1, 0⟩, c3 := ⟨0, 0, -3, 1⟩ } := by
  have hf : Vec3.normalize L ((⟨0, 0, 0⟩ : Vec3).sub ⟨0, 0, 3⟩) = ⟨0, 0, -1⟩ := by
    have hd : Vec3.dot ((⟨0, 0, 0⟩ : Vec3).sub ⟨0, 0, 3⟩) ((⟨0, 0, 0⟩ : Vec3).sub ⟨0, 0, 3⟩) = 9 := by
      norm_num [Vec3.dot, Vec3.sub]
    simp only [Vec3.normalize, hd, hs9]
    norm_num [Vec3.sub]
  have hc : (⟨0, 0, -1⟩ : Vec3).cross ⟨0, 1, 0⟩ = ⟨1, 0, 0⟩ := by
    norm_num [Vec3.cross]
  have hs : Vec3.normalize L (⟨1, 0, 0⟩ : Vec3) = ⟨1, 0, 0⟩ := by
    have hd : Vec3.dot (⟨1, 0, 0⟩ : Vec3) ⟨1, 0, 0⟩ = 1 := by norm_num [Vec3.dot]
    simp only [Vec3.normalize, hd, hs1]
    norm_num
  simp only [glmLookAt, hf, hc, hs]
  norm_num [Vec3.cross, Vec3.dot]

/-- The view-projection matrix of the scenario, written out. -/
theorem scenarioViewProjection_eq (L : CMath) (aspect zNear : ℚ) (hs9 : L.sqrt 9 = 3)
    (hs1 : L.sqrt 1 = 1) :
    scenarioViewProjection L aspect zNear =
      { c0 := ⟨1 / (aspect * L.tan (glmRadians 60 / 2)), 0, 0, 0⟩
        c1 := ⟨0, 1 / L.tan (glmRadians 60 / 2), 0, 0⟩
        c2 := ⟨0, 0, -(100 + zNear) / (100 - zNear), -1⟩
        c3 := ⟨0, 0, -(100 + zNear) / (100 - zNear) * (-3) +
                -(2 * 100 * zNear) / (100 - zNear), 3⟩ } := by
  simp only [scenarioViewProjection, lookAt_scenario L hs9 hs1, glmPerspective, Mat4.mul,
    Mat4.mulVec]
  norm_num

/-- The distance of a plane to a corner of the scenario's box, which the
identity matrix leaves in place. -/
theorem planeDistance_identity (pl : Vec4) (q : Vec3) :
    planeDistance pl (worldPoint (Mat4.diag 1) q) = pl.x * q.x + pl.y * q.y + pl.z * q.z + pl.w := by
  simp only [planeDistance, worldPoint, Mat4.mulVec, Vec4.xyz, Mat4.diag]
  ring

/-- The frustum of the scenario does not reject the scenario's box: every
plane has a corner of the box on its inner side. -/
theorem scenario_contains (L : CMath) (aspect zNear : ℚ) (ha : 0 < aspect)
    (ht : 0 < L.tan (glmRadians 60 / 2)) (hn0 : 0 < zNear) (hn1 : zNear ≤ 1)
    (hs9 : L.sqrt 9 = 3) (hs1 : L.sqrt 1 = 1) :
    (Frustum.FromViewProjection L (scenarioViewProjection L aspect zNear)).ContainsAABB
      centeredBox (Mat4.diag 1) = true := by
  have hd : 0 < 100 - zNear := by linarith
  have hat : 0 < aspect * L.tan (glmRadians 60 / 2) := mul_pos ha ht
  simp only [Frustum.ContainsAABB]
  rw [planeLoop_eq_true_iff, Frustum.fromViewProjection_planes_eq, corners_eq]
  intro pl hpl
  rw [List.mem_map] at hpl
  obtain ⟨raw, hraw, rfl⟩ := hpl
  rw [scenarioViewProjection_eq L aspect zNear hs9 hs1] at hraw
  simp only [gribbHartmannPlanes, List.mem_cons, List.mem_singleton, List.not_mem_nil,
    or_false] at hraw
  have hmin : worldPoint (Mat4.diag 1)
      ⟨centeredBox.min.x, centeredBox.min.y, centeredBox.min.z⟩ ∈
      [worldPoint (Mat4.diag 1) ⟨centeredBox.min.x, centeredBox.min.y, centeredBox.min.z⟩,
       worldPoint (Mat4.diag 1) ⟨centeredBox.max.x, centeredBox.min.y, centeredBox.min.z⟩,
       worldPoint (Mat4.diag 1) ⟨centeredBox.min.x, centeredBox.max.y, centeredBox.min.z⟩,
       worldPoint (Mat4.diag 1) ⟨centeredBox.max.x, centeredBox.max.y, centeredBox.min.z⟩,
       worldPoint (Mat4.diag 1) ⟨centeredBox.min.x, centeredBox.min.y, centeredBox.max.z⟩,
       worldPoint (Mat4.diag 1) ⟨centeredBox.max.x, centeredBox.min.y, centeredBox.max.z⟩,
       worldPoint (Mat4.diag 1) ⟨centeredBox.min.x, centeredBox.max.y, centeredBox.max.z⟩,
       worldPoint (Mat4.diag 1) ⟨centeredBox.max.x, centeredBox.max.y, centeredBox.max.z⟩] := by
    simp
  have hmaxx : worldPoint (Mat4.diag 1)
      ⟨centeredBox.max.x, centeredBox.min.y, centeredBox.min.z⟩ ∈
      [worldPoint (Mat4.diag 1) ⟨centeredBox.min.x, centeredBox.min.y, centeredBox.min.z⟩,
       worldPoint (Mat4.diag 1) ⟨centeredBox.max.x, centeredBox.min.y, centeredBox.min.z⟩,
       worldPoint (Mat4.diag 1) ⟨centeredBox.min.x, centeredBox.max.y, centeredBox.min.z⟩,
       worldPoint (Mat4.diag 1) ⟨centeredBox.max.x, centeredBox.max.y, centeredBox.min.z⟩,
       worldPoint (Mat4.diag 1) ⟨centeredBox.min.x, centeredBox.min.y, centeredBox.max.z⟩,
       worldPoint (Mat4.diag 1) ⟨centeredBox.max.x, centeredBox.min.y, centeredBox.max.z⟩,
       worldPoint (Mat4.diag 1) ⟨centeredBox.min.x, centeredBox.max.y, centeredBox.max.z⟩,
       worldPoint (Mat4.diag 1) ⟨centeredBox.max.x, centeredBox.max.y, centeredBox.max.z⟩] := by
    simp
  have hmaxy : worldPoint (Mat4.diag 1)
      ⟨centeredBox.min.x, centeredBox.max.y, centeredBox.min.z⟩ ∈
      [worldPoint (Mat4.diag 1) ⟨centeredBox.min.x, centeredBox.min.y, centeredBox.min.z⟩,
       worldPoint (Mat4.diag 1) ⟨centeredBox.max.x, centeredBox.min.y, centeredBox.min.z⟩,
       worldPoint (Mat4.diag 1) ⟨centeredBox.min.x, centeredBox.max.y, centeredBox.min.z⟩,
       worldPoint (Mat4.diag 1) ⟨centeredBox.max.x, centeredBox.max.y, centeredBox.min.z⟩,
       worldPoint (Mat4.diag 1) ⟨centeredBox.min.x, centeredBox.min.y, centeredBox.max.z⟩,
       worldPoint (Mat4.diag 1) ⟨centeredBox.max.x, centeredBox.min.y, centeredBox.max.z⟩,
       worldPoint (Mat4.diag 1) ⟨centeredBox.min.x, centeredBox.max.y, centeredBox.max.z⟩,
       worldPoint (Mat4.diag 1) ⟨centeredBox.max.x, centeredBox.max.y, centeredBox.max.z⟩] := by
    simp
  rcases hraw with rfl | rfl | rfl | rfl | rfl | rfl
  · refine allOutside_false_of_corner _ _ _ hmaxx (normalizePlane_distance_nonneg L _ _ ?_)
    rw [planeDistance_identity]
    simp only [centeredBox, Vec3.splat]
    have : 0 < 1 / (aspect * L.tan (glmRadians 60 / 2)) := one_div_pos.mpr hat
    nlinarith
  · refine allOutside_false_of_corner _ _ _ hmin (normalizePlane_distance_nonneg L _ _ ?_)
    rw [planeDistance_identity]
    simp only [centeredBox, Vec3.splat]
    have : 0 < 1 / (aspect * L.tan (glmRadians 60 / 2)) := one_div_pos.mpr hat
    nlinarith
  · refine allOutside_false_of_corner _ _ _ hmaxy (normalizePlane_distance_nonneg L _ _ ?_)
    rw [planeDistance_identity]
    simp only [centeredBox, Vec3.splat]
    have : 0 < 1 / L.tan (glmRadians 60 / 2) := one_div_pos.mpr ht
    nlinarith
  · refine allOutside_false_of_corner _ _ _ hmin (normalizePlane_distance_nonneg L _ _ ?_)
    rw [planeDistance_identity]
    simp only [centeredBox, Vec3.splat]
    have : 0 < 1 / L.tan (glmRadians 60 / 2) := one_div_pos.mpr ht
    nlinarith
  · refine allOutside_false_of_corner _ _ _ hmin (normalizePlane_distance_nonneg L _ _ ?_)
    rw [planeDistance_identity]
    simp only [centeredBox, Vec3.splat]
    have hpos : (0 : ℚ) ≤ (700 - 200 * zNear) / (100 - zNear) :=
      div_nonneg (by linarith) (le_of_lt hd)
    refine le_trans hpos (le_of_eq ?_)
    field_simp
    ring
  · refine allOutside_false_of_corner _ _ _ hmin (normalizePlane_distance_nonneg L _ _ ?_)
    rw [planeDistance_identity]
    simp only [centeredBox, Vec3.splat]
    have hpos : (0 : ℚ) ≤ 193 * zNear / (100 - zNear) :=
      div_nonneg (by linarith) (le_of_lt hd)
    refine le_trans hpos (le_of_eq ?_)
    field_simp
    ring

/-- The example square root is exact on 9. -/
theorem ratSqrt_nine : ratSqrt 9 = 3 := by
  have h : Nat.sqrt 9 = 3 := Nat.sqrt_eq 3
  have hn : (9 : ℚ).num.toNat = 9 := rfl
  have hd : (9 : ℚ).den = 1 := rfl
  simp only [ratSqrt, hn, hd, h, Nat.sqrt_one]
  norm_num

/-- The example square root is exact on 1. -/
theorem ratSqrt_one : ratSqrt 1 = 1 := by
  have hn : (1 : ℚ).num.toNat = 1 := rfl
  have hd : (1 : ℚ).den = 1 := rfl
  simp only [ratSqrt, hn, hd, Nat.sqrt_one]
  norm_num

/-- C14: the end-to-end scenario. One entity flagged visible, at the identity
transform, whose mesh has the box from (-1/2, -1/2, -1/2) to (1/2, 1/2, 1/2)
and whose resources are live; the frustum extracted from
`perspective(radians(60), aspect, zNear, 100) * lookAt((0,0,3), origin, (0,1,0))`
for any positive aspect and a near distance in (0, 1], such as 0.1; the library
tangent positive at half the field of view and the library square root exact
on 9 and 1. Then `GatherCommands` with the camera at (0, 0, 3) on an empty
queue returns total 1, culled 0, visible 1, and the queue holds exactly one
opaque command, no transparent one, with `distanceToCamera` equal to 3. -/
theorem end_to_end_scenario (L : CMath) (aspect zNear : ℚ) (registry : Registry)
    (rm : ResourceManager) (tc : TransformComponent) (mc : MeshComponent) (mesh : GPUMesh)
    (ha : 0 < aspect) (hn0 : 0 < zNear) (hn1 : zNear ≤ 1)
    (ht : 0 < L.tan (glmRadians 60 / 2)) (hs9 : L.sqrt 9 = 3) (hs1 : L.sqrt 1 = 1)
    (hreg : registry.eachTransformMesh = [(tc, mc)]) (hvis : mc.visible = true)
    (hid : tc.worldMatrix = Mat4.diag 1)
    (hmesh : rm.GetMesh { index := mc.meshHandle, generation := 0 } = .ok mesh)
    (hbox : mesh.localBounds = centeredBox) (hlive : resourcesLive rm mc) :
    ∃ cmd queue',
      GatherCommands L registry rm {} ⟨0, 0, 3⟩
        (Frustum.FromViewProjection L (scenarioViewProjection L aspect zNear)) =
        .ok ({ total := 1, culled := 0, visible := 1 }, queue') ∧
      queue'.opaques_ = [cmd] ∧ queue'.transparents_ = [] ∧ cmd.distanceToCamera = 3 := by
  have hc : (Frustum.FromViewProjection L (scenarioViewProjection L aspect zNear)).ContainsAABB
      mesh.localBounds tc.worldMatrix = true := by
    rw [hbox, hid]
    exact scenario_contains L aspect zNear ha ht hn0 hn1 hs9 hs1
  obtain ⟨cmd, hcmd⟩ := assembleCommand_ok L rm ⟨0, 0, 3⟩ tc mc mesh hlive
  have hdist : cmd.distanceToCamera = 3 := by
    rw [(assembleCommand_spec L rm ⟨0, 0, 3⟩ tc mc mesh cmd hcmd).1, hid]
    have h9 : ((Mat4.diag 1).c3.x - 0) * ((Mat4.diag 1).c3.x - 0) +
        ((Mat4.diag 1).c3.y - 0) * ((Mat4.diag 1).c3.y - 0) +
        ((Mat4.diag 1).c3.z - 3) * ((Mat4.diag 1).c3.z - 3) = (9 : ℚ) := by
      norm_num [Mat4.diag]
    rw [h9, hs9]
  have hop := submit_transparent_false {} cmd
    (assembleCommand_transparent_false L rm ⟨0, 0, 3⟩ tc mc mesh cmd hcmd)
  refine ⟨cmd, ({} : RenderQueue).Submit cmd, ?_, by simpa using hop.1, by simpa using hop.2,
    hdist⟩
  simp only [GatherCommands, hreg, gatherLoop, visit, hvis, hmesh, hc, hcmd]
  rfl

/-- A witness for C14: aspect 16/9, near distance 1/10, the one-entity registry
and the scenario's resource manager. -/
theorem end_to_end_scenario_witness :
    ∃ cmd queue',
      GatherCommands exampleMath oneEntityRegistry scenarioManager {} ⟨0, 0, 3⟩
        (Frustum.FromViewProjection exampleMath
          (scenarioViewProjection exampleMath (16 / 9) (1 / 10))) =
        .ok ({ total := 1, culled := 0, visible := 1 }, queue') ∧
      queue'.opaques_ = [cmd] ∧ queue'.transparents_ = [] ∧ cmd.distanceToCamera = 3 :=
  end_to_end_scenario exampleMath (16 / 9) (1 / 10) oneEntityRegistry scenarioManager {} {}
    { localBounds := centeredBox } (by norm_num) (by norm_num) (by norm_num)
    (by norm_num [exampleMath, glmRadians])
    ratSqrt_nine ratSqrt_one
    rfl rfl rfl rfl rfl
    ⟨rfl, Or.inr ⟨{}, rfl, Or.inl rfl, Or.inl rfl, Or.inl rfl⟩⟩

end RenderSystem

/-! ### The shader preprocessor -/

namespace ShaderPreprocessor

variable {P : Type} [LinearOrder P]

/-- A path that `canonical` accepts is returned as it is, and exists. -/
theorem canonical_eq_ok (fs : ShaderFiles P) (p c : P) (h : canonical fs p = .ok c) :
    c = p ∧ p ∈ fs.files.map Prod.fst := by
  unfold canonical at h
  by_cases hp : p ∈ fs.files.map Prod.fst
  · simp only [hp, if_true] at h
    injection h with h
    exact ⟨h.symm, hp⟩
  · simp only [hp, if_false] at h
    exact Except.noConfusion h

/-- `canonical` accepts every existing path. -/
theorem canonical_of_mem (fs : ShaderFiles P) (p : P) (hp : p ∈ fs.files.map Prod.fst) :
    canonical fs p = .ok p := by
  simp only [canonical, hp, if_true]

/-- The only error of `canonical` is `notFound`. -/
theorem canonical_error (fs : ShaderFiles P) (p : P) (e : ShaderError P)
    (h : canonical fs p = .error e) : e = .notFound p ∧ p ∉ fs.files.map Prod.fst := by
  unfold canonical at h
  by_cases hp : p ∈ fs.files.map Prod.fst
  · simp only [hp, if_true] at h
    exact Except.noConfusion h
  · simp only [hp, if_false] at h
    injection h with h
    exact ⟨h.symm, hp⟩

/-- The elements of a set after an insertion. -/
theorem mem_setInsert (c x : P) (visited : List P) :
    x ∈ setInsert c visited ↔ x = c ∨ x ∈ visited := by
  unfold setInsert
  by_cases hc : c ∈ visited
  · simp only [hc, if_true]
    constructor
    · exact Or.inr
    · rintro (rfl | h)
      · exact hc
      · exact h
  · simp only [hc, if_false]
    exact List.mem_orderedInsert _

/-- An insertion keeps a set free of duplicates. -/
theorem nodup_setInsert (c : P) (visited : List P) (h : visited.Nodup) :
    (setInsert c visited).Nodup := by
  unfold setInsert
  by_cases hc : c ∈ visited
  · simpa only [hc, if_true] using h
  · simp only [hc, if_false]
    exact (List.perm_orderedInsert _ c visited).nodup_iff.mpr (List.nodup_cons.mpr ⟨hc, h⟩)

/-- Visiting an existing file that was not visited leaves fewer files to visit. -/
theorem remaining_insert_lt (fs : ShaderFiles P) (c : P) (visited : List P)
    (hc : c ∈ fs.files.map Prod.fst) (hv : c ∉ visited) :
    remaining fs (setInsert c visited) < remaining fs visited := by
  unfold remaining
  apply Finset.card_lt_card
  rw [Finset.ssubset_iff_of_subset]
  · refine ⟨c, ?_, ?_⟩
    · simp [hc, hv]
    · simp [mem_setInsert]
  · intro x hx
    simp only [Finset.mem_sdiff, List.mem_toFinset, mem_setInsert, not_or] at hx ⊢
    exact ⟨hx.1, hx.2.2⟩

/-- A larger visited set leaves no more files to visit. -/
theorem remaining_mono (fs : ShaderFiles P) (v v' : List P) (h : ∀ x ∈ v, x ∈ v') :
    remaining fs v' ≤ remaining fs v := by
  unfold remaining
  apply Finset.card_le_card
  intro x hx
  simp only [Finset.mem_sdiff, List.mem_toFinset] at hx ⊢
  exact ⟨hx.1, fun hxv => hx.2 (h x hxv)⟩

/-- With nothing visited, no more files remain than exist. -/
theorem remaining_nil_le (fs : ShaderFiles P) : remaining fs [] ≤ fs.files.length := by
  unfold remaining
  simp only [List.toFinset_nil, Finset.sdiff_empty]
  calc (fs.files.map Prod.fst).toFinset.card ≤ (fs.files.map Prod.fst).length :=
        List.toFinset_card_le _
    _ = fs.files.length := List.length_map _ _

/-- The line loop does not run out of recursion depth when the recursive call
does not, and only enlarges `visited`. -/
theorem processLines_no_fuel_error (fs : ShaderFiles P)
    (recur : P → List P → SourceRegistry P → Except (ShaderError P) (ImplResult P))
    (c : P) (srcId bound : Nat)
    (hrec : ∀ p v r, remaining fs v < bound →
      recur p v r ≠ .error .fuelExhausted ∧
      ∀ res, recur p v r = .ok res → ∀ x ∈ v, x ∈ res.2.1) :
    ∀ (lines : List Text) (n : Nat) (v : List P) (r : SourceRegistry P) (out : Text),
      remaining fs v < bound →
      processLines fs recur c srcId lines n v r out ≠ .error .fuelExhausted ∧
      ∀ res, processLines fs recur c srcId lines n v r out = .ok res →
        ∀ x ∈ v, x ∈ res.2.1 := by
  intro lines
  induction lines with
  | nil =>
    intro n v r out _
    simp only [processLines]
    refine ⟨fun h => Except.noConfusion h, ?_⟩
    intro res h x hx
    injection h with h
    subst h
    exact hx
  | cons line rest ih =>
    intro n v r out hb
    simp only [processLines]
    by_cases hinc : isIncludeLine line = true
    · simp only [hinc, if_true]
      cases hq : quotedPath line with
      | none =>
        simp only
        exact ⟨fun h => ShaderError.noConfusion (Except.error.inj h), fun res h => Except.noConfusion h⟩
      | some rel =>
        simp only
        cases hcan : canonical fs (fs.resolve c rel) with
        | error e =>
          simp only
          have he := (canonical_error fs _ e hcan).1
          subst he
          exact ⟨fun h => ShaderError.noConfusion (Except.error.inj h),
            fun res h => Except.noConfusion h⟩
        | ok full =>
          simp only
          obtain ⟨hr1, hr2⟩ := hrec full v r hb
          cases hcall : recur full v r with
          | error e =>
            simp only
            refine ⟨?_, fun res h => Except.noConfusion h⟩
            intro h
            apply hr1
            rw [hcall, Except.error.inj h]
          | ok res1 =>
            obtain ⟨sub, v1, r1⟩ := res1
            simp only
            have hmono := hr2 _ hcall
            have hb1 : remaining fs v1 < bound :=
              lt_of_le_of_lt (remaining_mono fs v v1 hmono) hb
            obtain ⟨i1, i2⟩ := ih (n + 1) v1 r1 (out ++ sub ++ lineDirective (n + 1) srcId) hb1
            exact ⟨i1, fun res h x hx => i2 res h x (hmono x hx)⟩
    · simp only [hinc]
      exact ih (n + 1) v r (out ++ line ++ "\n".toList) hb

/-- `ProcessImpl` does not run out of recursion depth when the depth exceeds
the number of files left to visit, and only enlarges `visited`. -/
theorem processImpl_no_fuel_error (fs : ShaderFiles P) :
    ∀ (fuel : Nat) (p : P) (v : List P) (r : SourceRegistry P) (emit : Bool),
      remaining fs v < fuel →
      ProcessImpl fs fuel p v r emit ≠ .error .fuelExhausted ∧
      ∀ res, ProcessImpl fs fuel p v r emit = .ok res → ∀ x ∈ v, x ∈ res.2.1 := by
  intro fuel
  induction fuel with
  | zero => intro p v r emit h; exact absurd h (Nat.not_lt_zero _)
  | succ fuel ih =>
    intro p v r emit hb
    simp only [ProcessImpl]
    cases hcan : canonical fs p with
    | error e =>
      simp only
      have he := (canonical_error fs _ e hcan).1
      subst he
      exact ⟨fun h => ShaderError.noConfusion (Except.error.inj h),
        fun res h => Except.noConfusion h⟩
    | ok c =>
      simp only
      obtain ⟨rfl, hck⟩ := canonical_eq_ok fs p c hcan
      by_cases hv : c ∈ v
      · simp only [hv, if_true]
        exact ⟨fun h => ShaderError.noConfusion (Except.error.inj h),
          fun res h => Except.noConfusion h⟩
      · simp only [hv, if_false]
        cases hread : ReadFile fs c with
        | none =>
          simp only
          exact ⟨fun h => ShaderError.noConfusion (Except.error.inj h),
            fun res h => Except.noConfusion h⟩
        | some source =>
          simp only
          have hb1 : remaining fs (setInsert c v) < fuel := by
            have := remaining_insert_lt fs c v hck hv
            omega
          obtain ⟨i1, i2⟩ := processLines_no_fuel_error fs
            (fun p v r => ProcessImpl fs fuel p v r true) c (GetOrCreate r c).1 fuel
            (fun p v r hb => ih p v r true hb) (splitLines source) 1 (setInsert c v)
            (GetOrCreate r c).2 (if emit = true then lineDirective 1 (GetOrCreate r c).1 else [])
            hb1
          exact ⟨i1, fun res h x hx => i2 res h x ((mem_setInsert c x v).mpr (Or.inr hx))⟩

/-- `ProcessCore` never runs out of recursion depth: the recursion of
`ProcessImpl` terminates. -/
theorem processCore_no_fuel_error (fs : ShaderFiles P) (root : P) :
    ProcessCore fs root ≠ .error .fuelExhausted := by
  unfold ProcessCore
  cases hcan : canonical fs root with
  | error e =>
    simp only
    have he := (canonical_error fs _ e hcan).1
    subst he
    exact fun h => ShaderError.noConfusion (Except.error.inj h)
  | ok c =>
    simp only
    exact (processImpl_no_fuel_error fs (fuelFor fs) c [] {} false
      (Nat.lt_succ_of_le (remaining_nil_le fs))).1

omit [LinearOrder P] in
/-- The targets of a line that is not an include line are those of the rest. -/
theorem lineTargets_cons_plain (fs : ShaderFiles P) (c : P) (line : Text) (rest : List Text)
    (h : ¬ isIncludeLine line = true) :
    lineTargets fs c (line :: rest) = lineTargets fs c rest := by
  simp [lineTargets, List.filterMap_cons, h]

omit [LinearOrder P] in
/-- The targets of a well-formed include line: its file, then those of the rest. -/
theorem lineTargets_cons_include (fs : ShaderFiles P) (c : P) (line rel : Text)
    (rest : List Text) (h : isIncludeLine line = true) (hq : quotedPath line = some rel) :
    lineTargets fs c (line :: rest) = fs.resolve c rel :: lineTargets fs c rest := by
  simp [lineTargets, List.filterMap_cons, h, hq]

/-- A set closed under a relation contains what its elements reach. -/
theorem closed_reach {α : Type} (r : α → α → Prop) (S : α → Prop)
    (hclosed : ∀ x, S x → ∀ y, r x y → S y) (x y : α) (hx : S x)
    (h : Relation.ReflTransGen r x y) : S y := by
  induction h with
  | refl => exact hx
  | tail _ hstep ih => exact hclosed _ ih _ hstep

/-- When the line loop returns, and the recursive call satisfies `Expanded`,
the loop satisfies `ExpandedLines`. -/
theorem processLines_expanded (fs : ShaderFiles P)
    (recur : P → List P → SourceRegistry P → Except (ShaderError P) (ImplResult P))
    (c : P) (srcId : Nat)
    (hrec : ∀ p v r res, recur p v r = .ok res → Expanded fs p v res.2.1) :
    ∀ (lines : List Text) (n : Nat) (v : List P) (r : SourceRegistry P) (out : Text)
      (res : ImplResult P),
      processLines fs recur c srcId lines n v r out = .ok res →
      ExpandedLines fs c lines v res.2.1 := by
  intro lines
  induction lines with
  | nil =>
    intro n v r out res h
    simp only [processLines] at h
    injection h with h
    subst h
    exact
      { mono := fun x hx => hx
        closed := fun x hx hnx => absurd hx hnx
        reach := fun x hx hnx => absurd hx hnx
        acyclic := fun x hx hnx => absurd hx hnx
        targets := fun g hg => by simp [lineTargets] at hg
        nodup := fun h => h }
  | cons line rest ih =>
    intro n v r out res h
    simp only [processLines] at h
    by_cases hinc : isIncludeLine line = true
    · simp only [hinc, if_true] at h
      cases hq : quotedPath line with
      | none => simp [hq] at h
      | some rel =>
        simp only [hq] at h
        cases hcan : canonical fs (fs.resolve c rel) with
        | error e => simp [hcan] at h
        | ok full =>
          simp only [hcan] at h
          obtain ⟨hfull, -⟩ := canonical_eq_ok fs _ _ hcan
          subst hfull
          cases hcall : recur (fs.resolve c rel) v r with
          | error e => simp [hcall] at h
          | ok res1 =>
            obtain ⟨sub, v1, r1⟩ := res1
            simp only [hcall] at h
            have E1 : Expanded fs (fs.resolve c rel) v v1 := hrec _ _ _ _ hcall
            have E2 := ih _ _ _ _ _ h
            have ht := lineTargets_cons_include fs c line rel rest hinc hq
            exact
              { mono := fun x hx => E2.mono x (E1.mono x hx)
                closed := by
                  intro x hx hnx y hy
                  by_cases hx1 : x ∈ v1
                  · obtain ⟨a, b⟩ := E1.closed x hx1 hnx y hy
                    exact ⟨E2.mono y a, b⟩
                  · obtain ⟨a, b⟩ := E2.closed x hx hx1 y hy
                    exact ⟨a, fun hyv => b (E1.mono y hyv)⟩
                reach := by
                  intro x hx hnx
                  rw [ht]
                  by_cases hx1 : x ∈ v1
                  · exact ⟨_, List.mem_cons_self _ _, E1.reach x hx1 hnx⟩
                  · obtain ⟨g, hg, hreach⟩ := E2.reach x hx hx1
                    exact ⟨g, List.mem_cons_of_mem _ hg, hreach⟩
                acyclic := by
                  intro x hx hnx
                  by_cases hx1 : x ∈ v1
                  · exact E1.acyclic x hx1 hnx
                  · exact E2.acyclic x hx hx1
                targets := by
                  intro g hg
                  rw [ht, List.mem_cons] at hg
                  rcases hg with rfl | hg
                  · exact ⟨E2.mono _ E1.visited, E1.fresh⟩
                  · obtain ⟨a, b⟩ := E2.targets g hg
                    exact ⟨a, fun hgv => b (E1.mono g hgv)⟩
                nodup := fun hnd => E2.nodup (E1.nodup hnd) }
    · simp only [hinc] at h
      have ht := lineTargets_cons_plain fs c line rest hinc
      have E := ih _ _ _ _ _ h
      exact
        { mono := E.mono
          closed := E.closed
          reach := by rw [ht]; exact E.reach
          acyclic := E.acyclic
          targets := by rw [ht]; exact E.targets
          nodup := E.nodup }

/-- When `ProcessImpl` returns, it satisfies `Expanded`. -/
theorem processImpl_expanded (fs : ShaderFiles P) :
    ∀ (fuel : Nat) (p : P) (v : List P) (r : SourceRegistry P) (emit : Bool)
      (res : ImplResult P),
      ProcessImpl fs fuel p v r emit = .ok res → Expanded fs p v res.2.1 := by
  intro fuel
  induction fuel with
  | zero =>
    intro p v r emit res h
    simp [ProcessImpl] at h
  | succ fuel ih =>
    intro p v r emit res h
    simp only [ProcessImpl] at h
    cases hcan : canonical fs p with
    | error e => simp [hcan] at h
    | ok c =>
      simp only [hcan] at h
      obtain ⟨rfl, -⟩ := canonical_eq_ok fs p c hcan
      by_cases hv : c ∈ v
      · simp [hv] at h
      · simp only [hv, if_false] at h
        cases hread : ReadFile fs c with
        | none => simp [hread] at h
        | some source =>
          simp only [hread] at h
          have E := processLines_expanded fs (fun p v r => ProcessImpl fs fuel p v r true) c
            (GetOrCreate r c).1 (fun p v r res hres => ih p v r true res hres)
            (splitLines source) 1 (setInsert c v) (GetOrCreate r c).2 _ res h
          have htargets : ∀ y, Includes fs c y ↔ y ∈ lineTargets fs c (splitLines source) := by
            intro y
            simp only [Includes, includeTargets, hread]
          have hc1 : c ∈ setInsert c v := (mem_setInsert c c v).mpr (Or.inl rfl)
          have hnew : ∀ x, x ∉ v → x ≠ c → x ∉ setInsert c v := by
            intro x hxv hxc hx
            rcases (mem_setInsert c x v).mp hx with h1 | h1
            · exact hxc h1
            · exact hxv h1
          have hsub : ∀ x, x ∈ v → x ∈ setInsert c v :=
            fun x hx => (mem_setInsert c x v).mpr (Or.inr hx)
          exact
            { mono := fun x hx => E.mono x (hsub x hx)
              fresh := hv
              visited := E.mono c hc1
              closed := by
                intro x hx hnx y hy
                by_cases hxc : x = c
                · subst hxc
                  obtain ⟨a, b⟩ := E.targets y ((htargets y).mp hy)
                  exact ⟨a, fun hyv => b (hsub y hyv)⟩
                · obtain ⟨a, b⟩ := E.closed x hx (hnew x hnx hxc) y hy
                  exact ⟨a, fun hyv => b (hsub y hyv)⟩
              reach := by
                intro x hx hnx
                by_cases hxc : x = c
                · subst hxc
                  exact Relation.ReflTransGen.refl
                · obtain ⟨g, hg, hreach⟩ := E.reach x hx (hnew x hnx hxc)
                  exact Relation.ReflTransGen.head ((htargets g).mpr hg) hreach
              acyclic := by
                intro x hx hnx
                by_cases hxc : x = c
                · subst hxc
                  intro hcyc
                  obtain ⟨y, hy, hreach⟩ := Relation.TransGen.head'_iff.mp hcyc
                  have hy' := E.targets y ((htargets y).mp hy)
                  have := closed_reach (Includes fs)
                    (fun z => z ∈ res.2.1 ∧ z ∉ setInsert x v)
                    (fun a ha b hab => E.closed a ha.1 ha.2 b hab) y x hy' hreach
                  exact this.2 hc1
                · exact E.acyclic x hx (hnew x hnx hxc)
              nodup := fun hnd => E.nodup (nodup_setInsert c v hnd) }

omit [LinearOrder P] in
/-- A key that is not in an association list is not found in it. -/
theorem lookup_eq_none_of_not_mem {β : Type} [DecidableEq P] (a : P) (l : List (P × β))
    (h : a ∉ l.map Prod.fst) : l.lookup a = none := by
  induction l with
  | nil => rfl
  | cons e es ih =>
    obtain ⟨k, val⟩ := e
    simp only [List.map_cons, List.mem_cons, not_or] at h
    have hne : (a == k) = false := by simpa using h.1
    simp only [List.lookup, hne]
    exact ih h.2

/-- A file that includes something exists. -/
theorem mem_files_of_includes (fs : ShaderFiles P) (a b : P) (h : Includes fs a b) :
    a ∈ fs.files.map Prod.fst := by
  by_contra hna
  have hl := lookup_eq_none_of_not_mem a fs.files hna
  simp [Includes, includeTargets, ReadFile, hl] at h

/-- In a well-formed file system the line loop fails only on an include cycle,
when the recursive call does. -/
theorem processLines_errors (fs : ShaderFiles P)
    (recur : P → List P → SourceRegistry P → Except (ShaderError P) (ImplResult P))
    (c : P) (srcId : Nat)
    (hrec : ∀ p v r e, p ∈ fs.files.map Prod.fst → recur p v r = .error e →
      e = .fuelExhausted ∨ ∃ q, e = .includeCycle q) :
    ∀ (lines : List Text) (n : Nat) (v : List P) (r : SourceRegistry P) (out : Text)
      (e : ShaderError P),
      (∀ line ∈ lines, isIncludeLine line = true →
        ∃ rel, quotedPath line = some rel ∧ fs.resolve c rel ∈ fs.files.map Prod.fst) →
      processLines fs recur c srcId lines n v r out = .error e →
      e = .fuelExhausted ∨ ∃ q, e = .includeCycle q := by
  intro lines
  induction lines with
  | nil =>
    intro n v r out e _ h
    simp [processLines] at h
  | cons line rest ih =>
    intro n v r out e hwf h
    have hrest : ∀ l ∈ rest, isIncludeLine l = true →
        ∃ rel, quotedPath l = some rel ∧ fs.resolve c rel ∈ fs.files.map Prod.fst :=
      fun l hl => hwf l (List.mem_cons_of_mem _ hl)
    simp only [processLines] at h
    by_cases hinc : isIncludeLine line = true
    · obtain ⟨rel, hq, hk⟩ := hwf line (List.mem_cons_self _ _) hinc
      simp only [hinc, if_true, hq, canonical_of_mem fs _ hk] at h
      cases hcall : recur (fs.resolve c rel) v r with
      | error e1 =>
        simp only [hcall] at h
        injection h with h
        subst h
        exact hrec _ _ _ _ hk hcall
      | ok res1 =>
        obtain ⟨sub, v1, r1⟩ := res1
        simp only [hcall] at h
        exact ih _ _ _ _ _ hrest h
    · simp only [hinc] at h
      exact ih _ _ _ _ _ hrest h

/-- In a well-formed file system `ProcessImpl` on an existing file fails only on
an include cycle (or, in the embedding, on the recursion bound). -/
theorem processImpl_errors (fs : ShaderFiles P) (hwf : WellFormed fs) :
    ∀ (fuel : Nat) (p : P) (v : List P) (r : SourceRegistry P) (emit : Bool)
      (e : ShaderError P), p ∈ fs.files.map Prod.fst →
      ProcessImpl fs fuel p v r emit = .error e →
      e = .fuelExhausted ∨ ∃ q, e = .includeCycle q := by
  intro fuel
  induction fuel with
  | zero =>
    intro p v r emit e _ h
    simp only [ProcessImpl] at h
    injection h with h
    exact Or.inl h.symm
  | succ fuel ih =>
    intro p v r emit e hp h
    obtain ⟨source, hread, hlines⟩ := hwf p hp
    simp only [ProcessImpl, canonical_of_mem fs p hp] at h
    by_cases hv : p ∈ v
    · simp only [hv, if_true] at h
      injection h with h
      exact Or.inr ⟨p, h.symm⟩
    · simp only [hv, if_false, hread] at h
      exact processLines_errors fs (fun p v r => ProcessImpl fs fuel p v r true) p
        (GetOrCreate r p).1 (fun q v r e hq hq' => ih q v r true e hq hq')
        (splitLines source) 1 _ _ _ e hlines h

/-- `Process` returns exactly when `ProcessCore` does, with the header in front
of the body and `visited` as the dependencies. -/
theorem process_eq_ok_iff (fs : ShaderFiles P) (root : P) (result : ShaderProcessResult P) :
    Process fs root = .ok result ↔
      ∃ body visited registry, ProcessCore fs root = .ok (body, visited, registry) ∧
        result = { source := header fs registry.ids ++ body, dependencies := visited } := by
  unfold Process
  cases h : ProcessCore fs root with
  | error e => simp
  | ok res =>
    obtain ⟨body, visited, registry⟩ := res
    simp only [Except.ok.injEq, Prod.mk.injEq]
    constructor
    · intro hr
      exact ⟨body, visited, registry, ⟨rfl, rfl, rfl⟩, hr.symm⟩
    · rintro ⟨b, v, r, ⟨rfl, rfl, rfl⟩, hr⟩
      exact hr.symm

/-- `Process` fails exactly as `ProcessCore` does. -/
theorem process_eq_error_iff (fs : ShaderFiles P) (root : P) (e : ShaderError P) :
    Process fs root = .error e ↔ ProcessCore fs root = .error e := by
  unfold Process
  cases h : ProcessCore fs root with
  | error e' => simp
  | ok res =>
    obtain ⟨body, visited, registry⟩ := res
    simp

/-- When `ProcessCore` returns, the root exists and its expansion from the empty
visited set satisfies `Expanded`. -/
theorem processCore_expanded (fs : ShaderFiles P) (root : P) (res : ImplResult P)
    (h : ProcessCore fs root = .ok res) :
    root ∈ fs.files.map Prod.fst ∧ Expanded fs root [] res.2.1 := by
  unfold ProcessCore at h
  cases hcan : canonical fs root with
  | error e => simp [hcan] at h
  | ok c =>
    simp only [hcan] at h
    obtain ⟨rfl, hk⟩ := canonical_eq_ok fs root c hcan
    exact ⟨hk, processImpl_expanded fs _ _ _ _ _ _ h⟩

/-- C16, as written, fails when another error is met before the cycle closes:
in `selfAndMissingFiles` the root includes itself (its second line names
`root.glsl`), and `Process` fails on its first line, which names a file that
does not exist, with the error of `std::filesystem::canonical`, not with the
include-cycle error. -/
theorem process_cycle_hidden_by_missing_file :
    includeTargets selfAndMissingFiles 0 = [99, 0] ∧
    Relation.TransGen (Includes selfAndMissingFiles) 0 0 ∧
    Process selfAndMissingFiles 0 = .error (.notFound 99) ∧
    ∀ path, Process selfAndMissingFiles 0 ≠ .error (.includeCycle path) := by
  have ht : includeTargets selfAndMissingFiles 0 = [99, 0] := rfl
  have hp : Process selfAndMissingFiles 0 = .error (.notFound 99) := rfl
  refine ⟨ht, Relation.TransGen.single ?_, hp, ?_⟩
  · simp only [Includes, ht]
    decide
  · intro path h
    rw [hp] at h
    exact ShaderError.noConfusion (Except.error.inj h)

/-- C16 (amended): for every finite set of shader files `Process` terminates;
whenever the root file reaches itself through quoted `#include` directives,
`Process` does not return a source; and it then fails with the include-cycle
error when every file is readable and every include line is well formed and
names an existing file, so that no other error is met first. -/
theorem process_terminates_and_rejects_cycles (fs : ShaderFiles P) (root : P) :
    Process fs root ≠ .error .fuelExhausted ∧
    (Relation.TransGen (Includes fs) root root →
      (∀ result, Process fs root ≠ .ok result) ∧
      (WellFormed fs → ∃ path, Process fs root = .error (.includeCycle path))) := by
  have hterm : Process fs root ≠ .error .fuelExhausted := by
    intro h
    exact processCore_no_fuel_error fs root ((process_eq_error_iff fs root _).mp h)
  refine ⟨hterm, ?_⟩
  intro hcyc
  have hnot : ∀ result, Process fs root ≠ .ok result := by
    intro result h
    obtain ⟨body, visited, registry, hcore, -⟩ := (process_eq_ok_iff fs root result).mp h
    obtain ⟨-, E⟩ := processCore_expanded fs root _ hcore
    exact E.acyclic root E.visited (List.not_mem_nil _) hcyc
  refine ⟨hnot, ?_⟩
  intro hwf
  obtain ⟨y, hy, -⟩ := Relation.TransGen.head'_iff.mp hcyc
  have hk := mem_files_of_includes fs root y hy
  cases hp : Process fs root with
  | ok result => exact absurd hp (hnot result)
  | error e =>
    have hcore := (process_eq_error_iff fs root e).mp hp
    simp only [ProcessCore, canonical_of_mem fs root hk] at hcore
    rcases processImpl_errors fs hwf _ _ _ _ _ e hk hcore with he | ⟨q, he⟩
    · subst he
      exact absurd hp hterm
    · exact ⟨q, by rw [he]⟩

/-- C17: whenever `Process(root)` succeeds, the returned dependencies have no
duplicate and are exactly the root file together with every file reachable
from it through quoted `#include` directives. -/
theorem process_dependencies_are_reachable_files (fs : ShaderFiles P) (root : P)
    (result : ShaderProcessResult P) (h : Process fs root = .ok result) :
    result.dependencies.Nodup ∧
    ∀ x, x ∈ result.dependencies ↔ Relation.ReflTransGen (Includes fs) root x := by
  obtain ⟨body, visited, registry, hcore, rfl⟩ := (process_eq_ok_iff fs root result).mp h
  obtain ⟨-, E⟩ := processCore_expanded fs root _ hcore
  refine ⟨E.nodup List.nodup_nil, fun x => ⟨fun hx => E.reach x hx (List.not_mem_nil _), ?_⟩⟩
  intro hreach
  exact closed_reach (Includes fs) (fun z => z ∈ visited)
    (fun a ha b hab => (E.closed a ha (List.not_mem_nil _) b hab).1) root x E.visited hreach

/-- A lookup after the insertion of a new key into the registry map. -/
theorem lookup_orderedInsert (ids : List (P × Nat)) (c : P) (n : Nat) (x : P)
    (hc : c ∉ ids.map Prod.fst) :
    (ids.orderedInsert (fun a b => a.1 ≤ b.1) (c, n)).lookup x =
      if x = c then some n else ids.lookup x := by
  induction ids with
  | nil =>
    by_cases hx : x = c
    · simp [List.lookup, hx]
    · have hne : (x == c) = false := by simpa using hx
      simp [List.lookup, hx, hne]
  | cons b l ih =>
    obtain ⟨k, m⟩ := b
    simp only [List.map_cons, List.mem_cons, not_or] at hc
    simp only [List.orderedInsert]
    by_cases hle : c ≤ k
    · simp only [hle, if_true]
      by_cases hx : x = c
      · simp [List.lookup, hx]
      · have hne : (x == c) = false := by simpa using hx
        simp only [List.lookup, hne, hx, if_false]
    · simp only [hle, if_false]
      by_cases hk : x = k
      · have hxc : x ≠ c := fun h => hc.1 (h.symm.trans hk)
        simp [List.lookup, hk, Ne.symm hc.1]
      · have hne : (x == k) = false := by simpa using hk
        simp only [List.lookup, hne]
        exact ih hc.2

/-- The keys of the registry map after the insertion of an entry. -/
theorem keys_orderedInsert (ids : List (P × Nat)) (c : P) (n : Nat) :
    (ids.orderedInsert (fun a b => a.1 ≤ b.1) (c, n)).map Prod.fst =
      (ids.map Prod.fst).orderedInsert (· ≤ ·) c :=
  List.map_orderedInsert (fun a b : P × Nat => a.1 ≤ b.1) (· ≤ ·) Prod.fst ids (c, n)
    (fun _ _ => Iff.rfl) (fun _ _ => Iff.rfl)

/-- Opening a new file: `visited.insert` and `GetOrCreate` add it with the number
`next`. -/
theorem numbered_single (p : P) (v : List P) (r : SourceRegistry P) (hp : p ∉ v)
    (hk : r.ids.map Prod.fst = v) :
    (GetOrCreate r p).1 = r.next ∧ Numbered [p] v (setInsert p v) r (GetOrCreate r p).2 := by
  have hnone : r.ids.lookup p = none :=
    lookup_eq_none_of_not_mem p r.ids (by rw [hk]; exact hp)
  have hg : GetOrCreate r p = (r.next,
      { ids := r.ids.orderedInsert (fun a b => a.1 ≤ b.1) (p, r.next), next := r.next + 1 }) := by
    simp only [GetOrCreate, hnone]
  have hs : setInsert p v = v.orderedInsert (· ≤ ·) p := by simp only [setInsert, hp, if_false]
  rw [hg, hs]
  refine ⟨rfl, ?_⟩
  have hpk : p ∉ r.ids.map Prod.fst := by rw [hk]; exact hp
  constructor
  · simp only [keys_orderedInsert, hk]
  · simp
  · intro x
    rw [List.mem_orderedInsert, List.mem_singleton]
    exact or_comm
  · intro x hx
    rw [List.mem_singleton] at hx
    subst hx
    exact hp
  · exact List.nodup_singleton p
  · intro x hx
    have hne : x ≠ p := fun h => hp (h ▸ hx)
    simp only [lookup_orderedInsert r.ids p r.next x hpk, hne, if_false]
  · intro k x hkx
    cases k with
    | zero =>
      simp only [List.getElem?_cons_zero, Option.some.injEq] at hkx
      subst hkx
      simp only [lookup_orderedInsert r.ids p r.next p hpk, if_true, Nat.add_zero]
    | succ k => simp at hkx

/-- An expansion that opens no file changes nothing. -/
theorem numbered_nil (v : List P) (r : SourceRegistry P)
    (hk : r.ids.map Prod.fst = v) : Numbered [] v v r r := by
  constructor
  · exact hk
  · simp
  · simp
  · simp
  · exact List.nodup_nil
  · intro x _
    rfl
  · intro k x hkx
    simp at hkx

/-- Two expansions in sequence open the files of the first and then those of the
second. -/
theorem numbered_append {o1 o2 v v1 v2 : List P} {r r1 r2 : SourceRegistry P}
    (N1 : Numbered o1 v v1 r r1) (N2 : Numbered o2 v1 v2 r1 r2) :
    Numbered (o1 ++ o2) v v2 r r2 := by
  constructor
  · exact N2.keys
  · rw [N2.next, N1.next, List.length_append]
    omega
  · intro x
    rw [N2.mem, N1.mem, List.mem_append, or_assoc]
  · intro x hx
    rcases List.mem_append.mp hx with h | h
    · exact N1.disjoint x h
    · exact fun hv => N2.disjoint x h ((N1.mem x).mpr (Or.inl hv))
  · refine List.Nodup.append N1.nodup N2.nodup ?_
    intro x h1 h2
    exact N2.disjoint x h2 ((N1.mem x).mpr (Or.inr h1))
  · intro x hx
    rw [N2.old x ((N1.mem x).mpr (Or.inl hx)), N1.old x hx]
  · intro k x hkx
    by_cases hlt : k < o1.length
    · rw [List.getElem?_append_left hlt] at hkx
      have hx1 : x ∈ v1 := (N1.mem x).mpr (Or.inr (List.mem_iff_getElem?.mpr ⟨k, hkx⟩))
      rw [N2.old x hx1, N1.new k x hkx]
    · rw [List.getElem?_append_right (Nat.le_of_not_lt hlt)] at hkx
      rw [N2.new _ x hkx, N1.next]
      congr 1
      omega

omit [LinearOrder P] in
/-- A numbering that agrees on a sequence agrees on its two parts. -/
theorem agrees_append (idOf : P → Nat) (o1 o2 : List P) (base : Nat)
    (h : Agrees idOf (o1 ++ o2) base) :
    Agrees idOf o1 base ∧ Agrees idOf o2 (base + o1.length) := by
  constructor
  · intro k x hkx
    have hlt : k < o1.length := (List.getElem?_eq_some.mp hkx).1
    exact h k x (by rw [List.getElem?_append_left hlt]; exact hkx)
  · intro k x hkx
    have := h (o1.length + k) x
      (by rw [List.getElem?_append_right (Nat.le_add_right _ _)]; simpa using hkx)
    omega

/-- When the line loop returns, and the recursive call numbers the files it
opens in the order `ord` and produces the text `ex`, the loop numbers the files
opened from its include lines, in line order, and appends the expansion of its
lines to `out`. -/
theorem processLines_numbered (fs : ShaderFiles P)
    (recur : P → List P → SourceRegistry P → Except (ShaderError P) (ImplResult P))
    (ord : P → List P) (ex : (P → Nat) → P → Text) (c : P) (srcId : Nat)
    (hrec : ∀ q v r sub v' r', recur q v r = .ok (sub, v', r') → r.ids.map Prod.fst = v →
      Numbered (ord q) v v' r r' ∧ ∀ idOf, Agrees idOf (ord q) r.next → sub = ex idOf q) :
    ∀ (lines : List Text) (n : Nat) (v : List P) (r : SourceRegistry P) (out out' : Text)
      (v' : List P) (r' : SourceRegistry P),
      processLines fs recur c srcId lines n v r out = .ok (out', v', r') →
      r.ids.map Prod.fst = v →
      Numbered ((lineTargets fs c lines).map ord).flatten v v' r r' ∧
      ∀ idOf, idOf c = srcId →
        Agrees idOf ((lineTargets fs c lines).map ord).flatten r.next →
        out' = out ++ expandLines fs idOf (ex idOf) c lines n := by
  intro lines
  induction lines with
  | nil =>
    intro n v r out out' v' r' h hk
    simp only [processLines, Except.ok.injEq, Prod.mk.injEq] at h
    obtain ⟨rfl, rfl, rfl⟩ := h
    refine ⟨numbered_nil v r hk, ?_⟩
    intro idOf _ _
    simp [expandLines]
  | cons line rest ih =>
    intro n v r out out' v' r' h hk
    simp only [processLines] at h
    by_cases hinc : isIncludeLine line = true
    · simp only [hinc, if_true] at h
      cases hq : quotedPath line with
      | none => simp [hq] at h
      | some rel =>
        simp only [hq] at h
        cases hcan : canonical fs (fs.resolve c rel) with
        | error e => simp [hcan] at h
        | ok full =>
          obtain ⟨rfl, -⟩ := canonical_eq_ok fs _ _ hcan
          simp only [hcan] at h
          cases hcall : recur (fs.resolve c rel) v r with
          | error e => simp [hcall] at h
          | ok res1 =>
            obtain ⟨sub, v1, r1⟩ := res1
            simp only [hcall] at h
            obtain ⟨N1, T1⟩ := hrec _ _ _ _ _ _ hcall hk
            obtain ⟨N2, T2⟩ := ih _ _ _ _ _ _ _ h N1.keys
            have ht := lineTargets_cons_include fs c line rel rest hinc hq
            rw [ht, List.map_cons, List.flatten_cons]
            refine ⟨numbered_append N1 N2, ?_⟩
            intro idOf hid hag
            obtain ⟨A1, A2⟩ := agrees_append idOf _ _ _ hag
            rw [← N1.next] at A2
            rw [T2 idOf hid A2, T1 idOf A1]
            simp only [expandLines, hinc, if_true, hq, hid, List.append_assoc]
    · have ht := lineTargets_cons_plain fs c line rest hinc
      simp only [hinc] at h
      obtain ⟨N2, T2⟩ := ih _ _ _ _ _ _ _ h hk
      rw [ht]
      refine ⟨N2, ?_⟩
      intro idOf hid hag
      rw [T2 idOf hid hag]
      simp [expandLines, hinc, List.append_assoc]

/-- When `ProcessImpl` returns, it has numbered the files it opened in the order
`openOrder`, and its text is the expansion `expand` under every numbering that
agrees with the registry; the depth bound of `openOrder` and `expand` may be any
bound from that of the call on. -/
theorem processImpl_numbered (fs : ShaderFiles P) :
    ∀ (fuel : Nat) (p : P) (v : List P) (r : SourceRegistry P) (emit : Bool)
      (out : Text) (v' : List P) (r' : SourceRegistry P),
      ProcessImpl fs fuel p v r emit = .ok (out, v', r') → r.ids.map Prod.fst = v →
      ∀ fuel', fuel ≤ fuel' →
        Numbered (openOrder fs fuel' p) v v' r r' ∧
        ∀ idOf, Agrees idOf (openOrder fs fuel' p) r.next →
          out = expand fs idOf fuel' p emit := by
  intro fuel
  induction fuel with
  | zero =>
    intro p v r emit out v' r' h
    simp [ProcessImpl] at h
  | succ fuel ih =>
    intro p v r emit out v' r' h hk fuel' hfuel
    obtain ⟨m, rfl⟩ : ∃ m, fuel' = m + 1 := ⟨fuel' - 1, by omega⟩
    have hm : fuel ≤ m := by omega
    simp only [ProcessImpl] at h
    cases hcan : canonical fs p with
    | error e => simp [hcan] at h
    | ok c =>
      obtain ⟨rfl, -⟩ := canonical_eq_ok fs _ _ hcan
      simp only [hcan] at h
      by_cases hv : c ∈ v
      · simp [hv] at h
      · simp only [hv, if_false] at h
        cases hread : ReadFile fs c with
        | none => simp [hread] at h
        | some source =>
          simp only [hread] at h
          obtain ⟨hid, N0⟩ := numbered_single c v r hv hk
          have hloop := processLines_numbered fs (fun p v r => ProcessImpl fs fuel p v r true)
            (fun q => openOrder fs m q) (fun idOf q => expand fs idOf m q true) c
            (GetOrCreate r c).1
            (fun q v r sub v' r' hq hkq => ih q v r true sub v' r' hq hkq m hm)
            (splitLines source) 1 _ _ _ out v' r' h N0.keys
          obtain ⟨N1, T1⟩ := hloop
          have hord : openOrder fs (m + 1) c =
              [c] ++ ((lineTargets fs c (splitLines source)).map
                fun q => openOrder fs m q).flatten := by
            simp only [openOrder, includeTargets, hread, List.singleton_append]
          rw [hord]
          refine ⟨numbered_append N0 N1, ?_⟩
          intro idOf hag
          obtain ⟨A0, A1⟩ := agrees_append idOf _ _ _ hag
          have hc0 : idOf c = r.next := by
            have := A0 0 c (by simp)
            simpa using this
          rw [← N0.next] at A1
          rw [T1 idOf (by rw [hc0, hid]) A1]
          simp only [expand, hread, hid, hc0]

omit [LinearOrder P] in
/-- In an association list with distinct keys, each entry is what a lookup of
its key finds. -/
theorem lookup_of_mem_nodup {β : Type} [DecidableEq P] (l : List (P × β))
    (hn : (l.map Prod.fst).Nodup) (e : P × β) (he : e ∈ l) : l.lookup e.1 = some e.2 := by
  induction l with
  | nil => simp at he
  | cons b bs ih =>
    obtain ⟨k, val⟩ := b
    simp only [List.map_cons, List.nodup_cons] at hn
    rcases List.mem_cons.mp he with rfl | hmem
    · simp [List.lookup]
    · have hne : e.1 ≠ k := fun h => hn.1 (h ▸ List.mem_map_of_mem Prod.fst hmem)
      have hb : (e.1 == k) = false := by simpa using hne
      simp only [List.lookup, hb]
      exact ih hn.2 hmem

omit [LinearOrder P] in
/-- The positions in a list without duplicates number its elements from `0`. -/
theorem agrees_indexOf [DecidableEq P] (order : List P) (hn : order.Nodup) :
    Agrees (fun x => order.indexOf x) order 0 := by
  intro k x hkx
  obtain ⟨hlt, hget⟩ := List.getElem?_eq_some.mp hkx
  simp only [Nat.zero_add]
  rw [← hget]
  exact List.indexOf_getElem hn k hlt

omit [LinearOrder P] in
/-- A numbering that agrees with the positions maps the list to `0, 1, ...`. -/
theorem map_of_agrees (idOf : P → Nat) (order : List P) (h : Agrees idOf order 0) :
    order.map idOf = List.range order.length := by
  apply List.ext_getElem
  · simp
  · intro n h1 h2
    simp only [List.getElem_map, List.getElem_range]
    have hlt : n < order.length := by simpa using h1
    have := h n order[n] (List.getElem?_eq_some.mpr ⟨hlt, rfl⟩)
    omega

omit [LinearOrder P] in
/-- The header `Process` writes is the source map of the keys of the registry
under every numbering that gives each key the number stored with it. -/
theorem header_eq_sourceMap (fs : ShaderFiles P) (idOf : P → Nat) (ids : List (P × Nat))
    (h : ∀ e ∈ ids, e.2 = idOf e.1) :
    header fs ids = sourceMap fs idOf (ids.map Prod.fst) := by
  have hmap : (ids.map fun e => "// source ".toList ++ decimal e.2 ++ ": ".toList ++
      fs.name e.1 ++ "\n".toList) =
      ((ids.map Prod.fst).map fun p => "// source ".toList ++ decimal (idOf p) ++
        ": ".toList ++ fs.name p ++ "\n".toList) := by
    rw [List.map_map]
    apply List.map_congr_left
    intro e he
    simp only [Function.comp, h e he]
  simp only [header, sourceMap, hmap]

/-- C20: in every successful `Process` run the source IDs follow first-seen
order. With `order` the order in which the depth-first expansion opens the
files (under any depth bound from the number of files plus one on), and the
first-seen number of a file its position in `order`: the files of `order` are
distinct and are the dependencies; the root has number 0, the file opened at
position `k` has number `k`, and the numbers of the dependencies are exactly
`0..n-1`; the registry stores with each dependency its first-seen number; the
body is the expansion in which every `#line <n> <id>` directive carries the
number of the file whose lines follow it; and the header before it has exactly
one `// source <id>: <path>` line for each dependency. -/
theorem process_source_ids_first_seen (fs : ShaderFiles P) (root : P)
    (result : ShaderProcessResult P) (h : Process fs root = .ok result)
    (fuel : Nat) (hfuel : fuelFor fs ≤ fuel) :
    (openOrder fs fuel root).Nodup ∧
    (openOrder fs fuel root).Perm result.dependencies ∧
    firstSeenId fs fuel root root = 0 ∧
    (∀ k x, (openOrder fs fuel root)[k]? = some x → firstSeenId fs fuel root x = k) ∧
    (result.dependencies.map (firstSeenId fs fuel root)).Perm
      (List.range result.dependencies.length) ∧
    (∃ body registry, ProcessCore fs root = .ok (body, result.dependencies, registry) ∧
      registry.ids = result.dependencies.map (fun p => (p, firstSeenId fs fuel root p)) ∧
      registry.next = result.dependencies.length ∧
      body = expand fs (firstSeenId fs fuel root) fuel root false) ∧
    result.source = sourceMap fs (firstSeenId fs fuel root) result.dependencies ++
      expand fs (firstSeenId fs fuel root) fuel root false := by
  obtain ⟨body, visited, registry, hcore, rfl⟩ := (process_eq_ok_iff fs root result).mp h
  obtain ⟨hroot, E⟩ := processCore_expanded fs root _ hcore
  have hvis : visited.Nodup := E.nodup List.nodup_nil
  have himpl : ProcessImpl fs (fuelFor fs) root [] {} false = .ok (body, visited, registry) := by
    simpa only [ProcessCore, canonical_of_mem fs root hroot] using hcore
  obtain ⟨N, T⟩ := processImpl_numbered fs _ _ _ _ _ _ _ _ himpl rfl fuel hfuel
  have hmem : ∀ a, a ∈ openOrder fs fuel root ↔ a ∈ visited := by
    intro a
    rw [N.mem a]
    simp
  have hperm : (openOrder fs fuel root).Perm visited :=
    (List.perm_ext_iff_of_nodup N.nodup hvis).mpr hmem
  have hag : Agrees (firstSeenId fs fuel root) (openOrder fs fuel root) 0 :=
    agrees_indexOf _ N.nodup
  have hzero : firstSeenId fs fuel root root = 0 := by
    obtain ⟨m, rfl⟩ : ∃ m, fuel = m + 1 := ⟨fuel - 1, by unfold fuelFor at hfuel; omega⟩
    simp [firstSeenId, openOrder]
  have hentry : ∀ e ∈ registry.ids, e.2 = firstSeenId fs fuel root e.1 := by
    intro e he
    have hkey : e.1 ∈ visited := by
      rw [← N.keys]
      exact List.mem_map_of_mem Prod.fst he
    obtain ⟨k, hk⟩ := List.mem_iff_getElem?.mp ((hmem e.1).mpr hkey)
    have h1 := lookup_of_mem_nodup registry.ids (by rw [N.keys]; exact hvis) e he
    have h2 := N.new k e.1 hk
    have h3 := hag k e.1 hk
    rw [h1] at h2
    injection h2 with h2
    rw [h2, h3]
  have hids : registry.ids = visited.map (fun p => (p, firstSeenId fs fuel root p)) := by
    rw [← N.keys, List.map_map]
    conv_lhs => rw [← List.map_id registry.ids]
    apply List.map_congr_left
    intro e he
    simp only [Function.comp, id, ← hentry e he]
  have hbody : body = expand fs (firstSeenId fs fuel root) fuel root false := T _ hag
  have hlen : (openOrder fs fuel root).length = visited.length := hperm.length_eq
  refine ⟨N.nodup, hperm, hzero, ?_, ?_, ⟨body, registry, hcore, hids, ?_, hbody⟩, ?_⟩
  · intro k x hk
    simpa using hag k x hk
  · rw [← hlen, ← map_of_agrees _ _ hag]
    exact (hperm.symm).map _
  · rw [N.next, hlen]
    simp
  · simp only
    rw [header_eq_sourceMap fs (firstSeenId fs fuel root) registry.ids hentry, N.keys, ← hbody]

/-- A witness for C20: `root.glsl` of `chainFiles`, whose files are opened in the
order root, `b.glsl`, `d.glsl`. -/
theorem process_source_ids_first_seen_witness :
    Process chainFiles 0 = .ok chainResult ∧ fuelFor chainFiles ≤ 4 ∧
    openOrder chainFiles 4 0 = [0, 1, 3] ∧
    (openOrder chainFiles 4 0).Nodup ∧
    (openOrder chainFiles 4 0).Perm chainResult.dependencies ∧
    firstSeenId chainFiles 4 0 0 = 0 ∧
    (∀ k x, (openOrder chainFiles 4 0)[k]? = some x → firstSeenId chainFiles 4 0 x = k) ∧
    (chainResult.dependencies.map (firstSeenId chainFiles 4 0)).Perm
      (List.range chainResult.dependencies.length) ∧
    (∃ body registry, ProcessCore chainFiles 0 = .ok (body, chainResult.dependencies, registry) ∧
      registry.ids = chainResult.dependencies.map (fun p => (p, firstSeenId chainFiles 4 0 p)) ∧
      registry.next = chainResult.dependencies.length ∧
      body = expand chainFiles (firstSeenId chainFiles 4 0) 4 0 false) ∧
    chainResult.source = sourceMap chainFiles (firstSeenId chainFiles 4 0)
        chainResult.dependencies ++
      expand chainFiles (firstSeenId chainFiles 4 0) 4 0 false :=
  ⟨rfl, by decide, rfl,
    process_source_ids_first_seen chainFiles 0 chainResult (by rfl) 4 (by decide)⟩

/-- A witness for C17: `root.glsl` of `chainFiles`. -/
theorem process_dependencies_are_reachable_files_witness :
    Process chainFiles 0 = .ok chainResult ∧ chainResult.dependencies = [0, 1, 3] ∧
    chainResult.dependencies.Nodup ∧
    ∀ x, x ∈ chainResult.dependencies ↔ Relation.ReflTransGen (Includes chainFiles) 0 x :=
  ⟨rfl, rfl, process_dependencies_are_reachable_files chainFiles 0 chainResult (by rfl)⟩

/-- Every include line of `cycleFiles` is well formed and names an existing
file. -/
theorem cycleFiles_wellFormed : WellFormed cycleFiles := by
  intro c hc
  have hkeys : cycleFiles.files.map Prod.fst = [0, 1] := rfl
  rw [hkeys] at hc
  simp only [List.mem_cons, List.mem_singleton, List.not_mem_nil, or_false] at hc
  rcases hc with rfl | rfl
  · refine ⟨"#version 410\n#include \"b.glsl\"\n".toList, rfl, ?_⟩
    have hs : splitLines "#version 410\n#include \"b.glsl\"\n".toList =
        ["#version 410".toList, "#include \"b.glsl\"".toList] := rfl
    intro line hl hinc
    rw [hs] at hl
    simp only [List.mem_cons, List.mem_singleton, List.not_mem_nil, or_false] at hl
    rcases hl with rfl | rfl
    · exact absurd hinc (by decide)
    · exact ⟨"b.glsl".toList, rfl, by decide⟩
  · refine ⟨"float b;\n#include \"root.glsl\"\n".toList, rfl, ?_⟩
    have hs : splitLines "float b;\n#include \"root.glsl\"\n".toList =
        ["float b;".toList, "#include \"root.glsl\"".toList] := rfl
    intro line hl hinc
    rw [hs] at hl
    simp only [List.mem_cons, List.mem_singleton, List.not_mem_nil, or_false] at hl
    rcases hl with rfl | rfl
    · exact absurd hinc (by decide)
    · exact ⟨"root.glsl".toList, rfl, by decide⟩

/-- In `cycleFiles` the root reaches itself through `b.glsl`. -/
theorem cycleFiles_cycle : Relation.TransGen (Includes cycleFiles) 0 0 := by
  have h01 : includeTargets cycleFiles 0 = [1] := rfl
  have h10 : includeTargets cycleFiles 1 = [0] := rfl
  refine Relation.TransGen.tail (Relation.TransGen.single (b := 1) ?_) ?_
  · simp only [Includes, h01]
    decide
  · simp only [Includes, h10]
    decide

/-- A witness for C16 (amended): `root.glsl` of `cycleFiles`, which includes
`b.glsl`, which includes `root.glsl`. -/
theorem process_terminates_and_rejects_cycles_witness :
    Relation.TransGen (Includes cycleFiles) 0 0 ∧ WellFormed cycleFiles ∧
    Process cycleFiles 0 = .error (.includeCycle 0) ∧
    Process cycleFiles 0 ≠ .error .fuelExhausted ∧
    (∀ result, Process cycleFiles 0 ≠ .ok result) ∧
    ∃ path, Process cycleFiles 0 = .error (.includeCycle path) :=
  ⟨cycleFiles_cycle, cycleFiles_wellFormed, rfl,
    (process_terminates_and_rejects_cycles cycleFiles 0).1,
    ((process_terminates_and_rejects_cycles cycleFiles 0).2 cycleFiles_cycle).1,
    ((process_terminates_and_rejects_cycles cycleFiles 0).2 cycleFiles_cycle).2
      cycleFiles_wellFormed⟩

/-- C18: the code does not pass an angle-bracket include through. The second
line of the only file of `angleFiles` is `#include <common.glsl>`, with no
double quote on it; the line passes the test `starts_with("#include")`, the
search for a double quote finds none, and `Process` fails with the
malformed-include error for line 2 instead of returning a source. -/
theorem process_rejects_angle_bracket_include :
    ReadFile angleFiles 0 =
      some "#version 410\n#include <common.glsl>\nvoid main() \x7b\x7d\n".toList ∧
    splitLines "#version 410\n#include <common.glsl>\nvoid main() \x7b\x7d\n".toList =
      ["#version 410".toList, "#include <common.glsl>".toList,
        "void main() \x7b\x7d".toList] ∧
    isIncludeLine "#include <common.glsl>".toList = true ∧
    findChar '"' "#include <common.glsl>".toList = none ∧
    quotedPath "#include <common.glsl>".toList = none ∧
    Process angleFiles 0 = .error (.malformedInclude 2 0) ∧
    ∀ result, Process angleFiles 0 ≠ .ok result := by
  have hp : Process angleFiles 0 = .error (.malformedInclude 2 0) := rfl
  refine ⟨rfl, rfl, rfl, rfl, rfl, hp, ?_⟩
  intro result h
  rw [hp] at h
  exact Except.noConfusion h

/-- In `diamondFiles` every include goes from a file to one with a larger
number. -/
theorem diamondFiles_includes_lt (a b : Nat) (h : Includes diamondFiles a b) : a < b := by
  have hk := mem_files_of_includes diamondFiles a b h
  have hkeys : diamondFiles.files.map Prod.fst = [0, 1, 2, 3] := rfl
  have h0 : includeTargets diamondFiles 0 = [1, 2] := rfl
  have h1 : includeTargets diamondFiles 1 = [3] := rfl
  have h2 : includeTargets diamondFiles 2 = [3] := rfl
  have h3 : includeTargets diamondFiles 3 = [] := rfl
  rw [hkeys] at hk
  simp only [List.mem_cons, List.mem_singleton, List.not_mem_nil, or_false] at hk
  unfold Includes at h
  rcases hk with rfl | rfl | rfl | rfl
  · rw [h0] at h
    simp only [List.mem_cons, List.mem_singleton, List.not_mem_nil, or_false] at h
    omega
  · rw [h1] at h
    simp only [List.mem_singleton] at h
    omega
  · rw [h2] at h
    simp only [List.mem_singleton] at h
    omega
  · rw [h3] at h
    simp at h

/-- C19: the code raises the include-cycle error on an include graph without a
cycle. In `diamondFiles` the root includes `b.glsl` and `c.glsl`, each of which
includes `d.glsl`, which includes nothing; no file reaches itself; and
`Process` fails with the include-cycle error for `d.glsl`, met the second time
through `c.glsl` after the expansion of `b.glsl` has returned. -/
theorem process_rejects_diamond :
    includeTargets diamondFiles 0 = [1, 2] ∧ includeTargets diamondFiles 1 = [3] ∧
    includeTargets diamondFiles 2 = [3] ∧ includeTargets diamondFiles 3 = [] ∧
    (∀ x, ¬ Relation.TransGen (Includes diamondFiles) x x) ∧
    Process diamondFiles 0 = .error (.includeCycle 3) ∧
    ∀ result, Process diamondFiles 0 ≠ .ok result := by
  have hp : Process diamondFiles 0 = .error (.includeCycle 3) := rfl
  have hlt : ∀ x y, Relation.TransGen (Includes diamondFiles) x y → x < y := by
    intro x y hxy
    induction hxy with
    | single hstep => exact diamondFiles_includes_lt _ _ hstep
    | tail _ hstep ih => exact lt_trans ih (diamondFiles_includes_lt _ _ hstep)
  refine ⟨rfl, rfl, rfl, rfl, fun x hx => lt_irrefl x (hlt x x hx), hp, ?_⟩
  intro result h
  rw [hp] at h
  exact Except.noConfusion h

end ShaderPreprocessor

/-! ### Expansion of a box, the plane tests and the sort, continued -/

/-- The smaller of two scalars, as glm computes it, is at most the first. -/
theorem glmMin_le_left (x y : ℚ) : glmMin x y ≤ x := by
  unfold glmMin
  split
  · exact le_of_lt (by assumption)
  · exact le_refl x

/-- The larger of two scalars, as glm computes it, is at least the first. -/
theorem le_glmMax_left (x y : ℚ) : x ≤ glmMax x y := by
  unfold glmMax
  split
  · exact le_of_lt (by assumption)
  · exact le_refl x

/-- The order `Vec3.le` is transitive. -/
theorem Vec3.le_of_le_of_le {a b c : Vec3} (hab : Vec3.le a b) (hbc : Vec3.le b c) :
    Vec3.le a c :=
  ⟨le_trans hab.1 hbc.1, le_trans hab.2.1 hbc.2.1, le_trans hab.2.2 hbc.2.2⟩

/-- What `Expand(point)` does to a box: the minimum does not grow, the maximum
does not shrink, and the point lies between them. -/
theorem AABB.expand_point (b : AABB) (p : Vec3) :
    Vec3.le (b.Expand p).min b.min ∧ Vec3.le b.max (b.Expand p).max ∧
    Vec3.le (b.Expand p).min p ∧ Vec3.le p (b.Expand p).max := by
  simp only [AABB.Expand, Vec3.le, Vec3.min, Vec3.max]
  exact ⟨⟨glmMin_le_left _ _, glmMin_le_left _ _, glmMin_le_left _ _⟩,
    ⟨le_glmMax_left _ _, le_glmMax_left _ _, le_glmMax_left _ _⟩,
    ⟨RenderQueue.glmMin_le_right _ _, RenderQueue.glmMin_le_right _ _,
      RenderQueue.glmMin_le_right _ _⟩,
    ⟨RenderQueue.le_glmMax_right _ _, RenderQueue.le_glmMax_right _ _,
      RenderQueue.le_glmMax_right _ _⟩⟩

/-- C25: `Expand` is monotonic. For every box `b` (valid or empty) and every
point `p`, after `b.Expand(p)` the new minimum is at most the old one and the
new maximum at least the old one on every component, and `p` lies between the
new minimum and maximum; after `b.Expand(other)` the box is not smaller on any
component and contains `other.min` and `other.max`. -/
theorem AABB.expand_monotonic (b other : AABB) (p : Vec3) :
    (Vec3.le (b.Expand p).min b.min ∧ Vec3.le b.max (b.Expand p).max ∧
      Vec3.le (b.Expand p).min p ∧ Vec3.le p (b.Expand p).max) ∧
    (Vec3.le (b.ExpandBox other).min b.min ∧ Vec3.le b.max (b.ExpandBox other).max ∧
      Vec3.le (b.ExpandBox other).min other.min ∧ Vec3.le other.min (b.ExpandBox other).max ∧
      Vec3.le (b.ExpandBox other).min other.max ∧
      Vec3.le other.max (b.ExpandBox other).max) := by
  refine ⟨AABB.expand_point b p, ?_⟩
  obtain ⟨h1, h2, h3, h4⟩ := AABB.expand_point b other.min
  obtain ⟨k1, k2, k3, k4⟩ := AABB.expand_point (b.Expand other.min) other.max
  unfold AABB.ExpandBox
  exact ⟨Vec3.le_of_le_of_le k1 h1, Vec3.le_of_le_of_le h2 k2, Vec3.le_of_le_of_le k1 h3,
    Vec3.le_of_le_of_le h4 k2, k3, k4⟩

namespace RenderQueue

/-- C29: `Sort()` only reorders. For every queue, the opaque sequence after
`Sort()` is a permutation of the opaque sequence before it, the transparent
sequence a permutation of the transparent sequence before it, and the scene
bounds are unchanged. -/
theorem sort_only_reorders (q : RenderQueue) :
    q.SortQueue.opaques_.Perm q.opaques_ ∧
    q.SortQueue.transparents_.Perm q.transparents_ ∧
    q.SortQueue.sceneBounds_ = q.sceneBounds_ :=
  ⟨stdSort_perm _ _, stdSort_perm _ _, rfl⟩

end RenderQueue

namespace ShaderPreprocessor

variable {P : Type} [LinearOrder P]

/-! ### Line directives -/

/-- The line loop only appends to `out`. -/
theorem processLines_extends (fs : ShaderFiles P)
    (recur : P → List P → SourceRegistry P → Except (ShaderError P) (ImplResult P))
    (c : P) (srcId : Nat) :
    ∀ (lines : List Text) (n : Nat) (v : List P) (r : SourceRegistry P) (out : Text)
      (res : ImplResult P),
      processLines fs recur c srcId lines n v r out = .ok res → ∃ tail, res.1 = out ++ tail := by
  intro lines
  induction lines with
  | nil =>
    intro n v r out res h
    simp only [processLines, Except.ok.injEq] at h
    subst h
    exact ⟨[], by simp⟩
  | cons line rest ih =>
    intro n v r out res h
    simp only [processLines] at h
    by_cases hinc : isIncludeLine line = true
    · simp only [hinc, if_true] at h
      cases hq : quotedPath line with
      | none => simp [hq] at h
      | some rel =>
        simp only [hq] at h
        cases hcan : canonical fs (fs.resolve c rel) with
        | error e => simp [hcan] at h
        | ok full =>
          simp only [hcan] at h
          cases hcall : recur full v r with
          | error e => simp [hcall] at h
          | ok res1 =>
            obtain ⟨sub, v1, r1⟩ := res1
            simp only [hcall] at h
            obtain ⟨tail, ht⟩ := ih _ _ _ _ _ h
            exact ⟨sub ++ lineDirective (n + 1) srcId ++ tail, by
              rw [ht]; simp only [List.append_assoc]⟩
    · simp only [hinc] at h
      obtain ⟨tail, ht⟩ := ih _ _ _ _ _ h
      exact ⟨line ++ "\n".toList ++ tail, by rw [ht]; simp only [List.append_assoc]⟩

/-- The line loop over `pre ++ post` is the loop over `pre` followed by the loop
over `post`, which starts at the line number after `pre`. -/
theorem processLines_append (fs : ShaderFiles P)
    (recur : P → List P → SourceRegistry P → Except (ShaderError P) (ImplResult P))
    (c : P) (srcId : Nat) (post : List Text) :
    ∀ (pre : List Text) (n : Nat) (v : List P) (r : SourceRegistry P) (out : Text)
      (res : ImplResult P),
      processLines fs recur c srcId (pre ++ post) n v r out = .ok res →
      ∃ outi vi ri, processLines fs recur c srcId pre n v r out = .ok (outi, vi, ri) ∧
        processLines fs recur c srcId post (n + pre.length) vi ri outi = .ok res := by
  intro pre
  induction pre with
  | nil =>
    intro n v r out res h
    exact ⟨out, v, r, by simp [processLines], by simpa using h⟩
  | cons line rest ih =>
    intro n v r out res h
    simp only [List.cons_append, processLines] at h
    by_cases hinc : isIncludeLine line = true
    · simp only [hinc, if_true] at h
      cases hq : quotedPath line with
      | none => simp [hq] at h
      | some rel =>
        simp only [hq] at h
        cases hcan : canonical fs (fs.resolve c rel) with
        | error e => simp [hcan] at h
        | ok full =>
          simp only [hcan] at h
          cases hcall : recur full v r with
          | error e => simp [hcall] at h
          | ok res1 =>
            obtain ⟨sub, v1, r1⟩ := res1
            simp only [hcall] at h
            obtain ⟨outi, vi, ri, h1, h2⟩ := ih _ _ _ _ _ h
            refine ⟨outi, vi, ri, ?_, ?_⟩
            · simp only [processLines, hinc, if_true, hq, hcan, hcall]
              exact h1
            · have hn : n + (line :: rest).length = n + 1 + rest.length := by
                simp only [List.length_cons]; omega
              rw [hn]
              exact h2
    · simp only [hinc] at h
      obtain ⟨outi, vi, ri, h1, h2⟩ := ih _ _ _ _ _ h
      refine ⟨outi, vi, ri, ?_, ?_⟩
      · simp only [processLines, hinc]
        exact h1
      · have hn : n + (line :: rest).length = n + 1 + rest.length := by
          simp only [List.length_cons]; omega
        rw [hn]
        exact h2

/-- The recursive call of `ProcessImpl` satisfies what `processLines_numbered`
asks of it. -/
theorem processImpl_recur_numbered (fs : ShaderFiles P) (fuel : Nat) :
    ∀ q v r sub v' r', ProcessImpl fs fuel q v r true = .ok (sub, v', r') →
      r.ids.map Prod.fst = v →
      Numbered (openOrder fs fuel q) v v' r r' ∧
      ∀ idOf, Agrees idOf (openOrder fs fuel q) r.next → sub = expand fs idOf fuel q true :=
  fun q v r sub v' r' h hk =>
    processImpl_numbered fs fuel q v r true sub v' r' h hk fuel (le_refl fuel)

/-- The expansion of an included file starts with `#line 1 <id>`, where `id` is
the number the registry holds for the file afterwards. -/
theorem processImpl_included_start (fs : ShaderFiles P) (fuel : Nat) (q : P) (v : List P)
    (r : SourceRegistry P) (sub : Text) (v' : List P) (r' : SourceRegistry P)
    (h : ProcessImpl fs fuel q v r true = .ok (sub, v', r')) (hk : r.ids.map Prod.fst = v) :
    (∃ tail, sub = lineDirective 1 r.next ++ tail) ∧ r'.ids.lookup q = some r.next ∧
      q ∈ v' ∧ r'.ids.map Prod.fst = v' := by
  obtain ⟨N, -⟩ := processImpl_recur_numbered fs fuel q v r sub v' r' h hk
  cases fuel with
  | zero => simp [ProcessImpl] at h
  | succ m =>
    have hq0 : (openOrder fs (m + 1) q)[0]? = some q := by simp [openOrder]
    refine ⟨?_, by simpa using N.new 0 q hq0, (N.mem q).mpr
      (Or.inr (List.mem_iff_getElem?.mpr ⟨0, hq0⟩)), N.keys⟩
    simp only [ProcessImpl] at h
    cases hcan : canonical fs q with
    | error e => simp [hcan] at h
    | ok c =>
      obtain ⟨rfl, -⟩ := canonical_eq_ok fs _ _ hcan
      simp only [hcan] at h
      by_cases hv : c ∈ v
      · simp [hv] at h
      · simp only [hv, if_false] at h
        cases hread : ReadFile fs c with
        | none => simp [hread] at h
        | some source =>
          simp only [hread, if_true] at h
          obtain ⟨hid, -⟩ := numbered_single c v r hv hk
          obtain ⟨tail, ht⟩ := processLines_extends fs _ _ _ _ _ _ _ _ _ h
          rw [hid] at ht
          exact ⟨tail, ht⟩

/-- C21: the top-level file never receives a line-directive preamble. When
`Process` returns and the first line of the root file is not an `#include`
directive, the returned source is the header comment block followed
immediately by that line. For an `#include` directive on line `L` of a file
`c` whose expansion returns, the expansion of the included file starts with
`#line 1 <id of the included file>` and is followed by `#line <L+1> <id of c>`,
the ids being those the registry holds when the expansion of `c` returns. -/
theorem process_line_directives (fs : ShaderFiles P) :
    (∀ (root : P) (result : ShaderProcessResult P) (source line : Text) (rest : List Text),
      Process fs root = .ok result → ReadFile fs root = some source →
      splitLines source = line :: rest → isIncludeLine line = false →
      ∃ body visited registry tail, ProcessCore fs root = .ok (body, visited, registry) ∧
        result.source = header fs registry.ids ++ body ∧
        body = line ++ "\n".toList ++ tail) ∧
    (∀ (fuel : Nat) (c : P) (v : List P) (r : SourceRegistry P) (emit : Bool) (out : Text)
      (v' : List P) (r' : SourceRegistry P) (source line : Text) (pre post : List Text),
      ProcessImpl fs (fuel + 1) c v r emit = .ok (out, v', r') → r.ids.map Prod.fst = v →
      ReadFile fs c = some source → splitLines source = pre ++ line :: post →
      isIncludeLine line = true →
      ∃ rel id idq head sub tail,
        quotedPath line = some rel ∧
        r'.ids.lookup c = some id ∧ r'.ids.lookup (fs.resolve c rel) = some idq ∧
        (∃ vi ri vj rj, ProcessImpl fs fuel (fs.resolve c rel) vi ri true =
          .ok (lineDirective 1 idq ++ sub, vj, rj)) ∧
        out = head ++ (lineDirective 1 idq ++ sub) ++ lineDirective (pre.length + 2) id ++
          tail) := by
  constructor
  · intro root result source line rest h hread hlines hinc
    obtain ⟨body, visited, registry, hcore, rfl⟩ := (process_eq_ok_iff fs root result).mp h
    obtain ⟨hroot, -⟩ := processCore_expanded fs root _ hcore
    have himpl := hcore
    simp only [ProcessCore, canonical_of_mem fs root hroot, fuelFor, ProcessImpl, hread,
      List.not_mem_nil, if_false, hlines, processLines, hinc, Bool.false_eq_true] at himpl
    obtain ⟨tail, ht⟩ := processLines_extends fs _ _ _ _ _ _ _ _ _ himpl
    refine ⟨body, visited, registry, tail, hcore, rfl, ?_⟩
    simpa using ht
  · intro fuel c0 v r emit out v' r' source line pre post h hk hread hlines hinc
    simp only [ProcessImpl] at h
    cases hcan : canonical fs c0 with
    | error e => simp [hcan] at h
    | ok c =>
      obtain ⟨rfl, -⟩ := canonical_eq_ok fs _ _ hcan
      simp only [hcan] at h
      by_cases hv : c ∈ v
      · simp [hv] at h
      · simp only [hv, if_false, hread, hlines] at h
        obtain ⟨hid, N0⟩ := numbered_single c v r hv hk
        have hrec := processImpl_recur_numbered fs fuel
        obtain ⟨outi, vi, ri, hpre, hpost⟩ := processLines_append fs _ c _ _ _ _ _ _ _ _ h
        obtain ⟨Npre, -⟩ := processLines_numbered fs _ _ _ c _ hrec pre 1 _ _ _ _ _ _ hpre N0.keys
        simp only [processLines, hinc, if_true] at hpost
        cases hq : quotedPath line with
        | none => simp [hq] at hpost
        | some rel =>
          simp only [hq] at hpost
          cases hcanq : canonical fs (fs.resolve c rel) with
          | error e => simp [hcanq] at hpost
          | ok full =>
            obtain ⟨rfl, -⟩ := canonical_eq_ok fs _ _ hcanq
            simp only [hcanq] at hpost
            cases hcall : ProcessImpl fs fuel (fs.resolve c rel) vi ri true with
            | error e => simp [hcall] at hpost
            | ok res1 =>
              obtain ⟨sub, vj, rj⟩ := res1
              simp only [hcall] at hpost
              obtain ⟨⟨subtail, hsub⟩, hlq, hqv, hkj⟩ :=
                processImpl_included_start fs fuel _ vi ri sub vj rj hcall Npre.keys
              obtain ⟨Npost, -⟩ :=
                processLines_numbered fs _ _ _ c _ hrec post _ _ _ _ _ _ _ hpost hkj
              obtain ⟨Nq, -⟩ := hrec _ _ _ _ _ _ hcall Npre.keys
              obtain ⟨tail, ht⟩ := processLines_extends fs _ _ _ _ _ _ _ _ _ hpost
              have hc1 : c ∈ setInsert c v := (N0.mem c).mpr (Or.inr (List.mem_singleton.mpr rfl))
              have hci : c ∈ vi := (Npre.mem c).mpr (Or.inl hc1)
              have hcj : c ∈ vj := (Nq.mem c).mpr (Or.inl hci)
              have hlc : r'.ids.lookup c = some r.next := by
                rw [Npost.old c hcj, Nq.old c hci, Npre.old c hc1]
                simpa using N0.new 0 c (by simp)
              refine ⟨rel, r.next, ri.next, outi, subtail, tail, rfl, hlc, ?_,
                ⟨vi, ri, vj, rj, by rw [hcall, hsub]⟩, ?_⟩
              · rw [Npost.old _ hqv, hlq]
              · simp only at ht
                rw [ht, hsub, hid]
                have hn : 1 + pre.length + 1 = pre.length + 2 := by omega
                rw [hn]

/-- A witness for C21: `root.glsl` of `chainFiles`, whose first line is
`#version 410`. -/
theorem process_line_directives_witness :
    Process chainFiles 0 = .ok chainResult ∧
    ∃ body visited registry tail, ProcessCore chainFiles 0 = .ok (body, visited, registry) ∧
      chainResult.source = header chainFiles registry.ids ++ body ∧
      body = "#version 410".toList ++ "\n".toList ++ tail :=
  ⟨by rfl, (process_line_directives chainFiles).1 0 chainResult
    "#version 410\n#include \"b.glsl\"\nvoid main() \x7b\x7d\n".toList "#version 410".toList
    ["#include \"b.glsl\"".toList, "void main() \x7b\x7d".toList]
    (by rfl) (by rfl) (by rfl) (by rfl)⟩

end ShaderPreprocessor

/-! ### The GL state after the passes -/

/-- Running two sequences of GL calls one after the other. -/
theorem GLState.run_append (s : GLState) (a b : List GLCall) :
    s.run (a ++ b) = (s.run a).run b := by
  simp only [GLState.run, List.foldl_append]

/-- The draws of the shadow pass leave the state as it is. -/
theorem ShadowPass.run_shadow_draws (cmds : List RenderCommand) :
    ∀ s : GLState, s.run (cmds.map fun cmd =>
      [GLCall.uploadUniformBuffer, .glBindVertexArray cmd.vaoID,
        .glDrawElementsBaseVertex]).flatten = s := by
  induction cmds with
  | nil => intro s; rfl
  | cons c cs ih =>
    intro s
    rw [List.map_cons, List.flatten_cons, GLState.run_append, ih]
    rfl

/-- The draws of the geometry pass leave the state as it is. -/
theorem GeometryPass.run_geometry_draws (cmds : List RenderCommand) :
    ∀ s : GLState, s.run (cmds.map fun cmd =>
      [GLCall.uploadUniformBuffer,
        .glActiveTexture 0, .glBindTexture cmd.albedoTexID,
        .glActiveTexture 1, .glBindTexture cmd.normalTexID,
        .glActiveTexture 2, .glBindTexture cmd.metallicRoughTexID,
        .glUniform, .glUniform, .glUniform,
        .glBindVertexArray cmd.vaoID, .glDrawElementsBaseVertex]).flatten = s := by
  induction cmds with
  | nil => intro s; rfl
  | cons c cs ih =>
    intro s
    rw [List.map_cons, List.flatten_cons, GLState.run_append, ih]
    rfl

/-- The blur loop changes neither the cull-face winding nor the depth-test
flag. -/
theorem PostProcessPass.blurLoop_keeps (pass : PostProcessPass) :
    ∀ (i : Nat) (src dst : Framebuffer) (gl gl' : GLState) (src' : Framebuffer),
      PostProcessPass.blurLoop pass i src dst gl = .ok (gl', src') →
      gl'.cullFace = gl.cullFace ∧ gl'.depthTest = gl.depthTest := by
  intro i
  induction i with
  | zero =>
    intro src dst gl gl' src' h
    simp only [PostProcessPass.blurLoop, Except.ok.injEq, Prod.mk.injEq] at h
    obtain ⟨rfl, -⟩ := h
    exact ⟨rfl, rfl⟩
  | succ i ih =>
    intro src dst gl gl' src' h
    simp only [PostProcessPass.blurLoop] at h
    cases hs : src.GetColorAttachment 0 with
    | error e => simp [hs] at h
    | ok tex =>
      simp only [hs] at h
      obtain ⟨h1, h2⟩ := ih _ _ _ _ _ h
      exact ⟨h1, h2⟩

/-- The blur loop returns when both framebuffers have a colour attachment, and
its final source is one of the two. -/
theorem PostProcessPass.blurLoop_returns (pass : PostProcessPass) :
    ∀ (i : Nat) (src dst : Framebuffer) (gl : GLState),
      src.colorAttachments_ ≠ [] → dst.colorAttachments_ ≠ [] →
      ∃ gl' src', PostProcessPass.blurLoop pass i src dst gl = .ok (gl', src') ∧
        src'.colorAttachments_ ≠ [] := by
  intro i
  induction i with
  | zero =>
    intro src dst gl hs _
    exact ⟨gl, src, rfl, hs⟩
  | succ i ih =>
    intro src dst gl hs hd
    obtain ⟨t, ts, ht⟩ := List.exists_cons_of_ne_nil hs
    have hget : src.GetColorAttachment 0 = .ok t := by
      simp [Framebuffer.GetColorAttachment, ht]
    simp only [PostProcessPass.blurLoop, hget]
    exact ih dst src _ hd hs

/-- A framebuffer with a colour attachment hands out attachment 0. -/
theorem Framebuffer.getColorAttachment_zero (f : Framebuffer) (h : f.colorAttachments_ ≠ []) :
    ∃ t, f.GetColorAttachment 0 = .ok t := by
  obtain ⟨t, ts, ht⟩ := List.exists_cons_of_ne_nil h
  exact ⟨t, by simp [Framebuffer.GetColorAttachment, ht]⟩

/-- C26, as written, fails: there is no depth-test value common to the four
passes, and only the shadow pass sets the cull-face winding. From the state
`frontCullState` the shadow pass returns with the depth test on and the
lighting pass with the depth test off, and the geometry pass returns with the
winding `FRONT` it was entered with. -/
theorem passes_leave_different_gl_state :
    (exampleShadowPass.Execute {} frontCullState).depthTest = true ∧
    (exampleLightingPass.Execute {} {} {} {} {} frontCullState).depthTest = false ∧
    (exampleGeometryPass.Execute {} frontCullState).cullFace = .FRONT ∧
    ¬ ∃ d : Bool, ∀ gl : GLState,
      exampleShadowPass.Execute {} gl = ⟨0, .BACK, d⟩ ∧
      exampleGeometryPass.Execute {} gl = ⟨0, .BACK, d⟩ ∧
      exampleLightingPass.Execute {} {} {} {} {} gl = ⟨0, .BACK, d⟩ := by
  refine ⟨rfl, rfl, rfl, ?_⟩
  rintro ⟨d, hd⟩
  have h := (hd frontCullState).2.1
  have hc : (exampleGeometryPass.Execute {} frontCullState).cullFace = .FRONT := rfl
  rw [h] at hc
  exact CullFaceMode.noConfusion hc

/-- C26 (amended): for every starting GL state, each of the four `Execute`
operations returns with the default framebuffer bound. The shadow pass returns
with the cull-face winding `BACK` and the depth test enabled; the geometry pass
returns with the depth test enabled and the winding it was entered with; the
lighting and post-process passes return with the depth test disabled and the
winding they were entered with. The post-process pass returns whenever each of
its four framebuffers has a colour attachment. -/
theorem passes_final_gl_state (shadow : ShadowPass) (geometry : GeometryPass)
    (lighting : LightingPass) (post : PostProcessPass) (queue : RenderQueue)
    (gNormal gAlbedo gMaterial gDepth shadowMap hdrColor : Texture) (gl : GLState) :
    shadow.Execute queue gl = ⟨0, .BACK, true⟩ ∧
    geometry.Execute queue gl = ⟨0, gl.cullFace, true⟩ ∧
    lighting.Execute gNormal gAlbedo gMaterial gDepth shadowMap gl = ⟨0, gl.cullFace, false⟩ ∧
    (∀ result gl', post.Execute hdrColor gl = .ok (result, gl') →
      gl' = ⟨0, gl.cullFace, false⟩) ∧
    (post.bloomA_.colorAttachments_ ≠ [] → post.bloomB_.colorAttachments_ ≠ [] →
      post.tonemapFBO_.colorAttachments_ ≠ [] → post.fxaaFBO_.colorAttachments_ ≠ [] →
      ∃ result gl', post.Execute hdrColor gl = .ok (result, gl')) := by
  refine ⟨?_, ?_, ?_, ?_, ?_⟩
  · simp only [ShadowPass.Execute, ShadowPass.calls, GLState.run_append, ShadowPass.run_shadow_draws]
    rfl
  · simp only [GeometryPass.Execute, GeometryPass.calls, RenderQueue.OpaqueCommands,
      GLState.run_append, GeometryPass.run_geometry_draws]
    rfl
  · rfl
  · intro result gl' h
    unfold PostProcessPass.Execute at h
    dsimp only at h
    split at h
    · exact Except.noConfusion h
    · rename_i gl2 src hb
      obtain ⟨hc, hd⟩ := PostProcessPass.blurLoop_keeps post _ _ _ _ _ _ hb
      split at h
      · exact Except.noConfusion h
      · split at h
        · exact Except.noConfusion h
        · split at h
          · exact Except.noConfusion h
          · simp only [Except.ok.injEq, Prod.mk.injEq] at h
            obtain ⟨-, rfl⟩ := h
            have hc' : gl2.cullFace = gl.cullFace := hc
            have hd' : gl2.depthTest = false := hd
            obtain ⟨fb2, cf2, dt2⟩ := gl2
            simp only at hc' hd'
            subst hc' hd'
            rfl
  · intro hA hB hT hF
    unfold PostProcessPass.Execute
    dsimp only
    obtain ⟨gl2, src, hb, hsrc⟩ := PostProcessPass.blurLoop_returns post 4 post.bloomA_
      post.bloomB_
      (gl.run ([.glDisable .DEPTH_TEST, .glBindFramebuffer post.bloomA_.id_, .glViewport,
        .glUseProgram post.bloomThresholdShader_, .glUniform, .glUniform,
        .glActiveTexture 0, .glBindTexture hdrColor.GetID] ++ post.DrawFullscreenTriangle ++
        [.glUseProgram post.bloomBlurShader_, .glUniform])) hA hB
    obtain ⟨bloom, h1⟩ := Framebuffer.getColorAttachment_zero src hsrc
    obtain ⟨tone, h2⟩ := Framebuffer.getColorAttachment_zero post.tonemapFBO_ hT
    obtain ⟨fx, h3⟩ := Framebuffer.getColorAttachment_zero post.fxaaFBO_ hF
    rw [hb]
    dsimp only
    rw [h1]
    dsimp only
    rw [h2]
    dsimp only
    rw [h3]
    exact ⟨_, _, rfl⟩

/-- A witness for C26 (amended): the example post-process pass, entered with
front faces culled, returns with the default framebuffer bound, the winding
`FRONT` and the depth test off. -/
theorem passes_final_gl_state_witness :
    examplePostProcessPass.Execute {} frontCullState =
      .ok ({ id_ := 108 }, ⟨0, .FRONT, false⟩) ∧
    (⟨0, .FRONT, false⟩ : GLState) = ⟨0, frontCullState.cullFace, false⟩ :=
  ⟨by rfl,
    (passes_final_gl_state exampleShadowPass exampleGeometryPass exampleLightingPass
      examplePostProcessPass {} {} {} {} {} {} {} frontCullState).2.2.2.1
      { id_ := 108 } ⟨0, .FRONT, false⟩ (by rfl)⟩

/-! ### The registry under its loading operations -/

/-- An insertion into a pool from which no slot was removed pushes a slot: the
pool stays such a pool, grows by one slot, and the handle has generation 0 and
names one of its slots. -/
theorem HandlePool.insert_neverRemoved {T : Type} (p p' : HandlePool T) (value : T)
    (h : Handle) (hp : p.NeverRemoved) (hins : p.Insert value = .ok (h, p')) :
    p'.NeverRemoved ∧ h.generation = 0 ∧ h.index < p'.slots_.length ∧
      p'.slots_.length = p.slots_.length + 1 := by
  obtain ⟨hfree, hslots⟩ := hp
  have hall : ∀ s ∈ p.slots_ ++ [({ value := value, generation := 0, occupied := true } : Slot T)],
      s.occupied = true ∧ s.generation = 0 := by
    intro s hs
    rcases List.mem_append.mp hs with hs | hs
    · exact hslots s hs
    · rw [List.mem_singleton] at hs
      subst hs
      exact ⟨rfl, rfl⟩
  simp only [HandlePool.Insert, hfree, List.getLast?_nil] at hins
  split at hins
  · exact Except.noConfusion hins
  · rename_i s' hs'
    simp only [Except.ok.injEq, Prod.mk.injEq] at hins
    obtain ⟨rfl, rfl⟩ := hins
    have hmem := List.getElem?_mem hs'
    have hlt : p.slots_.length % 4294967296 <
        (p.slots_ ++ [({ value := value, generation := 0, occupied := true } : Slot T)]).length :=
      (List.getElem?_eq_some.mp hs').1
    refine ⟨⟨rfl, hall⟩, (hall s' hmem).2, hlt, ?_⟩
    simp

/-- In a pool from which no slot was removed, the handle with generation 0 of
every slot index is valid, and `Get` returns for it. -/
theorem HandlePool.neverRemoved_valid {T : Type} (p : HandlePool T) (i : Nat)
    (hp : p.NeverRemoved) (hi : i < p.slots_.length) :
    p.IsValid ⟨i, 0⟩ = true ∧ ∃ value, p.Get ⟨i, 0⟩ = .ok value := by
  obtain ⟨s, hs⟩ : ∃ s, p.slots_[i]? = some s := ⟨p.slots_[i], List.getElem?_eq_getElem hi⟩
  obtain ⟨hocc, hgen⟩ := hp.2 s (List.getElem?_mem hs)
  have hv : p.IsValid ⟨i, 0⟩ = true := by
    simp [HandlePool.IsValid, hs, hocc, hgen]
  exact ⟨hv, s.value, by simp [HandlePool.Get, hv, hs]⟩

namespace ResourceManager

/-- The method `AddMesh` keeps the invariant; its handle has generation 0 and
names a slot of the mesh pool, which grows; the other pools and the caches are
as before. -/
theorem addMesh_inv (env : ResourceEnv) (rm rm' : ResourceManager) (raw : RawMesh) (h : Handle)
    (hinv : rm.Inv) (hadd : AddMesh env rm raw = .ok (h, rm')) :
    rm'.Inv ∧ h.generation = 0 ∧ h.index < rm'.meshPool_.slots_.length ∧
      rm.meshPool_.slots_.length ≤ rm'.meshPool_.slots_.length ∧
      rm'.texturePool_ = rm.texturePool_ ∧ rm'.materialPool_ = rm.materialPool_ ∧
      rm'.meshCache_ = rm.meshCache_ ∧ rm'.textureCache_ = rm.textureCache_ := by
  unfold AddMesh at hadd
  split at hadd
  · exact Except.noConfusion hadd
  · dsimp only at hadd
    split at hadd
    · exact Except.noConfusion hadd
    · rename_i hd pool hins
      simp only [Except.ok.injEq, Prod.mk.injEq] at hadd
      obtain ⟨rfl, rfl⟩ := hadd
      obtain ⟨hnr, hgen, hidx, hlen⟩ := HandlePool.insert_neverRemoved _ _ _ _ hinv.mesh hins
      refine ⟨⟨hnr, hinv.texture, hinv.material, ?_, hinv.textureCache⟩, hgen, hidx, ?_,
        rfl, rfl, rfl, rfl⟩
      · intro e he
        obtain ⟨h1, h2⟩ := hinv.meshCache e he
        exact ⟨h1, by simp only [hlen]; omega⟩
      · simp only [hlen]; omega

/-- What a lookup in an association list finds is an entry of the list. -/
theorem lookup_some_mem {β : Type} (l : List (String × β)) (a : String) (b : β)
    (h : l.lookup a = some b) : (a, b) ∈ l := by
  induction l with
  | nil => simp at h
  | cons e es ih =>
    obtain ⟨k, val⟩ := e
    by_cases hk : a = k
    · subst hk
      simp only [List.lookup, beq_self_eq_true, Option.some.injEq] at h
      subst h
      exact List.mem_cons_self _ _
    · have hb : (a == k) = false := by simpa using hk
      simp only [List.lookup, hb] at h
      exact List.mem_cons_of_mem _ (ih h)

/-- The null handle is not valid. -/
theorem null_handle_invalid : Handle.IsValid {} = false := by decide

/-- The method `LoadMesh` keeps the invariant; a handle it returns that is not
the null handle has generation 0 and names a slot of the mesh pool. -/
theorem loadMesh_inv (env : ResourceEnv) (rm rm' : ResourceManager) (path : String)
    (h : Handle) (hinv : rm.Inv) (hload : LoadMesh env rm path = .ok (h, rm')) :
    rm'.Inv ∧ (∀ k, rm.slotCount k ≤ rm'.slotCount k) ∧
      (h.IsValid = true → h.generation = 0 ∧ h.index < rm'.slotCount .mesh) := by
  unfold LoadMesh at hload
  dsimp only at hload
  split at hload
  · rename_i hc hfound
    simp only [Except.ok.injEq, Prod.mk.injEq] at hload
    obtain ⟨rfl, rfl⟩ := hload
    exact ⟨hinv, fun _ => le_refl _, fun _ => hinv.meshCache _ (lookup_some_mem _ _ _ hfound)⟩
  · split at hload
    · simp only [Except.ok.injEq, Prod.mk.injEq] at hload
      obtain ⟨rfl, rfl⟩ := hload
      refine ⟨hinv, fun _ => le_refl _, fun hv => ?_⟩
      rw [null_handle_invalid] at hv
      exact Bool.noConfusion hv
    · split at hload
      · exact Except.noConfusion hload
      · rename_i hd rm1 hadd
        simp only [Except.ok.injEq, Prod.mk.injEq] at hload
        obtain ⟨rfl, rfl⟩ := hload
        obtain ⟨hinv1, hgen, hidx, hlen, ht, hm, hmc, htc⟩ := addMesh_inv env rm rm1 _ _ hinv hadd
        refine ⟨⟨hinv1.mesh, hinv1.texture, hinv1.material, ?_, hinv1.textureCache⟩, ?_,
          fun _ => ⟨hgen, hidx⟩⟩
        · intro e he
          rcases List.mem_cons.mp he with rfl | he
          · exact ⟨hgen, hidx⟩
          · exact hinv1.meshCache e he
        · intro k
          cases k with
          | mesh => exact hlen
          | texture => simp only [slotCount, ht]; exact le_refl _
          | material => simp only [slotCount, hm]; exact le_refl _

/-- The loop of `LoadAllMeshes` keeps the invariant; the handles it pushes have
generation 0 and name slots of the mesh pool. -/
theorem addAll_inv (env : ResourceEnv) :
    ∀ (raws : List RawMesh) (rm rm' : ResourceManager) (handles handles' : List Handle),
      rm.Inv → (∀ h ∈ handles, h.generation = 0 ∧ h.index < rm.slotCount .mesh) →
      addAll env raws rm handles = .ok (handles', rm') →
      rm'.Inv ∧ (∀ k, rm.slotCount k ≤ rm'.slotCount k) ∧
        ∀ h ∈ handles', h.generation = 0 ∧ h.index < rm'.slotCount .mesh := by
  intro raws
  induction raws with
  | nil =>
    intro rm rm' handles handles' hinv hh hrun
    simp only [addAll, Except.ok.injEq, Prod.mk.injEq] at hrun
    obtain ⟨rfl, rfl⟩ := hrun
    exact ⟨hinv, fun _ => le_refl _, hh⟩
  | cons raw raws ih =>
    intro rm rm' handles handles' hinv hh hrun
    simp only [addAll] at hrun
    split at hrun
    · exact Except.noConfusion hrun
    · rename_i hd rm1 hadd
      obtain ⟨hinv1, hgen, hidx, hlen, ht, hm, hmc, htc⟩ := addMesh_inv env rm rm1 _ _ hinv hadd
      have hmono : ∀ k, rm.slotCount k ≤ rm1.slotCount k := by
        intro k
        cases k with
        | mesh => exact hlen
        | texture => simp only [slotCount, ht]; exact le_refl _
        | material => simp only [slotCount, hm]; exact le_refl _
      obtain ⟨hinv', hmono', hh'⟩ := ih rm1 rm' _ handles' hinv1 (by
        intro h hmem
        rcases List.mem_append.mp hmem with hmem | hmem
        · exact ⟨(hh h hmem).1, lt_of_lt_of_le (hh h hmem).2 (hmono .mesh)⟩
        · rw [List.mem_singleton] at hmem
          subst hmem
          exact ⟨hgen, hidx⟩) hrun
      exact ⟨hinv', fun k => le_trans (hmono k) (hmono' k), hh'⟩

/-- The method `LoadTexture` keeps the invariant; a handle it returns that is
not the null handle has generation 0 and names a slot of the texture pool. -/
theorem loadTexture_inv (env : ResourceEnv) (rm rm' : ResourceManager) (path : String)
    (sRGB genMipmaps : Bool) (h : Handle) (hinv : rm.Inv)
    (hload : LoadTexture env rm path sRGB genMipmaps = .ok (h, rm')) :
    rm'.Inv ∧ (∀ k, rm.slotCount k ≤ rm'.slotCount k) ∧
      (h.IsValid = true → h.generation = 0 ∧ h.index < rm'.slotCount .texture) := by
  unfold LoadTexture at hload
  dsimp only at hload
  split at hload
  · rename_i hc hfound
    simp only [Except.ok.injEq, Prod.mk.injEq] at hload
    obtain ⟨rfl, rfl⟩ := hload
    exact ⟨hinv, fun _ => le_refl _,
      fun _ => hinv.textureCache _ (lookup_some_mem _ _ _ hfound)⟩
  · split at hload
    · simp only [Except.ok.injEq, Prod.mk.injEq] at hload
      obtain ⟨rfl, rfl⟩ := hload
      refine ⟨hinv, fun _ => le_refl _, fun hv => ?_⟩
      rw [null_handle_invalid] at hv
      exact Bool.noConfusion hv
    · split at hload
      · exact Except.noConfusion hload
      · rename_i hd pool hins
        simp only [Except.ok.injEq, Prod.mk.injEq] at hload
        obtain ⟨rfl, rfl⟩ := hload
        obtain ⟨hnr, hgen, hidx, hlen⟩ :=
          HandlePool.insert_neverRemoved _ _ _ _ hinv.texture hins
        refine ⟨⟨hinv.mesh, hnr, hinv.material, hinv.meshCache, ?_⟩, ?_,
          fun _ => ⟨hgen, hidx⟩⟩
        · intro e he
          rcases List.mem_cons.mp he with rfl | he
          · exact ⟨hgen, hidx⟩
          · obtain ⟨h1, h2⟩ := hinv.textureCache e he
            exact ⟨h1, by simp only [hlen]; omega⟩
        · intro k
          cases k with
          | mesh => exact le_refl _
          | texture => simp only [slotCount, hlen]; omega
          | material => exact le_refl _

/-- The method `CreateMaterial` keeps the invariant; its handle has generation 0
and names a slot of the material pool. -/
theorem createMaterial_inv (rm rm' : ResourceManager) (mat : Material) (h : Handle)
    (hinv : rm.Inv) (hc : CreateMaterial rm mat = .ok (h, rm')) :
    rm'.Inv ∧ (∀ k, rm.slotCount k ≤ rm'.slotCount k) ∧
      h.generation = 0 ∧ h.index < rm'.slotCount .material := by
  unfold CreateMaterial at hc
  split at hc
  · exact Except.noConfusion hc
  · rename_i hd pool hins
    simp only [Except.ok.injEq, Prod.mk.injEq] at hc
    obtain ⟨rfl, rfl⟩ := hc
    obtain ⟨hnr, hgen, hidx, hlen⟩ :=
      HandlePool.insert_neverRemoved _ _ _ _ hinv.material hins
    refine ⟨⟨hinv.mesh, hinv.texture, hnr, hinv.meshCache, hinv.textureCache⟩, ?_, hgen, hidx⟩
    intro k
    cases k with
    | mesh => exact le_refl _
    | texture => exact le_refl _
    | material => simp only [slotCount, hlen]; omega

/-- Every public loading operation keeps the invariant, shrinks no pool, and
returns only null handles and handles of generation 0 that name slots. -/
theorem step_inv (env : ResourceEnv) (rm rm' : ResourceManager) (op : ResourceOp)
    (outs : List (ResourceKind × Handle)) (hinv : rm.Inv)
    (hstep : step env rm op = .ok (outs, rm')) :
    rm'.Inv ∧ (∀ k, rm.slotCount k ≤ rm'.slotCount k) ∧
      ∀ k h, (k, h) ∈ outs → h.IsValid = true →
        h.generation = 0 ∧ h.index < rm'.slotCount k := by
  cases op with
  | AddMesh raw =>
    simp only [step] at hstep
    split at hstep
    · exact Except.noConfusion hstep
    · rename_i hd rm1 hadd
      simp only [Except.ok.injEq, Prod.mk.injEq] at hstep
      obtain ⟨rfl, rfl⟩ := hstep
      obtain ⟨hinv1, hgen, hidx, hlen, ht, hm, -, -⟩ := addMesh_inv env rm rm1 _ _ hinv hadd
      refine ⟨hinv1, ?_, ?_⟩
      · intro k
        cases k with
        | mesh => exact hlen
        | texture => simp only [slotCount, ht]; exact le_refl _
        | material => simp only [slotCount, hm]; exact le_refl _
      · intro k h hmem _
        simp only [List.mem_singleton, Prod.mk.injEq] at hmem
        obtain ⟨rfl, rfl⟩ := hmem
        exact ⟨hgen, hidx⟩
  | LoadMesh path =>
    simp only [step] at hstep
    split at hstep
    · exact Except.noConfusion hstep
    · rename_i hd rm1 hload
      simp only [Except.ok.injEq, Prod.mk.injEq] at hstep
      obtain ⟨rfl, rfl⟩ := hstep
      obtain ⟨hinv1, hmono, hh⟩ := loadMesh_inv env rm rm1 path hd hinv hload
      refine ⟨hinv1, hmono, ?_⟩
      intro k h hmem hv
      simp only [List.mem_singleton, Prod.mk.injEq] at hmem
      obtain ⟨rfl, rfl⟩ := hmem
      exact hh hv
  | LoadAllMeshes path =>
    simp only [step] at hstep
    split at hstep
    · exact Except.noConfusion hstep
    · rename_i hs rm1 hload
      simp only [Except.ok.injEq, Prod.mk.injEq] at hstep
      obtain ⟨rfl, rfl⟩ := hstep
      obtain ⟨hinv1, hmono, hh⟩ := addAll_inv env _ rm rm1 [] hs hinv
        (fun h hmem => absurd hmem (List.not_mem_nil h)) hload
      refine ⟨hinv1, hmono, ?_⟩
      intro k h hmem _
      simp only [List.mem_map, Prod.mk.injEq] at hmem
      obtain ⟨h', hmem', rfl, rfl⟩ := hmem
      exact hh h' hmem'
  | LoadTexture path sRGB genMipmaps =>
    simp only [step] at hstep
    split at hstep
    · exact Except.noConfusion hstep
    · rename_i hd rm1 hload
      simp only [Except.ok.injEq, Prod.mk.injEq] at hstep
      obtain ⟨rfl, rfl⟩ := hstep
      obtain ⟨hinv1, hmono, hh⟩ := loadTexture_inv env rm rm1 path sRGB genMipmaps hd hinv hload
      refine ⟨hinv1, hmono, ?_⟩
      intro k h hmem hv
      simp only [List.mem_singleton, Prod.mk.injEq] at hmem
      obtain ⟨rfl, rfl⟩ := hmem
      exact hh hv
  | CreateMaterial mat =>
    simp only [step] at hstep
    split at hstep
    · exact Except.noConfusion hstep
    · rename_i hd rm1 hc
      simp only [Except.ok.injEq, Prod.mk.injEq] at hstep
      obtain ⟨rfl, rfl⟩ := hstep
      obtain ⟨hinv1, hmono, hgen, hidx⟩ := createMaterial_inv rm rm1 mat hd hinv hc
      refine ⟨hinv1, hmono, ?_⟩
      intro k h hmem _
      simp only [List.mem_singleton, Prod.mk.injEq] at hmem
      obtain ⟨rfl, rfl⟩ := hmem
      exact ⟨hgen, hidx⟩

/-- A sequence of public loading operations keeps the invariant, shrinks no
pool, and every handle returned along the way that is not the null handle has
generation 0 and names a slot of the final pool of its kind. -/
theorem run_inv :
    ∀ (ops : List (ResourceEnv × ResourceOp)) (rm rm' : ResourceManager)
      (outs : List (ResourceKind × Handle)), rm.Inv → run rm ops = .ok (outs, rm') →
      rm'.Inv ∧ (∀ k, rm.slotCount k ≤ rm'.slotCount k) ∧
        ∀ k h, (k, h) ∈ outs → h.IsValid = true →
          h.generation = 0 ∧ h.index < rm'.slotCount k := by
  intro ops
  induction ops with
  | nil =>
    intro rm rm' outs hinv hrun
    simp only [run, Except.ok.injEq, Prod.mk.injEq] at hrun
    obtain ⟨rfl, rfl⟩ := hrun
    exact ⟨hinv, fun _ => le_refl _, fun k h hmem => absurd hmem (List.not_mem_nil _)⟩
  | cons eop ops ih =>
    intro rm rm' outs hinv hrun
    obtain ⟨env, op⟩ := eop
    simp only [run] at hrun
    split at hrun
    · exact Except.noConfusion hrun
    · rename_i outs1 rm1 hstep
      split at hrun
      · exact Except.noConfusion hrun
      · rename_i outs2 rm2 hrest
        simp only [Except.ok.injEq, Prod.mk.injEq] at hrun
        obtain ⟨rfl, rfl⟩ := hrun
        obtain ⟨hinv1, hmono1, hh1⟩ := step_inv env rm rm1 op outs1 hinv hstep
        obtain ⟨hinv2, hmono2, hh2⟩ := ih rm1 rm2 outs2 hinv1 hrest
        refine ⟨hinv2, fun k => le_trans (hmono1 k) (hmono2 k), ?_⟩
        intro k h hmem hv
        rcases List.mem_append.mp hmem with hmem | hmem
        · exact ⟨(hh1 k h hmem hv).1, lt_of_lt_of_le (hh1 k h hmem hv).2 (hmono2 k)⟩
        · exact hh2 k h hmem hv

/-- The registry the constructor builds satisfies the invariant. -/
theorem new_inv (white flatNormal orm : Texture) : (new white flatNormal orm).Inv := by
  constructor
  · exact ⟨rfl, fun s hs => absurd hs (List.not_mem_nil s)⟩
  · exact ⟨rfl, fun s hs => absurd hs (List.not_mem_nil s)⟩
  · exact ⟨rfl, fun s hs => absurd hs (List.not_mem_nil s)⟩
  · exact fun e he => absurd he (List.not_mem_nil e)
  · exact fun e he => absurd he (List.not_mem_nil e)

/-- C30: in every registry state reached from the constructor through the
public loading operations, no pool slot was ever removed (the free lists are
empty and every slot is occupied with generation 0); every handle returned
along the way that is not the null handle has generation 0 and is valid in the
reached state, whatever operations followed its return; and the lookup with the
handle rebuilt as `{index, generation 0}` returns. -/
theorem issued_handles_stay_valid (white flatNormal orm : Texture)
    (ops : List (ResourceEnv × ResourceOp)) (outs : List (ResourceKind × Handle))
    (rm : ResourceManager) (hrun : run (new white flatNormal orm) ops = .ok (outs, rm)) :
    (rm.meshPool_.NeverRemoved ∧ rm.texturePool_.NeverRemoved ∧
      rm.materialPool_.NeverRemoved) ∧
    ∀ kind h, (kind, h) ∈ outs → h.IsValid = true →
      h.generation = 0 ∧ rm.IsValid kind h = true ∧
      rm.lookupReturns kind ⟨h.index, 0⟩ = true := by
  obtain ⟨hinv, -, hh⟩ := run_inv ops _ rm outs (new_inv white flatNormal orm) hrun
  refine ⟨⟨hinv.mesh, hinv.texture, hinv.material⟩, ?_⟩
  intro kind h hmem hv
  obtain ⟨hgen, hidx⟩ := hh kind h hmem hv
  have hh0 : h = ⟨h.index, 0⟩ := by
    cases h
    simp only at hgen
    subst hgen
    rfl
  refine ⟨hgen, ?_, ?_⟩
  · rw [hh0]
    cases kind with
    | mesh => exact (HandlePool.neverRemoved_valid _ _ hinv.mesh hidx).1
    | texture => exact (HandlePool.neverRemoved_valid _ _ hinv.texture hidx).1
    | material => exact (HandlePool.neverRemoved_valid _ _ hinv.material hidx).1
  · cases kind with
    | mesh =>
      obtain ⟨value, hget⟩ := (HandlePool.neverRemoved_valid _ _ hinv.mesh hidx).2
      simp only [lookupReturns, GetMesh, hget]
    | texture =>
      obtain ⟨value, hget⟩ := (HandlePool.neverRemoved_valid _ _ hinv.texture hidx).2
      simp only [lookupReturns, GetTexture, hget]
    | material =>
      obtain ⟨value, hget⟩ := (HandlePool.neverRemoved_valid _ _ hinv.material hidx).2
      simp only [lookupReturns, GetMaterial, hget]

/-- The method `AddMesh` does not touch the mesh cache. -/
theorem addMesh_meshCache (env : ResourceEnv) (rm rm' : ResourceManager) (raw : RawMesh)
    (h : Handle) (hadd : AddMesh env rm raw = .ok (h, rm')) :
    rm'.meshCache_ = rm.meshCache_ := by
  unfold AddMesh at hadd
  split at hadd
  · exact Except.noConfusion hadd
  · dsimp only at hadd
    split at hadd
    · exact Except.noConfusion hadd
    · simp only [Except.ok.injEq, Prod.mk.injEq] at hadd
      obtain ⟨-, rfl⟩ := hadd
      rfl

/-- The loop of `LoadAllMeshes` does not touch the mesh cache. -/
theorem addAll_meshCache (env : ResourceEnv) :
    ∀ (raws : List RawMesh) (rm rm' : ResourceManager) (handles handles' : List Handle),
      addAll env raws rm handles = .ok (handles', rm') → rm'.meshCache_ = rm.meshCache_ := by
  intro raws
  induction raws with
  | nil =>
    intro rm rm' handles handles' hrun
    simp only [addAll, Except.ok.injEq, Prod.mk.injEq] at hrun
    obtain ⟨-, rfl⟩ := hrun
    rfl
  | cons raw raws ih =>
    intro rm rm' handles handles' hrun
    simp only [addAll] at hrun
    split at hrun
    · exact Except.noConfusion hrun
    · rename_i hd rm1 hadd
      rw [ih rm1 rm' _ handles' hrun, addMesh_meshCache env rm rm1 raw hd hadd]

/-- What `LoadMesh` does on a cache hit: the cached handle, and the registry as
it was, whatever the loader would find. -/
theorem loadMesh_hit (env : ResourceEnv) (rm : ResourceManager) (path : String) (h : Handle)
    (hc : rm.meshCache_.lookup (env.weakly_canonical path) = some h) :
    LoadMesh env rm path = .ok (h, rm) := by
  simp only [LoadMesh, hc]

/-- After a `LoadMesh` that returns a handle other than the null handle, the
cache holds that handle for the canonical path. -/
theorem loadMesh_caches (env : ResourceEnv) (rm rm' : ResourceManager) (path : String)
    (h : Handle) (hload : LoadMesh env rm path = .ok (h, rm')) (hv : h.IsValid = true) :
    rm'.meshCache_.lookup (env.weakly_canonical path) = some h := by
  unfold LoadMesh at hload
  dsimp only at hload
  split at hload
  · rename_i hc hfound
    simp only [Except.ok.injEq, Prod.mk.injEq] at hload
    obtain ⟨rfl, rfl⟩ := hload
    exact hfound
  · split at hload
    · simp only [Except.ok.injEq, Prod.mk.injEq] at hload
      obtain ⟨rfl, rfl⟩ := hload
      rw [null_handle_invalid] at hv
      exact Bool.noConfusion hv
    · split at hload
      · exact Except.noConfusion hload
      · simp only [Except.ok.injEq, Prod.mk.injEq] at hload
        obtain ⟨rfl, rfl⟩ := hload
        simp [List.lookup]

/-- No public loading operation changes what the mesh cache holds for a key
that is in it. -/
theorem step_keeps_cached (env : ResourceEnv) (rm rm' : ResourceManager) (op : ResourceOp)
    (outs : List (ResourceKind × Handle)) (key : String) (h : Handle)
    (hc : rm.meshCache_.lookup key = some h) (hstep : step env rm op = .ok (outs, rm')) :
    rm'.meshCache_.lookup key = some h := by
  cases op with
  | AddMesh raw =>
    simp only [step] at hstep
    split at hstep
    · exact Except.noConfusion hstep
    · rename_i hd rm1 hadd
      simp only [Except.ok.injEq, Prod.mk.injEq] at hstep
      obtain ⟨-, rfl⟩ := hstep
      rw [addMesh_meshCache env rm rm1 raw hd hadd]
      exact hc
  | LoadMesh path =>
    simp only [step] at hstep
    split at hstep
    · exact Except.noConfusion hstep
    · rename_i hd rm1 hload
      simp only [Except.ok.injEq, Prod.mk.injEq] at hstep
      obtain ⟨-, rfl⟩ := hstep
      unfold LoadMesh at hload
      dsimp only at hload
      split at hload
      · simp only [Except.ok.injEq, Prod.mk.injEq] at hload
        obtain ⟨-, rfl⟩ := hload
        exact hc
      · rename_i hmiss
        split at hload
        · simp only [Except.ok.injEq, Prod.mk.injEq] at hload
          obtain ⟨-, rfl⟩ := hload
          exact hc
        · split at hload
          · exact Except.noConfusion hload
          · rename_i hd2 rm2 hadd
            simp only [Except.ok.injEq, Prod.mk.injEq] at hload
            obtain ⟨-, rfl⟩ := hload
            have hne : key ≠ env.weakly_canonical path := by
              intro heq
              rw [heq, hmiss] at hc
              exact Option.noConfusion hc
            have hb : (key == env.weakly_canonical path) = false := by simpa using hne
            simp only [List.lookup, hb, addMesh_meshCache env rm rm2 _ _ hadd]
            exact hc
  | LoadAllMeshes path =>
    simp only [step] at hstep
    split at hstep
    · exact Except.noConfusion hstep
    · rename_i hs rm1 hload
      simp only [Except.ok.injEq, Prod.mk.injEq] at hstep
      obtain ⟨-, rfl⟩ := hstep
      rw [addAll_meshCache env _ rm rm1 [] hs hload]
      exact hc
  | LoadTexture path sRGB genMipmaps =>
    simp only [step] at hstep
    split at hstep
    · exact Except.noConfusion hstep
    · rename_i hd rm1 hload
      simp only [Except.ok.injEq, Prod.mk.injEq] at hstep
      obtain ⟨-, rfl⟩ := hstep
      unfold LoadTexture at hload
      dsimp only at hload
      split at hload
      · simp only [Except.ok.injEq, Prod.mk.injEq] at hload
        obtain ⟨-, rfl⟩ := hload
        exact hc
      · split at hload
        · simp only [Except.ok.injEq, Prod.mk.injEq] at hload
          obtain ⟨-, rfl⟩ := hload
          exact hc
        · split at hload
          · exact Except.noConfusion hload
          · simp only [Except.ok.injEq, Prod.mk.injEq] at hload
            obtain ⟨-, rfl⟩ := hload
            exact hc
  | CreateMaterial mat =>
    simp only [step] at hstep
    split at hstep
    · exact Except.noConfusion hstep
    · rename_i hd rm1 hcm
      simp only [Except.ok.injEq, Prod.mk.injEq] at hstep
      obtain ⟨-, rfl⟩ := hstep
      unfold CreateMaterial at hcm
      split at hcm
      · exact Except.noConfusion hcm
      · simp only [Except.ok.injEq, Prod.mk.injEq] at hcm
        obtain ⟨-, rfl⟩ := hcm
        exact hc

/-- No sequence of public loading operations changes what the mesh cache holds
for a key that is in it. -/
theorem run_keeps_cached (key : String) (h : Handle) :
    ∀ (ops : List (ResourceEnv × ResourceOp)) (rm rm' : ResourceManager)
      (outs : List (ResourceKind × Handle)), rm.meshCache_.lookup key = some h →
      run rm ops = .ok (outs, rm') → rm'.meshCache_.lookup key = some h := by
  intro ops
  induction ops with
  | nil =>
    intro rm rm' outs hc hrun
    simp only [run, Except.ok.injEq, Prod.mk.injEq] at hrun
    obtain ⟨-, rfl⟩ := hrun
    exact hc
  | cons eop ops ih =>
    intro rm rm' outs hc hrun
    obtain ⟨env, op⟩ := eop
    simp only [run] at hrun
    split at hrun
    · exact Except.noConfusion hrun
    · rename_i outs1 rm1 hstep
      split at hrun
      · exact Except.noConfusion hrun
      · rename_i outs2 rm2 hrest
        simp only [Except.ok.injEq, Prod.mk.injEq] at hrun
        obtain ⟨-, rfl⟩ := hrun
        exact ih rm1 rm2 outs2 (step_keeps_cached env rm rm1 op outs1 key h hc hstep) hrest

/-- An upload that returns has advanced the two cursors by the two sizes. -/
theorem upload_cursors (mb mb' : MeshBuffer) (vertices : List MeshVertex) (indices : List Nat)
    (alloc : Allocation) (h : mb.Upload vertices indices = .ok (alloc, mb')) :
    mb'.nextVertex_ = mb.nextVertex_ + vertices.length ∧
    mb'.nextIndex_ = mb.nextIndex_ + indices.length := by
  unfold MeshBuffer.Upload at h
  by_cases hv : mb.nextVertex_ + vertices.length ≤ MeshBuffer.kMaxVertices
  · by_cases hi : mb.nextIndex_ + indices.length ≤ MeshBuffer.kMaxIndices
    · simp only [hv, hi, not_true_eq_false, if_false] at h
      split at h
      · exact Except.noConfusion h
      · split at h
        · exact Except.noConfusion h
        · simp only [Except.ok.injEq, Prod.mk.injEq] at h
          obtain ⟨-, rfl⟩ := h
          simp only [MeshBuffer.kMaxVertices, MeshBuffer.kMaxIndices] at hv hi
          constructor
          · show (mb.nextVertex_ + vertices.length % 4294967296) % 4294967296 = _
            omega
          · show (mb.nextIndex_ + indices.length % 4294967296) % 4294967296 = _
            omega
    · simp [hv, hi] at h
  · simp [hv] at h

/-- What a `LoadMesh` that returns a handle other than the null handle has done:
either the canonical path was cached with that handle and the registry is as it
was; or it was not cached, the loader found a first mesh, that mesh was
uploaded once (both cursors advanced by its sizes) and inserted once into the
mesh pool, and the pair of the canonical path and the handle was added to the
cache. -/
theorem loadMesh_first_call (env : ResourceEnv) (rm rm1 : ResourceManager) (path : String)
    (h : Handle) (hload : LoadMesh env rm path = .ok (h, rm1)) (hvalid : h.IsValid = true) :
    (rm.meshCache_.lookup (env.weakly_canonical path) = some h ∧ rm1 = rm) ∨
    (rm.meshCache_.lookup (env.weakly_canonical path) = none ∧
      ∃ raw rest alloc meshBuffer pool, env.Load path = raw :: rest ∧
        rm.meshBuffer_.Upload raw.vertices raw.indices = .ok (alloc, meshBuffer) ∧
        meshBuffer.nextVertex_ = rm.meshBuffer_.nextVertex_ + raw.vertices.length ∧
        meshBuffer.nextIndex_ = rm.meshBuffer_.nextIndex_ + raw.indices.length ∧
        rm.meshPool_.Insert
          { sharedVAOID := env.GetVAO, baseVertex := alloc.baseVertex,
            baseIndex := alloc.baseIndex, indexCount := raw.indices.length % 4294967296,
            localBounds := raw.localBounds } = .ok (h, pool) ∧
        rm1 = { rm with
          meshBuffer_ := meshBuffer, meshPool_ := pool,
          meshCache_ := (env.weakly_canonical path, h) :: rm.meshCache_ }) := by
  unfold LoadMesh at hload
  dsimp only at hload
  split at hload
  · rename_i hc hfound
    simp only [Except.ok.injEq, Prod.mk.injEq] at hload
    obtain ⟨rfl, rfl⟩ := hload
    exact Or.inl ⟨hfound, rfl⟩
  · rename_i hmiss
    split at hload
    · simp only [Except.ok.injEq, Prod.mk.injEq] at hload
      obtain ⟨rfl, rfl⟩ := hload
      rw [null_handle_invalid] at hvalid
      exact Bool.noConfusion hvalid
    · rename_i raw rest hraws
      split at hload
      · exact Except.noConfusion hload
      · rename_i hd rm' hadd
        simp only [Except.ok.injEq, Prod.mk.injEq] at hload
        obtain ⟨rfl, rfl⟩ := hload
        refine Or.inr ⟨hmiss, raw, rest, ?_⟩
        unfold AddMesh at hadd
        split at hadd
        · exact Except.noConfusion hadd
        · rename_i alloc meshBuffer hup
          dsimp only at hadd
          split at hadd
          · exact Except.noConfusion hadd
          · rename_i hd2 pool hins
            simp only [Except.ok.injEq, Prod.mk.injEq] at hadd
            obtain ⟨rfl, rfl⟩ := hadd
            obtain ⟨hv, hi⟩ := upload_cursors _ _ _ _ _ hup
            exact ⟨alloc, meshBuffer, pool, hraws, hup, hv, hi, hins, rfl⟩

/-- C22: cache idempotence. Let `LoadMesh(p1)` succeed, that is, return a handle
`h` other than the null handle. Then this first call either found the canonical
path cached with `h` and changed nothing, or ran the loader, uploaded the first
mesh once (both mega-buffer cursors advanced by its sizes), inserted it once
into the mesh pool with handle `h`, and cached `h` under the canonical path of
`p1`. After any further public loading operations, a `LoadMesh(p2)` for a path
with the same canonical form returns the identical handle `h` and leaves the
whole registry, with the mega-buffer cursors and the mesh pool, exactly as it
was, whatever the mesh loader would return at that time: the loader is not
consulted and nothing is uploaded again. -/
theorem loadMesh_cache_idempotent (env env' : ResourceEnv) (rm rm1 rm2 : ResourceManager)
    (p1 p2 : String) (h : Handle) (ops : List (ResourceEnv × ResourceOp))
    (outs : List (ResourceKind × Handle))
    (hload : LoadMesh env rm p1 = .ok (h, rm1)) (hvalid : h.IsValid = true)
    (hlater : run rm1 ops = .ok (outs, rm2))
    (hcanon : env'.weakly_canonical p2 = env.weakly_canonical p1) :
    ((rm.meshCache_.lookup (env.weakly_canonical p1) = some h ∧ rm1 = rm) ∨
      (rm.meshCache_.lookup (env.weakly_canonical p1) = none ∧
        ∃ raw rest alloc meshBuffer pool, env.Load p1 = raw :: rest ∧
          rm.meshBuffer_.Upload raw.vertices raw.indices = .ok (alloc, meshBuffer) ∧
          meshBuffer.nextVertex_ = rm.meshBuffer_.nextVertex_ + raw.vertices.length ∧
          meshBuffer.nextIndex_ = rm.meshBuffer_.nextIndex_ + raw.indices.length ∧
          rm.meshPool_.Insert
            { sharedVAOID := env.GetVAO, baseVertex := alloc.baseVertex,
              baseIndex := alloc.baseIndex, indexCount := raw.indices.length % 4294967296,
              localBounds := raw.localBounds } = .ok (h, pool) ∧
          rm1 = { rm with
            meshBuffer_ := meshBuffer, meshPool_ := pool,
            meshCache_ := (env.weakly_canonical p1, h) :: rm.meshCache_ })) ∧
    rm1.meshCache_.lookup (env.weakly_canonical p1) = some h ∧
    rm2.meshCache_.lookup (env.weakly_canonical p1) = some h ∧
    LoadMesh env' rm2 p2 = .ok (h, rm2) ∧
    (∀ loader : String → List RawMesh,
      LoadMesh { env' with Load := loader } rm2 p2 = .ok (h, rm2)) := by
  have hc1 := loadMesh_caches env rm rm1 p1 h hload hvalid
  have hc := run_keeps_cached _ h ops rm1 rm2 outs hc1 hlater
  exact ⟨loadMesh_first_call env rm rm1 p1 h hload hvalid, hc1, hc,
    loadMesh_hit env' rm2 p2 h (by rw [hcanon]; exact hc),
    fun loader => loadMesh_hit _ rm2 p2 h (by simp only [hcanon]; exact hc)⟩

/-- A witness for C22: `box.obj`, a mesh of three vertices and three indices, is
loaded into a fresh registry, which uploads it (the cursors go from 0 to 3) and
gives it slot 0; a material is created; then the spelling `./box.obj` is asked
for when the loader finds nothing any more: the handle is the same and the
registry, with the cursors still at 3 and the one mesh slot, is unchanged. -/
theorem loadMesh_cache_idempotent_witness :
    LoadMesh exampleEnv (new {} {} {}) "box.obj" = .ok (⟨0, 0⟩, boxManager) ∧
    boxManager.meshBuffer_.VertexCount = 3 ∧ boxManager.meshBuffer_.IndexCount = 3 ∧
    boxManager.meshPool_.slots_.length = 1 ∧
    run boxManager [(exampleEnv, .CreateMaterial {})] =
      .ok ([(.material, ⟨0, 0⟩)], boxMaterialManager) ∧
    laterEnv.weakly_canonical "./box.obj" = exampleEnv.weakly_canonical "box.obj" ∧
    laterEnv.Load "./box.obj" = [] ∧
    LoadMesh laterEnv boxMaterialManager "./box.obj" = .ok (⟨0, 0⟩, boxMaterialManager) ∧
    boxMaterialManager.meshBuffer_.VertexCount = 3 ∧
    boxMaterialManager.meshBuffer_.IndexCount = 3 ∧
    boxMaterialManager.meshPool_.slots_.length = 1 :=
  ⟨by rfl, by rfl, by rfl, by rfl, by rfl, by rfl, by rfl,
    (loadMesh_cache_idempotent exampleEnv laterEnv (new {} {} {}) boxManager
      boxMaterialManager "box.obj" "./box.obj" ⟨0, 0⟩ [(exampleEnv, .CreateMaterial {})]
      [(.material, ⟨0, 0⟩)] (by rfl) (by decide) (by rfl) (by rfl)).2.2.2.1,
    by rfl, by rfl, by rfl⟩

/-- A witness for C30: a mesh is loaded and a material created. -/
theorem issued_handles_stay_valid_witness :
    ∃ rm, run (new {} {} {})
        [(exampleEnv, .LoadMesh "box.obj"), (exampleEnv, .CreateMaterial {})] =
        .ok ([(.mesh, ⟨0, 0⟩), (.material, ⟨0, 0⟩)], rm) ∧
      ∀ kind h, (kind, h) ∈ [(ResourceKind.mesh, (⟨0, 0⟩ : Handle)), (.material, ⟨0, 0⟩)] →
        h.IsValid = true →
        h.generation = 0 ∧ rm.IsValid kind h = true ∧
        rm.lookupReturns kind ⟨h.index, 0⟩ = true :=
  ⟨_, by rfl, (issued_handles_stay_valid {} {} {}
    [(exampleEnv, .LoadMesh "box.obj"), (exampleEnv, .CreateMaterial {})] _ _ (by rfl)).2⟩

end ResourceManager

namespace Shader

variable {P : Type} [LinearOrder P] {G : Type}

/-! ### Shader reload -/

omit [LinearOrder P] in
/-- The end of `Reload`: after a failed link the shader is as it was; after a
successful one its program is the one `LinkProgram` returned, which is not `0`,
and its dependencies are the new ones. -/
theorem linkAndCommit_spec (gl : GLDriver G) (s : Shader P) (newDeps : List P)
    (vertObj fragObj geomObj : Nat) (g : G) :
    ((linkAndCommit gl s newDeps vertObj fragObj geomObj g).1 = false →
      (linkAndCommit gl s newDeps vertObj fragObj geomObj g).2.1 = s) ∧
    ((linkAndCommit gl s newDeps vertObj fragObj geomObj g).1 = true →
      (linkAndCommit gl s newDeps vertObj fragObj geomObj g).2.1.deps_ = newDeps ∧
      (linkAndCommit gl s newDeps vertObj fragObj geomObj g).2.1.id_ =
        (LinkProgram gl g vertObj fragObj geomObj).1 ∧
      (linkAndCommit gl s newDeps vertObj fragObj geomObj g).2.1.id_ ≠ 0) := by
  unfold linkAndCommit
  cases hl : LinkProgram gl g vertObj fragObj geomObj with
  | mk newProg g1 =>
    dsimp only
    by_cases h0 : newProg = 0
    · simp [h0]
    · simp [h0]

/-- C23: `Shader::Reload` is atomic on failure. Whenever `Reload` returns
`false` the shader, with its program and its dependency list, is exactly what
it was before the call. Whenever it returns `true`, the vertex and fragment
files (and the geometry file, when the shader has one) were processed, the
dependency list is the concatenation of their dependency lists in this order,
and the program is the one `LinkProgram` returned, which is not `0`. -/
theorem reload_atomic (fs : ShaderFiles P) (gl : GLDriver G) (g : G) (s : Shader P) :
    ((Reload fs gl g s).1 = false → (Reload fs gl g s).2.1 = s) ∧
    ((Reload fs gl g s).1 = true →
      ∃ vert frag geomDeps,
        ShaderPreprocessor.Process fs s.vertPath_ = .ok vert ∧
        ShaderPreprocessor.Process fs s.fragPath_ = .ok frag ∧
        (s.geomPath_ = none → geomDeps = []) ∧
        (∀ geomPath, s.geomPath_ = some geomPath →
          ∃ geom, ShaderPreprocessor.Process fs geomPath = .ok geom ∧
            geomDeps = geom.dependencies) ∧
        (Reload fs gl g s).2.1.deps_ = vert.dependencies ++ frag.dependencies ++ geomDeps ∧
        (Reload fs gl g s).2.1.id_ ≠ 0 ∧
        ∃ g' vertObj fragObj geomObj,
          (Reload fs gl g s).2.1.id_ = (LinkProgram gl g' vertObj fragObj geomObj).1) := by
  unfold Reload
  cases hv : ShaderPreprocessor.Process fs s.vertPath_ with
  | error e => simp
  | ok vert =>
    cases hf : ShaderPreprocessor.Process fs s.fragPath_ with
    | error e => simp
    | ok frag =>
      dsimp only
      cases hcv : CompileStage gl g GL_VERTEX_SHADER vert.source with
      | mk vertObj g1 =>
        cases hcf : CompileStage gl g1 GL_FRAGMENT_SHADER frag.source with
        | mk fragObj g2 =>
          dsimp only
          by_cases hz : vertObj = 0 ∨ fragObj = 0
          · simp only [hz, if_true]
            simp
          · simp only [hz, if_false]
            cases hgp : s.geomPath_ with
            | none =>
              dsimp only
              obtain ⟨h1, h2⟩ := linkAndCommit_spec gl s (vert.dependencies ++ frag.dependencies)
                vertObj fragObj 0 g2
              refine ⟨h1, fun ht => ?_⟩
              obtain ⟨hd, hi, hn⟩ := h2 ht
              refine ⟨vert, frag, [], rfl, rfl, fun _ => rfl, ?_, ?_, hn, ⟨g2, vertObj, fragObj, 0, hi⟩⟩
              · intro gp hgp'
                exact Option.noConfusion hgp'
              · rw [hd, List.append_nil]
            | some geomPath =>
              dsimp only
              cases hg : ShaderPreprocessor.Process fs geomPath with
              | error e => simp
              | ok geom =>
                dsimp only
                cases hcg : CompileStage gl g2 GL_GEOMETRY_SHADER geom.source with
                | mk geomObj g3 =>
                  dsimp only
                  by_cases hgz : geomObj = 0
                  · simp only [hgz, if_true]
                    simp
                  · simp only [hgz, if_false]
                    obtain ⟨h1, h2⟩ := linkAndCommit_spec gl s
                      (vert.dependencies ++ frag.dependencies ++ geom.dependencies)
                      vertObj fragObj geomObj g3
                    refine ⟨h1, fun ht => ?_⟩
                    obtain ⟨hd, hi, hn⟩ := h2 ht
                    refine ⟨vert, frag, geom.dependencies, rfl, rfl, ?_, ?_, hd, hn,
                      ⟨g3, vertObj, fragObj, geomObj, hi⟩⟩
                    · intro hnone
                      exact Option.noConfusion hnone
                    · intro gp hgp'
                      injection hgp' with hgp'
                      subst hgp'
                      exact ⟨geom, hg, rfl⟩

/-- A witness for C23: the example shader over `chainFiles` reloads to program
3 with the dependencies of `root.glsl` followed by those of `d.glsl`. -/
theorem reload_atomic_witness :
    Reload chainFiles countingDriver 0 exampleShader =
      (true, { exampleShader with id_ := 3, deps_ := [0, 1, 3, 3] }, 3) ∧
    ∃ vert frag geomDeps,
      ShaderPreprocessor.Process chainFiles exampleShader.vertPath_ = .ok vert ∧
      ShaderPreprocessor.Process chainFiles exampleShader.fragPath_ = .ok frag ∧
      (exampleShader.geomPath_ = none → geomDeps = []) ∧
      (∀ geomPath, exampleShader.geomPath_ = some geomPath →
        ∃ geom, ShaderPreprocessor.Process chainFiles geomPath = .ok geom ∧
          geomDeps = geom.dependencies) ∧
      (Reload chainFiles countingDriver 0 exampleShader).2.1.deps_ =
        vert.dependencies ++ frag.dependencies ++ geomDeps ∧
      (Reload chainFiles countingDriver 0 exampleShader).2.1.id_ ≠ 0 ∧
      ∃ g' vertObj fragObj geomObj,
        (Reload chainFiles countingDriver 0 exampleShader).2.1.id_ =
          (LinkProgram countingDriver g' vertObj fragObj geomObj).1 :=
  ⟨by rfl, (reload_atomic chainFiles countingDriver 0 exampleShader).2 (by rfl)⟩

end Shader

namespace ResourceManager

variable {P : Type} [LinearOrder P] {G : Type}

/-! ### Shader hot-reload -/

omit [LinearOrder P] in
/-- The inner loop of `PollShaderReload` returns when every dependency it looks
at has a stored timestamp, and it sets `changed` exactly when some dependency
has a time that is read without error and differs from the stored one. -/
theorem changed_spec (env : ReloadEnv P G) (ts : List Int) :
    ∀ (deps : List P) (i : Nat), (∀ j, j < deps.length → ∃ t, ts[i + j]? = some t) →
      ∃ b, changed env ts deps i = .ok b ∧
        (b = true ↔ ∃ (j : Nat) (d : P) (t now : Int), deps[j]? = some d ∧
          ts[i + j]? = some t ∧ env.last_write_time d = some now ∧ now ≠ t) := by
  intro deps
  induction deps with
  | nil =>
    intro i _
    refine ⟨false, rfl, ?_⟩
    constructor
    · intro h
      exact Bool.noConfusion h
    · rintro ⟨j, d, t, now, hd, -⟩
      simp at hd
  | cons d ds ih =>
    intro i hts
    have hrest : ∀ j, j < ds.length → ∃ t, ts[i + 1 + j]? = some t := by
      intro j hj
      have := hts (j + 1) (by simp only [List.length_cons]; omega)
      rwa [show i + (j + 1) = i + 1 + j by omega] at this
    obtain ⟨b, hb, hiff⟩ := ih (i + 1) hrest
    have hshift : (∃ (j : Nat) (d' : P) (t now : Int), ds[j]? = some d' ∧
        ts[i + 1 + j]? = some t ∧ env.last_write_time d' = some now ∧ now ≠ t) →
        ∃ (j : Nat) (d' : P) (t now : Int), (d :: ds)[j]? = some d' ∧
          ts[i + j]? = some t ∧ env.last_write_time d' = some now ∧ now ≠ t := by
      rintro ⟨j, d', t, now, h1, h2, h3, h4⟩
      exact ⟨j + 1, d', t, now, by simpa using h1,
        by rwa [show i + (j + 1) = i + 1 + j by omega], h3, h4⟩
    cases hlwt : env.last_write_time d with
    | none =>
      refine ⟨b, by simp only [changed, lastWriteTime, hlwt, if_true]; exact hb, ?_⟩
      rw [hiff]
      refine ⟨hshift, ?_⟩
      rintro ⟨j, d', t, now, h1, h2, h3, h4⟩
      cases j with
      | zero =>
        simp only [List.getElem?_cons_zero, Option.some.injEq] at h1
        subst h1
        rw [hlwt] at h3
        exact Option.noConfusion h3
      | succ j =>
        exact ⟨j, d', t, now, by simpa using h1,
          by rwa [show i + (j + 1) = i + 1 + j by omega] at h2, h3, h4⟩
    | some now0 =>
      obtain ⟨t0, ht0⟩ := hts 0 (by simp)
      rw [Nat.add_zero] at ht0
      by_cases hne : now0 ≠ t0
      · refine ⟨true, by simp [changed, lastWriteTime, hlwt, ht0, hne], ?_⟩
        simp only [true_iff]
        exact ⟨0, d, t0, now0, by simp, by simpa using ht0, hlwt, hne⟩
      · have heq : now0 = t0 := not_not.mp hne
        refine ⟨b, by simp [changed, lastWriteTime, hlwt, ht0, heq]; exact hb, ?_⟩
        rw [hiff]
        refine ⟨hshift, ?_⟩
        rintro ⟨j, d', t, now, h1, h2, h3, h4⟩
        cases j with
        | zero =>
          simp only [List.getElem?_cons_zero, Option.some.injEq] at h1
          subst h1
          rw [Nat.add_zero, ht0] at h2
          rw [hlwt] at h3
          injection h2 with h2
          injection h3 with h3
          exact absurd (h3.symm.trans (heq.trans h2)) h4
        | succ j =>
          exact ⟨j, d', t, now, by simpa using h1,
            by rwa [show i + (j + 1) = i + 1 + j by omega] at h2, h3, h4⟩

/-- The outer loop of `PollShaderReload` handles the records one by one, each by
the loop body in the state the earlier records left. -/
theorem pollShaderReload_each (env : ReloadEnv P G) :
    ∀ (recs recs' : List (ShaderRecord P)) (st st' : ReloadState P G),
      PollShaderReload env recs st = .ok (recs', st') →
      List.Forall₂ (fun rec rec' => ∃ s s', pollRecord env s rec = .ok (rec', s')) recs recs' := by
  intro recs
  induction recs with
  | nil =>
    intro recs' st st' h
    simp only [PollShaderReload, Except.ok.injEq, Prod.mk.injEq] at h
    obtain ⟨rfl, -⟩ := h
    exact List.Forall₂.nil
  | cons rec recs ih =>
    intro recs' st st' h
    simp only [PollShaderReload] at h
    split at h
    · exact Except.noConfusion h
    · rename_i rec1 st1 hrec
      split at h
      · exact Except.noConfusion h
      · rename_i recs1 st2 hrest
        simp only [Except.ok.injEq, Prod.mk.injEq] at h
        obtain ⟨rfl, -⟩ := h
        exact List.Forall₂.cons ⟨st, st1, hrec⟩ (ih recs1 st1 st2 hrest)

/-- C24, as written, fails for a dependency whose timestamp cannot be read: for
the deleted file `b.glsl` the call `last_write_time` hands back
`file_time_type::min()`, which differs from the stored time 5, and sets its
error code; the record is left untouched and `Reload`, which would have changed
the driver state, is not invoked. -/
theorem pollShaderReload_skips_unreadable_timestamp :
    exampleRecord.deps[1]? = some 1 ∧ exampleRecord.timestamps[1]? = some 5 ∧
    lastWriteTime deletedReloadEnv 1 = (-1, true) ∧
    (lastWriteTime deletedReloadEnv 1).1 ≠ 5 ∧
    pollRecord deletedReloadEnv { gl := 0, shaders := [exampleShader] } exampleRecord =
      .ok (exampleRecord, { gl := 0, shaders := [exampleShader] }) ∧
    (Shader.Reload deletedReloadEnv.fs deletedReloadEnv.gl 0 exampleShader).2.2 = 3 :=
  ⟨by rfl, by rfl, by rfl, by decide, by rfl, by rfl⟩

/-- C24 (amended): for every tracked shader record with one stored timestamp per
dependency, `PollShaderReload` invokes the shader's `Reload` exactly when at
least one dependency has a current modification time that is read without
error and differs from the stored one. A record with no such timestamp is left
untouched, with the state around it. After a successful reload the
record's dependency list is the shader's new dependency list and its
timestamps are re-read for exactly those files, one per dependency; after a
failed reload the record is unchanged. The records are handled one by one. -/
theorem pollShaderReload_record (env : ReloadEnv P G) (st : ReloadState P G)
    (rec : ShaderRecord P) (sh : Shader P)
    (hlen : rec.timestamps.length = rec.deps.length)
    (hsh : st.shaders[rec.shader]? = some sh) :
    (¬ Differs env rec → pollRecord env st rec = .ok (rec, st)) ∧
    (Differs env rec → ∃ rec' st', pollRecord env st rec = .ok (rec', st') ∧
      st'.gl = (Shader.Reload env.fs env.gl st.gl sh).2.2 ∧
      st'.shaders = st.shaders.set rec.shader (Shader.Reload env.fs env.gl st.gl sh).2.1 ∧
      ((Shader.Reload env.fs env.gl st.gl sh).1 = true →
        rec'.shader = rec.shader ∧
        rec'.deps = (Shader.Reload env.fs env.gl st.gl sh).2.1.GetDependencies ∧
        rec'.timestamps = rec'.deps.map (fun p => (lastWriteTime env p).1) ∧
        rec'.timestamps.length = rec'.deps.length) ∧
      ((Shader.Reload env.fs env.gl st.gl sh).1 = false →
        rec' = rec ∧ st'.lastReloadedShader_ = st.lastReloadedShader_)) ∧
    (∀ (recs recs' : List (ShaderRecord P)) (s s' : ReloadState P G),
      PollShaderReload env recs s = .ok (recs', s') →
      List.Forall₂ (fun r r' => ∃ t t', pollRecord env t r = .ok (r', t')) recs recs') := by
  have hts : ∀ j, j < rec.deps.length → ∃ t, rec.timestamps[0 + j]? = some t := by
    intro j hj
    rw [Nat.zero_add]
    exact ⟨rec.timestamps[j], List.getElem?_eq_getElem (by omega)⟩
  obtain ⟨b, hb, hiff⟩ := changed_spec env rec.timestamps rec.deps 0 hts
  have hd : b = true ↔ Differs env rec := by
    rw [hiff]
    unfold Differs
    simp only [Nat.zero_add]
  refine ⟨?_, ?_, pollShaderReload_each env⟩
  · intro hnd
    have hbf : b = false := by
      cases b with
      | false => rfl
      | true => exact absurd (hd.mp rfl) hnd
    subst hbf
    simp only [pollRecord, hb]
  · intro hdiff
    have hbt : b = true := hd.mpr hdiff
    subst hbt
    simp only [pollRecord, hb, hsh]
    cases hr : Shader.Reload env.fs env.gl st.gl sh with
    | mk ok rest =>
      obtain ⟨sh1, g1⟩ := rest
      dsimp only
      cases ok with
      | false =>
        refine ⟨rec, _, rfl, rfl, rfl, ?_, fun _ => ⟨rfl, rfl⟩⟩
        intro h
        exact Bool.noConfusion h
      | true =>
        simp only [if_true]
        refine ⟨_, _, rfl, ?_, ?_, fun _ => ⟨rfl, rfl, rfl, ?_⟩, ?_⟩
        · split <;> rfl
        · split <;> rfl
        · simp [RefreshTimestamps]
        · intro h
          exact Bool.noConfusion h

/-- A witness for C24: the record of the example shader, one of whose files was
written again, is reloaded and its four timestamps are read again. -/
theorem pollShaderReload_record_witness :
    Differs exampleReloadEnv exampleRecord ∧
    pollRecord exampleReloadEnv { gl := 0, shaders := [exampleShader] } exampleRecord =
      .ok ({ shader := 0, deps := [0, 1, 3, 3], timestamps := [5, 6, 5, 5] },
        { gl := 3, shaders := [{ exampleShader with id_ := 3 }],
          lastReloadedShader_ := "root.glsl".toList }) ∧
    ∃ rec' st', pollRecord exampleReloadEnv { gl := 0, shaders := [exampleShader] }
        exampleRecord = .ok (rec', st') ∧
      st'.gl = (Shader.Reload chainFiles countingDriver 0 exampleShader).2.2 ∧
      rec'.timestamps.length = rec'.deps.length := by
  have hdiff : Differs exampleReloadEnv exampleRecord :=
    ⟨1, 1, 5, 6, by rfl, by rfl, by rfl, by decide⟩
  obtain ⟨rec', st', h1, h2, -, h3, -⟩ :=
    (pollShaderReload_record exampleReloadEnv { gl := 0, shaders := [exampleShader] }
      exampleRecord exampleShader (by rfl) (by rfl)).2.1 hdiff
  exact ⟨hdiff, by rfl, rec', st', h1, h2, (h3 (by rfl)).2.2.2⟩

end ResourceManager

/-! ### Frustum culling in `float` arithmetic -/

namespace binary32

set_option maxRecDepth 8192 in
/-- Known results of `float` arithmetic, reproduced by the model: the tie
`1 + 2^-24` rounds to the even neighbour 1 and `(1 + 2^-23) + 2^-24` to the even
neighbour `1 + 2^-22`; the largest `float` plus 2^102 is itself and plus 2^103
is infinity; half the smallest subnormal rounds to 0; `1.0f / 3.0f` is
`0x3EAAAAAB`, `sqrt(2.0f)` is `0x3FB504F3`, and `1.0f / 1000000.0f` is the
literal `1e-6f`; `0 * infinity` is NaN, which fails `>= 0.0f`. -/
theorem float_examples :
    F32.add F32.one (.finite 1 (-24)) = F32.one ∧
    F32.add (.finite 8388609 (-23)) (.finite 1 (-24)) = .finite 8388610 (-23) ∧
    F32.add (.finite 16777215 104) (.finite 1 102) = .finite 16777215 104 ∧
    F32.add (.finite 16777215 104) (.finite 1 103) = .inf false ∧
    F32.div (.finite 1 (-149)) (.finite 2 0) = F32.zero ∧
    F32.div (.finite 3 (-149)) (.finite 2 0) = .finite 2 (-149) ∧
    F32.div F32.one (.finite 3 0) = .finite 11184811 (-25) ∧
    F32.sqrt (.finite 2 0) = .finite 11863283 (-23) ∧
    F32.div F32.one (.finite 1000000 0) = F32.lengthEpsilon ∧
    F32.mul F32.zero (.inf false) = .nan ∧
    F32.ge .nan F32.zero = false := by
  decide

/-- A finite value passes the test `>= 0.0f` exactly when its mantissa is not
negative. -/
theorem F32.ge_zero_finite (m e : Int) :
    (F32.finite m e).ge F32.zero = decide (0 ≤ m) := by
  have hpos : (0 : Int) < 2 ^ (e - min 0 e).toNat := by positivity
  simp only [F32.ge, F32.le, F32.zero, zero_mul]
  congr 1
  apply propext
  constructor
  · intro h
    by_contra hneg
    have : m * 2 ^ (e - min 0 e).toNat < 0 := mul_neg_of_neg_of_pos (not_le.mp hneg) hpos
    omega
  · intro h
    exact mul_nonneg h (le_of_lt hpos)

/-- The rational value of a finite `float` has the sign of its mantissa. -/
theorem F32.toRat_nonneg_iff (m e : Int) : 0 ≤ (F32.finite m e).toRat ↔ 0 ≤ m := by
  have hpos : (0 : ℚ) < (2 : ℚ) ^ e := by positivity
  simp only [F32.toRat]
  constructor
  · intro h
    by_contra hneg
    have hm : (m : ℚ) < 0 := by exact_mod_cast not_le.mp hneg
    have : (m : ℚ) * (2 : ℚ) ^ e < 0 := mul_neg_of_neg_of_pos hm hpos
    exact absurd h (not_le.mpr this)
  · intro h
    have hm : (0 : ℚ) ≤ (m : ℚ) := by exact_mod_cast h
    exact mul_nonneg hm (le_of_lt hpos)

/-- A value fails the test `>= 0.0f` exactly when it is negative or NaN. -/
theorem F32.ge_zero_eq_false_iff (x : F32) :
    x.ge F32.zero = false ↔ x.lt F32.zero = true ∨ x = .nan := by
  cases x with
  | finite m e =>
    have hpos : (0 : Int) < 2 ^ (e - min e 0).toNat := by positivity
    rw [F32.ge_zero_finite]
    simp only [F32.lt, F32.zero, zero_mul, decide_eq_false_iff_not, decide_eq_true_eq, not_le,
      reduceCtorEq, or_false]
    constructor
    · intro h
      exact mul_neg_of_neg_of_pos h hpos
    · intro h
      by_contra hneg
      have : 0 ≤ m * 2 ^ (e - min e 0).toNat := mul_nonneg (not_lt.mp hneg) (le_of_lt hpos)
      omega
  | inf s => cases s <;> simp [F32.ge, F32.le, F32.lt, F32.zero]
  | nan => simp [F32.ge, F32.le, F32.lt, F32.zero]

/-- The eight corners of the corner loop, written out. -/
theorem float_corners_eq (aabb : AABB) (model : Mat4) :
    (List.range 8).map (boxCorner aabb model) =
      [worldPoint model ⟨aabb.min.x, aabb.min.y, aabb.min.z⟩,
       worldPoint model ⟨aabb.max.x, aabb.min.y, aabb.min.z⟩,
       worldPoint model ⟨aabb.min.x, aabb.max.y, aabb.min.z⟩,
       worldPoint model ⟨aabb.max.x, aabb.max.y, aabb.min.z⟩,
       worldPoint model ⟨aabb.min.x, aabb.min.y, aabb.max.z⟩,
       worldPoint model ⟨aabb.max.x, aabb.min.y, aabb.max.z⟩,
       worldPoint model ⟨aabb.min.x, aabb.max.y, aabb.max.z⟩,
       worldPoint model ⟨aabb.max.x, aabb.max.y, aabb.max.z⟩] := by
  have h24 : (2 &&& 4 : Nat) = 0 := by decide
  have h34 : (3 &&& 4 : Nat) = 0 := by decide
  have h42 : (4 &&& 2 : Nat) = 0 := by decide
  have h52 : (5 &&& 2 : Nat) = 0 := by decide
  simp [List.range, List.range.loop, boxCorner, h24, h34, h42, h52]

/-- The corner loop ends with `allOutside` set exactly when every corner fails
the test `>= 0.0f`. -/
theorem float_allOutside_eq_true_iff (p : Vec4) (corners : List Vec3) :
    allOutside p corners = true ↔
      ∀ c ∈ corners, (planeDistance p c).ge F32.zero = false := by
  induction corners with
  | nil => simp [allOutside]
  | cons c cs ih =>
    simp only [allOutside, List.mem_cons, forall_eq_or_imp]
    cases h : (planeDistance p c).ge F32.zero with
    | true => simp
    | false => simp [ih]

/-- The plane loop returns `true` exactly when no plane has every corner
outside. -/
theorem float_planeLoop_eq_true_iff (corners : List Vec3) (planes : List Vec4) :
    planeLoop corners planes = true ↔ ∀ p ∈ planes, allOutside p corners = false := by
  induction planes with
  | nil => simp [planeLoop]
  | cons p ps ih =>
    simp only [planeLoop, List.mem_cons, forall_eq_or_imp]
    cases h : allOutside p corners with
    | true => simp
    | false => simp [ih]

/-- The method returns `false` exactly when some plane has all corners of the
loop failing the test `>= 0.0f`. -/
theorem float_containsAABB_eq_false_iff (f : Frustum) (aabb : AABB) (model : Mat4) :
    f.ContainsAABB aabb model = false ↔
      ∃ pl ∈ f.planes, ∀ c ∈ (List.range 8).map (boxCorner aabb model),
        (planeDistance pl c).ge F32.zero = false := by
  unfold Frustum.ContainsAABB
  rw [← Bool.not_eq_true, float_planeLoop_eq_true_iff]
  constructor
  · intro h
    by_contra hno
    apply h
    intro pl hpl
    cases ho : allOutside pl ((List.range 8).map (boxCorner aabb model)) with
    | false => rfl
    | true => exact absurd ⟨pl, hpl, (float_allOutside_eq_true_iff pl _).mp ho⟩ hno
  · rintro ⟨pl, hpl, hall⟩ h
    have := h pl hpl
    rw [(float_allOutside_eq_true_iff pl _).mpr hall] at this
    exact Bool.noConfusion this

/-- The rational value of `1.0f`. -/
theorem F32.toRat_one : F32.one.toRat = 1 := by
  norm_num [F32.toRat, F32.one]

/-- The rational value of `0.0f`. -/
theorem F32.toRat_zero : F32.zero.toRat = 0 := by
  norm_num [F32.toRat, F32.zero]

namespace Frustum

/-- C27 (amended): in `float` arithmetic, `ContainsAABB(aabb, model)` returns
`false` exactly when one of the six planes has all eight transformed corners
(the `xyz` part of the computed `model * (corner, 1)`, for every combination of
minimum and maximum coordinates) at a computed signed distance that is
negative or NaN; a corner whose computed distance is 0 counts as inside. -/
theorem containsAABB_false_iff_computed (f : Frustum) (aabb : AABB) (model : Mat4) :
    f.ContainsAABB aabb model = false ↔
      ∃ pl ∈ f.planes, ∀ c ∈
        [worldPoint model ⟨aabb.min.x, aabb.min.y, aabb.min.z⟩,
         worldPoint model ⟨aabb.max.x, aabb.min.y, aabb.min.z⟩,
         worldPoint model ⟨aabb.min.x, aabb.max.y, aabb.min.z⟩,
         worldPoint model ⟨aabb.max.x, aabb.max.y, aabb.min.z⟩,
         worldPoint model ⟨aabb.min.x, aabb.min.y, aabb.max.z⟩,
         worldPoint model ⟨aabb.max.x, aabb.min.y, aabb.max.z⟩,
         worldPoint model ⟨aabb.min.x, aabb.max.y, aabb.max.z⟩,
         worldPoint model ⟨aabb.max.x, aabb.max.y, aabb.max.z⟩],
        (planeDistance pl c).lt F32.zero = true ∨ planeDistance pl c = .nan := by
  rw [← float_corners_eq aabb model, float_containsAABB_eq_false_iff]
  simp only [F32.ge_zero_eq_false_iff]

set_option maxRecDepth 8192 in
/-- C27, as written, fails when a corner overflows: for the model matrix that
scales `x` by 2^127, the box from (4, 0, 0) to (8, 0, 0) and six planes
(0, 0, 0, 1), the `x` coordinate of every transformed corner overflows to
infinity, its product with the plane coefficient 0 is NaN, the test
`NaN >= 0.0f` fails, and `ContainsAABB` returns `false` although every point
is at distance 1 from every plane. -/
theorem containsAABB_rejects_on_overflow :
    openFrustum.ContainsAABB farBox hugeModel = false ∧
    worldPoint hugeModel farBox.min = ⟨.inf false, F32.zero, F32.zero⟩ ∧
    planeDistance farPlane (worldPoint hugeModel farBox.min) = .nan ∧
    hugeModel.c0.x.toRat = 2 ^ 127 ∧
    farBox.toRat = ⟨⟨4, 0, 0⟩, ⟨8, 0, 0⟩⟩ ∧
    (∀ pl ∈ openFrustum.planes, ∀ c : engine.Vec3, engine.planeDistance pl.toRat c = 1) ∧
    ¬ ∃ pl ∈ openFrustum.planes, ∀ c ∈
        (List.range 8).map (engine.boxCorner farBox.toRat hugeModel.toRat),
        engine.planeDistance pl.toRat c < 0 := by
  have hpl : ∀ pl ∈ openFrustum.planes, ∀ c : engine.Vec3,
      engine.planeDistance pl.toRat c = 1 := by
    intro pl hpl c
    simp only [planes, openFrustum, List.mem_cons, List.mem_singleton, List.not_mem_nil,
      or_false, or_self] at hpl
    subst hpl
    simp [engine.planeDistance, Vec4.toRat, farPlane, F32.toRat_one, F32.toRat_zero]
  refine ⟨by decide, by decide, by decide, ?_, ?_, hpl, ?_⟩
  · norm_num [hugeModel, F32.toRat]
  · norm_num [farBox, AABB.toRat, Vec3.toRat, F32.toRat, F32.zero]
  · rintro ⟨pl, hmem, hall⟩
    have h := hall (engine.boxCorner farBox.toRat hugeModel.toRat 0) (List.mem_map.mpr ⟨0, List.mem_range.mpr (by norm_num), rfl⟩)
    rw [hpl pl hmem] at h
    norm_num at h

end Frustum

namespace Frustum

end Frustum

/-- The planes of `FromViewProjection` are the normalised row combinations. -/
theorem float_fromViewProjection_planes_eq (vp : Mat4) :
    (Frustum.FromViewProjection vp).planes = (rowPlanes vp).map normalizePlane := rfl

namespace Frustum

end Frustum

namespace Frustum

end Frustum

/-! ### Rounding error of the plane normalisation -/

/-- The digit count brackets the number: `2 ^ b ≤ 2 * n` and `n < 2 ^ b`. -/
theorem bitLength_spec : ∀ (fuel n : Nat), n ≤ fuel → n ≠ 0 →
    2 ^ bitLength fuel n ≤ 2 * n ∧ n < 2 ^ bitLength fuel n := by
  intro fuel
  induction fuel with
  | zero =>
    intro n hle hn
    omega
  | succ k ih =>
    intro n hle hn
    simp only [bitLength, hn, if_false]
    by_cases h2 : n / 2 = 0
    · have h1 : n = 1 := by omega
      subst h1
      cases k with
      | zero => simp [bitLength]
      | succ j => simp [bitLength]
    · have hk : n / 2 ≤ k := by omega
      obtain ⟨ha, hb⟩ := ih (n / 2) hk h2
      rw [pow_succ]
      constructor <;> omega

/-- The digit count of a positive number. -/
theorem bits_spec (n : Nat) (hn : n ≠ 0) : 2 ^ bits n ≤ 2 * n ∧ n < 2 ^ bits n :=
  bitLength_spec n n (le_refl n) hn

/-- A positive number has at least one digit. -/
theorem bits_pos (n : Nat) (hn : n ≠ 0) : 0 < bits n := by
  by_contra h
  have h0 : bits n = 0 := by omega
  have := (bits_spec n hn).2
  rw [h0] at this
  omega

/-- A number below `2 ^ k` has at most `k` digits. -/
theorem bits_le_of_lt (n k : Nat) (hn : n ≠ 0) (h : n < 2 ^ k) : bits n ≤ k := by
  by_contra hlt
  have h1 : k + 1 ≤ bits n := by omega
  have h2 : 2 ^ (k + 1) ≤ 2 ^ bits n := Nat.pow_le_pow_right (by norm_num) h1
  have h3 := (bits_spec n hn).1
  rw [pow_succ] at h2
  omega

/-- The rounded quotient is within half a unit of the exact quotient. -/
theorem shiftRound_spec (n shift : Nat) (hs : 0 < shift) :
    2 * n ≤ 2 * (shiftRound n shift * 2 ^ shift) + 2 ^ shift ∧
    2 * (shiftRound n shift * 2 ^ shift) ≤ 2 * n + 2 ^ shift := by
  have hne : shift ≠ 0 := by omega
  have hpow : 2 ^ shift = 2 * 2 ^ (shift - 1) := by
    conv_lhs => rw [show shift = (shift - 1) + 1 by omega]
    rw [pow_succ]
    ring
  have hdm := Nat.div_add_mod n (2 ^ shift)
  have hlt : n % 2 ^ shift < 2 ^ shift := Nat.mod_lt _ (by positivity)
  simp only [shiftRound, hne, if_false]
  generalize hq : n / 2 ^ shift = q at *
  generalize hr : n % 2 ^ shift = r at *
  generalize hh : 2 ^ (shift - 1) = half at *
  generalize hP : 2 ^ shift = P at *
  have hn : n = P * q + r := hdm.symm
  split
  · rename_i hc
    have hmul : (q + 1) * P = P * q + P := by ring
    rw [hmul]
    rcases hc with hc | hc <;> omega
  · rename_i hc
    have hmul : q * P = P * q := by ring
    rw [hmul]
    have : r ≤ half := by
      by_contra h
      exact hc (Or.inl (by omega))
    omega

/-- The rounded quotient of a number below `2 ^ (shift + k)` is at most `2 ^ k`. -/
theorem shiftRound_le (n shift k : Nat) (h : n < 2 ^ (shift + k)) :
    shiftRound n shift ≤ 2 ^ k := by
  unfold shiftRound
  by_cases hs : shift = 0
  · simp only [hs, if_true]
    rw [hs, zero_add] at h
    omega
  · simp only [hs, if_false]
    have hq : n / 2 ^ shift < 2 ^ k := by
      rw [Nat.div_lt_iff_lt_mul (by positivity)]
      rw [pow_add] at h
      linarith [mul_comm (2 ^ shift) (2 ^ k)]
    split <;> omega

/-- A power of two with a natural exponent, as a power with an integer
exponent. -/
theorem two_pow_toNat (k : Int) (hk : 0 ≤ k) : ((2 : ℚ) ^ k.toNat) = (2 : ℚ) ^ k := by
  rw [← zpow_natCast, Int.toNat_of_nonneg hk]

/-- The value of the mantissa kept by `round`, against the exact value: equal
when no digit is dropped, within half a unit of the last place otherwise. -/
theorem round_mantissa (n : Nat) (e q : Int) :
    |(((if q ≤ e then n * 2 ^ (e - q).toNat else shiftRound n (q - e).toNat : Nat) : ℚ)) *
        (2 : ℚ) ^ q - (n : ℚ) * (2 : ℚ) ^ e| ≤ if q ≤ e then 0 else (2 : ℚ) ^ (q - 1) := by
  by_cases hqe : q ≤ e
  · simp only [hqe, if_true]
    rw [Nat.cast_mul, Nat.cast_pow, Nat.cast_ofNat, two_pow_toNat _ (by omega), mul_assoc,
      ← zpow_add₀ (by norm_num : (2 : ℚ) ≠ 0)]
    simp
  · simp only [hqe, if_false]
    have hs : 0 < (q - e).toNat := by omega
    obtain ⟨h1, h2⟩ := shiftRound_spec n (q - e).toNat hs
    generalize shiftRound n (q - e).toNat = r at h1 h2
    have h1q : (2 : ℚ) * n ≤ 2 * (r * (2 : ℚ) ^ (q - e)) + (2 : ℚ) ^ (q - e) := by
      rw [← two_pow_toNat _ (by omega)]
      exact_mod_cast h1
    have h2q : (2 : ℚ) * (r * (2 : ℚ) ^ (q - e)) ≤ 2 * n + (2 : ℚ) ^ (q - e) := by
      rw [← two_pow_toNat _ (by omega)]
      exact_mod_cast h2
    have hpe : (0 : ℚ) < (2 : ℚ) ^ e := by positivity
    have hq : (2 : ℚ) ^ q = (2 : ℚ) ^ (q - e) * (2 : ℚ) ^ e := by
      rw [← zpow_add₀ (by norm_num : (2 : ℚ) ≠ 0)]
      congr 1
      ring
    have hq1 : (2 : ℚ) ^ (q - 1) = (2 : ℚ) ^ (q - e) * (2 : ℚ) ^ e / 2 := by
      rw [← hq, zpow_sub₀ (by norm_num : (2 : ℚ) ≠ 0)]
      simp
    rw [hq1, hq, abs_le]
    constructor
    · nlinarith
    · nlinarith

/-- The value of a signed mantissa against the value of a signed number of the
same sign. -/
theorem abs_signed_sub (m : Int) (r : Nat) (a b : ℚ) :
    |((if m < 0 then -(r : Int) else (r : Int) : Int) : ℚ) * a - (m : ℚ) * b| =
      |(r : ℚ) * a - (m.natAbs : ℚ) * b| := by
  by_cases hm : m < 0
  · have h : (m : ℚ) = -(m.natAbs : ℚ) := by
      have : (m : Int) = -(m.natAbs : Int) := by omega
      exact_mod_cast this
    simp only [hm, if_true, h]
    push_cast
    rw [← abs_neg]
    congr 1
    ring
  · have h : (m : ℚ) = (m.natAbs : ℚ) := by
      have h1 : ((m.natAbs : Int)) = m := Int.natAbs_of_nonneg (by omega)
      calc (m : ℚ) = (((m.natAbs : Int)) : ℚ) := by rw [h1]
        _ = (m.natAbs : ℚ) := Int.cast_natCast _
    simp only [hm, if_false, h]
    push_cast
    rfl

/-- The absolute value of an integer, as a rational. -/
theorem abs_cast_eq_natAbs (m : Int) : |(m : ℚ)| = (m.natAbs : ℚ) := by
  rw [Nat.cast_natAbs, Int.cast_abs]

/-- The rounding function `round` either overflows, on a value of magnitude
at least 2^127, or returns a finite value within the relative error 2^-24, or
the absolute error 2^-150, of the exact value. -/
theorem round_spec (m e : Int) :
    (∃ s, round m e = .inf s ∧ (2 : ℚ) ^ (127 : Int) ≤ |(m : ℚ) * (2 : ℚ) ^ e|) ∨
    (∃ m' e', round m e = .finite m' e' ∧
      |(m' : ℚ) * (2 : ℚ) ^ e' - (m : ℚ) * (2 : ℚ) ^ e| ≤
        unitRoundoff * |(m : ℚ) * (2 : ℚ) ^ e| + underflowUnit) := by
  have hpe : (0 : ℚ) < (2 : ℚ) ^ e := by positivity
  by_cases hm : m = 0
  · right
    refine ⟨0, 0, by simp [round, hm], ?_⟩
    simp only [hm, Int.cast_zero, zero_mul, sub_self, abs_zero, mul_zero, zero_add]
    norm_num [underflowUnit]
  · have hn : m.natAbs ≠ 0 := by omega
    have hb := bits_spec m.natAbs hn
    have hbpos := bits_pos m.natAbs hn
    have habs : |(m : ℚ) * (2 : ℚ) ^ e| = (m.natAbs : ℚ) * (2 : ℚ) ^ e := by
      rw [abs_mul, abs_cast_eq_natAbs, abs_of_pos hpe]
    rw [habs]
    -- the names of the definition
    generalize hE : e + (bits m.natAbs : Int) - 1 = E
    generalize hq : max (E - 23) (-149 : Int) = q
    have hmant := round_mantissa m.natAbs e q
    have hrle : (if q ≤ e then m.natAbs * 2 ^ (e - q).toNat
        else shiftRound m.natAbs (q - e).toNat) ≤ 2 ^ 24 := by
      by_cases hqe : q ≤ e
      · simp only [hqe, if_true]
        have hk : (e - q).toNat + bits m.natAbs ≤ 24 := by omega
        calc m.natAbs * 2 ^ (e - q).toNat
            ≤ 2 ^ bits m.natAbs * 2 ^ (e - q).toNat :=
              Nat.mul_le_mul_right _ (le_of_lt hb.2)
          _ = 2 ^ (bits m.natAbs + (e - q).toNat) := by rw [pow_add]
          _ ≤ 2 ^ 24 := Nat.pow_le_pow_right (by norm_num) (by omega)
      · simp only [hqe, if_false]
        apply shiftRound_le
        calc m.natAbs < 2 ^ bits m.natAbs := hb.2
          _ ≤ 2 ^ ((q - e).toNat + 24) := Nat.pow_le_pow_right (by norm_num) (by omega)
    -- the exact value is at least 2 ^ E
    have hlow : (2 : ℚ) ^ E ≤ (m.natAbs : ℚ) * (2 : ℚ) ^ e := by
      have h1 : E = ((bits m.natAbs - 1 : Nat) : Int) + e := by omega
      rw [h1, zpow_add₀ (by norm_num : (2 : ℚ) ≠ 0), zpow_natCast]
      apply mul_le_mul_of_nonneg_right _ (le_of_lt hpe)
      have h2 : 2 ^ (bits m.natAbs - 1) ≤ m.natAbs := by
        have h3 : 2 ^ bits m.natAbs = 2 * 2 ^ (bits m.natAbs - 1) := by
          conv_lhs => rw [show bits m.natAbs = (bits m.natAbs - 1) + 1 by omega]
          rw [pow_succ]
          ring
        omega
      exact_mod_cast h2
    -- the half unit of the last place is within the bound
    have hhalf : ¬ q ≤ e → (2 : ℚ) ^ (q - 1) ≤
        unitRoundoff * ((m.natAbs : ℚ) * (2 : ℚ) ^ e) + underflowUnit := by
      intro _
      have hnn : (0 : ℚ) ≤ (m.natAbs : ℚ) * (2 : ℚ) ^ e := by positivity
      rcases le_total (E - 23) (-149 : Int) with hc | hc
      · have hq' : q = -149 := by rw [← hq]; exact max_eq_right hc
        rw [hq']
        have : (2 : ℚ) ^ ((-149 : Int) - 1) = underflowUnit := by
          norm_num [underflowUnit, zpow_neg]
        rw [this]
        have : 0 ≤ unitRoundoff * ((m.natAbs : ℚ) * (2 : ℚ) ^ e) :=
          mul_nonneg (by norm_num [unitRoundoff]) hnn
        linarith
      · have hq' : q = E - 23 := by rw [← hq]; exact max_eq_left hc
        rw [hq']
        have h1 : (2 : ℚ) ^ (E - 23 - 1) = unitRoundoff * (2 : ℚ) ^ E := by
          rw [show E - 23 - 1 = E + (-24 : Int) by ring,
            zpow_add₀ (by norm_num : (2 : ℚ) ≠ 0)]
          norm_num [unitRoundoff, zpow_neg]
          ring
        rw [h1]
        have h2 : unitRoundoff * (2 : ℚ) ^ E ≤ unitRoundoff * ((m.natAbs : ℚ) * (2 : ℚ) ^ e) :=
          mul_le_mul_of_nonneg_left hlow (by norm_num [unitRoundoff])
        have h3 : (0 : ℚ) ≤ underflowUnit := by norm_num [underflowUnit]
        linarith
    have herr : |(((if q ≤ e then m.natAbs * 2 ^ (e - q).toNat
        else shiftRound m.natAbs (q - e).toNat : Nat) : ℚ)) * (2 : ℚ) ^ q -
        (m.natAbs : ℚ) * (2 : ℚ) ^ e| ≤
        unitRoundoff * ((m.natAbs : ℚ) * (2 : ℚ) ^ e) + underflowUnit := by
      refine le_trans hmant ?_
      by_cases hqe : q ≤ e
      · simp only [hqe, if_true]
        have : (0 : ℚ) ≤ unitRoundoff * ((m.natAbs : ℚ) * (2 : ℚ) ^ e) :=
          mul_nonneg (by norm_num [unitRoundoff]) (by positivity)
        have h3 : (0 : ℚ) ≤ underflowUnit := by norm_num [underflowUnit]
        linarith
      · simp only [hqe, if_false]
        exact hhalf hqe
    have hround : round m e =
        (if (if q ≤ e then m.natAbs * 2 ^ (e - q).toNat
            else shiftRound m.natAbs (q - e).toNat) = 0 then F32.finite 0 0
        else if ((bits (if q ≤ e then m.natAbs * 2 ^ (e - q).toNat
            else shiftRound m.natAbs (q - e).toNat) : Nat) : Int) + q > 128
          then F32.inf (decide (m < 0))
        else if (if q ≤ e then m.natAbs * 2 ^ (e - q).toNat
            else shiftRound m.natAbs (q - e).toNat) = 16777216
          then F32.finite (if m < 0 then -8388608 else 8388608) (q + 1)
        else F32.finite
          (if m < 0 then
            -(((if q ≤ e then m.natAbs * 2 ^ (e - q).toNat
              else shiftRound m.natAbs (q - e).toNat : Nat)) : Int)
          else (((if q ≤ e then m.natAbs * 2 ^ (e - q).toNat
              else shiftRound m.natAbs (q - e).toNat : Nat)) : Int)) q) := by
      simp only [round, hm, if_false, hE, hq]
    rw [hround]
    generalize (if q ≤ e then m.natAbs * 2 ^ (e - q).toNat
        else shiftRound m.natAbs (q - e).toNat) = r at hrle herr
    by_cases hr0 : r = 0
    · right
      refine ⟨0, 0, by simp [hr0], ?_⟩
      rw [hr0] at herr
      simp only [Nat.cast_zero, zero_mul, zero_sub, abs_neg, Int.cast_zero] at herr ⊢
      rw [habs]
      exact (le_abs_self _).trans herr
    · by_cases hov : ((bits r : Nat) : Int) + q > 128
      · left
        refine ⟨decide (m < 0), by simp [hr0, hov], ?_⟩
        have hbr : bits r ≤ 25 :=
          bits_le_of_lt r 25 hr0 (lt_of_le_of_lt hrle (by norm_num))
        have hE127 : (127 : Int) ≤ E := by omega
        exact le_trans (zpow_le_zpow_right₀ (by norm_num) hE127) hlow
      · right
        by_cases hr24 : r = 16777216
        · have hov' : ¬ ((bits 16777216 : Nat) : Int) + q > 128 := by rw [← hr24]; exact hov
          refine ⟨if m < 0 then -8388608 else 8388608, q + 1, by simp [hr24, hov'], ?_⟩
          have hval : |((if m < 0 then -8388608 else 8388608 : Int) : ℚ) * (2 : ℚ) ^ (q + 1) -
              (m : ℚ) * (2 : ℚ) ^ e| =
              |((if m < 0 then -(r : Int) else (r : Int) : Int) : ℚ) * (2 : ℚ) ^ q -
                (m : ℚ) * (2 : ℚ) ^ e| := by
            rw [hr24, zpow_add₀ (by norm_num : (2 : ℚ) ≠ 0)]
            congr 2
            by_cases hneg : m < 0
            · simp only [hneg, if_true]
              push_cast
              ring
            · simp only [hneg, if_false]
              push_cast
              ring
          rw [hval, abs_signed_sub]
          exact herr
        · refine ⟨if m < 0 then -(r : Int) else (r : Int), q, by simp [hr0, hov, hr24], ?_⟩
          rw [abs_signed_sub]
          exact herr

/-- A finite product has finite factors and is within the rounding error of
the exact product. -/
theorem F32.mul_spec (x y : F32) (hf : (x.mul y).isFinite = true) :
    x.isFinite = true ∧ y.isFinite = true ∧
    |(x.mul y).toRat - x.toRat * y.toRat| ≤
      unitRoundoff * |x.toRat * y.toRat| + underflowUnit := by
  cases x with
  | finite m1 e1 =>
    cases y with
    | finite m2 e2 =>
      refine ⟨rfl, rfl, ?_⟩
      have hval : ((m1 * m2 : Int) : ℚ) * (2 : ℚ) ^ (e1 + e2) =
          ((m1 : ℚ) * (2 : ℚ) ^ e1) * ((m2 : ℚ) * (2 : ℚ) ^ e2) := by
        rw [zpow_add₀ (by norm_num : (2 : ℚ) ≠ 0)]
        push_cast
        ring
      rcases round_spec (m1 * m2) (e1 + e2) with ⟨s, hr, _⟩ | ⟨m', e', hr, herr⟩
      · simp only [F32.mul, hr, F32.isFinite] at hf
        exact Bool.noConfusion hf
      · simp only [F32.mul, hr, F32.toRat]
        rw [hval] at herr
        exact herr
    | inf s =>
      simp only [F32.mul] at hf
      split at hf <;> exact Bool.noConfusion hf
    | nan => exact Bool.noConfusion hf
  | inf s =>
    cases y with
    | finite m2 e2 =>
      simp only [F32.mul] at hf
      split at hf <;> exact Bool.noConfusion hf
    | inf s2 => exact Bool.noConfusion hf
    | nan => exact Bool.noConfusion hf
  | nan =>
    cases y <;> exact Bool.noConfusion hf

/-- A finite sum has finite terms and is within the rounding error of the
exact sum. -/
theorem F32.add_spec (x y : F32) (hf : (x.add y).isFinite = true) :
    x.isFinite = true ∧ y.isFinite = true ∧
    |(x.add y).toRat - (x.toRat + y.toRat)| ≤
      unitRoundoff * |x.toRat + y.toRat| + underflowUnit := by
  cases x with
  | finite m1 e1 =>
    cases y with
    | finite m2 e2 =>
      refine ⟨rfl, rfl, ?_⟩
      have h1 : (0 : Int) ≤ e1 - min e1 e2 := by omega
      have h2 : (0 : Int) ≤ e2 - min e1 e2 := by omega
      have hval : ((m1 * 2 ^ (e1 - min e1 e2).toNat + m2 * 2 ^ (e2 - min e1 e2).toNat : Int) : ℚ) *
          (2 : ℚ) ^ (min e1 e2) = (m1 : ℚ) * (2 : ℚ) ^ e1 + (m2 : ℚ) * (2 : ℚ) ^ e2 := by
        push_cast
        rw [two_pow_toNat _ h1, two_pow_toNat _ h2, add_mul, mul_assoc, mul_assoc,
          ← zpow_add₀ (by norm_num : (2 : ℚ) ≠ 0), ← zpow_add₀ (by norm_num : (2 : ℚ) ≠ 0)]
        simp
      rcases round_spec (m1 * 2 ^ (e1 - min e1 e2).toNat + m2 * 2 ^ (e2 - min e1 e2).toNat)
        (min e1 e2) with ⟨s, hr, _⟩ | ⟨m', e', hr, herr⟩
      · simp only [F32.add, hr, F32.isFinite] at hf
        exact Bool.noConfusion hf
      · simp only [F32.add, hr, F32.toRat]
        rw [hval] at herr
        exact herr
    | inf s => exact Bool.noConfusion hf
    | nan => exact Bool.noConfusion hf
  | inf s =>
    cases y with
    | finite m2 e2 => exact Bool.noConfusion hf
    | inf s2 =>
      simp only [F32.add] at hf
      split at hf <;> exact Bool.noConfusion hf
    | nan => exact Bool.noConfusion hf
  | nan =>
    cases y <;> exact Bool.noConfusion hf

/-- The comparison `<` of two finite values is the comparison of the rationals
they stand for. -/
theorem F32.lt_finite_iff (m1 e1 m2 e2 : Int) :
    (F32.finite m1 e1).lt (F32.finite m2 e2) = true ↔
      (F32.finite m1 e1).toRat < (F32.finite m2 e2).toRat := by
  have h1 : (0 : Int) ≤ e1 - min e1 e2 := by omega
  have h2 : (0 : Int) ≤ e2 - min e1 e2 := by omega
  have hpos : (0 : ℚ) < (2 : ℚ) ^ (min e1 e2) := by positivity
  have hv1 : ((m1 * 2 ^ (e1 - min e1 e2).toNat : Int) : ℚ) * (2 : ℚ) ^ (min e1 e2) =
      (m1 : ℚ) * (2 : ℚ) ^ e1 := by
    push_cast
    rw [two_pow_toNat _ h1, mul_assoc, ← zpow_add₀ (by norm_num : (2 : ℚ) ≠ 0)]
    simp
  have hv2 : ((m2 * 2 ^ (e2 - min e1 e2).toNat : Int) : ℚ) * (2 : ℚ) ^ (min e1 e2) =
      (m2 : ℚ) * (2 : ℚ) ^ e2 := by
    push_cast
    rw [two_pow_toNat _ h2, mul_assoc, ← zpow_add₀ (by norm_num : (2 : ℚ) ≠ 0)]
    simp
  simp only [F32.lt, F32.toRat, decide_eq_true_eq]
  rw [← hv1, ← hv2, mul_lt_mul_right hpos]
  exact Int.cast_lt.symm

/-- A finite value that passes the test `> 1e-6f` stands for a rational above
the value of `1e-6f`. -/
theorem F32.gt_lengthEpsilon (x : F32) (h : x.gt F32.lengthEpsilon = true)
    (hfin : x.isFinite = true) : 8796093 / 8796093022208 < x.toRat := by
  cases x with
  | finite m e =>
    have := (F32.lt_finite_iff 8796093 (-43) m e).mp h
    have he : (F32.finite 8796093 (-43)).toRat = 8796093 / 8796093022208 := by
      norm_num [F32.toRat, zpow_neg]
    rw [he] at this
    exact this
  | inf s => exact Bool.noConfusion hfin
  | nan => exact Bool.noConfusion hfin

/-- The bit-by-bit search keeps the root bracketed. -/
theorem isqrtAux_spec (n : Nat) : ∀ (k r : Nat), r * r ≤ n → n < (r + 2 ^ k) * (r + 2 ^ k) →
    isqrtAux n k r * isqrtAux n k r ≤ n ∧ n < (isqrtAux n k r + 1) * (isqrtAux n k r + 1) := by
  intro k
  induction k with
  | zero =>
    intro r h1 h2
    simpa [isqrtAux] using ⟨h1, h2⟩
  | succ j ih =>
    intro r h1 h2
    simp only [isqrtAux]
    have hp : 2 ^ (j + 1) = 2 ^ j + 2 ^ j := by rw [pow_succ]; ring
    split
    · rename_i hc
      apply ih _ hc
      rw [hp] at h2
      rw [add_assoc]
      exact h2
    · rename_i hc
      exact ih _ h1 (not_le.mp hc)

/-- The integer square root: `t * t ≤ n < (t + 1) * (t + 1)`. -/
theorem isqrt_spec (n : Nat) : isqrt n * isqrt n ≤ n ∧ n < (isqrt n + 1) * (isqrt n + 1) := by
  unfold isqrt
  apply isqrtAux_spec
  · simp
  · by_cases hn : n = 0
    · subst hn
      simp
    · have hb := (bits_spec n hn).2
      have h1 : bits n ≤ 2 * (bits n / 2 + 1) := by omega
      calc n < 2 ^ bits n := hb
        _ ≤ 2 ^ (2 * (bits n / 2 + 1)) := Nat.pow_le_pow_right (by norm_num) h1
        _ = (0 + 2 ^ (bits n / 2 + 1)) * (0 + 2 ^ (bits n / 2 + 1)) := by
          rw [zero_add, ← pow_add]
          congr 1
          ring

/-- The doubled root with its remainder bit is close to the exact root: its
square differs from `4 * n` by at most `4 * t`. -/
theorem isqrt_sticky (n : Nat) :
    ((2 * isqrt n + (if isqrt n * isqrt n = n then 0 else 1) : Nat) : Int) *
        ((2 * isqrt n + (if isqrt n * isqrt n = n then 0 else 1) : Nat) : Int) - 4 * (n : Int) ≤
      4 * (isqrt n : Int) ∧
    -(4 * (isqrt n : Int)) ≤
      ((2 * isqrt n + (if isqrt n * isqrt n = n then 0 else 1) : Nat) : Int) *
        ((2 * isqrt n + (if isqrt n * isqrt n = n then 0 else 1) : Nat) : Int) - 4 * (n : Int) := by
  obtain ⟨h1, h2⟩ := isqrt_spec n
  generalize isqrt n = t at h1 h2
  have h1z : (t : Int) * t ≤ n := by exact_mod_cast h1
  have h2z : (n : Int) < ((t : Int) + 1) * (t + 1) := by exact_mod_cast h2
  by_cases hc : t * t = n
  · have hcz : (t : Int) * t = n := by exact_mod_cast hc
    simp only [hc, if_true]
    push_cast
    constructor <;> nlinarith
  · have hlt : (t : Int) * t < n := by
      have : t * t < n := lt_of_le_of_ne h1 hc
      exact_mod_cast this
    simp only [hc, if_false]
    push_cast
    constructor <;> nlinarith

/-- A finite positive square root comes from a finite positive argument, and
is within the rounding error of a number `P` whose square is within the
relative error 2^-29 of the argument. -/
theorem F32.sqrt_spec (x : F32) (hf : x.sqrt.isFinite = true) (hpos : 0 < x.sqrt.toRat) :
    x.isFinite = true ∧ 0 < x.toRat ∧
    ∃ P : ℚ, 0 < P ∧ |P * P - x.toRat| ≤ x.toRat / 2 ^ 29 ∧
      |x.sqrt.toRat - P| ≤ unitRoundoff * P + underflowUnit := by
  cases x with
  | inf s =>
    cases s <;> exact Bool.noConfusion hf
  | nan => exact Bool.noConfusion hf
  | finite m e =>
    by_cases hneg : m < 0
    · simp only [F32.sqrt, hneg, if_true] at hf
      exact Bool.noConfusion hf
    by_cases hzero : m = 0
    · simp only [F32.sqrt, hzero, lt_self_iff_false, if_false, if_true, F32.toRat,
        Int.cast_zero, zero_mul] at hpos
    have hmpos : 0 < m := by omega
    have hkspec : ∃ k : Nat, (if (e - 62) % 2 = 0 then 62 else 63) = k ∧ 62 ≤ k ∧
        ∃ h : Int, e - (k : Int) = 2 * h ∧ (e - (k : Int)) / 2 = h := by
      by_cases hc : (e - 62) % 2 = 0
      · exact ⟨62, by simp [hc], le_refl _, (e - 62) / 2, by omega, by norm_num⟩
      · exact ⟨63, by simp [hc], by norm_num, (e - 63) / 2, by omega, by norm_num⟩
    obtain ⟨k, hk, hk62, h, hh, hdiv⟩ := hkspec
    have hs : F32.sqrt (.finite m e) =
        round (((2 * isqrt (m.natAbs * 2 ^ k) +
          (if isqrt (m.natAbs * 2 ^ k) * isqrt (m.natAbs * 2 ^ k) = m.natAbs * 2 ^ k
            then 0 else 1) : Nat)) : Int) (h - 1) := by
      simp only [F32.sqrt, hneg, hzero, if_false, hk, hdiv]
    obtain ⟨hst1, hst2⟩ := isqrt_sticky (m.natAbs * 2 ^ k)
    obtain ⟨hsq1, hsq2⟩ := isqrt_spec (m.natAbs * 2 ^ k)
    rw [hs] at hf hpos ⊢
    generalize hM : (2 * isqrt (m.natAbs * 2 ^ k) +
          (if isqrt (m.natAbs * 2 ^ k) * isqrt (m.natAbs * 2 ^ k) = m.natAbs * 2 ^ k
            then 0 else 1) : Nat) = M at hst1 hst2 hf hpos ⊢
    have hMt : 2 * isqrt (m.natAbs * 2 ^ k) ≤ M := by
      rw [← hM]
      omega
    generalize isqrt (m.natAbs * 2 ^ k) = t at hst1 hst2 hsq1 hsq2 hMt
    have hnat : (m.natAbs : Int) = m := Int.natAbs_of_nonneg (le_of_lt hmpos)
    -- the scaled argument is at least 2 ^ 62, the root at least 2 ^ 29
    have hn62 : 2 ^ 62 ≤ m.natAbs * 2 ^ k := by
      have h1 : 1 ≤ m.natAbs := by omega
      calc 2 ^ 62 ≤ 2 ^ k := Nat.pow_le_pow_right (by norm_num) hk62
        _ = 1 * 2 ^ k := (one_mul _).symm
        _ ≤ m.natAbs * 2 ^ k := Nat.mul_le_mul_right _ h1
    have ht29 : 2 ^ 29 ≤ t := by
      by_contra hlt
      have h1 : t + 1 ≤ 2 ^ 29 := by omega
      have h2 : (t + 1) * (t + 1) ≤ 2 ^ 29 * 2 ^ 29 := Nat.mul_le_mul h1 h1
      have h3 : (2 : Nat) ^ 29 * 2 ^ 29 < 2 ^ 62 := by norm_num
      omega
    have htn : t * 2 ^ 29 ≤ m.natAbs * 2 ^ k :=
      le_trans (Nat.mul_le_mul_left t ht29) hsq1
    -- rational forms
    set n : ℚ := ((m.natAbs * 2 ^ k : Nat) : ℚ) with hn
    have hX : (F32.finite m e).toRat = n * (2 : ℚ) ^ (2 * h) := by
      simp only [F32.toRat, hn]
      rw [← hh]
      push_cast
      rw [mul_assoc, ← zpow_natCast (2 : ℚ) k, ← zpow_add₀ (by norm_num : (2 : ℚ) ≠ 0)]
      have : ((m.natAbs : Nat) : ℚ) = (m : ℚ) := by
        calc ((m.natAbs : Nat) : ℚ) = (((m.natAbs : Int)) : ℚ) := (Int.cast_natCast _).symm
          _ = (m : ℚ) := by rw [hnat]
      rw [this]
      congr 2
      ring
    have hp2 : (0 : ℚ) < (2 : ℚ) ^ (2 * h) := by positivity
    have hn0 : (0 : ℚ) < n := by
      have : 0 < m.natAbs * 2 ^ k := lt_of_lt_of_le (by norm_num) hn62
      rw [hn]
      exact_mod_cast this
    have hMpos : (0 : ℚ) < (M : ℚ) := by
      have : 0 < M := by omega
      exact_mod_cast this
    have hPP : ((M : ℚ) * (2 : ℚ) ^ (h - 1)) * ((M : ℚ) * (2 : ℚ) ^ (h - 1)) =
        (M : ℚ) * (M : ℚ) * (2 : ℚ) ^ (2 * h) / 4 := by
      have : (2 : ℚ) ^ (h - 1) * (2 : ℚ) ^ (h - 1) = (2 : ℚ) ^ (2 * h) / 4 := by
        rw [← zpow_add₀ (by norm_num : (2 : ℚ) ≠ 0),
          show h - 1 + (h - 1) = 2 * h + (-2 : Int) by ring,
          zpow_add₀ (by norm_num : (2 : ℚ) ≠ 0)]
        norm_num [zpow_neg]
        ring
      calc ((M : ℚ) * (2 : ℚ) ^ (h - 1)) * ((M : ℚ) * (2 : ℚ) ^ (h - 1))
          = (M : ℚ) * (M : ℚ) * ((2 : ℚ) ^ (h - 1) * (2 : ℚ) ^ (h - 1)) := by ring
        _ = (M : ℚ) * (M : ℚ) * (2 : ℚ) ^ (2 * h) / 4 := by rw [this]; ring
    have hq1 : (M : ℚ) * (M : ℚ) - 4 * n ≤ 4 * (t : ℚ) := by
      rw [hn]
      exact_mod_cast hst1
    have hq2 : -(4 * (t : ℚ)) ≤ (M : ℚ) * (M : ℚ) - 4 * n := by
      rw [hn]
      exact_mod_cast hst2
    have hq3 : (t : ℚ) * 2 ^ 29 ≤ n := by
      rw [hn]
      exact_mod_cast htn
    refine ⟨rfl, by rw [hX]; positivity, (M : ℚ) * (2 : ℚ) ^ (h - 1), by positivity, ?_, ?_⟩
    · have h4 : (0 : ℚ) ≤ (2 : ℚ) ^ (2 * h) / 4 := by positivity
      have ha := mul_le_mul_of_nonneg_right hq1 h4
      have hb := mul_le_mul_of_nonneg_right hq2 h4
      have hc := mul_le_mul_of_nonneg_right hq3 (le_of_lt hp2)
      rw [hPP, hX, abs_le]
      constructor
      · linarith only [hb, hc]
      · linarith only [ha, hc]
    · rcases round_spec (M : Int) (h - 1) with ⟨s, hr, _⟩ | ⟨m', e', hr, herr⟩
      · rw [hr] at hf
        exact Bool.noConfusion hf
      · rw [hr]
        simp only [F32.toRat]
        have hPabs : |(((M : Int)) : ℚ) * (2 : ℚ) ^ (h - 1)| = (M : ℚ) * (2 : ℚ) ^ (h - 1) := by
          rw [Int.cast_natCast]
          exact abs_of_pos (by positivity)
        rw [hPabs, Int.cast_natCast] at herr
        exact herr

/-- A doubled quotient with its remainder bit, against the doubled exact
quotient: within the relative error 2^-31 when the dividend is large. -/
theorem div_mantissa_core (N d t r : Nat) (hdm : d * t + r = N) (hlt : r < d)
    (hN : r ≠ 0 → d * 2 ^ 30 ≤ N) :
    |(((2 * t + (if r = 0 then 0 else 1) : Nat)) : ℚ) * (d : ℚ) - 2 * (N : ℚ)| ≤
      2 * (N : ℚ) / 2 ^ 31 := by
  have hdq : (d : ℚ) * t + r = N := by exact_mod_cast hdm
  have hrq : (r : ℚ) < d := by exact_mod_cast hlt
  have hr0 : (0 : ℚ) ≤ r := Nat.cast_nonneg r
  have hN0 : (0 : ℚ) ≤ N := Nat.cast_nonneg N
  by_cases hc : r = 0
  · rw [if_pos hc]
    rw [hc] at hdq
    push_cast at hdq ⊢
    have : (2 * (t : ℚ) + 0) * d - 2 * N = 0 := by linarith
    rw [this, abs_zero]
    positivity
  · rw [if_neg hc]
    have hNgeq : (d : ℚ) * 2 ^ 30 ≤ N := by exact_mod_cast hN hc
    push_cast
    have hval : (2 * (t : ℚ) + 1) * d - 2 * N = d - 2 * r := by linarith
    rw [hval, abs_le]
    constructor <;> linarith

/-- The quotient of the mantissas with its remainder bit is within the
relative error 2^-31 of the exact quotient. -/
theorem div_mantissa (n1 n2 k : Nat) (hn2 : n2 ≠ 0) (hk : k = bits n2 + 30) :
    |(((2 * (n1 * 2 ^ k / n2) + (if n1 * 2 ^ k % n2 = 0 then 0 else 1) : Nat) : ℚ)) * (n2 : ℚ) -
      2 * ((n1 : ℚ) * 2 ^ k)| ≤ 2 * ((n1 : ℚ) * 2 ^ k) / 2 ^ 31 := by
  have hb := (bits_spec n2 hn2).2
  have hdm := Nat.div_add_mod (n1 * 2 ^ k) n2
  have hlt : n1 * 2 ^ k % n2 < n2 := Nat.mod_lt _ (by omega)
  have hkk : n2 * 2 ^ 30 ≤ 2 ^ k := by
    rw [hk, pow_add]
    exact Nat.mul_le_mul_right _ (le_of_lt hb)
  have hN : n1 * 2 ^ k % n2 ≠ 0 → n2 * 2 ^ 30 ≤ n1 * 2 ^ k := by
    intro hne
    have hn1 : 1 ≤ n1 := by
      by_contra h0
      have h1 : n1 = 0 := by omega
      rw [h1, zero_mul, Nat.zero_mod] at hne
      exact hne rfl
    calc n2 * 2 ^ 30 ≤ 2 ^ k := hkk
      _ = 1 * 2 ^ k := (one_mul _).symm
      _ ≤ n1 * 2 ^ k := Nat.mul_le_mul_right _ hn1
  have := div_mantissa_core (n1 * 2 ^ k) n2 (n1 * 2 ^ k / n2) (n1 * 2 ^ k % n2) hdm hlt hN
  have hcast : (((n1 * 2 ^ k : Nat)) : ℚ) = (n1 : ℚ) * 2 ^ k := by push_cast; ring
  rw [hcast] at this
  exact this

/-- A quotient of finite values, with a positive divisor and of magnitude at
most 4, is finite and within the error of the division of the exact quotient. -/
theorem F32.div_spec (x y : F32) (hx : x.isFinite = true) (hy : y.isFinite = true)
    (hpos : 0 < y.toRat) (hsmall : |x.toRat| ≤ 4 * y.toRat) :
    (x.div y).isFinite = true ∧
    |(x.div y).toRat - x.toRat / y.toRat| ≤
      divisionError * |x.toRat / y.toRat| + underflowUnit := by
  cases x with
  | inf s => exact Bool.noConfusion hx
  | nan => exact Bool.noConfusion hx
  | finite m1 e1 =>
    cases y with
    | inf s => exact Bool.noConfusion hy
    | nan => exact Bool.noConfusion hy
    | finite m2 e2 =>
      have hm2 : 0 < m2 := by
        by_contra hneg
        have h0 := (F32.toRat_nonneg_iff (-m2) e2).mpr (by omega)
        simp only [F32.toRat, Int.cast_neg, neg_mul] at h0 hpos
        linarith
      have hm2ne : m2 ≠ 0 := by omega
      have hm2neg : ¬ m2 < 0 := by omega
      have hn2 : m2.natAbs ≠ 0 := by omega
      obtain ⟨k, hk⟩ : ∃ k : Nat, k = bits m2.natAbs + 30 := ⟨_, rfl⟩
      have hdiv : (F32.finite m1 e1).div (F32.finite m2 e2) =
          round (if m1 < 0 then
              -(((2 * (m1.natAbs * 2 ^ k / m2.natAbs) +
                (if m1.natAbs * 2 ^ k % m2.natAbs = 0 then 0 else 1) : Nat)) : Int)
            else (((2 * (m1.natAbs * 2 ^ k / m2.natAbs) +
                (if m1.natAbs * 2 ^ k % m2.natAbs = 0 then 0 else 1) : Nat)) : Int))
            (e1 - e2 - (k : Int) - 1) := by
        simp only [F32.div, hm2ne, if_false, hm2neg, decide_False, Bool.bne_false,
          decide_eq_true_eq, hk]
      have hmant := div_mantissa m1.natAbs m2.natAbs k hn2 hk
      rw [hdiv]
      generalize (2 * (m1.natAbs * 2 ^ k / m2.natAbs) +
          (if m1.natAbs * 2 ^ k % m2.natAbs = 0 then 0 else 1) : Nat) = M at hmant
      -- rational forms
      have hn2q : ((m2.natAbs : Nat) : ℚ) = (m2 : ℚ) := by
        calc ((m2.natAbs : Nat) : ℚ) = (((m2.natAbs : Int)) : ℚ) := (Int.cast_natCast _).symm
          _ = (m2 : ℚ) := by rw [Int.natAbs_of_nonneg (le_of_lt hm2)]
      have hm2q : (0 : ℚ) < (m2 : ℚ) := by exact_mod_cast hm2
      rw [hn2q] at hmant
      have hc : (0 : ℚ) < (2 : ℚ) ^ (e1 - e2) := by positivity
      have hpk : (0 : ℚ) < (2 : ℚ) ^ k := by positivity
      have hexp : (2 : ℚ) ^ (e1 - e2 - (k : Int) - 1) = (2 : ℚ) ^ (e1 - e2) / (2 * 2 ^ k) := by
        have h1 : (2 : ℚ) ^ ((k : Int) + 1) = 2 * 2 ^ k := by
          rw [zpow_add₀ (by norm_num : (2 : ℚ) ≠ 0), zpow_natCast, zpow_one]
          ring
        rw [show e1 - e2 - (k : Int) - 1 = (e1 - e2) - ((k : Int) + 1) by ring,
          zpow_sub₀ (by norm_num : (2 : ℚ) ≠ 0), h1]
      have hb0 : (0 : ℚ) < (2 : ℚ) ^ (e1 - e2) / m2 := by positivity
      have hquot : (F32.finite m1 e1).toRat / (F32.finite m2 e2).toRat =
          (m1 : ℚ) * ((2 : ℚ) ^ (e1 - e2) / m2) := by
        simp only [F32.toRat]
        rw [zpow_sub₀ (by norm_num : (2 : ℚ) ≠ 0)]
        have h2 : (0 : ℚ) < (2 : ℚ) ^ e2 := by positivity
        have h3 : (2 : ℚ) ^ e2 ≠ 0 := ne_of_gt h2
        have h4 : (m2 : ℚ) ≠ 0 := ne_of_gt hm2q
        rw [div_eq_iff (mul_ne_zero h4 h3)]
        field_simp
        exact Or.inl (mul_comm _ _)
      generalize hQ : (m1.natAbs : ℚ) * ((2 : ℚ) ^ (e1 - e2) / m2) = Q
      have hQabs : |(m1 : ℚ) * ((2 : ℚ) ^ (e1 - e2) / m2)| = Q := by
        rw [abs_mul, abs_cast_eq_natAbs, abs_of_pos hb0, hQ]
      have hQ0 : 0 ≤ Q := by rw [← hQ]; positivity
      -- the value before rounding against the exact quotient
      have hpre : |(M : ℚ) * (2 : ℚ) ^ (e1 - e2 - (k : Int) - 1) -
          (m1.natAbs : ℚ) * ((2 : ℚ) ^ (e1 - e2) / m2)| ≤ Q / 2 ^ 31 := by
        have hfac : (0 : ℚ) < (2 : ℚ) ^ (e1 - e2) / (2 * 2 ^ k * m2) := by positivity
        have h1 : (M : ℚ) * (2 : ℚ) ^ (e1 - e2 - (k : Int) - 1) -
            (m1.natAbs : ℚ) * ((2 : ℚ) ^ (e1 - e2) / m2) =
            ((M : ℚ) * m2 - 2 * ((m1.natAbs : ℚ) * 2 ^ k)) *
              ((2 : ℚ) ^ (e1 - e2) / (2 * 2 ^ k * m2)) := by
          rw [hexp]
          field_simp
          ring
        have h2 : Q / 2 ^ 31 =
            (2 * ((m1.natAbs : ℚ) * 2 ^ k) / 2 ^ 31) *
              ((2 : ℚ) ^ (e1 - e2) / (2 * 2 ^ k * m2)) := by
          rw [← hQ]
          field_simp
          ring
        rw [h1, h2, abs_mul, abs_of_pos hfac]
        exact mul_le_mul_of_nonneg_right hmant (le_of_lt hfac)
      have hsm : Q ≤ 4 := by
        have h1 : |(F32.finite m1 e1).toRat / (F32.finite m2 e2).toRat| ≤ 4 := by
          rw [abs_div, abs_of_pos hpos, div_le_iff₀ hpos]
          exact hsmall
        rw [hquot, hQabs] at h1
        exact h1
      -- the signed value before rounding
      have hsigned : |(((if m1 < 0 then -(M : Int) else (M : Int)) : Int) : ℚ) *
          (2 : ℚ) ^ (e1 - e2 - (k : Int) - 1) - (m1 : ℚ) * ((2 : ℚ) ^ (e1 - e2) / m2)| ≤
          Q / 2 ^ 31 := by
        rw [abs_signed_sub]
        exact hpre
      rw [hquot, hQabs]
      generalize hB : (m1 : ℚ) * ((2 : ℚ) ^ (e1 - e2) / m2) = B at hsigned hQabs
      generalize hP : (((if m1 < 0 then -(M : Int) else (M : Int)) : Int) : ℚ) *
          (2 : ℚ) ^ (e1 - e2 - (k : Int) - 1) = P at hsigned
      have hPabs : |P| ≤ Q + Q / 2 ^ 31 := by
        have h1 : |P| ≤ |P - B| + |B| := by
          have := abs_add (P - B) B
          simpa using this
        linarith
      rcases round_spec (if m1 < 0 then -(M : Int) else (M : Int))
        (e1 - e2 - (k : Int) - 1) with ⟨s, hr, hbig⟩ | ⟨m', e', hr, herr⟩
      · rw [hP] at hbig
        have h127 : (5 : ℚ) < (2 : ℚ) ^ (127 : Int) := by norm_num
        have : |P| ≤ 5 := by
          have : Q / 2 ^ 31 ≤ 1 := by
            rw [div_le_iff₀ (by positivity)]
            linarith [show (4 : ℚ) ≤ 1 * 2 ^ 31 by norm_num]
          linarith
        linarith
      · rw [hr]
        refine ⟨rfl, ?_⟩
        rw [hP] at herr
        simp only [F32.toRat]
        have htri : |(m' : ℚ) * (2 : ℚ) ^ e' - B| ≤ |(m' : ℚ) * (2 : ℚ) ^ e' - P| + |P - B| := by
          have := abs_add ((m' : ℚ) * (2 : ℚ) ^ e' - P) (P - B)
          simpa using this
        have hu : unitRoundoff = 1 / 2 ^ 24 := rfl
        have hbound : unitRoundoff * |P| + Q / 2 ^ 31 ≤ divisionError * Q := by
          have h1 : unitRoundoff * |P| ≤ unitRoundoff * (Q + Q / 2 ^ 31) :=
            mul_le_mul_of_nonneg_left hPabs (by norm_num [unitRoundoff])
          have h2 : unitRoundoff * (Q + Q / 2 ^ 31) + Q / 2 ^ 31 ≤ divisionError * Q := by
            rw [hu]
            unfold divisionError
            have h4 : (1 / 2 ^ 24 + 1 / 2 ^ 30 : ℚ) * Q -
                ((1 / 2 ^ 24 : ℚ) * (Q + Q / 2 ^ 31) + Q / 2 ^ 31) =
                Q * (1 / 2 ^ 30 - 1 / 2 ^ 55 - 1 / 2 ^ 31) := by ring
            have h3 : (0 : ℚ) ≤ 1 / 2 ^ 30 - 1 / 2 ^ 55 - 1 / 2 ^ 31 := by norm_num
            have h5 := mul_nonneg hQ0 h3
            linarith
          linarith
        linarith

/-- The computed sum of three squares is within the relative error 2^-22, and
the absolute error 8 * 2^-150, of the exact sum. -/
theorem dot_error (x2 y2 z2 A B C S1 S2 : ℚ) (hx : 0 ≤ x2) (hy : 0 ≤ y2) (hz : 0 ≤ z2)
    (hA : |A - x2| ≤ unitRoundoff * |x2| + underflowUnit)
    (hB : |B - y2| ≤ unitRoundoff * |y2| + underflowUnit)
    (hC : |C - z2| ≤ unitRoundoff * |z2| + underflowUnit)
    (hS1 : |S1 - (A + B)| ≤ unitRoundoff * |A + B| + underflowUnit)
    (hS2 : |S2 - (S1 + C)| ≤ unitRoundoff * |S1 + C| + underflowUnit) :
    |S2 - (x2 + y2 + z2)| ≤ (x2 + y2 + z2) / 2 ^ 22 + 8 * underflowUnit := by
  have hu : unitRoundoff = 1 / 16777216 := by norm_num [unitRoundoff]
  have hη : (0 : ℚ) ≤ underflowUnit := by norm_num [underflowUnit]
  generalize underflowUnit = η at *
  rw [hu] at hA hB hC hS1 hS2
  rw [abs_of_nonneg hx] at hA
  rw [abs_of_nonneg hy] at hB
  rw [abs_of_nonneg hz] at hC
  obtain ⟨hA1, hA2⟩ := abs_le.mp hA
  obtain ⟨hB1, hB2⟩ := abs_le.mp hB
  obtain ⟨hC1, hC2⟩ := abs_le.mp hC
  have hAB : |A + B| ≤ (1 + 1 / 16777216) * (x2 + y2) + 2 * η := by
    rw [abs_le]
    constructor
    · linarith only [hA1, hB1, hx, hy, hη]
    · linarith only [hA2, hB2, hx, hy, hη]
  have hS1' : |S1 - (A + B)| ≤ 1 / 16777216 * ((1 + 1 / 16777216) * (x2 + y2) + 2 * η) + η :=
    le_trans hS1 (by
      have := mul_le_mul_of_nonneg_left hAB (show (0 : ℚ) ≤ 1 / 16777216 by norm_num)
      linarith only [this])
  obtain ⟨hS11, hS12⟩ := abs_le.mp hS1'
  have hS1C : |S1 + C| ≤ (1 + 3 / 16777216) * (x2 + y2 + z2) + 5 * η := by
    rw [abs_le]
    constructor
    · linarith only [hS11, hA1, hB1, hC1, hx, hy, hz, hη]
    · linarith only [hS12, hA2, hB2, hC2, hx, hy, hz, hη]
  have hS2' : |S2 - (S1 + C)| ≤
      1 / 16777216 * ((1 + 3 / 16777216) * (x2 + y2 + z2) + 5 * η) + η :=
    le_trans hS2 (by
      have := mul_le_mul_of_nonneg_left hS1C (show (0 : ℚ) ≤ 1 / 16777216 by norm_num)
      linarith only [this])
  obtain ⟨hS21, hS22⟩ := abs_le.mp hS2'
  rw [abs_le]
  constructor
  · linarith only [hS21, hS11, hA1, hB1, hC1, hx, hy, hz, hη]
  · linarith only [hS22, hS12, hA2, hB2, hC2, hx, hy, hz, hη]

/-- The square of the computed length is within the relative error 10 * 2^-24
of the exact sum of squares. -/
theorem length_error (D S2 P Lr : ℚ) (hD0 : 0 ≤ D)
    (hS : |S2 - D| ≤ D / 2 ^ 22 + 8 * underflowUnit) (hP0 : 0 < P)
    (hP : |P * P - S2| ≤ S2 / 2 ^ 29)
    (hL : |Lr - P| ≤ unitRoundoff * P + underflowUnit)
    (hε : 8796093 / 8796093022208 < Lr) :
    (1 - 10 / 2 ^ 24) * (Lr * Lr) ≤ D ∧ D ≤ (1 + 10 / 2 ^ 24) * (Lr * Lr) := by
  have hu : unitRoundoff = 1 / 2 ^ 24 := rfl
  have hL0 : 0 < Lr := lt_trans (by norm_num) hε
  have hη1 : underflowUnit ≤ Lr / 2 ^ 100 := by
    have : underflowUnit ≤ 8796093 / 8796093022208 / 2 ^ 100 := by norm_num [underflowUnit]
    have h2 : (8796093 / 8796093022208 : ℚ) / 2 ^ 100 ≤ Lr / 2 ^ 100 :=
      div_le_div_of_nonneg_right (le_of_lt hε) (by positivity)
    linarith
  have hLL : (8796093 / 8796093022208 : ℚ) * (8796093 / 8796093022208) ≤ Lr * Lr :=
    mul_self_le_mul_self (by norm_num) (le_of_lt hε)
  have hη2 : 8 * underflowUnit ≤ Lr * Lr / 2 ^ 60 := by
    have : 8 * underflowUnit ≤
        (8796093 / 8796093022208 : ℚ) * (8796093 / 8796093022208) / 2 ^ 60 := by
      norm_num [underflowUnit]
    have h2 : (8796093 / 8796093022208 : ℚ) * (8796093 / 8796093022208) / 2 ^ 60 ≤
        Lr * Lr / 2 ^ 60 := div_le_div_of_nonneg_right hLL (by positivity)
    linarith
  generalize underflowUnit = η at *
  rw [hu] at hL
  obtain ⟨hL1, hL2⟩ := abs_le.mp hL
  have hP1 : (1 - 2 / 2 ^ 24) * Lr ≤ P := by linarith only [hL2, hη1, hL0]
  have hP2 : P ≤ (1 + 2 / 2 ^ 24) * Lr := by linarith only [hL1, hη1, hL0]
  have hPP1 : ((1 - 2 / 2 ^ 24) * Lr) * ((1 - 2 / 2 ^ 24) * Lr) ≤ P * P :=
    mul_self_le_mul_self (mul_nonneg (by norm_num) (le_of_lt hL0)) hP1
  have hPP2 : P * P ≤ ((1 + 2 / 2 ^ 24) * Lr) * ((1 + 2 / 2 ^ 24) * Lr) :=
    mul_self_le_mul_self (le_of_lt hP0) hP2
  have e1 : ((1 - 2 / 2 ^ 24) * Lr) * ((1 - 2 / 2 ^ 24) * Lr) =
      (1 - 2 / 2 ^ 24) * (1 - 2 / 2 ^ 24) * (Lr * Lr) := by ring
  have e2 : ((1 + 2 / 2 ^ 24) * Lr) * ((1 + 2 / 2 ^ 24) * Lr) =
      (1 + 2 / 2 ^ 24) * (1 + 2 / 2 ^ 24) * (Lr * Lr) := by ring
  rw [e1] at hPP1
  rw [e2] at hPP2
  generalize Lr * Lr = LL at *
  generalize P * P = PP at *
  obtain ⟨hPa, hPb⟩ := abs_le.mp hP
  obtain ⟨hSa, hSb⟩ := abs_le.mp hS
  constructor
  · linarith only [hPb, hSb, hPP1, hη2, hD0, hLL]
  · linarith only [hPa, hSa, hPP2, hη2, hD0, hLL]

/-- The square of a rounded quotient against the square of the exact
quotient. -/
theorem quotient_sq_error (Q ρ : ℚ)
    (h : |Q - ρ| ≤ divisionError * |ρ| + underflowUnit) (hρ : |ρ| ≤ 2) :
    |Q * Q - ρ * ρ| ≤ 3 / 2 ^ 24 * (ρ * ρ) + 9 * underflowUnit := by
  have hη0 : (0 : ℚ) ≤ underflowUnit := by norm_num [underflowUnit]
  have hη1 : underflowUnit ≤ 1 := by norm_num [underflowUnit]
  have hδ : divisionError = 1 / 2 ^ 24 + 1 / 2 ^ 30 := rfl
  generalize underflowUnit = η at *
  rw [hδ] at h
  have hr0 : 0 ≤ |ρ| := abs_nonneg ρ
  have he0 : 0 ≤ |Q - ρ| := abs_nonneg _
  have h1 : |Q * Q - ρ * ρ| = |Q - ρ| * |2 * ρ + (Q - ρ)| := by
    rw [← abs_mul]
    congr 1
    ring
  have h2 : |2 * ρ + (Q - ρ)| ≤ 2 * |ρ| + |Q - ρ| := by
    have := abs_add (2 * ρ) (Q - ρ)
    rw [abs_mul, abs_of_pos (by norm_num : (0 : ℚ) < 2)] at this
    exact this
  have h3 : |Q - ρ| * |2 * ρ + (Q - ρ)| ≤
      ((1 / 2 ^ 24 + 1 / 2 ^ 30) * |ρ| + η) *
        (2 * |ρ| + ((1 / 2 ^ 24 + 1 / 2 ^ 30) * |ρ| + η)) :=
    mul_le_mul h (le_trans h2 (by linarith)) (abs_nonneg _)
      (add_nonneg (mul_nonneg (by norm_num) hr0) hη0)
  have hrr : |ρ| * |ρ| = ρ * ρ := abs_mul_abs_self ρ
  have hηr : η * |ρ| ≤ 2 * η := by
    have := mul_le_mul_of_nonneg_left hρ hη0
    linarith
  have hηη : η * η ≤ η := by
    have := mul_le_mul_of_nonneg_left hη1 hη0
    linarith
  have hρρ : 0 ≤ ρ * ρ := mul_self_nonneg ρ
  have hexp : ((1 / 2 ^ 24 + 1 / 2 ^ 30) * |ρ| + η) *
        (2 * |ρ| + ((1 / 2 ^ 24 + 1 / 2 ^ 30) * |ρ| + η)) =
      (2 * (1 / 2 ^ 24 + 1 / 2 ^ 30) + (1 / 2 ^ 24 + 1 / 2 ^ 30) * (1 / 2 ^ 24 + 1 / 2 ^ 30)) *
          (|ρ| * |ρ|) +
        (2 + 2 * (1 / 2 ^ 24 + 1 / 2 ^ 30)) * (η * |ρ|) + η * η := by ring
  rw [h1]
  rw [hexp, hrr] at h3
  generalize ρ * ρ = ρρ at *
  generalize η * |ρ| = ηr at *
  generalize η * η = ηη at *
  linarith only [h3, hηr, hηη, hρρ, hη0]

/-- An exact quotient whose square is at most 4 has magnitude at most 2. -/
theorem abs_le_two_of_sq_le (r : ℚ) (h : r * r ≤ 4) : |r| ≤ 2 := by
  by_contra hc
  have h2 : 2 < |r| := not_le.mp hc
  have h3 : (2 : ℚ) * 2 < |r| * |r| := mul_lt_mul'' h2 h2 (by norm_num) (by norm_num)
  rw [abs_mul_abs_self] at h3
  linarith

/-- A component divided by the computed length: the quotient is finite and
its square is close to the square of the exact quotient. -/
theorem component_error (x L : F32) (hx : x.isFinite = true) (hL : L.isFinite = true)
    (hpos : 0 < L.toRat) (hsq : x.toRat / L.toRat * (x.toRat / L.toRat) ≤ 4) :
    (x.div L).isFinite = true ∧
    |(x.div L).toRat * (x.div L).toRat - x.toRat / L.toRat * (x.toRat / L.toRat)| ≤
      3 / 2 ^ 24 * (x.toRat / L.toRat * (x.toRat / L.toRat)) + 9 * underflowUnit := by
  have hρ := abs_le_two_of_sq_le _ hsq
  have hsmall : |x.toRat| ≤ 4 * L.toRat := by
    rw [abs_div, abs_of_pos hpos, div_le_iff₀ hpos] at hρ
    linarith
  obtain ⟨hfin, herr⟩ := F32.div_spec x L hx hL hpos hsmall
  exact ⟨hfin, quotient_sq_error _ _ herr hρ⟩

/-- A plane divided by its computed length, when that length is finite and
greater than `1e-6f`, has a finite normal whose squared length differs from 1
by at most 2^-20. -/
theorem normalizePlane_unit_within_tolerance (p : Vec4)
    (hgt : p.xyz.length.gt F32.lengthEpsilon = true)
    (hfin : p.xyz.length.isFinite = true) :
    (normalizePlane p).xyz.isFinite = true ∧ |normalSq (normalizePlane p) - 1| ≤ 1 / 2 ^ 20 := by
  have hn : normalizePlane p = p.divScalar p.xyz.length := by
    have h1 : normalizePlane p =
        if p.xyz.length.gt F32.lengthEpsilon = true then p.divScalar p.xyz.length else p := rfl
    rw [h1, hgt, if_pos rfl]
  have hε := F32.gt_lengthEpsilon _ hgt hfin
  have hpos : 0 < p.xyz.length.toRat := lt_trans (by norm_num) hε
  have hlen : p.xyz.length = (((p.x.mul p.x).add (p.y.mul p.y)).add (p.z.mul p.z)).sqrt := rfl
  obtain ⟨hs2, _, P, hP0, hP, hLP⟩ :=
    F32.sqrt_spec (((p.x.mul p.x).add (p.y.mul p.y)).add (p.z.mul p.z))
      (by rw [← hlen]; exact hfin) (by rw [← hlen]; exact hpos)
  rw [← hlen] at hLP
  obtain ⟨hs1, hc, hS2⟩ := F32.add_spec _ _ hs2
  obtain ⟨ha, hb, hS1⟩ := F32.add_spec _ _ hs1
  obtain ⟨hx, _, hA⟩ := F32.mul_spec _ _ ha
  obtain ⟨hy, _, hB⟩ := F32.mul_spec _ _ hb
  obtain ⟨hz, _, hC⟩ := F32.mul_spec _ _ hc
  have hD := dot_error _ _ _ _ _ _ _ _ (mul_self_nonneg p.x.toRat) (mul_self_nonneg p.y.toRat)
    (mul_self_nonneg p.z.toRat) hA hB hC hS1 hS2
  have hD0 : 0 ≤ p.x.toRat * p.x.toRat + p.y.toRat * p.y.toRat + p.z.toRat * p.z.toRat :=
    add_nonneg (add_nonneg (mul_self_nonneg _) (mul_self_nonneg _)) (mul_self_nonneg _)
  obtain ⟨hN1, hN2⟩ := length_error _ _ P _ hD0 hD hP0 hP hLP hε
  generalize p.xyz.length = L at *
  generalize hX : p.x.toRat = X at *
  generalize hY : p.y.toRat = Y at *
  generalize hZ : p.z.toRat = Z at *
  have hLL : 0 < L.toRat * L.toRat := mul_pos hpos hpos
  have hne : L.toRat ≠ 0 := ne_of_gt hpos
  -- the exact quotients
  have hT : X / L.toRat * (X / L.toRat) + Y / L.toRat * (Y / L.toRat) +
      Z / L.toRat * (Z / L.toRat) = (X * X + Y * Y + Z * Z) / (L.toRat * L.toRat) := by
    field_simp
  have hT1 : 1 - 10 / 2 ^ 24 ≤ (X * X + Y * Y + Z * Z) / (L.toRat * L.toRat) := by
    rw [le_div_iff₀ hLL]
    exact hN1
  have hT2 : (X * X + Y * Y + Z * Z) / (L.toRat * L.toRat) ≤ 1 + 10 / 2 ^ 24 := by
    rw [div_le_iff₀ hLL]
    exact hN2
  rw [← hT] at hT1 hT2
  have hxx : 0 ≤ X / L.toRat * (X / L.toRat) := mul_self_nonneg _
  have hyy : 0 ≤ Y / L.toRat * (Y / L.toRat) := mul_self_nonneg _
  have hzz : 0 ≤ Z / L.toRat * (Z / L.toRat) := mul_self_nonneg _
  have h4 : (1 : ℚ) + 10 / 2 ^ 24 ≤ 4 := by norm_num
  obtain ⟨hfx, hex⟩ := component_error p.x L hx hfin hpos
    (by rw [hX]; linarith only [hT2, hxx, hyy, hzz, h4])
  obtain ⟨hfy, hey⟩ := component_error p.y L hy hfin hpos
    (by rw [hY]; linarith only [hT2, hxx, hyy, hzz, h4])
  obtain ⟨hfz, hez⟩ := component_error p.z L hz hfin hpos
    (by rw [hZ]; linarith only [hT2, hxx, hyy, hzz, h4])
  rw [hX] at hex
  rw [hY] at hey
  rw [hZ] at hez
  rw [hn]
  refine ⟨?_, ?_⟩
  · simp only [Vec3.isFinite, Vec4.xyz, Vec4.divScalar, hfx, hfy, hfz, Bool.and_self]
  · have hη : underflowUnit ≤ 1 / 2 ^ 40 := by norm_num [underflowUnit]
    have hsq : normalSq (p.divScalar L) =
        (p.x.div L).toRat * (p.x.div L).toRat + (p.y.div L).toRat * (p.y.div L).toRat +
          (p.z.div L).toRat * (p.z.div L).toRat := rfl
    rw [hsq]
    generalize underflowUnit = η at *
    obtain ⟨hx1, hx2⟩ := abs_le.mp hex
    obtain ⟨hy1, hy2⟩ := abs_le.mp hey
    obtain ⟨hz1, hz2⟩ := abs_le.mp hez
    generalize X / L.toRat * (X / L.toRat) = tx at *
    generalize Y / L.toRat * (Y / L.toRat) = ty at *
    generalize Z / L.toRat * (Z / L.toRat) = tz at *
    generalize (p.x.div L).toRat * (p.x.div L).toRat = qx at *
    generalize (p.y.div L).toRat * (p.y.div L).toRat = qy at *
    generalize (p.z.div L).toRat * (p.z.div L).toRat = qz at *
    rw [abs_le]
    constructor
    · linarith only [hx1, hy1, hz1, hT1, hT2, hxx, hyy, hzz, hη]
    · linarith only [hx2, hy2, hz2, hT1, hT2, hxx, hyy, hzz, hη]

namespace Frustum

set_option maxRecDepth 8192 in
/-- C12, as written, fails in three ways. The guard: for the matrix
`thinViewProjection` all six row combinations have a non-zero `xyz` part, the
right plane `row3 - row0` is (2^-20, 0, 0, 1) with length 2^-20, which is not
greater than `1e-6f`, and `FromViewProjection` returns it as it is, with a
normal of squared length 2^-40. Rounding: for the matrix
`obliqueViewProjection` all six row combinations have a non-zero `xyz` part,
the left plane `row3 + row0` is (3, 4, 0, 1) with length 5, the quotients 3/5
and 4/5 are rounded, and the returned normal has squared length
1 + 13421773 * 2^-48. Overflow: for the matrix `hugeViewProjection` all six row
combinations have a non-zero `xyz` part, the left plane is (2^100, 0, 0, 1),
the square 2^200 overflows, the computed length is infinite, and the returned
plane is (0, 0, 0, 0). -/
theorem fromViewProjection_normal_not_unit :
    (∀ q ∈ rowPlanes thinViewProjection, q.xyz ≠ ⟨F32.zero, F32.zero, F32.zero⟩) ∧
    (rowPlanes thinViewProjection)[1]? =
      some ⟨.finite 8388608 (-43), F32.zero, F32.zero, F32.one⟩ ∧
    Vec3.length (⟨.finite 8388608 (-43), F32.zero, F32.zero, F32.one⟩ : Vec4).xyz =
      .finite 8388608 (-43) ∧
    (FromViewProjection thinViewProjection).plane1 =
      ⟨.finite 8388608 (-43), F32.zero, F32.zero, F32.one⟩ ∧
    normalSq (FromViewProjection thinViewProjection).plane1 = 1 / 1099511627776 ∧
    (∀ q ∈ rowPlanes obliqueViewProjection, q.xyz ≠ ⟨F32.zero, F32.zero, F32.zero⟩) ∧
    (rowPlanes obliqueViewProjection)[0]? =
      some ⟨.finite 12582912 (-22), .finite 8388608 (-21), F32.zero, F32.one⟩ ∧
    Vec3.length (⟨.finite 12582912 (-22), .finite 8388608 (-21), F32.zero, F32.one⟩ : Vec4).xyz =
      .finite 10485760 (-21) ∧
    (FromViewProjection obliqueViewProjection).plane0 =
      ⟨.finite 10066330 (-24), .finite 13421773 (-24), F32.zero, .finite 13421773 (-26)⟩ ∧
    normalSq (FromViewProjection obliqueViewProjection).plane0 =
      1 + 13421773 / 281474976710656 ∧
    (∀ q ∈ rowPlanes hugeViewProjection, q.xyz ≠ ⟨F32.zero, F32.zero, F32.zero⟩) ∧
    (rowPlanes hugeViewProjection)[0]? =
      some ⟨.finite 8388608 77, F32.zero, F32.zero, F32.one⟩ ∧
    Vec3.length (⟨.finite 8388608 77, F32.zero, F32.zero, F32.one⟩ : Vec4).xyz = .inf false ∧
    (FromViewProjection hugeViewProjection).plane0 = ⟨F32.zero, F32.zero, F32.zero, F32.zero⟩ ∧
    normalSq (FromViewProjection hugeViewProjection).plane0 = 0 := by
  have h1 : (FromViewProjection thinViewProjection).plane1 =
      ⟨.finite 8388608 (-43), F32.zero, F32.zero, F32.one⟩ := by decide
  have h2 : (FromViewProjection obliqueViewProjection).plane0 =
      ⟨.finite 10066330 (-24), .finite 13421773 (-24), F32.zero, .finite 13421773 (-26)⟩ := by
    decide
  have h3 : (FromViewProjection hugeViewProjection).plane0 =
      ⟨F32.zero, F32.zero, F32.zero, F32.zero⟩ := by decide
  refine ⟨by decide, by decide, by decide, h1, ?_, by decide, by decide, by decide, h2, ?_,
    by decide, by decide, by decide, h3, ?_⟩
  · rw [h1]
    norm_num [normalSq, engine.Vec3.dot, Vec4.xyz, Vec3.toRat, F32.toRat, F32.zero]
  · rw [h2]
    norm_num [normalSq, engine.Vec3.dot, Vec4.xyz, Vec3.toRat, F32.toRat, F32.zero]
  · rw [h3]
    norm_num [normalSq, engine.Vec3.dot, Vec4.xyz, Vec3.toRat, F32.toRat, F32.zero]

end Frustum

namespace Frustum

/-- C12 (amended): for every view-projection matrix, the planes returned by
`FromViewProjection` are, in the order left, right, bottom, top, near, far, the
`float` combinations row3 + row0, row3 - row0, row3 + row1, row3 - row1,
row3 + row2, row3 - row2; a combination whose computed length
`sqrt(x * x + y * y + z * z)` is greater than `1e-6f` is divided by that
computed length, component by component in `float` arithmetic, so that, when
that length is finite, its normal is finite and has unit length within
tolerance: the squared length differs from 1 by at most 2^-20; every other
combination is returned undivided. -/
theorem fromViewProjection_unit_normals_within_tolerance (vp : Mat4) :
    rowPlanes vp =
      [⟨vp.c0.w.add vp.c0.x, vp.c1.w.add vp.c1.x, vp.c2.w.add vp.c2.x, vp.c3.w.add vp.c3.x⟩,
       ⟨vp.c0.w.sub vp.c0.x, vp.c1.w.sub vp.c1.x, vp.c2.w.sub vp.c2.x, vp.c3.w.sub vp.c3.x⟩,
       ⟨vp.c0.w.add vp.c0.y, vp.c1.w.add vp.c1.y, vp.c2.w.add vp.c2.y, vp.c3.w.add vp.c3.y⟩,
       ⟨vp.c0.w.sub vp.c0.y, vp.c1.w.sub vp.c1.y, vp.c2.w.sub vp.c2.y, vp.c3.w.sub vp.c3.y⟩,
       ⟨vp.c0.w.add vp.c0.z, vp.c1.w.add vp.c1.z, vp.c2.w.add vp.c2.z, vp.c3.w.add vp.c3.z⟩,
       ⟨vp.c0.w.sub vp.c0.z, vp.c1.w.sub vp.c1.z, vp.c2.w.sub vp.c2.z, vp.c3.w.sub vp.c3.z⟩] ∧
    (FromViewProjection vp).planes.length = 6 ∧
    ∀ (i : Nat) (p q : Vec4), (rowPlanes vp)[i]? = some p →
      (FromViewProjection vp).planes[i]? = some q →
      p.xyz.length = (((p.x.mul p.x).add (p.y.mul p.y)).add (p.z.mul p.z)).sqrt ∧
      (p.xyz.length.gt F32.lengthEpsilon = true →
        q = ⟨p.x.div p.xyz.length, p.y.div p.xyz.length, p.z.div p.xyz.length,
          p.w.div p.xyz.length⟩ ∧
        (p.xyz.length.isFinite = true →
          q.xyz.isFinite = true ∧
          |(q.x.toRat * q.x.toRat + q.y.toRat * q.y.toRat + q.z.toRat * q.z.toRat) - 1| ≤
            1 / 2 ^ 20)) ∧
      (p.xyz.length.gt F32.lengthEpsilon = false → q = p) := by
  refine ⟨rfl, rfl, ?_⟩
  intro i p q hp hq
  rw [float_fromViewProjection_planes_eq, List.getElem?_map, hp] at hq
  simp only [Option.map_some', Option.some.injEq] at hq
  subst hq
  have hn : normalizePlane p =
      if p.xyz.length.gt F32.lengthEpsilon = true then p.divScalar p.xyz.length else p := rfl
  refine ⟨rfl, ?_, ?_⟩
  · intro hlen
    refine ⟨?_, ?_⟩
    · rw [hn, hlen, if_pos rfl]
      rfl
    · intro hfin
      exact normalizePlane_unit_within_tolerance p hlen hfin
  · intro hlen
    rw [hn, hlen]
    rfl

set_option maxRecDepth 8192 in
/-- A witness for C12 (amended): for the matrix `obliqueViewProjection` the left
plane (3, 4, 0, 1) has the computed length 5 and is returned as the rounded
quotients of 3, 4, 0 and 1 by 5, with a normal of squared length within 2^-20
of 1; for the matrix `thinViewProjection` the right plane has the computed
length 2^-20 and is returned undivided. -/
theorem fromViewProjection_unit_normals_within_tolerance_witness :
    (FromViewProjection obliqueViewProjection).plane0 =
      ⟨.finite 10066330 (-24), .finite 13421773 (-24), F32.zero, .finite 13421773 (-26)⟩ ∧
    |normalSq (FromViewProjection obliqueViewProjection).plane0 - 1| ≤ 1 / 2 ^ 20 ∧
    (FromViewProjection thinViewProjection).plane1 =
      ⟨.finite 8388608 (-43), F32.zero, F32.zero, F32.one⟩ := by
  have h0 := ((fromViewProjection_unit_normals_within_tolerance obliqueViewProjection).2.2 0
    ⟨.finite 12582912 (-22), .finite 8388608 (-21), F32.zero, F32.one⟩
    (FromViewProjection obliqueViewProjection).plane0 (by decide) rfl).2.1 (by decide)
  have h1 := ((fromViewProjection_unit_normals_within_tolerance thinViewProjection).2.2 1
    ⟨.finite 8388608 (-43), F32.zero, F32.zero, F32.one⟩
    (FromViewProjection thinViewProjection).plane1 (by decide) rfl).2.2 (by decide)
  exact ⟨h0.1.trans (by decide), (h0.2 (by decide)).2, h1⟩

end Frustum

end binary32

end engine
